import Mathlib

/-!
Reference-counted handles of `src/sharedptr.h`.

A shallow embedding of `BaseControlBlock`, its two concrete variants
(`ControlBlockRegular`, `ControlBlockMakeShared`), the factories
(`allocateShared`, `makeShared`, `allocateRegular`), `SharedPtr`, `WeakPtr`
and `EnableSharedFromThis`.

Conventions of the embedding.

* Memory is explicit.  A `Heap` holds the control blocks (indexed by their
  address), the managed objects that live outside a control block, and a log
  of the calls that matter for the lifetime rules (`useDeleter`,
  `dealloc_this`, deleter calls, destructor runs, allocations).
* `int` counters are `Int`, and `int` is taken with 32 bits.  `++` on a
  counter that holds `INT_MAX` is a signed overflow, which C++ leaves
  undefined: the embedding returns `Fault.signedOverflow` there, so a
  counter never exceeds `INT_MAX`.  `--` is read on the integers.
* Dereferencing a null pointer, and touching a control block or an object
  whose storage is gone, has no defined result in C++; the embedding returns
  `Except.error` with the reason (`Fault`).
* C++ exceptions (`bad_alloc`, a throwing payload constructor) are ordinary
  outcomes: the function returns the heap it leaves behind together with
  `Except Exn _`.
* Template parameters that only select a static type (`T`, `U`, `Alloc`)
  disappear; the converting and the same-type overloads are separate
  definitions because their bodies differ.
-/

namespace SharedPtrH

/-! ## Data model -/

/-- Address of a control block (index into `Heap.blocks`) or of a free-standing object. -/
abbrev Addr := Nat

/-- Value of a `T*`: null, an object living outside any control block, or the
`object` member stored inline in the `ControlBlockMakeShared` at `cb`. -/
inductive Ptr
  | null
  | ext (a : Addr)
  | inl (cb : Addr)
deriving DecidableEq, Repr

/-- Undefined behaviour reached by the code. -/
inductive Fault
  /-- member access through a null pointer -/
  | nullDeref
  /-- access to a control block or object that was released (or never constructed) -/
  | useAfterFree
  /-- the expression `delete` was applied to something that is not a free-standing object -/
  | invalidDelete
  /-- the program names a handle object that is not alive -/
  | noSuchObject
  /-- the operator `++` was applied to an `int` that holds `INT_MAX` (signed overflow) -/
  | signedOverflow
deriving DecidableEq, Repr

/-- C++ exceptions that can leave the functions of the header. -/
inductive Exn
  /-- the allocator could not provide storage -/
  | bad_alloc
  /-- the constructor of the managed object raised -/
  | ctorThrew
deriving DecidableEq, Repr

/-- Fields of `class WeakPtr`. -/
structure WeakPtr where
  cb : Option Addr := none
  ptr : Ptr := Ptr.null
deriving DecidableEq, Repr

/-- Fields of `class SharedPtr`. -/
structure SharedPtr where
  ptr : Ptr := Ptr.null
  cb : Option Addr := none
deriving DecidableEq, Repr

/-- Fields of `class EnableSharedFromThis`. -/
structure EnableSharedFromThis where
  wptr : WeakPtr := {}
deriving DecidableEq, Repr

/-- The `Deleter` stored in a `ControlBlockRegular`: `std::default_delete<U>`
(which runs `delete p`) or a user callable, identified by `id`, that may or may
not end the object's life with `delete p`. -/
inductive Deleter
  | default_delete
  | custom (id : Nat) (deletes : Bool)
deriving DecidableEq, Repr

/-- Calls recorded in `Heap.log`. -/
inductive Event
  /-- the call `AllocCB.allocate(1)` returned the storage at `cb` -/
  | allocate (cb : Addr)
  /-- the method `useDeleter()` was entered on the block at `cb` -/
  | useDeleter (cb : Addr)
  /-- the method `dealloc_this()` ran on the block at `cb` (its storage went back to the
  allocator) -/
  | dealloc_this (cb : Addr)
  /-- the stored deleter was called with `p` -/
  | deleterCall (d : Deleter) (p : Ptr)
  /-- the destructor of the managed object at `p` ran -/
  | destroyed (p : Ptr)
deriving DecidableEq, Repr

/-- A managed object of type `T`: its value and, when `T` derives from
`EnableSharedFromThis<T>`, that base sub-object. -/
structure Obj (T : Type) where
  value : T
  base : Option EnableSharedFromThis
deriving DecidableEq, Repr

/-- The members a concrete control block adds to `BaseControlBlock`
(the allocator members carry no state and are left out). -/
inductive BlockKind (T : Type)
  /-- members `deleter`, `ptr` of `ControlBlockRegular` -/
  | regular (deleter : Deleter) (ptr : Ptr)
  /-- member `object` of `ControlBlockMakeShared` (`none` once it has been destroyed in
  place) -/
  | makeShared (object : Option (Obj T))
deriving DecidableEq, Repr

/-- A constructed control block: `BaseControlBlock::shared_cnt`, `weak_cnt`
and the members of the concrete variant. -/
structure ControlBlock (T : Type) where
  shared_cnt : Int
  weak_cnt : Int
  kind : BlockKind T
deriving DecidableEq, Repr

/-- State of the storage at a control-block address. -/
inductive Slot (T : Type)
  /-- obtained from the allocator, nothing constructed in it -/
  | raw
  /-- holds a constructed control block -/
  | live (blk : ControlBlock T)
  /-- returned to the allocator -/
  | freed
deriving DecidableEq, Repr

/-- The memory the handles work on. -/
structure Heap (T : Type) where
  blocks : List (Slot T) := []
  objs : List (Option (Obj T)) := []
  log : List Event := []
deriving DecidableEq, Repr

variable {T : Type}

/-! ## Memory access -/

/-- Read through a `BaseControlBlock*`: `cb->...`. -/
def Heap.block (h : Heap T) (cb : Option Addr) : Except Fault (Addr × ControlBlock T) :=
  match cb with
  | none => Except.error Fault.nullDeref
  | some b =>
    match h.blocks[b]? with
    | some (Slot.live blk) => Except.ok (b, blk)
    | _ => Except.error Fault.useAfterFree

/-- Overwrite the block stored at `b`. -/
def Heap.setBlock (h : Heap T) (b : Addr) (blk : ControlBlock T) : Heap T :=
  { h with blocks := h.blocks.set b (Slot.live blk) }

/-- Append a call to the log. -/
def Heap.record (h : Heap T) (e : Event) : Heap T :=
  { h with log := h.log ++ [e] }

/-- Read through a `T*`: `*p`, `p->...`. -/
def Heap.obj (h : Heap T) (p : Ptr) : Except Fault (Obj T) :=
  match p with
  | Ptr.null => Except.error Fault.nullDeref
  | Ptr.ext a =>
    match h.objs[a]? with
    | some (some o) => Except.ok o
    | _ => Except.error Fault.useAfterFree
  | Ptr.inl b =>
    match h.blocks[b]? with
    | some (Slot.live ⟨_, _, BlockKind.makeShared (some o)⟩) => Except.ok o
    | _ => Except.error Fault.useAfterFree

/-- Overwrite the object `p` points to (`p` is known to be readable). -/
def Heap.setObj (h : Heap T) (p : Ptr) (o : Obj T) : Heap T :=
  match p with
  | Ptr.null => h
  | Ptr.ext a => { h with objs := h.objs.set a (some o) }
  | Ptr.inl b =>
    match h.blocks[b]? with
    | some (Slot.live blk) => h.setBlock b { blk with kind := BlockKind.makeShared (some o) }
    | _ => h

/-! ## `BaseControlBlock` -/

/-- Method `BaseControlBlock::get_shared_cnt`, called as `this->get_shared_cnt()`. -/
def get_shared_cnt (h : Heap T) (this : Option Addr) : Except Fault Int := do
  let (_, blk) ← h.block this
  pure blk.shared_cnt

/-- The value of `INT_MAX`: the counters are members of type `int`, taken with 32 bits. -/
def INT_MAX : Int := 2147483647

/-- Method `BaseControlBlock::increment_shared_cnt`: `++shared_cnt`.  The member is an `int`:
when it holds `INT_MAX` the increment is a signed overflow, which the language leaves
undefined (a build without overflow checks then stores `INT_MIN`). -/
def increment_shared_cnt (h : Heap T) (this : Option Addr) : Except Fault (Heap T) := do
  let (b, blk) ← h.block this
  if blk.shared_cnt < INT_MAX then
    pure (h.setBlock b { blk with shared_cnt := blk.shared_cnt + 1 })
  else
    Except.error Fault.signedOverflow

/-- Method `BaseControlBlock::increment_weak_cnt`: `++weak_cnt`, on an `int` as well. -/
def increment_weak_cnt (h : Heap T) (this : Option Addr) : Except Fault (Heap T) := do
  let (b, blk) ← h.block this
  if blk.weak_cnt < INT_MAX then
    pure (h.setBlock b { blk with weak_cnt := blk.weak_cnt + 1 })
  else
    Except.error Fault.signedOverflow

/-- Method `dealloc_this` of both variants: `tmp.deallocate(this, 1)`. -/
def dealloc_this (h : Heap T) (this : Addr) : Heap T :=
  { h with blocks := h.blocks.set this Slot.freed, log := h.log ++ [Event.dealloc_this this] }

/-- Method `BaseControlBlock::decrement_weak_cnt`:
`--weak_cnt; if (shared_cnt == 0 && weak_cnt == 0) dealloc_this();`. -/
def decrement_weak_cnt (h : Heap T) (this : Option Addr) : Except Fault (Heap T) := do
  let (b, blk) ← h.block this
  let h1 := h.setBlock b { blk with weak_cnt := blk.weak_cnt - 1 }
  if blk.shared_cnt = 0 ∧ blk.weak_cnt - 1 = 0 then
    pure (dealloc_this h1 b)
  else
    pure h1

/-- Destructor `WeakPtr::~WeakPtr`: `if (cb) cb->decrement_weak_cnt();`. -/
def WeakPtr.destroy (h : Heap T) (w : WeakPtr) : Except Fault (Heap T) :=
  match w.cb with
  | none => pure h
  | some b => decrement_weak_cnt h (some b)

/-- Destructor of a managed object: destroys the `EnableSharedFromThis` base
(that is, its member `wptr`) when the type has one. -/
def Obj.destroy (h : Heap T) (o : Obj T) : Except Fault (Heap T) :=
  match o.base with
  | none => pure h
  | some e => e.wptr.destroy h

/-- The expression `delete p`. -/
def deletePtr (h : Heap T) (p : Ptr) : Except Fault (Heap T) :=
  match p with
  | Ptr.null => pure h
  | Ptr.ext a =>
    match h.objs[a]? with
    | some (some o) =>
      o.destroy { h with objs := h.objs.set a none, log := h.log ++ [Event.destroyed (Ptr.ext a)] }
    | _ => Except.error Fault.useAfterFree
  | Ptr.inl _ => Except.error Fault.invalidDelete

/-- The call `deleter(ptr)` of `ControlBlockRegular::useDeleter`. -/
def callDeleter (h : Heap T) (d : Deleter) (p : Ptr) : Except Fault (Heap T) :=
  let h1 := h.record (Event.deleterCall d p)
  match d with
  | Deleter.default_delete => deletePtr h1 p
  | Deleter.custom _ deletes => if deletes then deletePtr h1 p else pure h1

/-- Method `useDeleter` of both variants.
`ControlBlockRegular`: `deleter(ptr)`.
`ControlBlockMakeShared`: `allocator_traits<Alloc>::destroy(alloc, &object)`. -/
def useDeleter (h : Heap T) (this : Addr) : Except Fault (Heap T) := do
  let (b, blk) ← h.block (some this)
  let h1 := h.record (Event.useDeleter b)
  match blk.kind with
  | BlockKind.regular d p => callDeleter h1 d p
  | BlockKind.makeShared (some o) =>
    o.destroy ((h1.setBlock b { blk with kind := BlockKind.makeShared none }).record
      (Event.destroyed (Ptr.inl b)))
  | BlockKind.makeShared none => Except.error Fault.useAfterFree

/-- Method `BaseControlBlock::decrement_shared_cnt`:
`--shared_cnt; if (shared_cnt == 0) { useDeleter(); if (weak_cnt == 0) dealloc_this(); }`.
The second test reads `weak_cnt` from the block again, after `useDeleter()` returned. -/
def decrement_shared_cnt (h : Heap T) (this : Option Addr) : Except Fault (Heap T) := do
  let (b, blk) ← h.block this
  let h1 := h.setBlock b { blk with shared_cnt := blk.shared_cnt - 1 }
  if blk.shared_cnt - 1 = 0 then
    let h2 ← useDeleter h1 b
    let (_, blk2) ← h2.block (some b)
    if blk2.weak_cnt = 0 then
      pure (dealloc_this h2 b)
    else
      pure h2
  else
    pure h1

/-! ## Factories -/

/-- The call `AllocCB.allocate(1)`: hands out a fresh address, or raises
`bad_alloc` when the allocator has no storage (`allocOk = false`). -/
def allocate (h : Heap T) (allocOk : Bool) : Heap T × Except Exn Addr :=
  if allocOk then
    ({ h with blocks := h.blocks ++ [Slot.raw], log := h.log ++ [Event.allocate h.blocks.length] },
      Except.ok h.blocks.length)
  else
    (h, Except.error Exn.bad_alloc)

/-- Constructor `SharedPtr(ControlBlockMakeShared<T, Alloc> *cb)`:
`ptr(cb->get_ptr()), cb(cb)`. -/
def SharedPtr.ofMakeShared (cb : Addr) : SharedPtr :=
  { ptr := Ptr.inl cb, cb := some cb }

/-- A run of one constructor of `T` on the arguments `args`, started in the heap it is given:
undefined, or the heap it leaves together with the object it built (`none`: it raised).  The
constructors of `T` are code of the client, except what they take from the header: the
constructors of the base `EnableSharedFromThis<T>` (`Obj.construct`, `Obj.copy`). -/
abbrev Constructor (T A : Type) := Heap T → A → Except Fault (Heap T × Option (Obj T))

/-- A constructor of `T` that computes the value of the object from its arguments
(`ctor args`; `none`: it raises) and default-initialises the base `EnableSharedFromThis<T>`
when `T` derives from it (`esft`): the member `wptr` is `WeakPtr()`, without block. -/
def Obj.construct {A : Type} (ctor : A → Option T) (esft : Bool) : Constructor T A :=
  fun h args =>
    match ctor args with
    | none => pure (h, none)
    | some v => pure (h, some { value := v, base := if esft then some {} else none })

/-- The function `allocateShared(alloc, args...)`: `AllocCB.allocate(1)`, then
`construct(AllocCB, new_block, 1, 0, alloc, args...)`, which sets the counters and runs the
constructor `ctor` of `T` on `args` for the member `object`, then
`return SharedPtr<T>(new_block)`; nothing catches an exception of `construct`. -/
def allocateShared {A : Type} (h : Heap T) (allocOk : Bool) (ctor : Constructor T A) (args : A) :
    Except Fault (Heap T × Except Exn SharedPtr) :=
  match allocate h allocOk with
  | (h1, Except.error e) => pure (h1, Except.error e)
  | (h1, Except.ok new_block) => do
    let (h2, r) ← ctor h1 args
    match r with
    | none => pure (h2, Except.error Exn.ctorThrew)
    | some o =>
      pure (h2.setBlock new_block
              { shared_cnt := 1, weak_cnt := 0, kind := BlockKind.makeShared (some o) },
            Except.ok (SharedPtr.ofMakeShared new_block))

/-- The function `makeShared(args...)`: `allocateShared` with `std::allocator<U>`. -/
def makeShared {A : Type} (h : Heap T) (allocOk : Bool) (ctor : Constructor T A) (args : A) :
    Except Fault (Heap T × Except Exn SharedPtr) :=
  allocateShared h allocOk ctor args

/-- The function `allocateRegular(ptr, deleter, alloc)`: `allocate`, then
`new(new_block) ControlBlockRegular(1, 0, ptr, deleter, alloc)`. -/
def allocateRegular (h : Heap T) (allocOk : Bool) (ptr : Ptr) (deleter : Deleter) :
    Heap T × Except Exn Addr :=
  match allocate h allocOk with
  | (h1, Except.error e) => (h1, Except.error e)
  | (h1, Except.ok new_block) =>
    (h1.setBlock new_block { shared_cnt := 1, weak_cnt := 0, kind := BlockKind.regular deleter ptr },
      Except.ok new_block)

/-! ## `SharedPtr` -/

/-- Same-type copy constructor `SharedPtr(const SharedPtr &other)`:
`ptr(other.ptr), cb(other.cb) { if (cb) cb->increment_shared_cnt(); }`. -/
def SharedPtr.copy (h : Heap T) (other : SharedPtr) : Except Fault (Heap T × SharedPtr) :=
  match other.cb with
  | none => pure (h, { ptr := other.ptr, cb := none })
  | some b => do
    let h1 ← increment_shared_cnt h (some b)
    pure (h1, { ptr := other.ptr, cb := some b })

/-- Converting copy constructor `SharedPtr(const SharedPtr<U> &other)`:
`ptr(other.ptr), cb(other.cb) { cb->increment_shared_cnt(); }` (no null test). -/
def SharedPtr.convCopy (h : Heap T) (other : SharedPtr) : Except Fault (Heap T × SharedPtr) := do
  let h1 ← increment_shared_cnt h other.cb
  pure (h1, { ptr := other.ptr, cb := other.cb })

/-- Same-type move constructor `SharedPtr(SharedPtr &&other)`: takes the pair and
nulls both members of `other`.  Returns the new handle and the new value of `other`. -/
def SharedPtr.move (other : SharedPtr) : SharedPtr × SharedPtr :=
  ({ ptr := other.ptr, cb := other.cb }, { ptr := Ptr.null, cb := none })

/-- Destructor `~SharedPtr`: `if (cb) cb->decrement_shared_cnt();`. -/
def SharedPtr.destroy (h : Heap T) (s : SharedPtr) : Except Fault (Heap T) :=
  match s.cb with
  | none => pure h
  | some b => decrement_shared_cnt h (some b)

/-- Member `swap`: exchanges `ptr` and `cb`.  Returns the new `*this` and the new `other`. -/
def SharedPtr.swap (this other : SharedPtr) : SharedPtr × SharedPtr :=
  ({ ptr := other.ptr, cb := other.cb }, { ptr := this.ptr, cb := this.cb })

/-- Member `reset()`: `SharedPtr().swap(*this);` followed by the destructor of the
temporary.  Returns the heap and the new `*this`. -/
def SharedPtr.reset (h : Heap T) (this : SharedPtr) : Except Fault (Heap T × SharedPtr) := do
  let (tmp, this1) := SharedPtr.swap {} this
  let h1 ← tmp.destroy h
  pure (h1, this1)

/-- Converting move constructor `SharedPtr(SharedPtr<U> &&other)`:
`ptr(other.ptr), cb(other.cb) { cb->increment_shared_cnt(); ptr = other.get(); other.reset(); }`.
Returns the heap, the new handle and the new value of `other`. -/
def SharedPtr.convMove (h : Heap T) (other : SharedPtr) :
    Except Fault (Heap T × SharedPtr × SharedPtr) := do
  let h1 ← increment_shared_cnt h other.cb
  let (h2, other1) ← SharedPtr.reset h1 other
  pure (h2, { ptr := other.ptr, cb := other.cb }, other1)

/-- Constructor `SharedPtr(const WeakPtr<T> &weak_ptr)`:
`ptr(weak_ptr.ptr), cb(weak_ptr.cb) { cb->increment_shared_cnt(); }`. -/
def SharedPtr.ofWeak (h : Heap T) (weak_ptr : WeakPtr) : Except Fault (Heap T × SharedPtr) := do
  let h1 ← increment_shared_cnt h weak_ptr.cb
  pure (h1, { ptr := weak_ptr.ptr, cb := weak_ptr.cb })

/-- Member `use_count`: `cb->get_shared_cnt()`. -/
def SharedPtr.use_count (h : Heap T) (s : SharedPtr) : Except Fault Int :=
  get_shared_cnt h s.cb

/-- Member `get`. -/
def SharedPtr.get (s : SharedPtr) : Ptr := s.ptr

/-- Dereference `operator*`: the value of the object `ptr` points to. -/
def SharedPtr.deref (h : Heap T) (s : SharedPtr) : Except Fault T := do
  let o ← h.obj s.ptr
  pure o.value

/-! ## `WeakPtr` -/

/-- Constructor `WeakPtr(const SharedPtr<U> &shared_ptr)`:
`cb(shared_ptr.cb), ptr(shared_ptr.ptr) { cb->increment_weak_cnt(); }`. -/
def WeakPtr.ofShared (h : Heap T) (shared_ptr : SharedPtr) : Except Fault (Heap T × WeakPtr) := do
  let h1 ← increment_weak_cnt h shared_ptr.cb
  pure (h1, { cb := shared_ptr.cb, ptr := shared_ptr.ptr })

/-- Copy constructors `WeakPtr(const WeakPtr &other)` and `WeakPtr(const WeakPtr<U> &other)`:
`cb(other.cb), ptr(other.ptr) { cb->increment_weak_cnt(); }`. -/
def WeakPtr.copy (h : Heap T) (other : WeakPtr) : Except Fault (Heap T × WeakPtr) := do
  let h1 ← increment_weak_cnt h other.cb
  pure (h1, { cb := other.cb, ptr := other.ptr })

/-- Move constructor `WeakPtr(WeakPtr<U> &&other)`: takes the pair and nulls `other`.
Returns the new observer and the new value of `other`. -/
def WeakPtr.move (other : WeakPtr) : WeakPtr × WeakPtr :=
  ({ cb := other.cb, ptr := other.ptr }, { cb := none, ptr := Ptr.null })

/-- Member `swap`: exchanges `cb` and `ptr`.  Returns the new `*this` and the new `other`. -/
def WeakPtr.swap (this other : WeakPtr) : WeakPtr × WeakPtr :=
  ({ cb := other.cb, ptr := other.ptr }, { cb := this.cb, ptr := this.ptr })

/-- Assignment `WeakPtr::operator=(const SharedPtr<U> &shared_ptr)`:
`auto tmp_ptr = WeakPtr<T>(shared_ptr); tmp_ptr.swap(*this);` and the destructor of
`tmp_ptr`.  Returns the heap and the new `*this`. -/
def WeakPtr.assignShared (h : Heap T) (this : WeakPtr) (shared_ptr : SharedPtr) :
    Except Fault (Heap T × WeakPtr) := do
  let (h1, tmp_ptr) ← WeakPtr.ofShared h shared_ptr
  let (tmp1, this1) := WeakPtr.swap tmp_ptr this
  let h2 ← tmp1.destroy h1
  pure (h2, this1)

/-- Member `expired`: `return cb && cb->get_shared_cnt() == 0;`. -/
def WeakPtr.expired (h : Heap T) (w : WeakPtr) : Except Fault Bool :=
  match w.cb with
  | none => pure false
  | some b => do
    let n ← get_shared_cnt h (some b)
    pure (decide (n = 0))

/-- Member `lock`: `if (!expired()) return SharedPtr<T>(*this); return SharedPtr<T>();`. -/
def WeakPtr.lock (h : Heap T) (w : WeakPtr) : Except Fault (Heap T × SharedPtr) := do
  let e ← w.expired h
  if !e then
    SharedPtr.ofWeak h w
  else
    pure (h, {})

/-- Member `use_count` of `WeakPtr`: `cb->get_shared_cnt()`. -/
def WeakPtr.use_count (h : Heap T) (w : WeakPtr) : Except Fault Int :=
  get_shared_cnt h w.cb

/-! ## `EnableSharedFromThis` and the adopting constructors -/

/-- The copy constructor of `EnableSharedFromThis`, which the class leaves to the compiler:
member by member, `wptr(other.wptr)`, that is `WeakPtr(const WeakPtr &)`. -/
def EnableSharedFromThis.copy (h : Heap T) (other : EnableSharedFromThis) :
    Except Fault (Heap T × EnableSharedFromThis) := do
  let (h1, w) ← WeakPtr.copy h other.wptr
  pure (h1, { wptr := w })

/-- The copy constructor `T(const T &)` the compiler generates, run on `*p`: the base
`EnableSharedFromThis<T>`, when `T` has it, is copied with `EnableSharedFromThis.copy`, and
the value is copied. -/
def Obj.copy : Constructor T Ptr :=
  fun h p => do
    let o ← h.obj p
    match o.base with
    | none => pure (h, some { value := o.value, base := none })
    | some e =>
      let (h1, e1) ← e.copy h
      pure (h1, some { value := o.value, base := some e1 })

/-- Member `EnableSharedFromThis::shared_from_this`: `return wptr.lock();`. -/
def EnableSharedFromThis.shared_from_this (h : Heap T) (this : EnableSharedFromThis) :
    Except Fault (Heap T × SharedPtr) :=
  this.wptr.lock h

/-- The statement `ptr->wptr = *this;` of the adopting constructors (an object without the
`EnableSharedFromThis` base has no member `wptr`: `noSuchObject`). -/
def wireSelf (h : Heap T) (ptr : Ptr) (this : SharedPtr) : Except Fault (Heap T) := do
  let o ← h.obj ptr
  match o.base with
  | none => Except.error Fault.noSuchObject
  | some e =>
    let (h1, w) ← WeakPtr.assignShared h e.wptr this
    let o1 ← h1.obj ptr
    pure (h1.setObj ptr { o1 with base := some { wptr := w } })

/-- Adopting constructors `SharedPtr(U *ptr, const Deleter &deleter, const Alloc &alloc)`,
`SharedPtr(U *ptr, const Deleter &deleter)` and `SharedPtr(U *ptr)` (the last one with
`std::default_delete<U>`): `ptr(ptr), cb(allocateRegular(ptr, deleter, alloc))`, then
`if constexpr (is_base_of_v<EnableSharedFromThis<U>, U>) ptr->wptr = *this;`.
`esft` is the value of that compile-time test. -/
def SharedPtr.adopt (h : Heap T) (allocOk : Bool) (esft : Bool) (ptr : Ptr) (deleter : Deleter) :
    Except Fault (Heap T × Except Exn SharedPtr) :=
  match allocateRegular h allocOk ptr deleter with
  | (h1, Except.error e) => pure (h1, Except.error e)
  | (h1, Except.ok cb) =>
    let this : SharedPtr := { ptr := ptr, cb := some cb }
    if esft then do
      let h2 ← wireSelf h1 ptr this
      pure (h2, Except.ok this)
    else
      pure (h1, Except.ok this)

/-- Member `reset(U *new_ptr)`: `SharedPtr<U>(new_ptr).swap(*this);` and the destructor of
the temporary.  Returns the heap and the new `*this` (the old one when the constructor
raised). -/
def SharedPtr.resetTo (h : Heap T) (allocOk : Bool) (esft : Bool) (this : SharedPtr) (new_ptr : Ptr) :
    Except Fault (Heap T × Except Exn SharedPtr) := do
  let (h1, r) ← SharedPtr.adopt h allocOk esft new_ptr Deleter.default_delete
  match r with
  | Except.error e => pure (h1, Except.error e)
  | Except.ok tmp =>
    let (tmp1, this1) := SharedPtr.swap tmp this
    let h2 ← tmp1.destroy h1
    pure (h2, Except.ok this1)

/-! ## Programs over handle objects

C++ objects have identity: `a = std::move(a)` and `a.swap(a)` act on one object.  A `World`
therefore keeps the handle objects of a program in two tables (`none`: the object has been
destroyed), and an `Op` names its operands by their index.  Each `Op` is one statement of a
client program; `step` runs the member function it names. -/

/-- Heap plus the `SharedPtr` and `WeakPtr` objects of the program. -/
structure World (T : Type) where
  heap : Heap T := {}
  sps : List (Option SharedPtr) := []
  wps : List (Option WeakPtr) := []
deriving DecidableEq, Repr

/-- The live `SharedPtr` object number `i`. -/
def World.sp (w : World T) (i : Nat) : Except Fault SharedPtr :=
  match w.sps[i]? with
  | some (some s) => Except.ok s
  | _ => Except.error Fault.noSuchObject

/-- The live `WeakPtr` object number `k`. -/
def World.wp (w : World T) (k : Nat) : Except Fault WeakPtr :=
  match w.wps[k]? with
  | some (some x) => Except.ok x
  | _ => Except.error Fault.noSuchObject

/-- Statements of a client program.  (Assignment between two `WeakPtr` objects is not among
them.) -/
inductive Op (T : Type)
  /-- the expression `new U(v)`: a free-standing object (`esft`: `U` derives from
  `EnableSharedFromThis<U>`) -/
  | newObj (v : T) (esft : Bool)
  /-- declares `SharedPtr<T> s;` -/
  | sDefault
  /-- declares `SharedPtr<T> s(p, d, alloc);` (also the one- and two-argument forms) -/
  | sAdopt (allocOk esft : Bool) (p : Ptr) (d : Deleter)
  /-- declares `auto s = makeShared<T>(args);` for a constructor of `T` that computes the value
  `v` from `args` (`none`: it raises) and default-initialises the base -/
  | sMake (allocOk esft : Bool) (v : Option T)
  /-- declares `auto s = makeShared<T>(*sps[j]);`: the argument `*sps[j]` is evaluated, and the
  constructor the factory runs is the copy constructor of `T`, which the compiler generates -/
  | sMakeCopy (allocOk : Bool) (j : Nat)
  /-- declares `SharedPtr<T> s(sps[j]);` -/
  | sCopy (j : Nat)
  /-- declares `SharedPtr<Base> s(sps[j]);` with `sps[j]` a `SharedPtr<Derived>` -/
  | sConvCopy (j : Nat)
  /-- declares `SharedPtr<T> s(std::move(sps[j]));` -/
  | sMove (j : Nat)
  /-- declares `SharedPtr<Base> s(std::move(sps[j]));` -/
  | sConvMove (j : Nat)
  /-- declares `SharedPtr<T> s(wps[k]);` -/
  | sOfWeak (k : Nat)
  /-- runs `sps[i] = sps[j];` -/
  | sCopyAssign (i j : Nat)
  /-- runs `sps[i] = std::move(sps[j]);` -/
  | sMoveAssign (i j : Nat)
  /-- runs `sps[i] = std::move(sps[j]);` with `sps[j]` a `SharedPtr<Derived>` -/
  | sConvMoveAssign (i j : Nat)
  /-- runs `sps[i].reset();` -/
  | sReset (i : Nat)
  /-- runs `sps[i].reset(p);` -/
  | sResetTo (i : Nat) (allocOk esft : Bool) (p : Ptr)
  /-- runs `sps[i].swap(sps[j]);` -/
  | sSwap (i j : Nat)
  /-- ends the life of `sps[i]` -/
  | sDestroy (i : Nat)
  /-- declares `WeakPtr<T> w;` -/
  | wDefault
  /-- declares `WeakPtr<T> w(sps[j]);` -/
  | wOfShared (j : Nat)
  /-- declares `WeakPtr<T> w(wps[k]);` -/
  | wCopy (k : Nat)
  /-- declares `WeakPtr<T> w(std::move(wps[k]));` -/
  | wMove (k : Nat)
  /-- runs `wps[k] = sps[j];` -/
  | wAssignShared (k j : Nat)
  /-- runs `wps[k].swap(wps[l]);` -/
  | wSwap (k l : Nat)
  /-- ends the life of `wps[k]` -/
  | wDestroy (k : Nat)
  /-- declares `auto s = wps[k].lock();` -/
  | wLock (k : Nat)
deriving Repr

/-- Copy assignment `SharedPtr::operator=(const SharedPtr &other)` run as `sps[i] = sps[j]`:
`auto tmp_ptr = SharedPtr(other); swap(tmp_ptr); return *this;`, then `~tmp_ptr`. -/
def World.sCopyAssign (w : World T) (i j : Nat) : Except Fault (World T) := do
  let this ← w.sp i
  let other ← w.sp j
  let (h1, tmp_ptr) ← SharedPtr.copy w.heap other
  let (this1, tmp1) := SharedPtr.swap this tmp_ptr
  let h2 ← tmp1.destroy h1
  pure { w with heap := h2, sps := w.sps.set i (some this1) }

/-- Move assignment `SharedPtr::operator=(SharedPtr &&other)` run as
`sps[i] = std::move(sps[j])`: `auto tmp_ptr = SharedPtr(std::move(other)); swap(tmp_ptr);`,
then `~tmp_ptr`.  `*this` is read after `other` has been emptied (they may be one object). -/
def World.sMoveAssign (w : World T) (i j : Nat) : Except Fault (World T) := do
  let _ ← w.sp i
  let other ← w.sp j
  let (tmp_ptr, other1) := SharedPtr.move other
  let w1 : World T := { w with sps := w.sps.set j (some other1) }
  let this ← w1.sp i
  let (this1, tmp1) := SharedPtr.swap this tmp_ptr
  let h2 ← tmp1.destroy w1.heap
  pure { w1 with heap := h2, sps := w1.sps.set i (some this1) }

/-- Converting move assignment `SharedPtr::operator=(SharedPtr<U> &&other)`: as
`sMoveAssign`, the temporary being built by the converting move constructor. -/
def World.sConvMoveAssign (w : World T) (i j : Nat) : Except Fault (World T) := do
  let _ ← w.sp i
  let other ← w.sp j
  let (h1, tmp_ptr, other1) ← SharedPtr.convMove w.heap other
  let w1 : World T := { w with heap := h1, sps := w.sps.set j (some other1) }
  let this ← w1.sp i
  let (this1, tmp1) := SharedPtr.swap this tmp_ptr
  let h2 ← tmp1.destroy w1.heap
  pure { w1 with heap := h2, sps := w1.sps.set i (some this1) }

/-- Member `swap` run as `sps[i].swap(sps[j])`. -/
def World.sSwap (w : World T) (i j : Nat) : Except Fault (World T) := do
  let this ← w.sp i
  let other ← w.sp j
  let (this1, other1) := SharedPtr.swap this other
  pure { w with sps := (w.sps.set i (some this1)).set j (some other1) }

/-- Member `swap` run as `wps[k].swap(wps[l])`. -/
def World.wSwap (w : World T) (k l : Nat) : Except Fault (World T) := do
  let this ← w.wp k
  let other ← w.wp l
  let (this1, other1) := WeakPtr.swap this other
  pure { w with wps := (w.wps.set k (some this1)).set l (some other1) }

/-- One statement of the client program. -/
def step (w : World T) (op : Op T) : Except Fault (World T) :=
  match op with
  | Op.newObj v esft =>
    pure { w with heap := { w.heap with
      objs := w.heap.objs ++ [some { value := v, base := if esft then some {} else none }] } }
  | Op.sDefault => pure { w with sps := w.sps ++ [some {}] }
  | Op.sAdopt allocOk esft p d => do
    let (h1, r) ← SharedPtr.adopt w.heap allocOk esft p d
    match r with
    | Except.error _ => pure { w with heap := h1 }
    | Except.ok s => pure { w with heap := h1, sps := w.sps ++ [some s] }
  | Op.sMake allocOk esft v => do
    let (h1, r) ← makeShared w.heap allocOk (Obj.construct (fun (x : Option T) => x) esft) v
    match r with
    | Except.error _ => pure { w with heap := h1 }
    | Except.ok s => pure { w with heap := h1, sps := w.sps ++ [some s] }
  | Op.sMakeCopy allocOk j => do
    let other ← w.sp j
    let _ ← other.deref w.heap
    let (h1, r) ← makeShared w.heap allocOk Obj.copy other.ptr
    match r with
    | Except.error _ => pure { w with heap := h1 }
    | Except.ok s => pure { w with heap := h1, sps := w.sps ++ [some s] }
  | Op.sCopy j => do
    let other ← w.sp j
    let (h1, s) ← SharedPtr.copy w.heap other
    pure { w with heap := h1, sps := w.sps ++ [some s] }
  | Op.sConvCopy j => do
    let other ← w.sp j
    let (h1, s) ← SharedPtr.convCopy w.heap other
    pure { w with heap := h1, sps := w.sps ++ [some s] }
  | Op.sMove j => do
    let other ← w.sp j
    let (s, other1) := SharedPtr.move other
    pure { w with sps := w.sps.set j (some other1) ++ [some s] }
  | Op.sConvMove j => do
    let other ← w.sp j
    let (h1, s, other1) ← SharedPtr.convMove w.heap other
    pure { w with heap := h1, sps := w.sps.set j (some other1) ++ [some s] }
  | Op.sOfWeak k => do
    let x ← w.wp k
    let (h1, s) ← SharedPtr.ofWeak w.heap x
    pure { w with heap := h1, sps := w.sps ++ [some s] }
  | Op.sCopyAssign i j => w.sCopyAssign i j
  | Op.sMoveAssign i j => w.sMoveAssign i j
  | Op.sConvMoveAssign i j => w.sConvMoveAssign i j
  | Op.sReset i => do
    let this ← w.sp i
    let (h1, this1) ← SharedPtr.reset w.heap this
    pure { w with heap := h1, sps := w.sps.set i (some this1) }
  | Op.sResetTo i allocOk esft p => do
    let this ← w.sp i
    let (h1, r) ← SharedPtr.resetTo w.heap allocOk esft this p
    match r with
    | Except.error _ => pure { w with heap := h1 }
    | Except.ok this1 => pure { w with heap := h1, sps := w.sps.set i (some this1) }
  | Op.sSwap i j => w.sSwap i j
  | Op.sDestroy i => do
    let s ← w.sp i
    let h1 ← s.destroy w.heap
    pure { w with heap := h1, sps := w.sps.set i none }
  | Op.wDefault => pure { w with wps := w.wps ++ [some {}] }
  | Op.wOfShared j => do
    let s ← w.sp j
    let (h1, x) ← WeakPtr.ofShared w.heap s
    pure { w with heap := h1, wps := w.wps ++ [some x] }
  | Op.wCopy k => do
    let other ← w.wp k
    let (h1, x) ← WeakPtr.copy w.heap other
    pure { w with heap := h1, wps := w.wps ++ [some x] }
  | Op.wMove k => do
    let other ← w.wp k
    let (x, other1) := WeakPtr.move other
    pure { w with wps := w.wps.set k (some other1) ++ [some x] }
  | Op.wAssignShared k j => do
    let this ← w.wp k
    let s ← w.sp j
    let (h1, this1) ← WeakPtr.assignShared w.heap this s
    pure { w with heap := h1, wps := w.wps.set k (some this1) }
  | Op.wSwap k l => w.wSwap k l
  | Op.wDestroy k => do
    let x ← w.wp k
    let h1 ← x.destroy w.heap
    pure { w with heap := h1, wps := w.wps.set k none }
  | Op.wLock k => do
    let x ← w.wp k
    let (h1, s) ← x.lock w.heap
    pure { w with heap := h1, sps := w.sps ++ [some s] }

/-- A client program: its statements in order, stopping at the first undefined one. -/
def run (w : World T) : List (Op T) → Except Fault (World T)
  | [] => pure w
  | op :: ops => do
    let w1 ← step w op
    run w1 ops

/-! ## Vocabulary of the lifetime properties -/

/-- Number of `useDeleter()` calls made so far on the block at `b`. -/
def Heap.released (h : Heap T) (b : Addr) : Nat :=
  h.log.count (Event.useDeleter b)

/-- Number of `dealloc_this()` calls made so far on the block at `b`. -/
def Heap.deallocated (h : Heap T) (b : Addr) : Nat :=
  h.log.count (Event.dealloc_this b)

/-- Number of allocations that have not been given back to the allocator. -/
def Heap.outstanding (h : Heap T) : Nat :=
  h.blocks.countP (fun s => match s with
    | Slot.freed => false
    | _ => true)

/-- Tells whether a `SharedPtr` object is alive and its `cb` is the block at `b`. -/
def holds (b : Addr) : Option SharedPtr → Bool
  | some s => decide (s.cb = some b)
  | none => false

/-- Number of live `SharedPtr` objects whose `cb` is the block at `b`. -/
def World.owners (w : World T) (b : Addr) : Nat :=
  w.sps.countP (holds b)

/-- The value `1` at the block a `cb` member designates, `0` elsewhere. -/
def ind (cb : Option Addr) (b : Addr) : Int :=
  if cb = some b then 1 else 0

/-- The value `1` at the block a live `SharedPtr` object designates, `0` elsewhere. -/
def indO (x : Option SharedPtr) (b : Addr) : Int :=
  match x with
  | some s => ind s.cb b
  | none => 0

/-- What the shared-count reasoning sees of the storage at an address. -/
inductive SV
  | absent
  | raw
  | freed
  | live (n : Int)
deriving DecidableEq, Repr

/-- The view of a slot: a live block shows its `shared_cnt`. -/
def sv : Option (Slot T) → SV
  | none => SV.absent
  | some Slot.raw => SV.raw
  | some Slot.freed => SV.freed
  | some (Slot.live blk) => SV.live blk.shared_cnt

/-- Number of `useDeleter()` calls a slot in this state must have seen: none while the
block is unconstructed or its `shared_cnt` is positive, one afterwards. -/
def SV.rel : SV → Nat
  | SV.absent => 0
  | SV.raw => 0
  | SV.freed => 1
  | SV.live n => if 0 < n then 0 else 1

/-- Every live block's `shared_cnt` is given by `own`, which vanishes beyond the heap. -/
def Counted (h : Heap T) (own : Addr → Int) : Prop :=
  (∀ (c : Addr) (blk : ControlBlock T),
    h.blocks[c]? = some (Slot.live blk) → blk.shared_cnt = own c) ∧
  (∀ c : Addr, h.blocks.length ≤ c → own c = 0)

/-- Release discipline: `useDeleter()` has run on a block exactly when its `shared_cnt`
is no longer positive, and then once. -/
def Rel (h : Heap T) : Prop :=
  ∀ b : Addr, h.released b = (sv (h.blocks[b]?)).rel

/-- Effect of the operations that never touch `shared_cnt` and never call `useDeleter()`:
same addresses, same number of releases, and each slot keeps its view or goes from a live
block with `shared_cnt = 0` to freed. -/
def Wk (h h1 : Heap T) : Prop :=
  h1.blocks.length = h.blocks.length ∧
  (∀ b, h1.released b = h.released b) ∧
  (∀ c : Addr, sv (h1.blocks[c]?) = sv (h.blocks[c]?) ∨
    (h1.blocks[c]? = some Slot.freed ∧ sv (h.blocks[c]?) = SV.live 0))

/-- The shared-count invariant of a program state: every live block's `shared_cnt` is the
number of live `SharedPtr` objects whose `cb` is that block, and no handle designates an
address that was never allocated. -/
def World.SharedInv (w : World T) : Prop :=
  Counted w.heap (fun b => (w.owners b : Int))

/-- Programs that obtain an owning handle from an observer only through `lock()`. -/
def Op.viaLock : Op T → Bool
  | Op.sOfWeak _ => false
  | _ => true

/-- Number of calls made so far of the deleter `d` with the argument `p`. -/
def Heap.deleterCalls (h : Heap T) (d : Deleter) (p : Ptr) : Nat :=
  h.log.count (Event.deleterCall d p)

/-- Number of `AllocCB.allocate(1)` calls made so far. -/
def Heap.allocations (h : Heap T) : Nat :=
  h.log.countP (fun e => match e with
    | Event.allocate _ => true
    | _ => false)

/-- The object owns no observer that has a control block: its type does not derive from
`EnableSharedFromThis`, or its `wptr` was never wired.  Destroying such an object touches no
control block. -/
def Obj.unwired (o : Obj T) : Bool :=
  match o.base with
  | none => true
  | some e => e.wptr.cb.isNone

/-- The expression `delete p` is defined and touches no control block: `p` is null or points
to a live free-standing object that is `unwired`. -/
def Heap.deletable (h : Heap T) (p : Ptr) : Bool :=
  match p with
  | Ptr.null => true
  | Ptr.ext a =>
    match h.objs[a]? with
    | some (some o) => o.unwired
    | _ => false
  | Ptr.inl _ => false

/-- The release of a block with these members is defined and touches no control block:
the stored deleter does not `delete`, or `delete ptr` is `deletable`; for the inline variant
the payload is still there and is `unwired`. -/
def Heap.plainRelease (h : Heap T) (k : BlockKind T) : Bool :=
  match k with
  | BlockKind.regular Deleter.default_delete p => h.deletable p
  | BlockKind.regular (Deleter.custom _ deletes) p => !deletes || h.deletable p
  | BlockKind.makeShared (some o) => o.unwired
  | BlockKind.makeShared none => false

/-- Every address that `own` counts an owner for holds a constructed control block. -/
def Alive (h : Heap T) (own : Addr → Int) : Prop :=
  ∀ c : Addr, 0 < own c → ∃ blk : ControlBlock T, h.blocks[c]? = some (Slot.live blk)

/-- The block of every live non-empty `SharedPtr` object exists. -/
def World.OwnedAlive (w : World T) : Prop :=
  Alive w.heap (fun b => (w.owners b : Int))

/-- Outcome of `decrement_shared_cnt()` on the block at `b`, which had `shared_cnt = s` and
`weak_cnt = w`, as the header means it: `shared_cnt` becomes `s - 1`, `weak_cnt` stays,
`useDeleter()` runs once iff `s = 1`, `dealloc_this()` runs once iff `s = 1` and `w = 0`, and
no other block is touched. -/
def DecSharedOutcome (h h1 : Heap T) (b : Addr) (s w : Int) : Prop :=
  (∀ c, h1.released c = h.released c + (if c = b ∧ s = 1 then 1 else 0)) ∧
  (∀ c, h1.deallocated c = h.deallocated c + (if c = b ∧ s = 1 ∧ w = 0 then 1 else 0)) ∧
  (if s = 1 ∧ w = 0 then h1.blocks[b]? = some Slot.freed
    else ∃ k, h1.blocks[b]? = some (Slot.live { shared_cnt := s - 1, weak_cnt := w, kind := k })) ∧
  (∀ c : Addr, c ≠ b → h1.blocks[c]? = h.blocks[c]?)

/-- The statements that work on observers only, `lock()` left out: construction of a `WeakPtr`
(default, from a `SharedPtr`, by copy, by move), assignment from a `SharedPtr`, `swap`, and
destruction.  (`expired()` and `use_count()` are not statements: they return a value and no
heap.) -/
def Op.observerOnly : Op T → Bool
  | Op.wDefault => true
  | Op.wOfShared _ => true
  | Op.wCopy _ => true
  | Op.wMove _ => true
  | Op.wAssignShared _ _ => true
  | Op.wSwap _ _ => true
  | Op.wDestroy _ => true
  | _ => false

/-- The `shared_cnt` stored at an address; `0` where there is no constructed block. -/
def Heap.sharedAt (h : Heap T) (c : Addr) : Int :=
  match h.blocks[c]? with
  | some (Slot.live blk) => blk.shared_cnt
  | _ => 0

/-- Tells whether a `WeakPtr` object is alive and its `cb` is the block at `b`. -/
def observes (b : Addr) : Option WeakPtr → Bool
  | some x => decide (x.cb = some b)
  | none => false

/-- Tells whether a managed object is alive and the member `wptr` of its
`EnableSharedFromThis` base has the block at `b` as `cb`. -/
def selfObserves (b : Addr) : Option (Obj T) → Bool
  | some o =>
    match o.base with
    | some e => decide (e.wptr.cb = some b)
    | none => false
  | none => false

/-- The managed object stored inline in a slot, if the slot holds a `ControlBlockMakeShared`
whose `object` has not been destroyed. -/
def Slot.payload : Slot T → Option (Obj T)
  | Slot.live blk =>
    match blk.kind with
    | BlockKind.makeShared o => o
    | BlockKind.regular _ _ => none
  | _ => none

/-- Number of live managed objects, free-standing or inline, whose member `wptr` has the
block at `b` as `cb`. -/
def Heap.selfObservers (h : Heap T) (b : Addr) : Nat :=
  h.objs.countP (selfObserves b) + h.blocks.countP (fun s => selfObserves b s.payload)

/-- Number of live `WeakPtr` objects whose `cb` is the block at `b`: the observers the
program holds and the `wptr` members of the live managed objects. -/
def World.observers (w : World T) (b : Addr) : Nat :=
  w.wps.countP (observes b) + w.heap.selfObservers b

/-- The value `1` at the block the `wptr` of a live managed object designates, `0`
elsewhere. -/
def sind (x : Option (Obj T)) (b : Addr) : Int :=
  if selfObserves b x = true then 1 else 0

/-- The value `1` at the block a live `WeakPtr` object designates, `0` elsewhere. -/
def indW (x : Option WeakPtr) (b : Addr) : Int :=
  match x with
  | some y => ind y.cb b
  | none => 0

/-- Every live block's `weak_cnt` is `own` (the observers outside the heap) plus the number
of `wptr` members in the heap that designate it; neither kind of observer designates an
address beyond the heap. -/
def WCounted (h : Heap T) (own : Addr → Int) : Prop :=
  (∀ (c : Addr) (blk : ControlBlock T),
    h.blocks[c]? = some (Slot.live blk) → blk.weak_cnt = own c + h.selfObservers c) ∧
  (∀ c : Addr, h.blocks.length ≤ c → own c = 0 ∧ h.selfObservers c = 0)

/-- An inline payload that has not been destroyed has an owner. -/
def Pay (h : Heap T) : Prop :=
  ∀ (c : Addr) (blk : ControlBlock T),
    h.blocks[c]? = some (Slot.live blk) → (Slot.live blk).payload ≠ none → 1 ≤ blk.shared_cnt

/-- The weak-count invariant of a program state: every live block's `weak_cnt` is the number
of live `WeakPtr` objects whose `cb` is that block. -/
def World.WeakInv (w : World T) : Prop :=
  WCounted w.heap (fun b => (w.wps.countP (observes b) : Int)) ∧ Pay w.heap

/-- Effect on the managed objects of the operations that only change a `weak_cnt` or give
storage back: the free-standing objects are the same, and every block that exists afterwards
existed before with the same members other than `weak_cnt`. -/
def KeepsObjects (h h1 : Heap T) : Prop :=
  h1.objs = h.objs ∧ h1.blocks.length = h.blocks.length ∧
  ∀ (c : Addr) (blk1 : ControlBlock T), h1.blocks[c]? = some (Slot.live blk1) →
    ∃ blk, h.blocks[c]? = some (Slot.live blk) ∧ blk1.kind = blk.kind ∧
      blk1.shared_cnt = blk.shared_cnt

/-- The statements that run `ptr->wptr = *this`: the adopting constructors and `reset(p)`
(which builds its temporary with an adopting constructor), for a pointee type deriving from
`EnableSharedFromThis`. -/
def Op.wires : Op T → Bool
  | Op.sAdopt _ esft _ _ => esft
  | Op.sResetTo _ _ esft _ => esft
  | _ => false

/-- No managed object that can be read, free-standing or inline, has a `wptr` with a
block. -/
def Unwired (h : Heap T) : Prop :=
  ∀ (p : Ptr) (o : Obj T), h.obj p = Except.ok o → o.unwired = true

/-- Every managed object that can be read in `h1` can be read in `h`, and is the same:
nothing has been written into an object. -/
def ObjsFrom (h h1 : Heap T) : Prop :=
  ∀ (p : Ptr) (o : Obj T), h1.obj p = Except.ok o → h.obj p = Except.ok o

/-- The statement applies `SharedPtr(const WeakPtr &)` to an observer that is expired in the
state `w` it is run in (`expired()` would return `true`): its block exists with
`shared_cnt = 0`. -/
def World.revives (w : World T) : Op T → Bool
  | Op.sOfWeak k =>
    match w.wp k with
    | Except.ok x =>
      match x.expired w.heap with
      | Except.ok e => e
      | Except.error _ => false
    | Except.error _ => false
  | _ => false

/-- Run from `w`, no statement of the program applies `SharedPtr(const WeakPtr &)` to an
expired observer (`lock()` may be applied to any observer, and `SharedPtr(const WeakPtr &)`
to one that is not expired). -/
def noRevive (w : World T) : List (Op T) → Bool
  | [] => true
  | op :: ops =>
    !(w.revives op) &&
      match step w op with
      | Except.ok w1 => noRevive w1 ops
      | Except.error _ => true

/-- Tells whether calling the deleter ends the life of the object: `std::default_delete`
does, a user callable may. -/
def Deleter.deletes : Deleter → Bool
  | Deleter.default_delete => true
  | Deleter.custom _ deletes => deletes

/-! ## Example states -/

/-- A heap with one `ControlBlockMakeShared` that two owners and one observer refer to. -/
def exHeapShared : Heap Nat :=
  { blocks := [Slot.live
      { shared_cnt := 2, weak_cnt := 1,
        kind := BlockKind.makeShared (some { value := 42, base := none }) }] }

/-- A heap whose only block has lost its owners: the payload is destroyed, one observer
keeps the block. -/
def exHeapExpired : Heap Nat :=
  { blocks := [Slot.live { shared_cnt := 0, weak_cnt := 1, kind := BlockKind.makeShared none }],
    log := [Event.allocate 0, Event.useDeleter 0, Event.destroyed (Ptr.inl 0)] }

/-- An observer of block `0`. -/
def exWeak : WeakPtr := { cb := some 0, ptr := Ptr.inl 0 }

/-- An owner of block `0`. -/
def exShared : SharedPtr := { ptr := Ptr.inl 0, cb := some 0 }

/-- A payload constructor that always raises. -/
def exThrowingCtor : Nat → Option Nat := fun _ => none

/-- A heap with one free-standing object whose type derives from `EnableSharedFromThis`,
as left by `new U(7)`. -/
def exHeapSelf : Heap Nat :=
  { objs := [some { value := 7, base := some {} }] }

/-- The heap `exHeapSelf` after `SharedPtr<U> s(p)` adopted the object: the block counts one
owner and one observer, the observer being the object's own `wptr`. -/
def exHeapSelfAdopted : Heap Nat :=
  { blocks := [Slot.live
      { shared_cnt := 1, weak_cnt := 1,
        kind := BlockKind.regular Deleter.default_delete (Ptr.ext 0) }],
    objs := [some { value := 7, base := some { wptr := { cb := some 0, ptr := Ptr.ext 0 } } }],
    log := [Event.allocate 0] }

/-- A program state with one owner (object `0`) of the block of `exHeapShared`'s shape. -/
def exWorld : World Nat :=
  { heap := { blocks := [Slot.live
      { shared_cnt := 1, weak_cnt := 0,
        kind := BlockKind.makeShared (some { value := 42, base := none }) }] },
    sps := [some exShared] }

/-- A client program using every owning-handle operation on one `makeShared` block. -/
def exProgram : List (Op Nat) :=
  [Op.sMake true false (some 42), Op.sCopy 0, Op.sConvCopy 1, Op.sMove 0, Op.sConvMove 2,
   Op.sCopyAssign 0 1, Op.wOfShared 1, Op.wLock 0, Op.sDestroy 1, Op.sSwap 0 2, Op.sReset 4,
   Op.sMoveAssign 2 2]

/-- The state `exProgram` ends in: three owners and one observer of block `0`. -/
def exProgramEnd : World Nat :=
  { heap := { blocks := [Slot.live
                { shared_cnt := 3, weak_cnt := 1,
                  kind := BlockKind.makeShared (some { value := 42, base := none }) }],
              log := [Event.allocate 0] },
    sps := [some {}, none, some exShared, some exShared, some {}, some exShared],
    wps := [some exWeak] }

/-- A client program that lets the last owner die while an observer remains, and locks the
observer before and after. -/
def exRelease : List (Op Nat) :=
  [Op.sMake true false (some 42), Op.sCopy 0, Op.wOfShared 0, Op.sDestroy 0, Op.wLock 0,
   Op.sDestroy 1, Op.sDestroy 2, Op.wLock 0]

/-- The state `exRelease` ends in: no owner, the payload released once, the block kept by
the observer. -/
def exReleaseEnd : World Nat :=
  { heap := { blocks := [Slot.live { shared_cnt := 0, weak_cnt := 1,
                                     kind := BlockKind.makeShared none }],
              log := [Event.allocate 0, Event.useDeleter 0, Event.destroyed (Ptr.inl 0)] },
    sps := [none, none, none, some {}],
    wps := [some exWeak] }

/-- A client program that builds an owning handle from an expired observer of a
`makeShared` block. -/
def exRevive : List (Op Nat) :=
  [Op.sMake true false (some 42), Op.wOfShared 0, Op.sDestroy 0, Op.sOfWeak 0]

/-- The same on an adopted object with a user deleter that does not `delete`, the revived
handle being destroyed again. -/
def exReviveTwice : List (Op Nat) :=
  [Op.newObj 7 false, Op.sAdopt true false (Ptr.ext 0) (Deleter.custom 0 false), Op.wOfShared 0,
   Op.sDestroy 0, Op.sOfWeak 0, Op.sDestroy 1]

/-- A client program: an object of a type deriving from `EnableSharedFromThis` is adopted
with the default deleter and one more observer is taken from the handle. -/
def exSelfObserved : List (Op Nat) :=
  [Op.newObj 7 true, Op.sAdopt true true (Ptr.ext 0) Deleter.default_delete, Op.wOfShared 0]

/-- The heap `exSelfObserved` ends in: one owner and two observers, one of them the `wptr`
inside the adopted object. -/
def exHeapSelfObserved : Heap Nat :=
  { blocks := [Slot.live
      { shared_cnt := 1, weak_cnt := 2,
        kind := BlockKind.regular Deleter.default_delete (Ptr.ext 0) }],
    objs := [some { value := 7, base := some { wptr := { cb := some 0, ptr := Ptr.ext 0 } } }],
    log := [Event.allocate 0] }

/-- A heap in which the free-standing object `0` (whose type has no `EnableSharedFromThis`
base) has been adopted with the user deleter number `3`, which ends with `delete p`. -/
def exHeapAdopted : Heap Nat :=
  { blocks := [Slot.live
      { shared_cnt := 1, weak_cnt := 0,
        kind := BlockKind.regular (Deleter.custom 3 true) (Ptr.ext 0) }],
    objs := [some { value := 7, base := none }],
    log := [Event.allocate 0] }

/-- An owner of block `0` whose cached pointer differs from the pointer stored in the block
(as after a conversion to a base class that is not at offset zero). -/
def exSharedBase : SharedPtr := { ptr := Ptr.ext 5, cb := some 0 }

/-- A client program of observer statements only, to be run in `exProgramEnd`: it ends with
every observer destroyed. -/
def exObservers : List (Op Nat) :=
  [Op.wOfShared 2, Op.wCopy 0, Op.wMove 1, Op.wDefault, Op.wAssignShared 3 2, Op.wSwap 0 3,
   Op.wDestroy 0, Op.wDestroy 1, Op.wDestroy 2, Op.wDestroy 3, Op.wDestroy 4]

/-- The state `exObservers` ends in when run in `exProgramEnd`: no observer is left, block
`0` still has its three owners. -/
def exObserversEnd : World Nat :=
  { heap := { blocks := [Slot.live
                { shared_cnt := 3, weak_cnt := 0,
                  kind := BlockKind.makeShared (some { value := 42, base := none }) }],
              log := [Event.allocate 0] },
    sps := exProgramEnd.sps,
    wps := [none, none, none, none, none] }

/-- A client program: a free-standing object and a `makeShared` block with one owner. -/
def exTwoObjects : List (Op Nat) :=
  [Op.newObj 7 false, Op.sMake true false (some 42)]

/-- The state `exTwoObjects` ends in. -/
def exTwoObjectsEnd : World Nat :=
  { heap := { blocks := [Slot.live
                { shared_cnt := 1, weak_cnt := 0,
                  kind := BlockKind.makeShared (some { value := 42, base := none }) }],
              objs := [some { value := 7, base := none }],
              log := [Event.allocate 0] },
    sps := [some exShared] }

/-- The state after `sps[0].reset(p)` in `exTwoObjectsEnd`, `p` being the free-standing
object: the former block lost its only owner, was released and deallocated. -/
def exResetToEnd : World Nat :=
  { heap := { blocks := [Slot.freed,
                Slot.live { shared_cnt := 1, weak_cnt := 0,
                            kind := BlockKind.regular Deleter.default_delete (Ptr.ext 0) }],
              objs := [some { value := 7, base := none }],
              log := [Event.allocate 0, Event.allocate 1, Event.useDeleter 0,
                      Event.destroyed (Ptr.inl 0), Event.dealloc_this 0] },
    sps := [some { ptr := Ptr.ext 0, cb := some 1 }] }

/-- A client program: two `makeShared` blocks with one owner each. -/
def exTwoBlocks : List (Op Nat) :=
  [Op.sMake true false (some 1), Op.sMake true false (some 2)]

/-- The state `exTwoBlocks` ends in. -/
def exTwoBlocksEnd : World Nat :=
  { heap := { blocks := [Slot.live
                { shared_cnt := 1, weak_cnt := 0,
                  kind := BlockKind.makeShared (some { value := 1, base := none }) },
                Slot.live
                { shared_cnt := 1, weak_cnt := 0,
                  kind := BlockKind.makeShared (some { value := 2, base := none }) }],
              log := [Event.allocate 0, Event.allocate 1] },
    sps := [some { ptr := Ptr.inl 0, cb := some 0 }, some { ptr := Ptr.inl 1, cb := some 1 }] }

/-- The state `exSelfObserved` ends in: the handle, the observer taken from it, and the
adopted object with its wired `wptr`. -/
def exSelfObservedEnd : World Nat :=
  { heap := exHeapSelfObserved,
    sps := [some { ptr := Ptr.ext 0, cb := some 0 }],
    wps := [some { cb := some 0, ptr := Ptr.ext 0 }] }

/-- A heap with two blocks: block `0` has lost its owners and is kept by one observer, block
`1` has one owner and no observer. -/
def exHeapTwo : Heap Nat :=
  { blocks := [Slot.live { shared_cnt := 0, weak_cnt := 1, kind := BlockKind.makeShared none },
               Slot.live { shared_cnt := 1, weak_cnt := 0,
                           kind := BlockKind.makeShared (some { value := 2, base := none }) }],
    log := [Event.allocate 0, Event.allocate 1, Event.useDeleter 0,
            Event.destroyed (Ptr.inl 0)] }

/-- A client program on a `makeShared` object whose type derives from
`EnableSharedFromThis`: the object is made, its owner copied, observed, locked, and the copy
destroyed.  No statement is an adopting construction. -/
def exMakeSelf : List (Op Nat) :=
  [Op.sMake true true (some 42), Op.sCopy 0, Op.wOfShared 0, Op.wLock 0, Op.sDestroy 1]

/-- The state `exMakeSelf` ends in: two owners and one observer of block `0`; the `wptr` of
the managed object has no block. -/
def exMakeSelfEnd : World Nat :=
  { heap := { blocks := [Slot.live
                { shared_cnt := 2, weak_cnt := 1,
                  kind := BlockKind.makeShared
                    (some { value := 42,
                            base := some { wptr := { cb := none, ptr := Ptr.null } } }) }],
              log := [Event.allocate 0] },
    sps := [some { ptr := Ptr.inl 0, cb := some 0 }, none, some { ptr := Ptr.inl 0, cb := some 0 }],
    wps := [some { cb := some 0, ptr := Ptr.inl 0 }] }

/-- A heap whose only block has `shared_cnt = INT_MAX` (and one observer). -/
def exHeapMaxShared : Heap Nat :=
  { blocks := [Slot.live
      { shared_cnt := 2147483647, weak_cnt := 1,
        kind := BlockKind.makeShared (some { value := 42, base := none }) }],
    log := [Event.allocate 0] }

/-- A heap whose only block has `weak_cnt = INT_MAX` (and one owner). -/
def exHeapMaxWeak : Heap Nat :=
  { blocks := [Slot.live
      { shared_cnt := 1, weak_cnt := 2147483647,
        kind := BlockKind.makeShared (some { value := 42, base := none }) }],
    log := [Event.allocate 0] }

/-- A client program: one `makeShared` object, and `n` copies of its handle. -/
def exCopies (n : Nat) : List (Op Nat) :=
  [Op.sMake true false (some 42)] ++ List.replicate n (Op.sCopy 0)

/-- The state `exCopies n` ends in when no increment overflows: `1 + n` owners of block
`0`. -/
def exCopiesEnd (n : Nat) : World Nat :=
  { heap := { blocks := [Slot.live
                { shared_cnt := 1 + n, weak_cnt := 0,
                  kind := BlockKind.makeShared (some { value := 42, base := none }) }],
              log := [Event.allocate 0] },
    sps := [some exShared] ++ List.replicate n (some exShared) }

/-- A client program: one `makeShared` object, and `n` observers built from its handle. -/
def exManyObservers (n : Nat) : List (Op Nat) :=
  [Op.sMake true false (some 42)] ++ List.replicate n (Op.wOfShared 0)

/-- The state `exManyObservers n` ends in when no increment overflows: one owner and `n`
observers of block `0`. -/
def exManyObserversEnd (n : Nat) : World Nat :=
  { heap := { blocks := [Slot.live
                { shared_cnt := 1, weak_cnt := 0 + n,
                  kind := BlockKind.makeShared (some { value := 42, base := none }) }],
              log := [Event.allocate 0] },
    sps := [some exShared],
    wps := [] ++ List.replicate n (some exWeak) }

/-- A client program that builds an owning handle with `SharedPtr(const WeakPtr &)` from an
observer that is not expired, and then lets both owners die. -/
def exReleaseVia : List (Op Nat) :=
  [Op.sMake true false (some 42), Op.wOfShared 0, Op.sOfWeak 0, Op.sDestroy 0, Op.sDestroy 1]

/-- The state `exReleaseVia` ends in: no owner, the payload released once, the block kept by
the observer. -/
def exReleaseViaEnd : World Nat :=
  { heap := { blocks := [Slot.live { shared_cnt := 0, weak_cnt := 1,
                                     kind := BlockKind.makeShared none }],
              log := [Event.allocate 0, Event.useDeleter 0, Event.destroyed (Ptr.inl 0)] },
    sps := [none, none],
    wps := [some exWeak] }

/-- A client program: `exTwoBlocks`, and `n` copies of the owner of block `1`. -/
def exTwoBlocksMany (n : Nat) : List (Op Nat) :=
  exTwoBlocks ++ List.replicate n (Op.sCopy 1)

/-- The state `exTwoBlocksMany n` ends in when no increment overflows: block `1` has `1 + n`
owners. -/
def exTwoBlocksManyEnd (n : Nat) : World Nat :=
  { heap := { blocks := [Slot.live
                { shared_cnt := 1, weak_cnt := 0,
                  kind := BlockKind.makeShared (some { value := 1, base := none }) },
                Slot.live
                { shared_cnt := 1 + n, weak_cnt := 0,
                  kind := BlockKind.makeShared (some { value := 2, base := none }) }],
              log := [Event.allocate 0, Event.allocate 1] },
    sps := [some { ptr := Ptr.inl 0, cb := some 0 }, some { ptr := Ptr.inl 1, cb := some 1 }]
      ++ List.replicate n (some { ptr := Ptr.inl 1, cb := some 1 }) }

/-- The heap `exHeapSelfAdopted` after `makeShared<U>(*p)` copied the adopted object: the
payload of the new block `1` has the `wptr` of the object it was copied from, an observer of
block `0`, which now has `weak_cnt = 2`. -/
def exHeapSelfCopied : Heap Nat :=
  { blocks := [Slot.live
      { shared_cnt := 1, weak_cnt := 2,
        kind := BlockKind.regular Deleter.default_delete (Ptr.ext 0) },
      Slot.live
      { shared_cnt := 1, weak_cnt := 0,
        kind := BlockKind.makeShared
          (some { value := 7,
                  base := some { wptr := { cb := some 0, ptr := Ptr.ext 0 } } }) }],
    objs := [some { value := 7, base := some { wptr := { cb := some 0, ptr := Ptr.ext 0 } } }],
    log := [Event.allocate 0, Event.allocate 1] }

/-- The heap `exHeapSelfObserved` with a user deleter that does not `delete` in place of the
default one. -/
def exHeapSelfKept : Heap Nat :=
  { blocks := [Slot.live
      { shared_cnt := 1, weak_cnt := 2,
        kind := BlockKind.regular (Deleter.custom 3 false) (Ptr.ext 0) }],
    objs := [some { value := 7, base := some { wptr := { cb := some 0, ptr := Ptr.ext 0 } } }],
    log := [Event.allocate 0] }

/-- A client program that adopts an object whose type derives from `EnableSharedFromThis` and
then copies it into a new block with `makeShared<U>(*s)`. -/
def exCopyAdopted : List (Op Nat) :=
  [Op.newObj 7 true, Op.sAdopt true true (Ptr.ext 0) Deleter.default_delete,
   Op.sMakeCopy true 0]

/-- The state `exCopyAdopted` ends in: the heap `exHeapSelfCopied`, the adopting handle and
the handle the factory returned. -/
def exCopyAdoptedEnd : World Nat :=
  { heap := exHeapSelfCopied,
    sps := [some { ptr := Ptr.ext 0, cb := some 0 }, some { ptr := Ptr.inl 1, cb := some 1 }] }

end SharedPtrH

namespace SharedPtrH

variable {T : Type}

/-! ## Lemmas on the control-block operations -/

theorem bind_ok_iff {ε α β : Type} (x : Except ε α) (f : α → Except ε β) (b : β) :
    (x >>= f) = Except.ok b ↔ ∃ a, x = Except.ok a ∧ f a = Except.ok b := by
  cases x <;> simp [bind, Except.bind]

theorem pure_ok_iff {ε α : Type} (a b : α) :
    (pure a : Except ε α) = Except.ok b ↔ a = b := by
  simp [pure, Except.pure]

theorem block_ok_iff (h : Heap T) (cb : Option Addr) (b : Addr) (blk : ControlBlock T) :
    h.block cb = Except.ok (b, blk) ↔ cb = some b ∧ h.blocks[b]? = some (Slot.live blk) := by
  unfold Heap.block
  cases cb with
  | none => simp
  | some c =>
    simp only [Option.some.injEq]
    split
    · rename_i blk0 hc
      simp only [Except.ok.injEq, Prod.mk.injEq]
      constructor
      · rintro ⟨rfl, rfl⟩
        exact ⟨rfl, hc⟩
      · rintro ⟨rfl, h2⟩
        rw [hc] at h2
        simp only [Option.some.injEq, Slot.live.injEq] at h2
        exact ⟨rfl, h2⟩
    · rename_i hc
      constructor
      · intro h1
        cases h1
      · rintro ⟨rfl, h2⟩
        exact absurd h2 (hc blk)

/-- A run of `++shared_cnt` that returns found the counter below `INT_MAX` and added one. -/
theorem increment_shared_cnt_ok {h h1 : Heap T} {cb : Option Addr}
    (hok : increment_shared_cnt h cb = Except.ok h1) :
    ∃ (b : Addr) (blk : ControlBlock T), h.block cb = Except.ok (b, blk) ∧
      blk.shared_cnt < INT_MAX ∧
      h.setBlock b { blk with shared_cnt := blk.shared_cnt + 1 } = h1 := by
  simp only [increment_shared_cnt, bind_ok_iff] at hok
  obtain ⟨⟨b, blk⟩, hb, hok⟩ := hok
  by_cases hlt : blk.shared_cnt < INT_MAX
  · simp only [hlt, if_true, pure_ok_iff] at hok
    exact ⟨b, blk, hb, hlt, hok⟩
  · simp only [hlt, if_false] at hok
    cases hok

/-- A run of `++weak_cnt` that returns found the counter below `INT_MAX` and added one. -/
theorem increment_weak_cnt_ok {h h1 : Heap T} {cb : Option Addr}
    (hok : increment_weak_cnt h cb = Except.ok h1) :
    ∃ (b : Addr) (blk : ControlBlock T), h.block cb = Except.ok (b, blk) ∧
      blk.weak_cnt < INT_MAX ∧
      h.setBlock b { blk with weak_cnt := blk.weak_cnt + 1 } = h1 := by
  simp only [increment_weak_cnt, bind_ok_iff] at hok
  obtain ⟨⟨b, blk⟩, hb, hok⟩ := hok
  by_cases hlt : blk.weak_cnt < INT_MAX
  · simp only [hlt, if_true, pure_ok_iff] at hok
    exact ⟨b, blk, hb, hlt, hok⟩
  · simp only [hlt, if_false] at hok
    cases hok

theorem zero_lt_INT_MAX : (0 : Int) < INT_MAX := by decide

theorem one_lt_INT_MAX : (1 : Int) < INT_MAX := by decide

theorem increment_shared_cnt_eq {h : Heap T} {b : Addr} {blk : ControlBlock T}
    (hblk : h.blocks[b]? = some (Slot.live blk)) (hlt : blk.shared_cnt < INT_MAX) :
    increment_shared_cnt h (some b)
      = Except.ok (h.setBlock b { blk with shared_cnt := blk.shared_cnt + 1 }) := by
  have hb : h.block (some b) = Except.ok (b, blk) := (block_ok_iff h (some b) b blk).2 ⟨rfl, hblk⟩
  simp [increment_shared_cnt, hb, bind, Except.bind, pure, Except.pure, hlt]

theorem increment_weak_cnt_eq {h : Heap T} {b : Addr} {blk : ControlBlock T}
    (hblk : h.blocks[b]? = some (Slot.live blk)) (hlt : blk.weak_cnt < INT_MAX) :
    increment_weak_cnt h (some b)
      = Except.ok (h.setBlock b { blk with weak_cnt := blk.weak_cnt + 1 }) := by
  have hb : h.block (some b) = Except.ok (b, blk) := (block_ok_iff h (some b) b blk).2 ⟨rfl, hblk⟩
  simp [increment_weak_cnt, hb, bind, Except.bind, pure, Except.pure, hlt]

theorem getElem?_lt_of_eq_some {α : Type} {l : List α} {i : Nat} {a : α}
    (h : l[i]? = some a) : i < l.length := by
  rcases Nat.lt_or_ge i l.length with hlt | hge
  · exact hlt
  · rw [List.getElem?_eq_none hge] at h
    cases h

theorem obj_ext_ok (h : Heap T) (a : Addr) (o : Obj T) :
    h.obj (Ptr.ext a) = Except.ok o ↔ h.objs[a]? = some (some o) := by
  unfold Heap.obj
  simp only
  split
  · rename_i o0 ho
    rw [ho]
    simp
  · rename_i hn
    constructor
    · intro hh
      cases hh
    · intro hh
      exact absurd hh (hn o)

theorem obj_inl_ok (h : Heap T) (b : Addr) (o : Obj T) :
    h.obj (Ptr.inl b) = Except.ok o ↔
      ∃ blk : ControlBlock T, h.blocks[b]? = some (Slot.live blk) ∧
        blk.kind = BlockKind.makeShared (some o) := by
  unfold Heap.obj
  simp only
  split
  · rename_i s w o0 ho
    rw [ho]
    simp
  · rename_i hn
    constructor
    · intro hh
      cases hh
    · rintro ⟨⟨s, w, k⟩, hb, hk⟩
      simp only at hk
      subst hk
      exact absurd hb (hn s w o)

theorem released_record (h : Heap T) (e : Event) (b : Addr) :
    (h.record e).released b = h.released b + (if e = Event.useDeleter b then 1 else 0) := by
  unfold Heap.released Heap.record
  simp only [List.count_append, List.count_singleton]
  by_cases he : e = Event.useDeleter b
  · simp [he]
  · have he2 : ¬ (Event.useDeleter b = e) := fun hh => he hh.symm
    simp [he, he2]

theorem Wk.refl (h : Heap T) : Wk h h :=
  ⟨rfl, fun _ => rfl, fun _ => Or.inl rfl⟩

theorem Wk.trans {h h1 h2 : Heap T} (a : Wk h h1) (b : Wk h1 h2) : Wk h h2 := by
  obtain ⟨al, ar, av⟩ := a
  obtain ⟨bl, br, bv⟩ := b
  refine ⟨bl.trans al, fun c => (br c).trans (ar c), fun c => ?_⟩
  rcases bv c with hb | ⟨hb1, hb2⟩
  · rcases av c with ha | ⟨ha1, ha2⟩
    · exact Or.inl (hb.trans ha)
    · refine Or.inr ⟨?_, ha2⟩
      rw [ha1] at hb
      cases hc : h2.blocks[c]? with
      | none => rw [hc] at hb; simp [sv] at hb
      | some sl =>
        cases sl with
        | raw => rw [hc] at hb; simp [sv] at hb
        | freed => rfl
        | live blk => rw [hc] at hb; simp [sv] at hb
  · rcases av c with ha | ⟨ha1, _⟩
    · exact Or.inr ⟨hb1, ha ▸ hb2⟩
    · rw [ha1] at hb2
      simp [sv] at hb2

/-- A heap that differs only in the objects and in log entries other than `useDeleter`. -/
theorem wk_of_blocks_eq {h h1 : Heap T} (hb : h1.blocks = h.blocks)
    (hr : ∀ b, h1.released b = h.released b) : Wk h h1 :=
  ⟨by rw [hb], hr, fun c => Or.inl (by rw [hb])⟩

theorem wk_setBlock {h : Heap T} {b : Addr} {blk blk1 : ControlBlock T}
    (hblk : h.blocks[b]? = some (Slot.live blk)) (hs : blk1.shared_cnt = blk.shared_cnt) :
    Wk h (h.setBlock b blk1) := by
  refine ⟨by simp [Heap.setBlock], fun _ => rfl, fun c => Or.inl ?_⟩
  simp only [Heap.setBlock, List.getElem?_set]
  by_cases hc : b = c
  · subst hc
    simp [getElem?_lt_of_eq_some hblk, hblk, sv, hs]
  · simp [hc]

theorem wk_dealloc {h : Heap T} {b : Addr} {blk : ControlBlock T}
    (hblk : h.blocks[b]? = some (Slot.live blk)) (hs : blk.shared_cnt = 0) :
    Wk h (dealloc_this h b) := by
  refine ⟨by simp [dealloc_this], fun c => ?_, fun c => ?_⟩
  · simp [Heap.released, dealloc_this, List.count_append]
  · simp only [dealloc_this, List.getElem?_set]
    by_cases hc : b = c
    · subst hc
      refine Or.inr ?_
      simp [getElem?_lt_of_eq_some hblk, hblk, sv, hs]
    · simp [hc]

theorem wk_counted {h h1 : Heap T} {own : Addr → Int} (a : Wk h h1) (hc : Counted h own) :
    Counted h1 own := by
  obtain ⟨al, _, av⟩ := a
  refine ⟨fun c blk hblk => ?_, fun c hlen => hc.2 c (al ▸ hlen)⟩
  rcases av c with hv | ⟨hv, _⟩
  · rw [hblk] at hv
    cases hh : h.blocks[c]? with
    | none => rw [hh] at hv; simp [sv] at hv
    | some sl =>
      cases sl with
      | raw => rw [hh] at hv; simp [sv] at hv
      | freed => rw [hh] at hv; simp [sv] at hv
      | live blk0 =>
        rw [hh] at hv
        simp only [sv, SV.live.injEq] at hv
        rw [hv]
        exact hc.1 c blk0 hh
  · rw [hblk] at hv
    cases hv

theorem wk_rel {h h1 : Heap T} (a : Wk h h1) (hr : Rel h) : Rel h1 := by
  obtain ⟨_, ar, av⟩ := a
  intro b
  rw [ar b, hr b]
  rcases av b with hv | ⟨hv1, hv2⟩
  · rw [hv]
  · rw [hv1, hv2]
    simp [sv, SV.rel]

theorem wk_increment_weak_cnt {h h1 : Heap T} {cb : Option Addr}
    (hok : increment_weak_cnt h cb = Except.ok h1) : Wk h h1 := by
  obtain ⟨b, blk, hb, _, rfl⟩ := increment_weak_cnt_ok hok
  rw [block_ok_iff] at hb
  exact wk_setBlock hb.2 rfl

theorem wk_decrement_weak_cnt {h h1 : Heap T} {cb : Option Addr}
    (hok : decrement_weak_cnt h cb = Except.ok h1) : Wk h h1 := by
  unfold decrement_weak_cnt at hok
  simp only [bind_ok_iff] at hok
  obtain ⟨⟨b, blk⟩, hb, hok⟩ := hok
  rw [block_ok_iff] at hb
  have hw : Wk h (h.setBlock b { blk with weak_cnt := blk.weak_cnt - 1 }) := wk_setBlock hb.2 rfl
  simp only at hok
  split at hok
  · rename_i hz
    rw [pure_ok_iff] at hok
    subst hok
    have hb2 : (h.setBlock b { blk with weak_cnt := blk.weak_cnt - 1 }).blocks[b]?
        = some (Slot.live { blk with weak_cnt := blk.weak_cnt - 1 }) := by
      simp [Heap.setBlock, getElem?_lt_of_eq_some hb.2]
    exact hw.trans (wk_dealloc hb2 hz.1)
  · rw [pure_ok_iff] at hok
    subst hok
    exact hw

theorem wk_weak_destroy {h h1 : Heap T} {w : WeakPtr}
    (hok : WeakPtr.destroy h w = Except.ok h1) : Wk h h1 := by
  unfold WeakPtr.destroy at hok
  split at hok
  · rw [pure_ok_iff] at hok
    subst hok
    exact Wk.refl h
  · exact wk_decrement_weak_cnt hok

theorem wk_obj_destroy {h h1 : Heap T} {o : Obj T}
    (hok : Obj.destroy h o = Except.ok h1) : Wk h h1 := by
  unfold Obj.destroy at hok
  split at hok
  · rw [pure_ok_iff] at hok
    subst hok
    exact Wk.refl h
  · exact wk_weak_destroy hok

theorem wk_deletePtr {h h1 : Heap T} {p : Ptr}
    (hok : deletePtr h p = Except.ok h1) : Wk h h1 := by
  unfold deletePtr at hok
  split at hok
  · rw [pure_ok_iff] at hok
    subst hok
    exact Wk.refl h
  · split at hok
    · have hd := wk_obj_destroy hok
      refine Wk.trans ?_ hd
      refine wk_of_blocks_eq rfl fun b => ?_
      simp [Heap.released, List.count_append]
    · cases hok
  · cases hok

theorem wk_callDeleter {h h1 : Heap T} {d : Deleter} {p : Ptr}
    (hok : callDeleter h d p = Except.ok h1) : Wk h h1 := by
  unfold callDeleter at hok
  have hrec : Wk h (h.record (Event.deleterCall d p)) :=
    wk_of_blocks_eq rfl fun b => by
      rw [released_record]
      simp
  cases d with
  | default_delete => exact hrec.trans (wk_deletePtr hok)
  | custom id deletes =>
    simp only at hok
    split at hok
    · exact hrec.trans (wk_deletePtr hok)
    · rw [pure_ok_iff] at hok
      subst hok
      exact hrec

theorem wk_useDeleter {h h1 : Heap T} {b : Addr}
    (hok : useDeleter h b = Except.ok h1) : Wk (h.record (Event.useDeleter b)) h1 := by
  unfold useDeleter at hok
  simp only [bind_ok_iff] at hok
  obtain ⟨⟨c, blk⟩, hb, hok⟩ := hok
  rw [block_ok_iff] at hb
  obtain ⟨hcb, hblk⟩ := hb
  simp only [Option.some.injEq] at hcb
  subst hcb
  simp only at hok
  split at hok
  · exact wk_callDeleter hok
  · rename_i o _
    have hd := wk_obj_destroy hok
    refine Wk.trans ?_ hd
    have hblk1 : (h.record (Event.useDeleter b)).blocks[b]? = some (Slot.live blk) := hblk
    have h1 : Wk (h.record (Event.useDeleter b))
        ((h.record (Event.useDeleter b)).setBlock b { blk with kind := BlockKind.makeShared none }) :=
      wk_setBlock hblk1 rfl
    refine h1.trans (wk_of_blocks_eq rfl fun c => ?_)
    rw [released_record]
    simp
  · cases hok

theorem counted_congr {h : Heap T} {own own1 : Addr → Int} (he : ∀ c, own1 c = own c)
    (hc : Counted h own) : Counted h own1 :=
  ⟨fun c blk hblk => (hc.1 c blk hblk).trans (he c).symm, fun c hl => (he c).trans (hc.2 c hl)⟩

theorem counted_setBlock {h : Heap T} {own : Addr → Int} {b : Addr} {blk blk1 : ControlBlock T}
    (hc : Counted h own) (hblk : h.blocks[b]? = some (Slot.live blk)) (d : Int)
    (hs : blk1.shared_cnt = blk.shared_cnt + d) :
    Counted (h.setBlock b blk1) (fun c => own c + d * ind (some b) c) := by
  have hlt := getElem?_lt_of_eq_some hblk
  refine ⟨fun c blk2 hblk2 => ?_, fun c hl => ?_⟩
  · simp only [Heap.setBlock, List.getElem?_set] at hblk2
    by_cases hbc : b = c
    · subst hbc
      simp only [hlt, if_true, Option.some.injEq, Slot.live.injEq] at hblk2
      subst hblk2
      simp [ind, hs, hc.1 b blk hblk]
    · simp only [hbc, if_false] at hblk2
      have hne : ¬ (some b = some c) := by simpa using hbc
      simp [ind, hne, hc.1 c blk2 hblk2]
  · simp only [Heap.setBlock, List.length_set] at hl
    have hbc0 : b ≠ c := Nat.ne_of_lt (Nat.lt_of_lt_of_le hlt hl)
    have hbc : ¬ (some b = some c) := by simpa using hbc0
    simp [ind, hbc, hc.2 c hl]

theorem rel_setBlock_pos {h : Heap T} {b : Addr} {blk blk1 : ControlBlock T}
    (hr : Rel h) (hblk : h.blocks[b]? = some (Slot.live blk))
    (h0 : 0 < blk.shared_cnt) (h1 : 0 < blk1.shared_cnt) : Rel (h.setBlock b blk1) := by
  have hlt := getElem?_lt_of_eq_some hblk
  intro c
  have hrc := hr c
  simp only [Heap.setBlock, List.getElem?_set]
  by_cases hbc : b = c
  · subst hbc
    rw [hblk] at hrc
    simp only [sv, SV.rel, h0, if_true] at hrc
    simp only [hlt, if_true, sv, SV.rel, h1]
    exact hrc
  · simp only [hbc, if_false]
    exact hrc

theorem increment_shared_cnt_spec {h h1 : Heap T} {own : Addr → Int} {cb : Option Addr}
    (hc : Counted h own) (hok : increment_shared_cnt h cb = Except.ok h1) :
    ∃ b, cb = some b ∧ Counted h1 (fun c => own c + ind cb c) ∧
      (Rel h → 0 < own b → Rel h1) := by
  obtain ⟨b, blk, hb, _, rfl⟩ := increment_shared_cnt_ok hok
  rw [block_ok_iff] at hb
  obtain ⟨rfl, hblk⟩ := hb
  refine ⟨b, rfl, ?_, fun hr hpos => ?_⟩
  · refine counted_congr (fun c => ?_) (counted_setBlock hc hblk 1 rfl)
    simp
  · have hs := hc.1 b blk hblk
    refine rel_setBlock_pos hr hblk (by omega) ?_
    simp only
    omega

theorem decrement_shared_cnt_spec {h h1 : Heap T} {own : Addr → Int} {b : Addr}
    (hc : Counted h own) (hok : decrement_shared_cnt h (some b) = Except.ok h1) :
    Counted h1 (fun c => own c - ind (some b) c) ∧ (Rel h → 1 ≤ own b → Rel h1) := by
  unfold decrement_shared_cnt at hok
  simp only [bind_ok_iff] at hok
  obtain ⟨⟨c, blk⟩, hb, hok⟩ := hok
  rw [block_ok_iff] at hb
  obtain ⟨hcb, hblk⟩ := hb
  simp only [Option.some.injEq] at hcb
  subst hcb
  have hlt := getElem?_lt_of_eq_some hblk
  have hs := hc.1 b blk hblk
  have hc0 : Counted (h.setBlock b { blk with shared_cnt := blk.shared_cnt - 1 })
      (fun c => own c - ind (some b) c) := by
    refine counted_congr (fun c => ?_) (counted_setBlock hc hblk (-1) (Int.sub_eq_add_neg ..))
    show own c - ind (some b) c = own c + -1 * ind (some b) c
    omega
  simp only at hok
  split at hok
  · rename_i hz
    simp only [bind_ok_iff] at hok
    obtain ⟨h2, hdel, ⟨c2, blk2⟩, hb2, hok⟩ := hok
    rw [block_ok_iff] at hb2
    obtain ⟨hcb2, hblk2⟩ := hb2
    simp only [Option.some.injEq] at hcb2
    subst hcb2
    have hwk := wk_useDeleter hdel
    have hc1 : Counted ((h.setBlock b { blk with shared_cnt := blk.shared_cnt - 1 }).record
        (Event.useDeleter b)) (fun c => own c - ind (some b) c) := hc0
    have hc2 := wk_counted hwk hc1
    have hs2 := hc2.1 b blk2 hblk2
    have hs20 : blk2.shared_cnt = 0 := by
      rw [hs2]
      simp only [ind, if_true]
      omega
    have hrel1 : Rel h → Rel ((h.setBlock b { blk with shared_cnt := blk.shared_cnt - 1 }).record
        (Event.useDeleter b)) := by
      intro hr c
      rw [released_record]
      have hrc := hr c
      show Heap.released h c + _ = _
      simp only [Heap.record, Heap.setBlock, List.getElem?_set]
      by_cases hbc : b = c
      · subst hbc
        rw [hblk] at hrc
        have hpos : 0 < blk.shared_cnt := by omega
        simp only [sv, SV.rel, hpos, if_true] at hrc
        simp [hlt, sv, SV.rel, hrc, hz]
      · have hne : ¬ (Event.useDeleter b = Event.useDeleter c) := by simpa using hbc
        simp only [hbc, if_false, hne, Nat.add_zero]
        exact hrc
    simp only at hok
    split at hok
    · rw [pure_ok_iff] at hok
      subst hok
      have hwd := wk_dealloc hblk2 hs20
      exact ⟨wk_counted hwd hc2, fun hr _ => wk_rel hwd (wk_rel hwk (hrel1 hr))⟩
    · rw [pure_ok_iff] at hok
      subst hok
      exact ⟨hc2, fun hr _ => wk_rel hwk (hrel1 hr)⟩
  · rename_i hz
    rw [pure_ok_iff] at hok
    subst hok
    refine ⟨hc0, fun hr hpos => ?_⟩
    refine rel_setBlock_pos hr hblk (by omega) ?_
    simp only
    omega

theorem decrement_shared_cnt_released {h h1 : Heap T} {b : Addr} {blk : ControlBlock T}
    (hblk : h.blocks[b]? = some (Slot.live blk))
    (hok : decrement_shared_cnt h (some b) = Except.ok h1) (c : Addr) :
    h1.released c = h.released c + (if c = b ∧ blk.shared_cnt = 1 then 1 else 0) := by
  unfold decrement_shared_cnt at hok
  simp only [bind_ok_iff] at hok
  obtain ⟨⟨b0, blk0⟩, hb, hok⟩ := hok
  rw [block_ok_iff] at hb
  obtain ⟨hcb, hblk0⟩ := hb
  simp only [Option.some.injEq] at hcb
  subst hcb
  rw [hblk] at hblk0
  simp only [Option.some.injEq, Slot.live.injEq] at hblk0
  subst hblk0
  simp only at hok
  split at hok
  · rename_i hz
    have hone : blk.shared_cnt = 1 := by omega
    simp only [bind_ok_iff] at hok
    obtain ⟨h2, hdel, ⟨c2, blk2⟩, _, hok⟩ := hok
    have hwk := wk_useDeleter hdel
    have h2r : h2.released c = h.released c + (if c = b ∧ blk.shared_cnt = 1 then 1 else 0) := by
      rw [hwk.2.1 c, released_record]
      show h.released c + _ = _
      by_cases hcb : c = b
      · subst hcb
        simp [hone]
      · have hne : ¬ (Event.useDeleter b = Event.useDeleter c) := by
          simp only [Event.useDeleter.injEq]
          exact fun hh => hcb hh.symm
        simp [hcb, hne]
    simp only at hok
    split at hok
    · rw [pure_ok_iff] at hok
      subst hok
      rw [← h2r]
      simp [Heap.released, dealloc_this, List.count_append]
    · rw [pure_ok_iff] at hok
      subst hok
      exact h2r
  · rename_i hz
    rw [pure_ok_iff] at hok
    subst hok
    have hne : ¬ blk.shared_cnt = 1 := by omega
    simp only [hne, and_false, if_false, Nat.add_zero]
    rfl

/-! ## Lemmas on the handle operations -/

theorem ind_none (c : Addr) : ind none c = 0 := by
  simp [ind]

theorem shared_destroy_spec {h h1 : Heap T} {own : Addr → Int} {s : SharedPtr}
    (hc : Counted h own) (hok : s.destroy h = Except.ok h1) :
    Counted h1 (fun c => own c - ind s.cb c) ∧
      (Rel h → (∀ b, s.cb = some b → 1 ≤ own b) → Rel h1) := by
  unfold SharedPtr.destroy at hok
  split at hok
  · rename_i hcb
    rw [pure_ok_iff] at hok
    subst hok
    refine ⟨counted_congr (fun c => ?_) hc, fun hr _ => hr⟩
    simp [hcb, ind_none]
  · rename_i b hcb
    have hd := decrement_shared_cnt_spec hc hok
    rw [hcb]
    exact ⟨hd.1, fun hr hp => hd.2 hr (hp b rfl)⟩

theorem shared_copy_spec {h h1 : Heap T} {own : Addr → Int} {other s : SharedPtr}
    (hc : Counted h own) (hok : SharedPtr.copy h other = Except.ok (h1, s)) :
    s = { ptr := other.ptr, cb := other.cb } ∧
      Counted h1 (fun c => own c + ind other.cb c) ∧
      (Rel h → (∀ b, other.cb = some b → 0 < own b) → Rel h1) := by
  unfold SharedPtr.copy at hok
  split at hok
  · rename_i hcb
    simp only [pure_ok_iff, Prod.mk.injEq] at hok
    obtain ⟨rfl, rfl⟩ := hok
    refine ⟨by rw [hcb], counted_congr (fun c => ?_) hc, fun hr _ => hr⟩
    simp [hcb, ind_none]
  · rename_i b hcb
    simp only [bind_ok_iff, pure_ok_iff, Prod.mk.injEq] at hok
    obtain ⟨h2, hinc, rfl, rfl⟩ := hok
    obtain ⟨b2, hb2, hcnt, hrel⟩ := increment_shared_cnt_spec hc hinc
    simp only [Option.some.injEq] at hb2
    subst hb2
    rw [hcb]
    exact ⟨rfl, hcnt, fun hr hp => hrel hr (hp b rfl)⟩

theorem shared_convCopy_spec {h h1 : Heap T} {own : Addr → Int} {other s : SharedPtr}
    (hc : Counted h own) (hok : SharedPtr.convCopy h other = Except.ok (h1, s)) :
    s = { ptr := other.ptr, cb := other.cb } ∧
      Counted h1 (fun c => own c + ind other.cb c) ∧
      (Rel h → (∀ b, other.cb = some b → 0 < own b) → Rel h1) := by
  unfold SharedPtr.convCopy at hok
  simp only [bind_ok_iff, pure_ok_iff, Prod.mk.injEq] at hok
  obtain ⟨h2, hinc, rfl, rfl⟩ := hok
  obtain ⟨b, hb, hcnt, hrel⟩ := increment_shared_cnt_spec hc hinc
  exact ⟨rfl, hcnt, fun hr hp => hrel hr (hp b hb)⟩

theorem shared_ofWeak_spec {h h1 : Heap T} {own : Addr → Int} {w : WeakPtr} {s : SharedPtr}
    (hc : Counted h own) (hok : SharedPtr.ofWeak h w = Except.ok (h1, s)) :
    s = { ptr := w.ptr, cb := w.cb } ∧
      Counted h1 (fun c => own c + ind w.cb c) ∧
      (Rel h → (∀ b, w.cb = some b → 0 < own b) → Rel h1) := by
  unfold SharedPtr.ofWeak at hok
  simp only [bind_ok_iff, pure_ok_iff, Prod.mk.injEq] at hok
  obtain ⟨h2, hinc, rfl, rfl⟩ := hok
  obtain ⟨b, hb, hcnt, hrel⟩ := increment_shared_cnt_spec hc hinc
  exact ⟨rfl, hcnt, fun hr hp => hrel hr (hp b hb)⟩

theorem shared_reset_spec {h h1 : Heap T} {own : Addr → Int} {this this1 : SharedPtr}
    (hc : Counted h own) (hok : SharedPtr.reset h this = Except.ok (h1, this1)) :
    this1 = {} ∧ Counted h1 (fun c => own c - ind this.cb c) ∧
      (Rel h → (∀ b, this.cb = some b → 1 ≤ own b) → Rel h1) := by
  unfold SharedPtr.reset at hok
  simp only [SharedPtr.swap, bind_ok_iff, pure_ok_iff, Prod.mk.injEq] at hok
  obtain ⟨h2, hd, rfl, rfl⟩ := hok
  have hs := shared_destroy_spec hc hd
  exact ⟨rfl, hs.1, hs.2⟩

theorem shared_convMove_spec {h h1 : Heap T} {own : Addr → Int} {other s other1 : SharedPtr}
    (hc : Counted h own) (hok : SharedPtr.convMove h other = Except.ok (h1, s, other1)) :
    s = { ptr := other.ptr, cb := other.cb } ∧ other1 = {} ∧ Counted h1 own ∧
      (Rel h → (∀ b, other.cb = some b → 0 < own b) → Rel h1) := by
  unfold SharedPtr.convMove at hok
  simp only [bind_ok_iff, pure_ok_iff, Prod.mk.injEq] at hok
  obtain ⟨h2, hinc, ⟨h3, o3⟩, hres, rfl, rfl, rfl⟩ := hok
  obtain ⟨b, hb, hcnt, hrel⟩ := increment_shared_cnt_spec hc hinc
  obtain ⟨ho, hcnt3, hrel3⟩ := shared_reset_spec hcnt hres
  refine ⟨rfl, ho, counted_congr (fun c => ?_) hcnt3, fun hr hp => ?_⟩
  · show own c = own c + ind other.cb c - ind other.cb c
    omega
  · refine hrel3 (hrel hr (hp b hb)) fun b2 hb2 => ?_
    have hpos := hp b2 hb2
    have hi : ind other.cb b2 = 1 := by simp [ind, hb2]
    show 1 ≤ own b2 + ind other.cb b2
    omega

theorem weak_lock_spec {h h1 : Heap T} {own : Addr → Int} {w : WeakPtr} {s : SharedPtr}
    (hc : Counted h own) (hok : WeakPtr.lock h w = Except.ok (h1, s)) :
    Counted h1 (fun c => own c + ind s.cb c) ∧ (Rel h → (∀ c, 0 ≤ own c) → Rel h1) := by
  unfold WeakPtr.lock at hok
  simp only [bind_ok_iff] at hok
  obtain ⟨e, he, hok⟩ := hok
  cases e with
  | true =>
    simp only [Bool.not_true, Bool.false_eq_true, if_false, pure_ok_iff, Prod.mk.injEq] at hok
    obtain ⟨rfl, rfl⟩ := hok
    refine ⟨counted_congr (fun c => ?_) hc, fun hr _ => hr⟩
    simp [ind_none]
  | false =>
    simp only [Bool.not_false, if_true] at hok
    obtain ⟨hs, hcnt, hrel⟩ := shared_ofWeak_spec hc hok
    subst hs
    refine ⟨hcnt, fun hr hnn => hrel hr fun b hb => ?_⟩
    unfold WeakPtr.expired at he
    rw [hb] at he
    simp only [get_shared_cnt, bind_ok_iff, pure_ok_iff, decide_eq_false_iff_not] at he
    obtain ⟨n, ⟨⟨b2, blk⟩, hblk, hn⟩, hne⟩ := he
    rw [block_ok_iff] at hblk
    obtain ⟨hb2, hblk⟩ := hblk
    simp only [Option.some.injEq] at hb2
    subst hb2
    simp only at hn
    have hsc := hc.1 b blk hblk
    have h0 := hnn b
    omega

theorem wk_weak_ofShared {h h1 : Heap T} {s : SharedPtr} {w : WeakPtr}
    (hok : WeakPtr.ofShared h s = Except.ok (h1, w)) : Wk h h1 := by
  unfold WeakPtr.ofShared at hok
  simp only [bind_ok_iff, pure_ok_iff, Prod.mk.injEq] at hok
  obtain ⟨h2, hinc, rfl, _⟩ := hok
  exact wk_increment_weak_cnt hinc

theorem wk_weak_copy {h h1 : Heap T} {other w : WeakPtr}
    (hok : WeakPtr.copy h other = Except.ok (h1, w)) : Wk h h1 := by
  unfold WeakPtr.copy at hok
  simp only [bind_ok_iff, pure_ok_iff, Prod.mk.injEq] at hok
  obtain ⟨h2, hinc, rfl, _⟩ := hok
  exact wk_increment_weak_cnt hinc

theorem wk_weak_assignShared {h h1 : Heap T} {this w : WeakPtr} {s : SharedPtr}
    (hok : WeakPtr.assignShared h this s = Except.ok (h1, w)) : Wk h h1 := by
  unfold WeakPtr.assignShared at hok
  simp only [bind_ok_iff, pure_ok_iff, Prod.mk.injEq] at hok
  obtain ⟨⟨h2, t⟩, hof, h3, hd, rfl, _⟩ := hok
  exact (wk_weak_ofShared hof).trans (wk_weak_destroy hd)

theorem wk_setObj {h : Heap T} (p : Ptr) (o : Obj T) : Wk h (h.setObj p o) := by
  unfold Heap.setObj
  split
  · exact Wk.refl h
  · exact wk_of_blocks_eq rfl fun _ => rfl
  · split
    · rename_i blk hblk
      exact wk_setBlock hblk rfl
    · exact Wk.refl h

theorem wk_wireSelf {h h1 : Heap T} {p : Ptr} {s : SharedPtr}
    (hok : wireSelf h p s = Except.ok h1) : Wk h h1 := by
  unfold wireSelf at hok
  simp only [bind_ok_iff] at hok
  obtain ⟨o, _, hok⟩ := hok
  split at hok
  · cases hok
  · simp only [bind_ok_iff, pure_ok_iff] at hok
    obtain ⟨⟨h2, w⟩, ha, o1, _, rfl⟩ := hok
    exact (wk_weak_assignShared ha).trans (wk_setObj p _)

/-! ## Lemmas on the factories -/

theorem set_append_last {α : Type} (l : List α) (a b : α) :
    (l ++ [a]).set l.length b = l ++ [b] := by
  rw [List.set_append_right _ _ (Nat.le_refl _)]
  simp

/-- Closed form of `allocateShared` for a constructor that computes a value and
default-initialises the base: it is defined, and the constructor leaves the heap alone. -/
theorem allocateShared_construct {A : Type} (h : Heap T) (allocOk : Bool) (ctor : A → Option T)
    (esft : Bool) (args : A) :
    allocateShared h allocOk (Obj.construct ctor esft) args
      = Except.ok
          (match allocate h allocOk with
            | (h1, Except.error e) => (h1, Except.error e)
            | (h1, Except.ok new_block) =>
              match ctor args with
              | none => (h1, Except.error Exn.ctorThrew)
              | some v =>
                (h1.setBlock new_block
                    { shared_cnt := 1, weak_cnt := 0,
                      kind := BlockKind.makeShared
                        (some { value := v, base := if esft then some {} else none }) },
                  Except.ok (SharedPtr.ofMakeShared new_block))) := by
  unfold allocateShared allocate Obj.construct
  cases allocOk with
  | false => rfl
  | true =>
    cases ctor args with
    | none => rfl
    | some v => rfl

theorem alloc_raw {h h1 : Heap T} {own : Addr → Int} (hb : h1.blocks = h.blocks ++ [Slot.raw])
    (hr : ∀ b, h1.released b = h.released b) (hc : Counted h own) :
    Counted h1 own ∧ (Rel h → Rel h1) := by
  refine ⟨⟨fun c blk hblk => ?_, fun c hl => ?_⟩, fun hrel c => ?_⟩
  · rw [hb, List.getElem?_append] at hblk
    split at hblk
    · exact hc.1 c blk hblk
    · rename_i hlt
      cases hcl : c - h.blocks.length with
      | zero => rw [hcl] at hblk; simp at hblk
      | succ n => rw [hcl] at hblk; simp at hblk
  · rw [hb, List.length_append] at hl
    exact hc.2 c (by omega)
  · rw [hr c, hrel c, hb, List.getElem?_append]
    split
    · rfl
    · rename_i hlt
      rw [List.getElem?_eq_none (Nat.le_of_not_lt hlt)]
      cases hcl : c - h.blocks.length with
      | zero => simp [sv, SV.rel]
      | succ n => simp [sv, SV.rel]

theorem alloc_live {h h1 : Heap T} {own : Addr → Int} {blk : ControlBlock T}
    (hb : h1.blocks = h.blocks ++ [Slot.live blk]) (hs : blk.shared_cnt = 1)
    (hr : ∀ b, h1.released b = h.released b) (hc : Counted h own) :
    Counted h1 (fun c => own c + ind (some h.blocks.length) c) ∧ (Rel h → Rel h1) := by
  refine ⟨⟨fun c blk2 hblk => ?_, fun c hl => ?_⟩, fun hrel c => ?_⟩
  · rw [hb, List.getElem?_append] at hblk
    split at hblk
    · rename_i hlt
      have hne : ¬ (some h.blocks.length = some c) := by
        simp only [Option.some.injEq]
        exact fun hh => Nat.lt_irrefl _ (hh ▸ hlt)
      simp [ind, hne, hc.1 c blk2 hblk]
    · rename_i hlt
      cases hcl : c - h.blocks.length with
      | zero =>
        rw [hcl] at hblk
        simp only [List.getElem?_cons_zero, Option.some.injEq, Slot.live.injEq] at hblk
        subst hblk
        have hceq : c = h.blocks.length :=
          Nat.le_antisymm (Nat.sub_eq_zero_iff_le.1 hcl) (Nat.le_of_not_lt hlt)
        subst hceq
        simp [ind, hs, hc.2 _ (Nat.le_refl _)]
      | succ n => rw [hcl] at hblk; simp at hblk
  · rw [hb, List.length_append] at hl
    simp only [List.length_singleton] at hl
    have hne : ¬ (some h.blocks.length = some c) := by
      simp only [Option.some.injEq]
      exact fun hh => by omega
    simp [ind, hne, hc.2 c (by omega)]
  · rw [hr c, hrel c, hb, List.getElem?_append]
    split
    · rfl
    · rename_i hlt
      rw [List.getElem?_eq_none (Nat.le_of_not_lt hlt)]
      cases hcl : c - h.blocks.length with
      | zero => simp [sv, SV.rel, hs]
      | succ n => simp [sv, SV.rel]

theorem released_alloc (h : Heap T) (bl : List (Slot T)) (a : Addr) (b : Addr) :
    Heap.released { h with blocks := bl, log := h.log ++ [Event.allocate a] } b
      = h.released b := by
  simp [Heap.released, List.count_append]

theorem alloc_construct (h : Heap T) {own : Addr → Int} (blk : ControlBlock T)
    (hs : blk.shared_cnt = 1) (hc : Counted h own) :
    Counted (Heap.setBlock { h with blocks := h.blocks ++ [Slot.raw],
                                    log := h.log ++ [Event.allocate h.blocks.length] }
        h.blocks.length blk)
      (fun c => own c + ind (some h.blocks.length) c) ∧
    (Rel h → Rel (Heap.setBlock { h with blocks := h.blocks ++ [Slot.raw],
                                         log := h.log ++ [Event.allocate h.blocks.length] }
        h.blocks.length blk)) := by
  have hb : (Heap.setBlock { h with blocks := h.blocks ++ [Slot.raw],
                                    log := h.log ++ [Event.allocate h.blocks.length] }
        h.blocks.length blk).blocks = h.blocks ++ [Slot.live blk] := by
    simp only [Heap.setBlock, set_append_last]
  exact alloc_live hb hs (released_alloc h _ _) hc

theorem allocateShared_spec {A : Type} {h h1 : Heap T} {own : Addr → Int} {allocOk esft : Bool}
    {ctor : A → Option T} {args : A} {r : Except Exn SharedPtr}
    (hc : Counted h own)
    (hok : allocateShared h allocOk (Obj.construct ctor esft) args = Except.ok (h1, r)) :
    (∀ s, r = Except.ok s → Counted h1 (fun c => own c + ind s.cb c) ∧ (Rel h → Rel h1)) ∧
    (∀ e, r = Except.error e → Counted h1 own ∧ (Rel h → Rel h1)) := by
  rw [allocateShared_construct] at hok
  simp only [Except.ok.injEq] at hok
  unfold allocate at hok
  cases allocOk with
  | false =>
    simp only [Bool.false_eq_true, if_false, Prod.mk.injEq] at hok
    obtain ⟨rfl, rfl⟩ := hok
    exact ⟨fun s hs => (by cases hs), fun e _ => ⟨hc, fun hr => hr⟩⟩
  | true =>
    simp only [if_true] at hok
    cases hct : ctor args with
    | none =>
      simp only [hct, Prod.mk.injEq] at hok
      obtain ⟨rfl, rfl⟩ := hok
      exact ⟨fun s hs => (by cases hs), fun e _ => alloc_raw rfl (released_alloc h _ _) hc⟩
    | some v =>
      simp only [hct, Prod.mk.injEq] at hok
      obtain ⟨rfl, rfl⟩ := hok
      refine ⟨fun s hs => ?_, fun e he => by cases he⟩
      simp only [Except.ok.injEq] at hs
      subst hs
      exact alloc_construct h _ rfl hc

/-! ## The factories with any constructor -/

/-- Closed form of `allocateShared` when the allocator has storage and the constructor
returns an object. -/
theorem allocateShared_ok {A : Type} (h : Heap T) (ctor : Constructor T A) (args : A)
    {h2 : Heap T} {o : Obj T} (hctor : ctor (allocate h true).1 args = Except.ok (h2, some o)) :
    allocateShared h true ctor args
      = Except.ok (h2.setBlock h.blocks.length
            { shared_cnt := 1, weak_cnt := 0, kind := BlockKind.makeShared (some o) },
          Except.ok { ptr := Ptr.inl h.blocks.length, cb := some h.blocks.length }) := by
  have hc2 : ctor { h with blocks := h.blocks ++ [Slot.raw],
                           log := h.log ++ [Event.allocate h.blocks.length] } args
      = Except.ok (h2, some o) := hctor
  simp [allocateShared, allocate, hc2, bind, Except.bind, pure, Except.pure,
    SharedPtr.ofMakeShared]

/-- The allocation leaves every object readable as before. -/
theorem allocate_obj {h : Heap T} {p : Ptr} {o : Obj T} (ho : h.obj p = Except.ok o) :
    (allocate h true).1.obj p = Except.ok o := by
  cases p with
  | null => cases ho
  | ext a =>
    rw [obj_ext_ok] at ho ⊢
    exact ho
  | inl c =>
    rw [obj_inl_ok] at ho ⊢
    obtain ⟨blk, hb, hk⟩ := ho
    refine ⟨blk, ?_, hk⟩
    show (h.blocks ++ [Slot.raw])[c]? = some (Slot.live blk)
    rw [List.getElem?_append_left (getElem?_lt_of_eq_some hb)]
    exact hb

/-- The allocation leaves every block as before. -/
theorem allocate_block {h : Heap T} {c : Addr} {t : Slot T} (hb : h.blocks[c]? = some t) :
    (allocate h true).1.blocks[c]? = some t := by
  show (h.blocks ++ [Slot.raw])[c]? = some t
  rw [List.getElem?_append_left (getElem?_lt_of_eq_some hb)]
  exact hb

/-- The copy constructor of an object without the `EnableSharedFromThis` base. -/
theorem obj_copy_plain {h : Heap T} {p : Ptr} {o : Obj T} (ho : h.obj p = Except.ok o)
    (hbase : o.base = none) :
    Obj.copy h p = Except.ok (h, some { value := o.value, base := none }) := by
  simp [Obj.copy, ho, hbase, bind, Except.bind, pure, Except.pure]

/-- The copy constructor of an object whose `wptr` has the block at `c`: the new object holds
a copy of that `wptr`, one more observer of `c`. -/
theorem obj_copy_wired {h : Heap T} {p : Ptr} {o : Obj T} {e : EnableSharedFromThis} {c : Addr}
    {blk : ControlBlock T} (ho : h.obj p = Except.ok o) (hbase : o.base = some e)
    (hc : e.wptr.cb = some c) (hblk : h.blocks[c]? = some (Slot.live blk))
    (hlt : blk.weak_cnt < INT_MAX) :
    Obj.copy h p
      = Except.ok (h.setBlock c { blk with weak_cnt := blk.weak_cnt + 1 },
          some { value := o.value,
                 base := some { wptr := { cb := some c, ptr := e.wptr.ptr } } }) := by
  simp [Obj.copy, ho, hbase, EnableSharedFromThis.copy, WeakPtr.copy, hc,
    increment_weak_cnt_eq hblk hlt, bind, Except.bind, pure, Except.pure]

/-- The copy constructor of an object whose `wptr` has no block: `WeakPtr(const WeakPtr &)`
goes through the null `cb`. -/
theorem obj_copy_unwired {h : Heap T} {p : Ptr} {o : Obj T} {e : EnableSharedFromThis}
    (ho : h.obj p = Except.ok o) (hbase : o.base = some e) (hc : e.wptr.cb = none) :
    Obj.copy h p = Except.error Fault.nullDeref := by
  simp [Obj.copy, ho, hbase, EnableSharedFromThis.copy, WeakPtr.copy, hc, increment_weak_cnt,
    Heap.block, bind, Except.bind]

/-- What a run of the copy constructor that returns has done. -/
theorem obj_copy_ok {h g : Heap T} {p : Ptr} {r : Option (Obj T)}
    (hok : Obj.copy h p = Except.ok (g, r)) :
    ∃ o, h.obj p = Except.ok o ∧
      ((o.base = none ∧ g = h ∧ r = some { value := o.value, base := none }) ∨
       (∃ e, o.base = some e ∧
          WeakPtr.copy h e.wptr = Except.ok (g, { cb := e.wptr.cb, ptr := e.wptr.ptr }) ∧
          r = some { value := o.value,
                     base := some { wptr := { cb := e.wptr.cb, ptr := e.wptr.ptr } } })) := by
  unfold Obj.copy at hok
  simp only [bind_ok_iff] at hok
  obtain ⟨o, ho, hok⟩ := hok
  refine ⟨o, ho, ?_⟩
  cases hb : o.base with
  | none =>
    simp only [hb, pure_ok_iff, Prod.mk.injEq] at hok
    obtain ⟨rfl, rfl⟩ := hok
    exact Or.inl ⟨rfl, rfl, rfl⟩
  | some e =>
    simp only [hb, EnableSharedFromThis.copy, bind_ok_iff, pure_ok_iff, Prod.mk.injEq] at hok
    obtain ⟨⟨h1, e1⟩, ⟨⟨h2, w⟩, hcp, rfl, rfl⟩, rfl, rfl⟩ := hok
    have hw : w = { cb := e.wptr.cb, ptr := e.wptr.ptr } := by
      unfold WeakPtr.copy at hcp
      simp only [bind_ok_iff, pure_ok_iff, Prod.mk.injEq] at hcp
      obtain ⟨_, _, _, hw⟩ := hcp
      exact hw.symm
    subst hw
    exact Or.inr ⟨e, rfl, hcp, rfl⟩

/-- An object that can be read after the allocation of a fresh slot could be read before. -/
theorem allocate_obj_inv {h : Heap T} {p : Ptr} {o : Obj T}
    (ho : (allocate h true).1.obj p = Except.ok o) : h.obj p = Except.ok o := by
  cases p with
  | null => cases ho
  | ext a =>
    rw [obj_ext_ok] at ho ⊢
    exact ho
  | inl c =>
    rw [obj_inl_ok] at ho ⊢
    obtain ⟨blk, hb, hk⟩ := ho
    refine ⟨blk, ?_, hk⟩
    have hb2 : (h.blocks ++ [Slot.raw])[c]? = some (Slot.live blk) := hb
    rw [List.getElem?_append] at hb2
    split at hb2
    · exact hb2
    · cases hcl : c - h.blocks.length with
      | zero => rw [hcl] at hb2; simp at hb2
      | succ n => rw [hcl] at hb2; simp at hb2

/-- A block that exists after the allocation of a fresh slot existed before. -/
theorem allocate_block_inv {h : Heap T} {c : Addr} {blk : ControlBlock T}
    (hb : (allocate h true).1.blocks[c]? = some (Slot.live blk)) :
    h.blocks[c]? = some (Slot.live blk) := by
  have hb2 : (h.blocks ++ [Slot.raw])[c]? = some (Slot.live blk) := hb
  rw [List.getElem?_append] at hb2
  split at hb2
  · exact hb2
  · cases hcl : c - h.blocks.length with
    | zero => rw [hcl] at hb2; simp at hb2
    | succ n => rw [hcl] at hb2; simp at hb2

/-- The copy constructor does the same whether it runs before or after the allocation of a
fresh slot. -/
theorem obj_copy_allocate {h h2 : Heap T} {p : Ptr} {r : Option (Obj T)}
    (hok : Obj.copy (allocate h true).1 p = Except.ok (h2, r)) :
    ∃ g, Obj.copy h p = Except.ok (g, r) ∧ g.blocks.length = h.blocks.length ∧
      h2 = { g with blocks := g.blocks ++ [Slot.raw],
                    log := g.log ++ [Event.allocate g.blocks.length] } := by
  obtain ⟨o, ho, hcase⟩ := obj_copy_ok hok
  have ho0 : h.obj p = Except.ok o := allocate_obj_inv ho
  rcases hcase with ⟨hb, rfl, rfl⟩ | ⟨e, hb, hcp, rfl⟩
  · exact ⟨h, obj_copy_plain ho0 hb, rfl, rfl⟩
  · unfold WeakPtr.copy at hcp
    simp only [bind_ok_iff, pure_ok_iff, Prod.mk.injEq] at hcp
    obtain ⟨h3, hinc, rfl, _⟩ := hcp
    obtain ⟨b, blk, hblk, hlt, rfl⟩ := increment_weak_cnt_ok hinc
    rw [block_ok_iff] at hblk
    obtain ⟨hcb, hblk⟩ := hblk
    have hb0 : h.blocks[b]? = some (Slot.live blk) := allocate_block_inv hblk
    have hbl : b < h.blocks.length := getElem?_lt_of_eq_some hb0
    refine ⟨h.setBlock b { blk with weak_cnt := blk.weak_cnt + 1 }, ?_, ?_, ?_⟩
    · rw [obj_copy_wired ho0 hb hcb hb0 hlt, hcb]
    · simp [Heap.setBlock]
    · simp [Heap.setBlock, allocate, List.set_append_left _ _ hbl]

/-- What a run of `allocateShared` with the copy constructor that returns has done: nothing
when the allocator has no storage; otherwise the copy, then the new block in a fresh slot. -/
theorem allocateShared_copy {h h1 : Heap T} {allocOk : Bool} {p : Ptr}
    {r : Except Exn SharedPtr}
    (hok : allocateShared h allocOk Obj.copy p = Except.ok (h1, r)) :
    (h1 = h ∧ r = Except.error Exn.bad_alloc) ∨
    (∃ (g : Heap T) (o : Obj T), Obj.copy h p = Except.ok (g, some o) ∧
      h1 = Heap.setBlock { g with blocks := g.blocks ++ [Slot.raw],
                                  log := g.log ++ [Event.allocate g.blocks.length] }
              g.blocks.length
              { shared_cnt := 1, weak_cnt := 0, kind := BlockKind.makeShared (some o) } ∧
      r = Except.ok { ptr := Ptr.inl g.blocks.length, cb := some g.blocks.length }) := by
  cases allocOk with
  | false =>
    left
    simp only [allocateShared, allocate, Bool.false_eq_true, if_false, pure_ok_iff,
      Prod.mk.injEq] at hok
    exact ⟨hok.1.symm, hok.2.symm⟩
  | true =>
    right
    cases hc : Obj.copy (allocate h true).1 p with
    | error e =>
      have hc2 : Obj.copy { h with blocks := h.blocks ++ [Slot.raw],
                                   log := h.log ++ [Event.allocate h.blocks.length] } p
          = Except.error e := hc
      simp [allocateShared, allocate, hc2, bind, Except.bind] at hok
    | ok x =>
      obtain ⟨h2, r2⟩ := x
      obtain ⟨g, hg, hlen, rfl⟩ := obj_copy_allocate hc
      obtain ⟨o, _, hcase⟩ := obj_copy_ok hg
      have hr2 : ∃ o1, r2 = some o1 := by
        rcases hcase with ⟨_, _, hr⟩ | ⟨e, _, _, hr⟩
        · exact ⟨_, hr⟩
        · exact ⟨_, hr⟩
      obtain ⟨o1, rfl⟩ := hr2
      rw [allocateShared_ok h Obj.copy p hc] at hok
      simp only [Except.ok.injEq, Prod.mk.injEq] at hok
      obtain ⟨rfl, rfl⟩ := hok
      refine ⟨g, o1, hg, ?_, ?_⟩
      · rw [hlen]
      · rw [hlen]

/-- The copy constructor changes no `shared_cnt` and releases nothing. -/
theorem wk_obj_copy {h g : Heap T} {p : Ptr} {r : Option (Obj T)}
    (hok : Obj.copy h p = Except.ok (g, r)) : Wk h g := by
  obtain ⟨o, _, hcase⟩ := obj_copy_ok hok
  rcases hcase with ⟨_, rfl, _⟩ | ⟨e, _, hcp, _⟩
  · exact Wk.refl _
  · exact wk_weak_copy hcp

theorem allocateShared_copy_spec {h h1 : Heap T} {own : Addr → Int} {allocOk : Bool} {p : Ptr}
    {r : Except Exn SharedPtr}
    (hc : Counted h own) (hok : allocateShared h allocOk Obj.copy p = Except.ok (h1, r)) :
    (∀ s, r = Except.ok s → Counted h1 (fun c => own c + ind s.cb c) ∧ (Rel h → Rel h1)) ∧
    (∀ e, r = Except.error e → Counted h1 own ∧ (Rel h → Rel h1)) := by
  rcases allocateShared_copy hok with ⟨rfl, rfl⟩ | ⟨g, o, hcp, rfl, rfl⟩
  · exact ⟨fun s hs => (by cases hs), fun e _ => ⟨hc, fun hr => hr⟩⟩
  · have hwk := wk_obj_copy hcp
    refine ⟨fun s hs => ?_, fun e he => by cases he⟩
    simp only [Except.ok.injEq] at hs
    subst hs
    obtain ⟨h1c, h1r⟩ := alloc_construct g
      { shared_cnt := 1, weak_cnt := 0, kind := BlockKind.makeShared (some o) } rfl
      (wk_counted hwk hc)
    exact ⟨h1c, fun hr => h1r (wk_rel hwk hr)⟩

/-! ## The adopting constructors -/

theorem allocateRegular_spec {h h1 : Heap T} {own : Addr → Int} {allocOk : Bool} {p : Ptr}
    {d : Deleter} {r : Except Exn Addr}
    (hc : Counted h own) (hok : allocateRegular h allocOk p d = (h1, r)) :
    (∀ nb, r = Except.ok nb → Counted h1 (fun c => own c + ind (some nb) c) ∧ (Rel h → Rel h1)) ∧
    (∀ e, r = Except.error e → Counted h1 own ∧ (Rel h → Rel h1)) := by
  unfold allocateRegular allocate at hok
  cases allocOk with
  | false =>
    simp only [Bool.false_eq_true, if_false, Prod.mk.injEq] at hok
    obtain ⟨rfl, rfl⟩ := hok
    exact ⟨fun s hs => (by cases hs), fun e _ => ⟨hc, fun hr => hr⟩⟩
  | true =>
    simp only [if_true, Prod.mk.injEq] at hok
    obtain ⟨rfl, rfl⟩ := hok
    refine ⟨fun s hs => ?_, fun e he => by cases he⟩
    simp only [Except.ok.injEq] at hs
    subst hs
    exact alloc_construct h _ rfl hc

theorem shared_adopt_spec {h h1 : Heap T} {own : Addr → Int} {allocOk esft : Bool} {p : Ptr}
    {d : Deleter} {r : Except Exn SharedPtr}
    (hc : Counted h own) (hok : SharedPtr.adopt h allocOk esft p d = Except.ok (h1, r)) :
    (∀ s, r = Except.ok s → Counted h1 (fun c => own c + ind s.cb c) ∧ (Rel h → Rel h1)) ∧
    (∀ e, r = Except.error e → Counted h1 own ∧ (Rel h → Rel h1)) := by
  unfold SharedPtr.adopt at hok
  cases har : allocateRegular h allocOk p d with
  | mk h2 r2 =>
    have hspec := allocateRegular_spec hc har
    rw [har] at hok
    cases r2 with
    | error e =>
      simp only [pure_ok_iff, Prod.mk.injEq] at hok
      obtain ⟨rfl, rfl⟩ := hok
      exact ⟨fun s hs => (by cases hs), fun e2 _ => hspec.2 e rfl⟩
    | ok nb =>
      have hnb := hspec.1 nb rfl
      cases esft with
      | false =>
        simp only [Bool.false_eq_true, if_false, pure_ok_iff, Prod.mk.injEq] at hok
        obtain ⟨rfl, rfl⟩ := hok
        refine ⟨fun s hs => ?_, fun e he => by cases he⟩
        simp only [Except.ok.injEq] at hs
        subst hs
        exact hnb
      | true =>
        simp only [if_true, bind_ok_iff, pure_ok_iff, Prod.mk.injEq] at hok
        obtain ⟨h3, hw, rfl, rfl⟩ := hok
        have hwk := wk_wireSelf hw
        refine ⟨fun s hs => ?_, fun e he => by cases he⟩
        simp only [Except.ok.injEq] at hs
        subst hs
        exact ⟨wk_counted hwk hnb.1, fun hr => wk_rel hwk (hnb.2 hr)⟩

theorem shared_resetTo_spec {h h1 : Heap T} {own : Addr → Int} {allocOk esft : Bool} {p : Ptr}
    {this : SharedPtr} {r : Except Exn SharedPtr}
    (hc : Counted h own) (hok : SharedPtr.resetTo h allocOk esft this p = Except.ok (h1, r)) :
    (∀ s, r = Except.ok s →
      Counted h1 (fun c => own c + ind s.cb c - ind this.cb c) ∧
      (Rel h → (∀ b, this.cb = some b → 1 ≤ own b) → Rel h1)) ∧
    (∀ e, r = Except.error e → Counted h1 own ∧ (Rel h → Rel h1)) := by
  unfold SharedPtr.resetTo at hok
  simp only [bind_ok_iff] at hok
  obtain ⟨⟨h2, r2⟩, had, hok⟩ := hok
  have hspec := shared_adopt_spec hc had
  cases r2 with
  | error e =>
    simp only [pure_ok_iff, Prod.mk.injEq] at hok
    obtain ⟨rfl, rfl⟩ := hok
    exact ⟨fun s hs => (by cases hs), fun e2 _ => hspec.2 e rfl⟩
  | ok tmp =>
    simp only [SharedPtr.swap, bind_ok_iff, pure_ok_iff, Prod.mk.injEq] at hok
    obtain ⟨h3, hd, rfl, rfl⟩ := hok
    obtain ⟨hcnt, hrel⟩ := hspec.1 tmp rfl
    have hds := shared_destroy_spec hcnt hd
    refine ⟨fun s hs => ?_, fun e he => by cases he⟩
    simp only [Except.ok.injEq] at hs
    subst hs
    refine ⟨hds.1, fun hr hp => hds.2 (hrel hr) fun b hb => ?_⟩
    have h1 := hp b hb
    have h2 : 0 ≤ ind tmp.cb b := by
      unfold ind
      split <;> omega
    show 1 ≤ own b + ind tmp.cb b
    omega

/-! ## Lemmas on the handle tables -/

theorem holds_indO (b : Addr) (x : Option SharedPtr) :
    (if holds b x = true then (1 : Int) else 0) = indO x b := by
  cases x with
  | none => simp [holds, indO]
  | some s => simp [holds, indO, ind]

theorem owners_append (sps : List (Option SharedPtr)) (x : Option SharedPtr) (b : Addr) :
    (((sps ++ [x]).countP (holds b) : Nat) : Int) = (sps.countP (holds b) : Nat) + indO x b := by
  rw [List.countP_append, ← holds_indO]
  simp only [List.countP_cons, List.countP_nil, Nat.zero_add]
  split <;> simp

theorem owners_set {sps : List (Option SharedPtr)} {i : Nat} {x y : Option SharedPtr}
    (hi : sps[i]? = some y) (b : Addr) :
    (((sps.set i x).countP (holds b) : Nat) : Int)
      = (sps.countP (holds b) : Nat) - indO y b + indO x b := by
  induction sps generalizing i with
  | nil => simp at hi
  | cons a l ih =>
    cases i with
    | zero =>
      simp only [List.getElem?_cons_zero, Option.some.injEq] at hi
      subst hi
      simp only [List.set_cons_zero, List.countP_cons, Nat.cast_add, ← holds_indO]
      split <;> split <;> simp
    | succ n =>
      simp only [List.getElem?_cons_succ] at hi
      simp only [List.set_cons_succ, List.countP_cons, Nat.cast_add, ih hi]
      omega

theorem owners_pos {sps : List (Option SharedPtr)} {i : Nat} {s : SharedPtr} {b : Addr}
    (hi : sps[i]? = some (some s)) (hb : s.cb = some b) :
    (1 : Int) ≤ (sps.countP (holds b) : Nat) := by
  have hm := List.getElem?_mem hi
  have hp : 0 < sps.countP (holds b) :=
    List.countP_pos_iff.2 ⟨some s, hm, by simp [holds, hb]⟩
  omega

theorem sp_ok_iff (w : World T) (i : Nat) (s : SharedPtr) :
    w.sp i = Except.ok s ↔ w.sps[i]? = some (some s) := by
  unfold World.sp
  split
  · rename_i s0 hs
    rw [hs]
    simp
  · rename_i hs
    constructor
    · intro hh
      cases hh
    · intro hh
      exact absurd hh (hs s)

/-! ## One statement preserves the invariants -/

theorem wp_ok_iff (w : World T) (k : Nat) (x : WeakPtr) :
    w.wp k = Except.ok x ↔ w.wps[k]? = some (some x) := by
  unfold World.wp
  split
  · rename_i x0 hx
    rw [hx]
    simp
  · rename_i hx
    constructor
    · intro hh
      cases hh
    · intro hh
      exact absurd hh (hx x)

theorem ind_nonneg (cb : Option Addr) (b : Addr) : 0 ≤ ind cb b := by
  unfold ind
  split <;> omega

theorem ind_self {cb : Option Addr} {b : Addr} (h : cb = some b) : ind cb b = 1 := by
  simp [ind, h]

theorem step_sCopy {w w1 : World T} {j : Nat} (hinv : w.SharedInv)
    (hok : step w (Op.sCopy j) = Except.ok w1) :
    w1.SharedInv ∧ (Rel w.heap → Rel w1.heap) := by
  simp only [step, bind_ok_iff, pure_ok_iff, sp_ok_iff] at hok
  obtain ⟨other, hj, ⟨h1, s⟩, hcp, rfl⟩ := hok
  obtain ⟨rfl, hcnt, hrel⟩ := shared_copy_spec hinv hcp
  refine ⟨counted_congr (fun c => ?_) hcnt, fun hr => hrel hr fun b hb => ?_⟩
  · simp only [World.owners, owners_append, indO]
  · have := owners_pos hj hb
    show (0 : Int) < (w.sps.countP (holds b) : Nat)
    omega

theorem step_sConvCopy {w w1 : World T} {j : Nat} (hinv : w.SharedInv)
    (hok : step w (Op.sConvCopy j) = Except.ok w1) :
    w1.SharedInv ∧ (Rel w.heap → Rel w1.heap) := by
  simp only [step, bind_ok_iff, pure_ok_iff, sp_ok_iff] at hok
  obtain ⟨other, hj, ⟨h1, s⟩, hcp, rfl⟩ := hok
  obtain ⟨rfl, hcnt, hrel⟩ := shared_convCopy_spec hinv hcp
  refine ⟨counted_congr (fun c => ?_) hcnt, fun hr => hrel hr fun b hb => ?_⟩
  · simp only [World.owners, owners_append, indO]
  · have := owners_pos hj hb
    show (0 : Int) < (w.sps.countP (holds b) : Nat)
    omega

theorem step_sOfWeak {w w1 : World T} {k : Nat} (hinv : w.SharedInv)
    (hok : step w (Op.sOfWeak k) = Except.ok w1) : w1.SharedInv := by
  simp only [step, bind_ok_iff, pure_ok_iff, wp_ok_iff] at hok
  obtain ⟨x, _, ⟨h1, s⟩, hcp, rfl⟩ := hok
  obtain ⟨rfl, hcnt, _⟩ := shared_ofWeak_spec hinv hcp
  refine counted_congr (fun c => ?_) hcnt
  simp only [World.owners, owners_append, indO]

theorem step_wLock {w w1 : World T} {k : Nat} (hinv : w.SharedInv)
    (hok : step w (Op.wLock k) = Except.ok w1) :
    w1.SharedInv ∧ (Rel w.heap → Rel w1.heap) := by
  simp only [step, bind_ok_iff, pure_ok_iff, wp_ok_iff] at hok
  obtain ⟨x, _, ⟨h1, s⟩, hcp, rfl⟩ := hok
  obtain ⟨hcnt, hrel⟩ := weak_lock_spec hinv hcp
  refine ⟨counted_congr (fun c => ?_) hcnt, fun hr => hrel hr fun c => ?_⟩
  · simp only [World.owners, owners_append, indO]
  · show (0 : Int) ≤ (w.sps.countP (holds c) : Nat)
    omega

theorem step_sMove {w w1 : World T} {j : Nat} (hinv : w.SharedInv)
    (hok : step w (Op.sMove j) = Except.ok w1) :
    w1.SharedInv ∧ (Rel w.heap → Rel w1.heap) := by
  simp only [step, SharedPtr.move, bind_ok_iff, pure_ok_iff, sp_ok_iff] at hok
  obtain ⟨other, hj, rfl⟩ := hok
  refine ⟨counted_congr (fun c => ?_) hinv, fun hr => hr⟩
  simp only [World.owners, owners_append, owners_set hj, indO, ind_none]
  omega

theorem step_sConvMove {w w1 : World T} {j : Nat} (hinv : w.SharedInv)
    (hok : step w (Op.sConvMove j) = Except.ok w1) :
    w1.SharedInv ∧ (Rel w.heap → Rel w1.heap) := by
  simp only [step, bind_ok_iff, pure_ok_iff, sp_ok_iff] at hok
  obtain ⟨other, hj, ⟨h1, s, other1⟩, hcm, rfl⟩ := hok
  obtain ⟨rfl, rfl, hcnt, hrel⟩ := shared_convMove_spec hinv hcm
  refine ⟨counted_congr (fun c => ?_) hcnt, fun hr => hrel hr fun b hb => ?_⟩
  · simp only [World.owners, owners_append, owners_set hj, indO, ind_none]
    omega
  · have := owners_pos hj hb
    show (0 : Int) < (w.sps.countP (holds b) : Nat)
    omega

theorem step_sDestroy {w w1 : World T} {i : Nat} (hinv : w.SharedInv)
    (hok : step w (Op.sDestroy i) = Except.ok w1) :
    w1.SharedInv ∧ (Rel w.heap → Rel w1.heap) := by
  simp only [step, bind_ok_iff, pure_ok_iff, sp_ok_iff] at hok
  obtain ⟨s, hi, h1, hd, rfl⟩ := hok
  obtain ⟨hcnt, hrel⟩ := shared_destroy_spec hinv hd
  refine ⟨counted_congr (fun c => ?_) hcnt, fun hr => hrel hr fun b hb => owners_pos hi hb⟩
  simp only [World.owners, owners_set hi, indO]
  omega

theorem step_sReset {w w1 : World T} {i : Nat} (hinv : w.SharedInv)
    (hok : step w (Op.sReset i) = Except.ok w1) :
    w1.SharedInv ∧ (Rel w.heap → Rel w1.heap) := by
  simp only [step, bind_ok_iff, pure_ok_iff, sp_ok_iff] at hok
  obtain ⟨this, hi, ⟨h1, this1⟩, hres, rfl⟩ := hok
  obtain ⟨rfl, hcnt, hrel⟩ := shared_reset_spec hinv hres
  refine ⟨counted_congr (fun c => ?_) hcnt, fun hr => hrel hr fun b hb => owners_pos hi hb⟩
  simp only [World.owners, owners_set hi, indO, ind_none]
  omega

theorem step_sCopyAssign {w w1 : World T} {i j : Nat} (hinv : w.SharedInv)
    (hok : step w (Op.sCopyAssign i j) = Except.ok w1) :
    w1.SharedInv ∧ (Rel w.heap → Rel w1.heap) := by
  simp only [step, World.sCopyAssign, SharedPtr.swap, bind_ok_iff, pure_ok_iff, sp_ok_iff] at hok
  obtain ⟨this, hi, other, hj, ⟨h1, tmp⟩, hcp, h2, hd, rfl⟩ := hok
  obtain ⟨rfl, hcnt, hrel⟩ := shared_copy_spec hinv hcp
  obtain ⟨hcnt2, hrel2⟩ := shared_destroy_spec hcnt hd
  refine ⟨counted_congr (fun c => ?_) hcnt2, fun hr => ?_⟩
  · simp only [World.owners, owners_set hi, indO]
    omega
  · refine hrel2 (hrel hr fun b hb => ?_) fun b hb => ?_
    · have := owners_pos hj hb
      show (0 : Int) < (w.sps.countP (holds b) : Nat)
      omega
    · have h1 := owners_pos hi hb
      have h2 := ind_nonneg other.cb b
      show (1 : Int) ≤ (w.sps.countP (holds b) : Nat) + ind other.cb b
      omega

theorem getElem?_set_some {sps : List (Option SharedPtr)} {i j : Nat} {this : SharedPtr} {b : Addr}
    (h : (sps.set j (some {}))[i]? = some (some this)) (hb : this.cb = some b) :
    sps[i]? = some (some this) := by
  rw [List.getElem?_set] at h
  split at h
  · split at h
    · simp only [Option.some.injEq] at h
      subst h
      cases hb
    · cases h
  · exact h

theorem step_sMoveAssign {w w1 : World T} {i j : Nat} (hinv : w.SharedInv)
    (hok : step w (Op.sMoveAssign i j) = Except.ok w1) :
    w1.SharedInv ∧ (Rel w.heap → Rel w1.heap) := by
  simp only [step, World.sMoveAssign, SharedPtr.swap, SharedPtr.move, bind_ok_iff, pure_ok_iff,
    sp_ok_iff] at hok
  obtain ⟨_, _, other, hj, this, hi, h2, hd, rfl⟩ := hok
  obtain ⟨hcnt, hrel⟩ := shared_destroy_spec hinv hd
  refine ⟨counted_congr (fun c => ?_) hcnt, fun hr => hrel hr fun b hb => ?_⟩
  · simp only [World.owners, owners_set hi, owners_set hj, indO, ind_none]
    omega
  · exact owners_pos (getElem?_set_some hi hb) hb

theorem step_sConvMoveAssign {w w1 : World T} {i j : Nat} (hinv : w.SharedInv)
    (hok : step w (Op.sConvMoveAssign i j) = Except.ok w1) :
    w1.SharedInv ∧ (Rel w.heap → Rel w1.heap) := by
  simp only [step, World.sConvMoveAssign, SharedPtr.swap, bind_ok_iff, pure_ok_iff,
    sp_ok_iff] at hok
  obtain ⟨_, _, other, hj, ⟨h1, tmp, other1⟩, hcm, this, hi, h2, hd, rfl⟩ := hok
  obtain ⟨rfl, rfl, hcnt, hrel⟩ := shared_convMove_spec hinv hcm
  obtain ⟨hcnt2, hrel2⟩ := shared_destroy_spec hcnt hd
  refine ⟨counted_congr (fun c => ?_) hcnt2, fun hr => ?_⟩
  · simp only [World.owners, owners_set hi, owners_set hj, indO, ind_none]
    omega
  · refine hrel2 (hrel hr fun b hb => ?_) fun b hb => ?_
    · have := owners_pos hj hb
      show (0 : Int) < (w.sps.countP (holds b) : Nat)
      omega
    · exact owners_pos (getElem?_set_some hi hb) hb

theorem step_sSwap {w w1 : World T} {i j : Nat} (hinv : w.SharedInv)
    (hok : step w (Op.sSwap i j) = Except.ok w1) :
    w1.SharedInv ∧ (Rel w.heap → Rel w1.heap) := by
  simp only [step, World.sSwap, SharedPtr.swap, bind_ok_iff, pure_ok_iff, sp_ok_iff] at hok
  obtain ⟨this, hi, other, hj, rfl⟩ := hok
  refine ⟨counted_congr (fun c => ?_) hinv, fun hr => hr⟩
  have hlt := getElem?_lt_of_eq_some hi
  by_cases hij : i = j
  · subst hij
    rw [hi] at hj
    simp only [Option.some.injEq] at hj
    subst hj
    have h2 : (w.sps.set i (some { ptr := this.ptr, cb := this.cb }))[i]?
        = some (some { ptr := this.ptr, cb := this.cb }) := by
      simp [hlt]
    simp only [World.owners, owners_set h2, owners_set hi, indO]
    omega
  · have h2 : (w.sps.set i (some { ptr := other.ptr, cb := other.cb }))[j]? = some (some other) := by
      rw [List.getElem?_set_ne hij]
      exact hj
    simp only [World.owners, owners_set h2, owners_set hi, indO]
    omega

theorem step_sAdopt {w w1 : World T} {allocOk esft : Bool} {p : Ptr} {d : Deleter}
    (hinv : w.SharedInv) (hok : step w (Op.sAdopt allocOk esft p d) = Except.ok w1) :
    w1.SharedInv ∧ (Rel w.heap → Rel w1.heap) := by
  simp only [step, bind_ok_iff] at hok
  obtain ⟨⟨h1, r⟩, had, hok⟩ := hok
  have hspec := shared_adopt_spec hinv had
  cases r with
  | error e =>
    simp only [pure_ok_iff] at hok
    subst hok
    exact hspec.2 e rfl
  | ok s =>
    simp only [pure_ok_iff] at hok
    subst hok
    obtain ⟨hcnt, hrel⟩ := hspec.1 s rfl
    refine ⟨counted_congr (fun c => ?_) hcnt, hrel⟩
    simp only [World.owners, owners_append, indO]

theorem step_sMake {w w1 : World T} {allocOk esft : Bool} {v : Option T}
    (hinv : w.SharedInv) (hok : step w (Op.sMake allocOk esft v) = Except.ok w1) :
    w1.SharedInv ∧ (Rel w.heap → Rel w1.heap) := by
  simp only [step, makeShared, bind_ok_iff] at hok
  obtain ⟨⟨h1, r⟩, hal, hok⟩ := hok
  · have hspec := allocateShared_spec hinv hal
    cases r with
    | error e =>
      simp only [pure_ok_iff] at hok
      subst hok
      exact hspec.2 e rfl
    | ok s =>
      simp only [pure_ok_iff] at hok
      subst hok
      obtain ⟨hcnt, hrel⟩ := hspec.1 s rfl
      refine ⟨counted_congr (fun c => ?_) hcnt, hrel⟩
      simp only [World.owners, owners_append, indO]

theorem step_sMakeCopy {w w1 : World T} {allocOk : Bool} {j : Nat}
    (hinv : w.SharedInv) (hok : step w (Op.sMakeCopy allocOk j) = Except.ok w1) :
    w1.SharedInv ∧ (Rel w.heap → Rel w1.heap) := by
  simp only [step, makeShared, bind_ok_iff] at hok
  obtain ⟨other, _, _, _, ⟨h1, r⟩, hal, hok⟩ := hok
  have hspec := allocateShared_copy_spec hinv hal
  cases r with
  | error e =>
    simp only [pure_ok_iff] at hok
    subst hok
    exact hspec.2 e rfl
  | ok s =>
    simp only [pure_ok_iff] at hok
    subst hok
    obtain ⟨hcnt, hrel⟩ := hspec.1 s rfl
    refine ⟨counted_congr (fun c => ?_) hcnt, hrel⟩
    simp only [World.owners, owners_append, indO]

theorem step_sResetTo {w w1 : World T} {i : Nat} {allocOk esft : Bool} {p : Ptr}
    (hinv : w.SharedInv) (hok : step w (Op.sResetTo i allocOk esft p) = Except.ok w1) :
    w1.SharedInv ∧ (Rel w.heap → Rel w1.heap) := by
  simp only [step, bind_ok_iff, sp_ok_iff] at hok
  obtain ⟨this, hi, ⟨h1, r⟩, hres, hok⟩ := hok
  have hspec := shared_resetTo_spec hinv hres
  cases r with
  | error e =>
    simp only [pure_ok_iff] at hok
    subst hok
    exact hspec.2 e rfl
  | ok s =>
    simp only [pure_ok_iff] at hok
    subst hok
    obtain ⟨hcnt, hrel⟩ := hspec.1 s rfl
    refine ⟨counted_congr (fun c => ?_) hcnt, fun hr => hrel hr fun b hb => owners_pos hi hb⟩
    simp only [World.owners, owners_set hi, indO]
    omega

theorem step_weak {w w1 : World T} {op : Op T} (hinv : w.SharedInv)
    (hop : op = Op.wDefault ∨ (∃ j, op = Op.wOfShared j) ∨ (∃ k, op = Op.wCopy k) ∨
      (∃ k, op = Op.wMove k) ∨ (∃ k j, op = Op.wAssignShared k j) ∨
      (∃ k l, op = Op.wSwap k l) ∨ (∃ k, op = Op.wDestroy k) ∨
      (∃ v esft, op = Op.newObj v esft) ∨ op = Op.sDefault)
    (hok : step w op = Except.ok w1) :
    w1.SharedInv ∧ (Rel w.heap → Rel w1.heap) := by
  have key : ∀ h1 : Heap T, Wk w.heap h1 →
      World.SharedInv { w with heap := h1 } ∧ (Rel w.heap → Rel h1) :=
    fun h1 hwk => ⟨wk_counted hwk hinv, wk_rel hwk⟩
  rcases hop with rfl | ⟨j, rfl⟩ | ⟨k, rfl⟩ | ⟨k, rfl⟩ | ⟨k, j, rfl⟩ | ⟨k, l, rfl⟩ | ⟨k, rfl⟩ |
    ⟨v, esft, rfl⟩ | rfl
  · simp only [step, pure_ok_iff] at hok
    subst hok
    exact ⟨hinv, fun hr => hr⟩
  · simp only [step, bind_ok_iff, pure_ok_iff, sp_ok_iff] at hok
    obtain ⟨s, _, ⟨h1, x⟩, hof, rfl⟩ := hok
    exact key h1 (wk_weak_ofShared hof)
  · simp only [step, bind_ok_iff, pure_ok_iff, wp_ok_iff] at hok
    obtain ⟨s, _, ⟨h1, x⟩, hof, rfl⟩ := hok
    exact key h1 (wk_weak_copy hof)
  · simp only [step, WeakPtr.move, bind_ok_iff, pure_ok_iff, wp_ok_iff] at hok
    obtain ⟨s, _, rfl⟩ := hok
    exact ⟨hinv, fun hr => hr⟩
  · simp only [step, bind_ok_iff, pure_ok_iff, wp_ok_iff, sp_ok_iff] at hok
    obtain ⟨this, _, s, _, ⟨h1, x⟩, hof, rfl⟩ := hok
    exact key h1 (wk_weak_assignShared hof)
  · simp only [step, World.wSwap, WeakPtr.swap, bind_ok_iff, pure_ok_iff, wp_ok_iff] at hok
    obtain ⟨this, _, other, _, rfl⟩ := hok
    exact ⟨hinv, fun hr => hr⟩
  · simp only [step, bind_ok_iff, pure_ok_iff, wp_ok_iff] at hok
    obtain ⟨x, _, h1, hd, rfl⟩ := hok
    exact key h1 (wk_weak_destroy hd)
  · simp only [step, pure_ok_iff] at hok
    subst hok
    exact key _ (wk_of_blocks_eq rfl fun _ => rfl)
  · simp only [step, pure_ok_iff] at hok
    subst hok
    refine ⟨counted_congr (fun c => ?_) hinv, fun hr => hr⟩
    simp only [World.owners, owners_append, indO, ind_none]
    omega

/-- Every statement keeps the shared-count invariant; statements other than the unguarded
`SharedPtr(const WeakPtr&)` also keep the release discipline. -/
theorem step_spec {w w1 : World T} {op : Op T} (hinv : w.SharedInv)
    (hok : step w op = Except.ok w1) :
    w1.SharedInv ∧ (Rel w.heap → op.viaLock = true → Rel w1.heap) := by
  cases op with
  | newObj v esft =>
    have h := step_weak hinv (by simp) hok
    exact ⟨h.1, fun hr _ => h.2 hr⟩
  | sDefault =>
    have h := step_weak hinv (by simp) hok
    exact ⟨h.1, fun hr _ => h.2 hr⟩
  | sAdopt allocOk esft p d =>
    have h := step_sAdopt hinv hok
    exact ⟨h.1, fun hr _ => h.2 hr⟩
  | sMake allocOk esft v =>
    have h := step_sMake hinv hok
    exact ⟨h.1, fun hr _ => h.2 hr⟩
  | sMakeCopy allocOk j =>
    have h := step_sMakeCopy hinv hok
    exact ⟨h.1, fun hr _ => h.2 hr⟩
  | sCopy j =>
    have h := step_sCopy hinv hok
    exact ⟨h.1, fun hr _ => h.2 hr⟩
  | sConvCopy j =>
    have h := step_sConvCopy hinv hok
    exact ⟨h.1, fun hr _ => h.2 hr⟩
  | sMove j =>
    have h := step_sMove hinv hok
    exact ⟨h.1, fun hr _ => h.2 hr⟩
  | sConvMove j =>
    have h := step_sConvMove hinv hok
    exact ⟨h.1, fun hr _ => h.2 hr⟩
  | sOfWeak k =>
    refine ⟨step_sOfWeak hinv hok, fun _ hv => ?_⟩
    simp [Op.viaLock] at hv
  | sCopyAssign i j =>
    have h := step_sCopyAssign hinv hok
    exact ⟨h.1, fun hr _ => h.2 hr⟩
  | sMoveAssign i j =>
    have h := step_sMoveAssign hinv hok
    exact ⟨h.1, fun hr _ => h.2 hr⟩
  | sConvMoveAssign i j =>
    have h := step_sConvMoveAssign hinv hok
    exact ⟨h.1, fun hr _ => h.2 hr⟩
  | sReset i =>
    have h := step_sReset hinv hok
    exact ⟨h.1, fun hr _ => h.2 hr⟩
  | sResetTo i allocOk esft p =>
    have h := step_sResetTo hinv hok
    exact ⟨h.1, fun hr _ => h.2 hr⟩
  | sSwap i j =>
    have h := step_sSwap hinv hok
    exact ⟨h.1, fun hr _ => h.2 hr⟩
  | sDestroy i =>
    have h := step_sDestroy hinv hok
    exact ⟨h.1, fun hr _ => h.2 hr⟩
  | wDefault =>
    have h := step_weak hinv (by simp) hok
    exact ⟨h.1, fun hr _ => h.2 hr⟩
  | wOfShared j =>
    have h := step_weak hinv (by simp) hok
    exact ⟨h.1, fun hr _ => h.2 hr⟩
  | wCopy k =>
    have h := step_weak hinv (by simp) hok
    exact ⟨h.1, fun hr _ => h.2 hr⟩
  | wMove k =>
    have h := step_weak hinv (by simp) hok
    exact ⟨h.1, fun hr _ => h.2 hr⟩
  | wAssignShared k j =>
    have h := step_weak hinv (by simp) hok
    exact ⟨h.1, fun hr _ => h.2 hr⟩
  | wSwap k l =>
    have h := step_weak hinv (by simp) hok
    exact ⟨h.1, fun hr _ => h.2 hr⟩
  | wDestroy k =>
    have h := step_weak hinv (by simp) hok
    exact ⟨h.1, fun hr _ => h.2 hr⟩
  | wLock k =>
    have h := step_wLock hinv hok
    exact ⟨h.1, fun hr _ => h.2 hr⟩

theorem sharedInv_empty : (({} : World T)).SharedInv :=
  ⟨fun c blk hblk => by simp at hblk, fun c _ => by simp [World.owners]⟩

theorem rel_empty : Rel (({} : World T)).heap := by
  intro b
  simp [Heap.released, sv, SV.rel]

theorem run_spec {ops : List (Op T)} {w w1 : World T} (hinv : w.SharedInv)
    (hok : run w ops = Except.ok w1) :
    w1.SharedInv ∧ (Rel w.heap → (∀ op ∈ ops, op.viaLock = true) → Rel w1.heap) := by
  induction ops generalizing w with
  | nil =>
    simp only [run, pure_ok_iff] at hok
    subst hok
    exact ⟨hinv, fun hr _ => hr⟩
  | cons op ops ih =>
    simp only [run, bind_ok_iff] at hok
    obtain ⟨w2, hstep, hrun⟩ := hok
    obtain ⟨hinv2, hrel2⟩ := step_spec hinv hstep
    obtain ⟨hinv1, hrel1⟩ := ih hinv2 hrun
    refine ⟨hinv1, fun hr hv => hrel1 (hrel2 hr (hv op (List.mem_cons_self _ _))) fun o ho => ?_⟩
    exact hv o (List.mem_cons_of_mem _ ho)

/-! ## Lemmas on single blocks -/

theorem setBlock_get_self {h : Heap T} {b : Addr} {blk : ControlBlock T} (blk1 : ControlBlock T)
    (hblk : h.blocks[b]? = some (Slot.live blk)) :
    (h.setBlock b blk1).blocks[b]? = some (Slot.live blk1) := by
  simp [Heap.setBlock, getElem?_lt_of_eq_some hblk]

theorem setBlock_get_ne (h : Heap T) {b c : Addr} (blk1 : ControlBlock T) (hne : c ≠ b) :
    (h.setBlock b blk1).blocks[c]? = h.blocks[c]? := by
  simp only [Heap.setBlock]
  exact List.getElem?_set_ne (fun hh => hne hh.symm)

theorem dealloc_get_self {h : Heap T} {b : Addr} {blk : ControlBlock T}
    (hblk : h.blocks[b]? = some (Slot.live blk)) :
    (dealloc_this h b).blocks[b]? = some Slot.freed := by
  simp [dealloc_this, getElem?_lt_of_eq_some hblk]

theorem dealloc_get_ne (h : Heap T) {b c : Addr} (hne : c ≠ b) :
    (dealloc_this h b).blocks[c]? = h.blocks[c]? := by
  simp only [dealloc_this]
  exact List.getElem?_set_ne (fun hh => hne hh.symm)

theorem dealloc_deallocated (h : Heap T) (b c : Addr) :
    (dealloc_this h b).deallocated c = h.deallocated c + (if c = b then 1 else 0) := by
  simp only [Heap.deallocated, dealloc_this, List.count_append, List.count_singleton]
  by_cases hcb : c = b
  · subst hcb
    simp
  · have hne : ¬ (Event.dealloc_this b = Event.dealloc_this c) := by
      simp only [Event.dealloc_this.injEq]
      exact fun hh => hcb hh.symm
    simp [hcb, hne]

theorem setBlock_set_self {h : Heap T} {b : Addr} {blk : ControlBlock T}
    (hblk : h.blocks[b]? = some (Slot.live blk)) : h.setBlock b blk = h := by
  have hl : h.blocks.set b (Slot.live blk) = h.blocks := by
    apply List.ext_getElem?
    intro i
    rw [List.getElem?_set]
    split
    · rename_i hbi
      subst hbi
      simp [getElem?_lt_of_eq_some hblk, hblk]
    · rfl
  cases h with
  | mk blocks objs log =>
    simp only [Heap.setBlock] at hl ⊢
    rw [hl]

theorem setBlock_setBlock (h : Heap T) (b : Addr) (blk1 blk2 : ControlBlock T) :
    (h.setBlock b blk1).setBlock b blk2 = h.setBlock b blk2 := by
  simp [Heap.setBlock, List.set_set]

/-! ## Releases that touch no control block -/

theorem record_released_ne (h : Heap T) (e : Event) (he : ∀ b, e ≠ Event.useDeleter b) (c : Addr) :
    (h.record e).released c = h.released c := by
  rw [released_record]
  simp [he c]

theorem record_deallocated_ne (h : Heap T) (e : Event) (he : ∀ b, e ≠ Event.dealloc_this b)
    (c : Addr) : (h.record e).deallocated c = h.deallocated c := by
  simp only [Heap.deallocated, Heap.record, List.count_append, List.count_singleton]
  have hne : ¬ (e = Event.dealloc_this c) := he c
  simp [hne]

theorem obj_destroy_plain (h : Heap T) (o : Obj T) (hp : o.unwired = true) :
    Obj.destroy h o = Except.ok h := by
  unfold Obj.unwired at hp
  unfold Obj.destroy
  cases hb : o.base with
  | none => rfl
  | some e =>
    rw [hb] at hp
    simp only [Option.isNone_iff_eq_none] at hp
    simp [WeakPtr.destroy, hp, pure, Except.pure]

theorem deletePtr_plain (h : Heap T) (p : Ptr) (hp : h.deletable p = true) :
    ∃ h2, deletePtr h p = Except.ok h2 ∧ h2.blocks = h.blocks ∧
      (∀ c, h2.released c = h.released c) ∧ (∀ c, h2.deallocated c = h.deallocated c) := by
  unfold Heap.deletable at hp
  cases p with
  | null => exact ⟨h, rfl, rfl, fun _ => rfl, fun _ => rfl⟩
  | inl b => simp at hp
  | ext a =>
    simp only at hp
    cases ho : h.objs[a]? with
    | none => simp [ho] at hp
    | some oo =>
      cases oo with
      | none => simp [ho] at hp
      | some o =>
        simp only [ho] at hp
        refine ⟨{ h with objs := h.objs.set a none,
                         log := h.log ++ [Event.destroyed (Ptr.ext a)] }, ?_, rfl, fun c => ?_,
          fun c => ?_⟩
        · simp only [deletePtr, ho]
          exact obj_destroy_plain _ o hp
        · simp [Heap.released, List.count_append]
        · simp [Heap.deallocated, List.count_append]

theorem callDeleter_plain (h : Heap T) (d : Deleter) (p : Ptr)
    (hp : h.plainRelease (BlockKind.regular d p) = true) :
    ∃ h2, callDeleter h d p = Except.ok h2 ∧ h2.blocks = h.blocks ∧
      (∀ c, h2.released c = h.released c) ∧ (∀ c, h2.deallocated c = h.deallocated c) := by
  have hrec : ∀ c, (h.record (Event.deleterCall d p)).released c = h.released c :=
    record_released_ne h _ (fun _ hh => by cases hh)
  have hrecd : ∀ c, (h.record (Event.deleterCall d p)).deallocated c = h.deallocated c :=
    record_deallocated_ne h _ (fun _ hh => by cases hh)
  have key : Heap.deletable (h.record (Event.deleterCall d p)) p = true →
      ∃ h2, deletePtr (h.record (Event.deleterCall d p)) p = Except.ok h2 ∧
        h2.blocks = h.blocks ∧
        (∀ c, h2.released c = h.released c) ∧ (∀ c, h2.deallocated c = h.deallocated c) := by
    intro hd
    obtain ⟨h2, hok, hb, hr, hdl⟩ := deletePtr_plain _ p hd
    exact ⟨h2, hok, hb, fun c => (hr c).trans (hrec c), fun c => (hdl c).trans (hrecd c)⟩
  unfold Heap.plainRelease at hp
  cases d with
  | default_delete =>
    simp only at hp
    exact key hp
  | custom id deletes =>
    simp only at hp
    cases deletes with
    | false =>
      exact ⟨h.record (Event.deleterCall (Deleter.custom id false) p), by simp [callDeleter, pure,
        Except.pure], rfl, hrec, hrecd⟩
    | true =>
      simp only [Bool.not_true, Bool.false_or] at hp
      obtain ⟨h2, hok, rest⟩ := key hp
      exact ⟨h2, by simpa [callDeleter] using hok, rest⟩

theorem useDeleter_plain {h : Heap T} {b : Addr} {blk : ControlBlock T}
    (hblk : h.blocks[b]? = some (Slot.live blk)) (hp : h.plainRelease blk.kind = true) :
    ∃ h2 k, useDeleter h b = Except.ok h2 ∧
      h2.blocks[b]? = some (Slot.live { blk with kind := k }) ∧
      (∀ c, c ≠ b → h2.blocks[c]? = h.blocks[c]?) ∧
      (∀ c, h2.released c = h.released c + (if c = b then 1 else 0)) ∧
      (∀ c, h2.deallocated c = h.deallocated c) := by
  have hb : h.block (some b) = Except.ok (b, blk) := (block_ok_iff h (some b) b blk).2 ⟨rfl, hblk⟩
  have hrel : ∀ c, (h.record (Event.useDeleter b)).released c
      = h.released c + (if c = b then 1 else 0) := by
    intro c
    rw [released_record]
    by_cases hcb : c = b
    · subst hcb
      simp
    · have hne : ¬ (Event.useDeleter b = Event.useDeleter c) := by
        simp only [Event.useDeleter.injEq]
        exact fun hh => hcb hh.symm
      simp [hcb, hne]
  have hdl : ∀ c, (h.record (Event.useDeleter b)).deallocated c = h.deallocated c :=
    record_deallocated_ne h _ (fun _ hh => by cases hh)
  cases hk : blk.kind with
  | regular d p =>
    rw [hk] at hp
    obtain ⟨h2, hok, hbl, hr, hd⟩ := callDeleter_plain (h.record (Event.useDeleter b)) d p hp
    refine ⟨h2, blk.kind, ?_, ?_, fun c _ => by rw [hbl]; rfl, fun c => (hr c).trans (hrel c),
      fun c => (hd c).trans (hdl c)⟩
    · simp only [useDeleter, hb, bind, Except.bind, hk]
      exact hok
    · rw [hbl]
      exact hblk
  | makeShared oo =>
    rw [hk] at hp
    cases oo with
    | none => simp [Heap.plainRelease] at hp
    | some o =>
      simp only [Heap.plainRelease] at hp
      refine ⟨((h.record (Event.useDeleter b)).setBlock b
          { blk with kind := BlockKind.makeShared none }).record (Event.destroyed (Ptr.inl b)),
        BlockKind.makeShared none, ?_, ?_, ?_, ?_, ?_⟩
      · simp only [useDeleter, hb, bind, Except.bind, hk]
        exact obj_destroy_plain _ o hp
      · exact setBlock_get_self _ hblk
      · intro c hne
        exact setBlock_get_ne _ _ hne
      · intro c
        rw [record_released_ne _ _ (fun _ hh => by cases hh)]
        exact hrel c
      · intro c
        rw [record_deallocated_ne _ _ (fun _ hh => by cases hh)]
        exact hdl c

theorem decrement_shared_cnt_plain {h : Heap T} {b : Addr} {blk : ControlBlock T}
    (hblk : h.blocks[b]? = some (Slot.live blk))
    (hplain : blk.shared_cnt = 1 → h.plainRelease blk.kind = true) :
    ∃ h1, decrement_shared_cnt h (some b) = Except.ok h1 ∧
      DecSharedOutcome h h1 b blk.shared_cnt blk.weak_cnt := by
  have hb : h.block (some b) = Except.ok (b, blk) := (block_ok_iff h (some b) b blk).2 ⟨rfl, hblk⟩
  have hset := setBlock_get_self { blk with shared_cnt := blk.shared_cnt - 1 } hblk
  by_cases hone : blk.shared_cnt = 1
  · have hz : blk.shared_cnt - 1 = 0 := by omega
    have hp0 : Heap.plainRelease (h.setBlock b { blk with shared_cnt := blk.shared_cnt - 1 })
        blk.kind = true := hplain hone
    obtain ⟨h2, k, hok, hb2, hne2, hr2, hd2⟩ := useDeleter_plain hset hp0
    have hblock2 : h2.block (some b) = Except.ok (b,
        { shared_cnt := blk.shared_cnt - 1, weak_cnt := blk.weak_cnt, kind := k }) :=
      (block_ok_iff h2 (some b) b _).2 ⟨rfl, hb2⟩
    by_cases hw : blk.weak_cnt = 0
    · refine ⟨dealloc_this h2 b, ?_, fun c => ?_, fun c => ?_, ?_, fun c hne => ?_⟩
      · unfold decrement_shared_cnt
        simp only [bind, Except.bind, hb, if_pos hz, hok, hblock2]
        simp [hw, pure, Except.pure]
      · have hrd : (dealloc_this h2 b).released c = h2.released c := by
          simp [Heap.released, dealloc_this, List.count_append]
        rw [hrd, hr2 c]
        simp [hone]
        rfl
      · rw [dealloc_deallocated, hd2 c]
        simp [hone, hw]
        rfl
      · rw [if_pos ⟨hone, hw⟩]
        exact dealloc_get_self hb2
      · rw [dealloc_get_ne _ hne, hne2 c hne, setBlock_get_ne _ _ hne]
    · refine ⟨h2, ?_, fun c => ?_, fun c => ?_, ?_, fun c hne => ?_⟩
      · unfold decrement_shared_cnt
        simp only [bind, Except.bind, hb, if_pos hz, hok, hblock2]
        simp [hw, pure, Except.pure]
      · rw [hr2 c]
        simp [hone]
        rfl
      · rw [hd2 c]
        simp [hw]
        rfl
      · rw [if_neg (fun hh => hw hh.2)]
        exact ⟨k, hb2⟩
      · rw [hne2 c hne, setBlock_get_ne _ _ hne]
  · have hz : ¬ blk.shared_cnt - 1 = 0 := by omega
    refine ⟨h.setBlock b { blk with shared_cnt := blk.shared_cnt - 1 }, ?_, fun c => ?_, fun c => ?_,
      ?_, fun c hne => setBlock_get_ne _ _ hne⟩
    · simp [decrement_shared_cnt, hb, bind, Except.bind, pure, Except.pure, hz]
    · simp [hone]
      rfl
    · simp [hone]
      rfl
    · rw [if_neg (fun hh => hone hh.1)]
      exact ⟨blk.kind, hset⟩

/-! ## The block of an owner exists -/

theorem alive_congr {h : Heap T} {own own1 : Addr → Int} (he : ∀ c, own1 c = own c)
    (ha : Alive h own) : Alive h own1 :=
  fun c hc => ha c (he c ▸ hc)

theorem wk_alive {h h1 : Heap T} {own : Addr → Int} (a : Wk h h1) (hc : Counted h own)
    (ha : Alive h own) : Alive h1 own := by
  intro c hpos
  obtain ⟨blk, hblk⟩ := ha c hpos
  have hs := hc.1 c blk hblk
  rcases a.2.2 c with hv | ⟨_, hv⟩
  · rw [hblk] at hv
    cases hh : h1.blocks[c]? with
    | none => rw [hh] at hv; simp [sv] at hv
    | some sl =>
      cases sl with
      | raw => rw [hh] at hv; simp [sv] at hv
      | freed => rw [hh] at hv; simp [sv] at hv
      | live blk1 => exact ⟨blk1, rfl⟩
  · rw [hblk] at hv
    simp only [sv, SV.live.injEq] at hv
    omega

theorem alive_setBlock {h : Heap T} {own own1 : Addr → Int} {b : Addr} {blk : ControlBlock T}
    (blk1 : ControlBlock T) (ha : Alive h own) (hblk : h.blocks[b]? = some (Slot.live blk))
    (he : ∀ c, c ≠ b → own1 c = own c) : Alive (h.setBlock b blk1) own1 := by
  intro c hpos
  by_cases hcb : c = b
  · subst hcb
    exact ⟨blk1, setBlock_get_self blk1 hblk⟩
  · rw [setBlock_get_ne _ _ hcb]
    exact ha c (he c hcb ▸ hpos)

theorem ind_ne {b c : Addr} (hne : c ≠ b) : ind (some b) c = 0 := by
  have h1 : ¬ (some b = some c) := by
    simp only [Option.some.injEq]
    exact fun hh => hne hh.symm
  simp [ind, h1]

theorem increment_shared_cnt_alive {h h1 : Heap T} {own : Addr → Int} {cb : Option Addr}
    (ha : Alive h own) (hok : increment_shared_cnt h cb = Except.ok h1) :
    Alive h1 (fun c => own c + ind cb c) := by
  obtain ⟨b, blk, hb, _, rfl⟩ := increment_shared_cnt_ok hok
  rw [block_ok_iff] at hb
  obtain ⟨rfl, hblk⟩ := hb
  refine alive_setBlock _ ha hblk fun c hne => ?_
  simp [ind_ne hne]

theorem decrement_shared_cnt_alive {h h1 : Heap T} {own : Addr → Int} {b : Addr}
    (hc : Counted h own) (ha : Alive h own)
    (hok : decrement_shared_cnt h (some b) = Except.ok h1) :
    Alive h1 (fun c => own c - ind (some b) c) := by
  unfold decrement_shared_cnt at hok
  simp only [bind_ok_iff] at hok
  obtain ⟨⟨c, blk⟩, hb, hok⟩ := hok
  rw [block_ok_iff] at hb
  obtain ⟨hcb, hblk⟩ := hb
  simp only [Option.some.injEq] at hcb
  subst hcb
  have hs := hc.1 b blk hblk
  have hc0 : Counted (h.setBlock b { blk with shared_cnt := blk.shared_cnt - 1 })
      (fun c => own c - ind (some b) c) := by
    refine counted_congr (fun c => ?_) (counted_setBlock hc hblk (-1) (Int.sub_eq_add_neg ..))
    show own c - ind (some b) c = own c + -1 * ind (some b) c
    omega
  have ha0 : Alive (h.setBlock b { blk with shared_cnt := blk.shared_cnt - 1 })
      (fun c => own c - ind (some b) c) := by
    refine alive_setBlock _ ha hblk fun c hne => ?_
    simp [ind_ne hne]
  simp only at hok
  split at hok
  · rename_i hz
    simp only [bind_ok_iff] at hok
    obtain ⟨h2, hdel, ⟨c2, blk2⟩, hb2, hok⟩ := hok
    have hwk := wk_useDeleter hdel
    have hc1 : Counted ((h.setBlock b { blk with shared_cnt := blk.shared_cnt - 1 }).record
        (Event.useDeleter b)) (fun c => own c - ind (some b) c) := hc0
    have ha1 : Alive ((h.setBlock b { blk with shared_cnt := blk.shared_cnt - 1 }).record
        (Event.useDeleter b)) (fun c => own c - ind (some b) c) := ha0
    have ha2 := wk_alive hwk hc1 ha1
    simp only at hok
    split at hok
    · rw [pure_ok_iff] at hok
      subst hok
      intro c hpos
      have hcb : c ≠ b := by
        intro hh
        subst hh
        have hi : ind (some c) c = 1 := ind_self rfl
        simp only [hi] at hpos
        omega
      rw [dealloc_get_ne _ hcb]
      exact ha2 c hpos
    · rw [pure_ok_iff] at hok
      subst hok
      exact ha2
  · rw [pure_ok_iff] at hok
    subst hok
    exact ha0

theorem shared_destroy_alive {h h1 : Heap T} {own : Addr → Int} {s : SharedPtr}
    (hc : Counted h own) (ha : Alive h own) (hok : s.destroy h = Except.ok h1) :
    Alive h1 (fun c => own c - ind s.cb c) := by
  unfold SharedPtr.destroy at hok
  split at hok
  · rename_i hcb
    rw [pure_ok_iff] at hok
    subst hok
    refine alive_congr (fun c => ?_) ha
    simp [hcb, ind_none]
  · rename_i b hcb
    rw [hcb]
    exact decrement_shared_cnt_alive hc ha hok

theorem shared_copy_alive {h h1 : Heap T} {own : Addr → Int} {other s : SharedPtr}
    (ha : Alive h own) (hok : SharedPtr.copy h other = Except.ok (h1, s)) :
    Alive h1 (fun c => own c + ind other.cb c) := by
  unfold SharedPtr.copy at hok
  split at hok
  · rename_i hcb
    simp only [pure_ok_iff, Prod.mk.injEq] at hok
    obtain ⟨rfl, rfl⟩ := hok
    refine alive_congr (fun c => ?_) ha
    simp [hcb, ind_none]
  · rename_i b hcb
    simp only [bind_ok_iff, pure_ok_iff, Prod.mk.injEq] at hok
    obtain ⟨h2, hinc, rfl, rfl⟩ := hok
    rw [hcb]
    exact increment_shared_cnt_alive ha hinc

theorem shared_convCopy_alive {h h1 : Heap T} {own : Addr → Int} {other s : SharedPtr}
    (ha : Alive h own) (hok : SharedPtr.convCopy h other = Except.ok (h1, s)) :
    Alive h1 (fun c => own c + ind other.cb c) := by
  unfold SharedPtr.convCopy at hok
  simp only [bind_ok_iff, pure_ok_iff, Prod.mk.injEq] at hok
  obtain ⟨h2, hinc, rfl, rfl⟩ := hok
  exact increment_shared_cnt_alive ha hinc

theorem shared_ofWeak_alive {h h1 : Heap T} {own : Addr → Int} {w : WeakPtr} {s : SharedPtr}
    (ha : Alive h own) (hok : SharedPtr.ofWeak h w = Except.ok (h1, s)) :
    Alive h1 (fun c => own c + ind w.cb c) := by
  unfold SharedPtr.ofWeak at hok
  simp only [bind_ok_iff, pure_ok_iff, Prod.mk.injEq] at hok
  obtain ⟨h2, hinc, rfl, rfl⟩ := hok
  exact increment_shared_cnt_alive ha hinc

theorem shared_reset_alive {h h1 : Heap T} {own : Addr → Int} {this this1 : SharedPtr}
    (hc : Counted h own) (ha : Alive h own)
    (hok : SharedPtr.reset h this = Except.ok (h1, this1)) :
    Alive h1 (fun c => own c - ind this.cb c) := by
  unfold SharedPtr.reset at hok
  simp only [SharedPtr.swap, bind_ok_iff, pure_ok_iff, Prod.mk.injEq] at hok
  obtain ⟨h2, hd, rfl, rfl⟩ := hok
  exact shared_destroy_alive hc ha hd

theorem shared_convMove_alive {h h1 : Heap T} {own : Addr → Int} {other s other1 : SharedPtr}
    (hc : Counted h own) (ha : Alive h own)
    (hok : SharedPtr.convMove h other = Except.ok (h1, s, other1)) : Alive h1 own := by
  unfold SharedPtr.convMove at hok
  simp only [bind_ok_iff, pure_ok_iff, Prod.mk.injEq] at hok
  obtain ⟨h2, hinc, ⟨h3, o3⟩, hres, rfl, rfl, rfl⟩ := hok
  obtain ⟨b, hb, hcnt, _⟩ := increment_shared_cnt_spec hc hinc
  have ha2 := increment_shared_cnt_alive ha hinc
  refine alive_congr (fun c => ?_) (shared_reset_alive hcnt ha2 hres)
  show own c = own c + ind other.cb c - ind other.cb c
  omega

theorem weak_lock_alive {h h1 : Heap T} {own : Addr → Int} {w : WeakPtr} {s : SharedPtr}
    (ha : Alive h own) (hok : WeakPtr.lock h w = Except.ok (h1, s)) :
    Alive h1 (fun c => own c + ind s.cb c) := by
  unfold WeakPtr.lock at hok
  simp only [bind_ok_iff] at hok
  obtain ⟨e, he, hok⟩ := hok
  cases e with
  | true =>
    simp only [Bool.not_true, Bool.false_eq_true, if_false, pure_ok_iff, Prod.mk.injEq] at hok
    obtain ⟨rfl, rfl⟩ := hok
    refine alive_congr (fun c => ?_) ha
    simp [ind_none]
  | false =>
    simp only [Bool.not_false, if_true] at hok
    have hs : s.cb = w.cb := by
      unfold SharedPtr.ofWeak at hok
      simp only [bind_ok_iff, pure_ok_iff, Prod.mk.injEq] at hok
      obtain ⟨_, _, _, rfl⟩ := hok
      rfl
    rw [hs]
    exact shared_ofWeak_alive ha hok

theorem alloc_raw_alive {h h1 : Heap T} {own : Addr → Int}
    (hb : h1.blocks = h.blocks ++ [Slot.raw]) (ha : Alive h own) : Alive h1 own := by
  intro c hpos
  obtain ⟨blk, hblk⟩ := ha c hpos
  refine ⟨blk, ?_⟩
  rw [hb, List.getElem?_append_left (getElem?_lt_of_eq_some hblk)]
  exact hblk

theorem alloc_live_alive {h h1 : Heap T} {own : Addr → Int} {blk : ControlBlock T}
    (hb : h1.blocks = h.blocks ++ [Slot.live blk]) (ha : Alive h own) :
    Alive h1 (fun c => own c + ind (some h.blocks.length) c) := by
  intro c hpos
  by_cases hcl : c = h.blocks.length
  · subst hcl
    refine ⟨blk, ?_⟩
    rw [hb]
    simp
  · simp only [ind_ne hcl, add_zero] at hpos
    obtain ⟨blk0, hblk⟩ := ha c hpos
    refine ⟨blk0, ?_⟩
    rw [hb, List.getElem?_append_left (getElem?_lt_of_eq_some hblk)]
    exact hblk

theorem alloc_construct_alive (h : Heap T) {own : Addr → Int} (blk : ControlBlock T)
    (ha : Alive h own) :
    Alive (Heap.setBlock { h with blocks := h.blocks ++ [Slot.raw],
                                  log := h.log ++ [Event.allocate h.blocks.length] }
        h.blocks.length blk)
      (fun c => own c + ind (some h.blocks.length) c) := by
  have hb : (Heap.setBlock { h with blocks := h.blocks ++ [Slot.raw],
                                    log := h.log ++ [Event.allocate h.blocks.length] }
        h.blocks.length blk).blocks = h.blocks ++ [Slot.live blk] := by
    simp only [Heap.setBlock, set_append_last]
  exact alloc_live_alive hb ha

theorem allocateShared_alive {A : Type} {h h1 : Heap T} {own : Addr → Int} {allocOk esft : Bool}
    {ctor : A → Option T} {args : A} {r : Except Exn SharedPtr}
    (ha : Alive h own)
    (hok : allocateShared h allocOk (Obj.construct ctor esft) args = Except.ok (h1, r)) :
    (∀ s, r = Except.ok s → Alive h1 (fun c => own c + ind s.cb c)) ∧
    (∀ e, r = Except.error e → Alive h1 own) := by
  rw [allocateShared_construct] at hok
  simp only [Except.ok.injEq] at hok
  unfold allocate at hok
  cases allocOk with
  | false =>
    simp only [Bool.false_eq_true, if_false, Prod.mk.injEq] at hok
    obtain ⟨rfl, rfl⟩ := hok
    exact ⟨fun s hs => (by cases hs), fun e _ => ha⟩
  | true =>
    simp only [if_true] at hok
    cases hct : ctor args with
    | none =>
      simp only [hct, Prod.mk.injEq] at hok
      obtain ⟨rfl, rfl⟩ := hok
      exact ⟨fun s hs => (by cases hs), fun e _ => alloc_raw_alive rfl ha⟩
    | some v =>
      simp only [hct, Prod.mk.injEq] at hok
      obtain ⟨rfl, rfl⟩ := hok
      refine ⟨fun s hs => ?_, fun e he => by cases he⟩
      simp only [Except.ok.injEq] at hs
      subst hs
      exact alloc_construct_alive h _ ha

theorem allocateShared_copy_alive {h h1 : Heap T} {own : Addr → Int} {allocOk : Bool} {p : Ptr}
    {r : Except Exn SharedPtr}
    (hc : Counted h own) (ha : Alive h own)
    (hok : allocateShared h allocOk Obj.copy p = Except.ok (h1, r)) :
    (∀ s, r = Except.ok s → Alive h1 (fun c => own c + ind s.cb c)) ∧
    (∀ e, r = Except.error e → Alive h1 own) := by
  rcases allocateShared_copy hok with ⟨rfl, rfl⟩ | ⟨g, o, hcp, rfl, rfl⟩
  · exact ⟨fun s hs => (by cases hs), fun e _ => ha⟩
  · refine ⟨fun s hs => ?_, fun e he => by cases he⟩
    simp only [Except.ok.injEq] at hs
    subst hs
    exact alloc_construct_alive g _ (wk_alive (wk_obj_copy hcp) hc ha)

theorem allocateRegular_alive {h h1 : Heap T} {own : Addr → Int} {allocOk : Bool} {p : Ptr}
    {d : Deleter} {r : Except Exn Addr}
    (ha : Alive h own) (hok : allocateRegular h allocOk p d = (h1, r)) :
    (∀ nb, r = Except.ok nb → Alive h1 (fun c => own c + ind (some nb) c)) ∧
    (∀ e, r = Except.error e → Alive h1 own) := by
  unfold allocateRegular allocate at hok
  cases allocOk with
  | false =>
    simp only [Bool.false_eq_true, if_false, Prod.mk.injEq] at hok
    obtain ⟨rfl, rfl⟩ := hok
    exact ⟨fun s hs => (by cases hs), fun e _ => ha⟩
  | true =>
    simp only [if_true, Prod.mk.injEq] at hok
    obtain ⟨rfl, rfl⟩ := hok
    refine ⟨fun s hs => ?_, fun e he => by cases he⟩
    simp only [Except.ok.injEq] at hs
    subst hs
    exact alloc_construct_alive h _ ha

theorem shared_adopt_alive {h h1 : Heap T} {own : Addr → Int} {allocOk esft : Bool} {p : Ptr}
    {d : Deleter} {r : Except Exn SharedPtr}
    (hc : Counted h own) (ha : Alive h own)
    (hok : SharedPtr.adopt h allocOk esft p d = Except.ok (h1, r)) :
    (∀ s, r = Except.ok s → Alive h1 (fun c => own c + ind s.cb c)) ∧
    (∀ e, r = Except.error e → Alive h1 own) := by
  unfold SharedPtr.adopt at hok
  cases har : allocateRegular h allocOk p d with
  | mk h2 r2 =>
    have hspec := allocateRegular_spec hc har
    have halv := allocateRegular_alive ha har
    rw [har] at hok
    cases r2 with
    | error e =>
      simp only [pure_ok_iff, Prod.mk.injEq] at hok
      obtain ⟨rfl, rfl⟩ := hok
      exact ⟨fun s hs => (by cases hs), fun e2 _ => halv.2 e rfl⟩
    | ok nb =>
      have hnb := hspec.1 nb rfl
      have hanb := halv.1 nb rfl
      cases esft with
      | false =>
        simp only [Bool.false_eq_true, if_false, pure_ok_iff, Prod.mk.injEq] at hok
        obtain ⟨rfl, rfl⟩ := hok
        refine ⟨fun s hs => ?_, fun e he => by cases he⟩
        simp only [Except.ok.injEq] at hs
        subst hs
        exact hanb
      | true =>
        simp only [if_true, bind_ok_iff, pure_ok_iff, Prod.mk.injEq] at hok
        obtain ⟨h3, hw, rfl, rfl⟩ := hok
        have hwk := wk_wireSelf hw
        refine ⟨fun s hs => ?_, fun e he => by cases he⟩
        simp only [Except.ok.injEq] at hs
        subst hs
        exact wk_alive hwk hnb.1 hanb

theorem shared_resetTo_alive {h h1 : Heap T} {own : Addr → Int} {allocOk esft : Bool} {p : Ptr}
    {this : SharedPtr} {r : Except Exn SharedPtr}
    (hc : Counted h own) (ha : Alive h own)
    (hok : SharedPtr.resetTo h allocOk esft this p = Except.ok (h1, r)) :
    (∀ s, r = Except.ok s → Alive h1 (fun c => own c + ind s.cb c - ind this.cb c)) ∧
    (∀ e, r = Except.error e → Alive h1 own) := by
  unfold SharedPtr.resetTo at hok
  simp only [bind_ok_iff] at hok
  obtain ⟨⟨h2, r2⟩, had, hok⟩ := hok
  have hspec := shared_adopt_spec hc had
  have halv := shared_adopt_alive hc ha had
  cases r2 with
  | error e =>
    simp only [pure_ok_iff, Prod.mk.injEq] at hok
    obtain ⟨rfl, rfl⟩ := hok
    exact ⟨fun s hs => (by cases hs), fun e2 _ => halv.2 e rfl⟩
  | ok tmp =>
    simp only [SharedPtr.swap, bind_ok_iff, pure_ok_iff, Prod.mk.injEq] at hok
    obtain ⟨h3, hd, rfl, rfl⟩ := hok
    obtain ⟨hcnt, _⟩ := hspec.1 tmp rfl
    have hds := shared_destroy_alive hcnt (halv.1 tmp rfl) hd
    refine ⟨fun s hs => ?_, fun e he => by cases he⟩
    simp only [Except.ok.injEq] at hs
    subst hs
    exact hds

/-- Every statement keeps the block of every owner in existence. -/
theorem step_alive {w w1 : World T} {op : Op T} (hinv : w.SharedInv) (ha : w.OwnedAlive)
    (hok : step w op = Except.ok w1) : w1.OwnedAlive := by
  have key : ∀ h1 : Heap T, Wk w.heap h1 → World.OwnedAlive { w with heap := h1 } :=
    fun h1 hwk => wk_alive hwk hinv ha
  cases op with
  | newObj v esft =>
    simp only [step, pure_ok_iff] at hok
    subst hok
    exact key _ (wk_of_blocks_eq rfl fun _ => rfl)
  | sDefault =>
    simp only [step, pure_ok_iff] at hok
    subst hok
    refine alive_congr (fun c => ?_) ha
    simp only [World.owners, owners_append, indO, ind_none]
    omega
  | sAdopt allocOk esft p d =>
    simp only [step, bind_ok_iff] at hok
    obtain ⟨⟨h1, r⟩, had, hok⟩ := hok
    have hspec := shared_adopt_alive hinv ha had
    cases r with
    | error e =>
      simp only [pure_ok_iff] at hok
      subst hok
      exact hspec.2 e rfl
    | ok s =>
      simp only [pure_ok_iff] at hok
      subst hok
      refine alive_congr (fun c => ?_) (hspec.1 s rfl)
      simp only [World.owners, owners_append, indO]
  | sMake allocOk esft v =>
    simp only [step, makeShared, bind_ok_iff] at hok
    obtain ⟨⟨h1, r⟩, hal, hok⟩ := hok
    · have hspec := allocateShared_alive ha hal
      cases r with
      | error e =>
        simp only [pure_ok_iff] at hok
        subst hok
        exact hspec.2 e rfl
      | ok s =>
        simp only [pure_ok_iff] at hok
        subst hok
        refine alive_congr (fun c => ?_) (hspec.1 s rfl)
        simp only [World.owners, owners_append, indO]
  | sMakeCopy allocOk j =>
    simp only [step, makeShared, bind_ok_iff] at hok
    obtain ⟨other, _, _, _, ⟨h1, r⟩, hal, hok⟩ := hok
    have hspec := allocateShared_copy_alive hinv ha hal
    cases r with
    | error e =>
      simp only [pure_ok_iff] at hok
      subst hok
      exact hspec.2 e rfl
    | ok s =>
      simp only [pure_ok_iff] at hok
      subst hok
      refine alive_congr (fun c => ?_) (hspec.1 s rfl)
      simp only [World.owners, owners_append, indO]
  | sCopy j =>
    simp only [step, bind_ok_iff, pure_ok_iff, sp_ok_iff] at hok
    obtain ⟨other, hj, ⟨h1, s⟩, hcp, rfl⟩ := hok
    obtain ⟨rfl, _, _⟩ := shared_copy_spec hinv hcp
    refine alive_congr (fun c => ?_) (shared_copy_alive ha hcp)
    simp only [World.owners, owners_append, indO]
  | sConvCopy j =>
    simp only [step, bind_ok_iff, pure_ok_iff, sp_ok_iff] at hok
    obtain ⟨other, hj, ⟨h1, s⟩, hcp, rfl⟩ := hok
    obtain ⟨rfl, _, _⟩ := shared_convCopy_spec hinv hcp
    refine alive_congr (fun c => ?_) (shared_convCopy_alive ha hcp)
    simp only [World.owners, owners_append, indO]
  | sMove j =>
    simp only [step, SharedPtr.move, bind_ok_iff, pure_ok_iff, sp_ok_iff] at hok
    obtain ⟨other, hj, rfl⟩ := hok
    refine alive_congr (fun c => ?_) ha
    simp only [World.owners, owners_append, owners_set hj, indO, ind_none]
    omega
  | sConvMove j =>
    simp only [step, bind_ok_iff, pure_ok_iff, sp_ok_iff] at hok
    obtain ⟨other, hj, ⟨h1, s, other1⟩, hcm, rfl⟩ := hok
    obtain ⟨rfl, rfl, _, _⟩ := shared_convMove_spec hinv hcm
    refine alive_congr (fun c => ?_) (shared_convMove_alive hinv ha hcm)
    simp only [World.owners, owners_append, owners_set hj, indO, ind_none]
    omega
  | sOfWeak k =>
    simp only [step, bind_ok_iff, pure_ok_iff, wp_ok_iff] at hok
    obtain ⟨x, _, ⟨h1, s⟩, hcp, rfl⟩ := hok
    obtain ⟨rfl, _, _⟩ := shared_ofWeak_spec hinv hcp
    refine alive_congr (fun c => ?_) (shared_ofWeak_alive ha hcp)
    simp only [World.owners, owners_append, indO]
  | sCopyAssign i j =>
    simp only [step, World.sCopyAssign, SharedPtr.swap, bind_ok_iff, pure_ok_iff, sp_ok_iff] at hok
    obtain ⟨this, hi, other, hj, ⟨h1, tmp⟩, hcp, h2, hd, rfl⟩ := hok
    obtain ⟨rfl, hcnt, _⟩ := shared_copy_spec hinv hcp
    have ha2 := shared_destroy_alive hcnt (shared_copy_alive ha hcp) hd
    refine alive_congr (fun c => ?_) ha2
    simp only [World.owners, owners_set hi, indO]
    omega
  | sMoveAssign i j =>
    simp only [step, World.sMoveAssign, SharedPtr.swap, SharedPtr.move, bind_ok_iff, pure_ok_iff,
      sp_ok_iff] at hok
    obtain ⟨_, _, other, hj, this, hi, h2, hd, rfl⟩ := hok
    refine alive_congr (fun c => ?_) (shared_destroy_alive hinv ha hd)
    simp only [World.owners, owners_set hi, owners_set hj, indO, ind_none]
    omega
  | sConvMoveAssign i j =>
    simp only [step, World.sConvMoveAssign, SharedPtr.swap, bind_ok_iff, pure_ok_iff,
      sp_ok_iff] at hok
    obtain ⟨_, _, other, hj, ⟨h1, tmp, other1⟩, hcm, this, hi, h2, hd, rfl⟩ := hok
    obtain ⟨rfl, rfl, hcnt, _⟩ := shared_convMove_spec hinv hcm
    have ha2 := shared_destroy_alive hcnt (shared_convMove_alive hinv ha hcm) hd
    refine alive_congr (fun c => ?_) ha2
    simp only [World.owners, owners_set hi, owners_set hj, indO, ind_none]
    omega
  | sReset i =>
    simp only [step, bind_ok_iff, pure_ok_iff, sp_ok_iff] at hok
    obtain ⟨this, hi, ⟨h1, this1⟩, hres, rfl⟩ := hok
    obtain ⟨rfl, _, _⟩ := shared_reset_spec hinv hres
    refine alive_congr (fun c => ?_) (shared_reset_alive hinv ha hres)
    simp only [World.owners, owners_set hi, indO, ind_none]
    omega
  | sResetTo i allocOk esft p =>
    simp only [step, bind_ok_iff, sp_ok_iff] at hok
    obtain ⟨this, hi, ⟨h1, r⟩, hres, hok⟩ := hok
    have hspec := shared_resetTo_alive hinv ha hres
    cases r with
    | error e =>
      simp only [pure_ok_iff] at hok
      subst hok
      exact hspec.2 e rfl
    | ok s =>
      simp only [pure_ok_iff] at hok
      subst hok
      refine alive_congr (fun c => ?_) (hspec.1 s rfl)
      simp only [World.owners, owners_set hi, indO]
      omega
  | sSwap i j =>
    simp only [step, World.sSwap, SharedPtr.swap, bind_ok_iff, pure_ok_iff, sp_ok_iff] at hok
    obtain ⟨this, hi, other, hj, rfl⟩ := hok
    refine alive_congr (fun c => ?_) ha
    have hlt := getElem?_lt_of_eq_some hi
    by_cases hij : i = j
    · subst hij
      rw [hi] at hj
      simp only [Option.some.injEq] at hj
      subst hj
      have h2 : (w.sps.set i (some { ptr := this.ptr, cb := this.cb }))[i]?
          = some (some { ptr := this.ptr, cb := this.cb }) := by
        simp [hlt]
      simp only [World.owners, owners_set h2, owners_set hi, indO]
      omega
    · have h2 : (w.sps.set i (some { ptr := other.ptr, cb := other.cb }))[j]? = some (some other) := by
        rw [List.getElem?_set_ne hij]
        exact hj
      simp only [World.owners, owners_set h2, owners_set hi, indO]
      omega
  | sDestroy i =>
    simp only [step, bind_ok_iff, pure_ok_iff, sp_ok_iff] at hok
    obtain ⟨s, hi, h1, hd, rfl⟩ := hok
    refine alive_congr (fun c => ?_) (shared_destroy_alive hinv ha hd)
    simp only [World.owners, owners_set hi, indO]
    omega
  | wDefault =>
    simp only [step, pure_ok_iff] at hok
    subst hok
    exact ha
  | wOfShared j =>
    simp only [step, bind_ok_iff, pure_ok_iff, sp_ok_iff] at hok
    obtain ⟨s, _, ⟨h1, x⟩, hof, rfl⟩ := hok
    exact key h1 (wk_weak_ofShared hof)
  | wCopy k =>
    simp only [step, bind_ok_iff, pure_ok_iff, wp_ok_iff] at hok
    obtain ⟨s, _, ⟨h1, x⟩, hof, rfl⟩ := hok
    exact key h1 (wk_weak_copy hof)
  | wMove k =>
    simp only [step, WeakPtr.move, bind_ok_iff, pure_ok_iff, wp_ok_iff] at hok
    obtain ⟨s, _, rfl⟩ := hok
    exact ha
  | wAssignShared k j =>
    simp only [step, bind_ok_iff, pure_ok_iff, wp_ok_iff, sp_ok_iff] at hok
    obtain ⟨this, _, s, _, ⟨h1, x⟩, hof, rfl⟩ := hok
    exact key h1 (wk_weak_assignShared hof)
  | wSwap k l =>
    simp only [step, World.wSwap, WeakPtr.swap, bind_ok_iff, pure_ok_iff, wp_ok_iff] at hok
    obtain ⟨this, _, other, _, rfl⟩ := hok
    exact ha
  | wDestroy k =>
    simp only [step, bind_ok_iff, pure_ok_iff, wp_ok_iff] at hok
    obtain ⟨x, _, h1, hd, rfl⟩ := hok
    exact key h1 (wk_weak_destroy hd)
  | wLock k =>
    simp only [step, bind_ok_iff, pure_ok_iff, wp_ok_iff] at hok
    obtain ⟨x, _, ⟨h1, s⟩, hcp, rfl⟩ := hok
    refine alive_congr (fun c => ?_) (weak_lock_alive ha hcp)
    simp only [World.owners, owners_append, indO]

theorem alive_empty : (({} : World T)).OwnedAlive := by
  intro c hpos
  simp [World.owners] at hpos

theorem run_alive {ops : List (Op T)} {w w1 : World T} (hinv : w.SharedInv) (ha : w.OwnedAlive)
    (hok : run w ops = Except.ok w1) : w1.OwnedAlive := by
  induction ops generalizing w with
  | nil =>
    simp only [run, pure_ok_iff] at hok
    subst hok
    exact ha
  | cons op ops ih =>
    simp only [run, bind_ok_iff] at hok
    obtain ⟨w2, hstep, hrun⟩ := hok
    exact ih (step_spec hinv hstep).1 (step_alive hinv ha hstep) hrun

/-! ## Closed forms of the counter operations -/

theorem reach_owner {ops : List (Op T)} {w : World T}
    (hrun : run ({} : World T) ops = Except.ok w) {i : Nat} {s : SharedPtr} {b : Addr}
    (hs : w.sps[i]? = some (some s)) (hcb : s.cb = some b) :
    ∃ blk, w.heap.blocks[b]? = some (Slot.live blk) ∧ 1 ≤ blk.shared_cnt := by
  have hinv := (run_spec sharedInv_empty hrun).1
  have ha := run_alive sharedInv_empty alive_empty hrun
  have hpos := owners_pos hs hcb
  obtain ⟨blk, hblk⟩ := ha b (by
    show (0 : Int) < (w.sps.countP (holds b) : Nat)
    omega)
  refine ⟨blk, hblk, ?_⟩
  rw [hinv.1 b blk hblk]
  exact hpos

/-- At `INT_MAX` the increment of `shared_cnt` is undefined. -/
theorem increment_shared_cnt_max {h : Heap T} {b : Addr} {blk : ControlBlock T}
    (hblk : h.blocks[b]? = some (Slot.live blk)) (hmax : ¬ blk.shared_cnt < INT_MAX) :
    increment_shared_cnt h (some b) = Except.error Fault.signedOverflow := by
  have hb : h.block (some b) = Except.ok (b, blk) := (block_ok_iff h (some b) b blk).2 ⟨rfl, hblk⟩
  simp [increment_shared_cnt, hb, bind, Except.bind, hmax]

/-- At `INT_MAX` the increment of `weak_cnt` is undefined. -/
theorem increment_weak_cnt_max {h : Heap T} {b : Addr} {blk : ControlBlock T}
    (hblk : h.blocks[b]? = some (Slot.live blk)) (hmax : ¬ blk.weak_cnt < INT_MAX) :
    increment_weak_cnt h (some b) = Except.error Fault.signedOverflow := by
  have hb : h.block (some b) = Except.ok (b, blk) := (block_ok_iff h (some b) b blk).2 ⟨rfl, hblk⟩
  simp [increment_weak_cnt, hb, bind, Except.bind, hmax]

theorem decrement_shared_cnt_keep {h : Heap T} {b : Addr} {blk : ControlBlock T}
    (hblk : h.blocks[b]? = some (Slot.live blk)) (hne : blk.shared_cnt ≠ 1) :
    decrement_shared_cnt h (some b)
      = Except.ok (h.setBlock b { blk with shared_cnt := blk.shared_cnt - 1 }) := by
  have hb : h.block (some b) = Except.ok (b, blk) := (block_ok_iff h (some b) b blk).2 ⟨rfl, hblk⟩
  have hz : ¬ blk.shared_cnt - 1 = 0 := by omega
  simp [decrement_shared_cnt, hb, bind, Except.bind, pure, Except.pure, hz]

/-- One more owner and one owner less: the heap is as before. -/
theorem increment_then_decrement {h : Heap T} {b : Addr} {blk : ControlBlock T}
    (hblk : h.blocks[b]? = some (Slot.live blk)) (hpos : 1 ≤ blk.shared_cnt) :
    decrement_shared_cnt (h.setBlock b { blk with shared_cnt := blk.shared_cnt + 1 }) (some b)
      = Except.ok h := by
  have hset := setBlock_get_self { blk with shared_cnt := blk.shared_cnt + 1 } hblk
  rw [decrement_shared_cnt_keep hset (by simp only; omega), setBlock_setBlock]
  have hblk2 : ({ shared_cnt := blk.shared_cnt + 1 - 1, weak_cnt := blk.weak_cnt,
                  kind := blk.kind } : ControlBlock T) = blk := by
    cases blk with
    | mk sc wc k =>
      simp
  simp only [hblk2]
  rw [setBlock_set_self hblk]

theorem convMove_eq {h : Heap T} {s : SharedPtr} {b : Addr} {blk : ControlBlock T}
    (hcb : s.cb = some b) (hblk : h.blocks[b]? = some (Slot.live blk))
    (hpos : 1 ≤ blk.shared_cnt) (hlt : blk.shared_cnt < INT_MAX) :
    SharedPtr.convMove h s
      = Except.ok (h, { ptr := s.ptr, cb := s.cb }, { ptr := Ptr.null, cb := none }) := by
  simp only [SharedPtr.convMove, hcb, increment_shared_cnt_eq hblk hlt, bind, Except.bind,
    SharedPtr.reset, SharedPtr.swap, SharedPtr.destroy, increment_then_decrement hblk hpos, pure,
    Except.pure]

theorem deleterCalls_record (h : Heap T) (e : Event) (d : Deleter) (q : Ptr) :
    (h.record e).deleterCalls d q
      = h.deleterCalls d q + (if e = Event.deleterCall d q then 1 else 0) := by
  unfold Heap.deleterCalls Heap.record
  simp only [List.count_append, List.count_singleton]
  by_cases he : e = Event.deleterCall d q
  · simp [he]
  · have he2 : ¬ (Event.deleterCall d q = e) := fun hh => he hh.symm
    simp [he, he2]

theorem deleterCalls_dealloc (h : Heap T) (b : Addr) (d : Deleter) (q : Ptr) :
    (dealloc_this h b).deleterCalls d q = h.deleterCalls d q := by
  simp [Heap.deleterCalls, dealloc_this, List.count_append]

theorem decrement_weak_cnt_deleterCalls {h h1 : Heap T} {cb : Option Addr}
    (hok : decrement_weak_cnt h cb = Except.ok h1) (d : Deleter) (q : Ptr) :
    h1.deleterCalls d q = h.deleterCalls d q := by
  unfold decrement_weak_cnt at hok
  simp only [bind_ok_iff] at hok
  obtain ⟨⟨b, blk⟩, _, hok⟩ := hok
  simp only at hok
  split at hok
  · rw [pure_ok_iff] at hok
    subst hok
    rw [deleterCalls_dealloc]
    rfl
  · rw [pure_ok_iff] at hok
    subst hok
    rfl

theorem weak_destroy_deleterCalls {h h1 : Heap T} {w : WeakPtr}
    (hok : WeakPtr.destroy h w = Except.ok h1) (d : Deleter) (q : Ptr) :
    h1.deleterCalls d q = h.deleterCalls d q := by
  unfold WeakPtr.destroy at hok
  split at hok
  · rw [pure_ok_iff] at hok
    subst hok
    rfl
  · exact decrement_weak_cnt_deleterCalls hok d q

theorem obj_destroy_deleterCalls {h h1 : Heap T} {o : Obj T}
    (hok : Obj.destroy h o = Except.ok h1) (d : Deleter) (q : Ptr) :
    h1.deleterCalls d q = h.deleterCalls d q := by
  unfold Obj.destroy at hok
  split at hok
  · rw [pure_ok_iff] at hok
    subst hok
    rfl
  · exact weak_destroy_deleterCalls hok d q

theorem deletePtr_deleterCalls {h h1 : Heap T} {p : Ptr}
    (hok : deletePtr h p = Except.ok h1) (d : Deleter) (q : Ptr) :
    h1.deleterCalls d q = h.deleterCalls d q := by
  unfold deletePtr at hok
  split at hok
  · rw [pure_ok_iff] at hok
    subst hok
    rfl
  · split at hok
    · rw [obj_destroy_deleterCalls hok d q]
      simp [Heap.deleterCalls, List.count_append]
    · cases hok
  · cases hok

theorem callDeleter_deleterCalls {h h1 : Heap T} {d0 : Deleter} {p0 : Ptr}
    (hok : callDeleter h d0 p0 = Except.ok h1) (d : Deleter) (q : Ptr) :
    h1.deleterCalls d q = h.deleterCalls d q + (if d = d0 ∧ q = p0 then 1 else 0) := by
  have hrec : (h.record (Event.deleterCall d0 p0)).deleterCalls d q
      = h.deleterCalls d q + (if d = d0 ∧ q = p0 then 1 else 0) := by
    rw [deleterCalls_record]
    by_cases hdq : d = d0 ∧ q = p0
    · obtain ⟨rfl, rfl⟩ := hdq
      simp
    · have hne : ¬ (Event.deleterCall d0 p0 = Event.deleterCall d q) := by
        simp only [Event.deleterCall.injEq]
        exact fun hh => hdq ⟨hh.1.symm, hh.2.symm⟩
      simp [hdq, hne]
  unfold callDeleter at hok
  cases d0 with
  | default_delete =>
    rw [deletePtr_deleterCalls hok d q]
    exact hrec
  | custom id deletes =>
    simp only at hok
    split at hok
    · rw [deletePtr_deleterCalls hok d q]
      exact hrec
    · rw [pure_ok_iff] at hok
      subst hok
      exact hrec

theorem useDeleter_regular {h : Heap T} {b : Addr} {blk : ControlBlock T} {d0 : Deleter}
    {p0 : Ptr} (hblk : h.blocks[b]? = some (Slot.live blk))
    (hk : blk.kind = BlockKind.regular d0 p0) :
    useDeleter h b = callDeleter (h.record (Event.useDeleter b)) d0 p0 := by
  have hb : h.block (some b) = Except.ok (b, blk) := (block_ok_iff h (some b) b blk).2 ⟨rfl, hblk⟩
  unfold useDeleter
  simp only [bind, Except.bind, hb]
  rw [hk]

/-- The release of the last owner of a `ControlBlockRegular` calls the stored deleter once,
with the stored pointer, and calls no other deleter. -/
theorem last_owner_deleterCalls {h h1 : Heap T} {b : Addr} {blk : ControlBlock T} {d0 : Deleter}
    {p0 : Ptr} (hblk : h.blocks[b]? = some (Slot.live blk))
    (hk : blk.kind = BlockKind.regular d0 p0) (hone : blk.shared_cnt = 1)
    (hok : decrement_shared_cnt h (some b) = Except.ok h1) (d : Deleter) (q : Ptr) :
    h1.deleterCalls d q = h.deleterCalls d q + (if d = d0 ∧ q = p0 then 1 else 0) := by
  have hb : h.block (some b) = Except.ok (b, blk) := (block_ok_iff h (some b) b blk).2 ⟨rfl, hblk⟩
  have hz : blk.shared_cnt - 1 = 0 := by omega
  have hset := setBlock_get_self { blk with shared_cnt := blk.shared_cnt - 1 } hblk
  unfold decrement_shared_cnt at hok
  simp only [bind, Except.bind, hb, if_pos hz] at hok
  cases hud : useDeleter (h.setBlock b { blk with shared_cnt := blk.shared_cnt - 1 }) b with
  | error e =>
    rw [hud] at hok
    cases hok
  | ok h2 =>
    rw [hud] at hok
    have h2c : h2.deleterCalls d q = h.deleterCalls d q + (if d = d0 ∧ q = p0 then 1 else 0) := by
      rw [useDeleter_regular hset hk] at hud
      rw [callDeleter_deleterCalls hud d q, deleterCalls_record]
      have hne : ¬ (Event.useDeleter b = Event.deleterCall d q) := fun hh => by cases hh
      simp only [hne, if_false, Nat.add_zero]
      rfl
    simp only at hok
    cases hb2 : h2.block (some b) with
    | error e =>
      rw [hb2] at hok
      cases hok
    | ok pr =>
      rw [hb2] at hok
      simp only at hok
      split at hok
      · simp only [pure, Except.pure, Except.ok.injEq] at hok
        subst hok
        rw [deleterCalls_dealloc]
        exact h2c
      · simp only [pure, Except.pure, Except.ok.injEq] at hok
        subst hok
        exact h2c

theorem shared_destroy_plain {h : Heap T} {s : SharedPtr} {b : Addr} {blk : ControlBlock T}
    (hcb : s.cb = some b) (hblk : h.blocks[b]? = some (Slot.live blk))
    (hplain : h.plainRelease blk.kind = true) : ∃ h1, s.destroy h = Except.ok h1 := by
  obtain ⟨h1, hok, _⟩ := decrement_shared_cnt_plain hblk (fun _ => hplain)
  exact ⟨h1, by simp only [SharedPtr.destroy, hcb, hok]⟩

theorem shared_destroy_eq {h : Heap T} {s : SharedPtr} {b : Addr} (hcb : s.cb = some b) :
    s.destroy h = decrement_shared_cnt h (some b) := by
  simp only [SharedPtr.destroy, hcb]

theorem allocateRegular_block (g : Heap T) (p : Ptr) (d : Deleter) :
    (allocateRegular g true p d).2 = Except.ok g.blocks.length ∧
    (allocateRegular g true p d).1.blocks[g.blocks.length]?
      = some (Slot.live { shared_cnt := 1, weak_cnt := 0, kind := BlockKind.regular d p }) := by
  simp [allocateRegular, allocate, Heap.setBlock, set_append_last]

/-! ## The adopting constructor on an object with the `EnableSharedFromThis` base -/

theorem weak_destroy_frame {h : Heap T} {x : WeakPtr}
    (hx : ∀ c, x.cb = some c → ∃ blk : ControlBlock T, h.blocks[c]? = some (Slot.live blk)) :
    ∃ h1, x.destroy h = Except.ok h1 ∧
      (∀ n : Addr, x.cb ≠ some n → h1.blocks[n]? = h.blocks[n]?) ∧
      h1.objs = h.objs ∧ h1.allocations = h.allocations ∧
      (∀ c, h1.released c = h.released c) := by
  cases hcb : x.cb with
  | none =>
    exact ⟨h, by simp [WeakPtr.destroy, hcb, pure, Except.pure], fun _ _ => rfl, rfl, rfl,
      fun _ => rfl⟩
  | some c =>
    obtain ⟨blk, hblk⟩ := hx c hcb
    have hb : h.block (some c) = Except.ok (c, blk) := (block_ok_iff h (some c) c blk).2 ⟨rfl, hblk⟩
    have hne : ∀ n : Addr, some c ≠ some n → n ≠ c := fun n hn hh => hn (by rw [hh])
    by_cases hz : blk.shared_cnt = 0 ∧ blk.weak_cnt - 1 = 0
    · refine ⟨dealloc_this (h.setBlock c { blk with weak_cnt := blk.weak_cnt - 1 }) c, ?_,
        fun n hn => ?_, rfl, ?_, fun n => ?_⟩
      · simp [WeakPtr.destroy, hcb, decrement_weak_cnt, hb, bind, Except.bind, pure, Except.pure,
          hz]
      · rw [dealloc_get_ne _ (hne n hn), setBlock_get_ne _ _ (hne n hn)]
      · simp [Heap.allocations, dealloc_this, Heap.setBlock, List.countP_append]
      · simp [Heap.released, dealloc_this, Heap.setBlock, List.count_append]
    · refine ⟨h.setBlock c { blk with weak_cnt := blk.weak_cnt - 1 }, ?_,
        fun n hn => setBlock_get_ne _ _ (hne n hn), rfl, rfl, fun _ => rfl⟩
      simp [WeakPtr.destroy, hcb, decrement_weak_cnt, hb, bind, Except.bind, pure, Except.pure, hz]

theorem allocateRegular_eq (h : Heap T) (p : Ptr) (d : Deleter) :
    ∃ hA : Heap T, allocateRegular h true p d = (hA, Except.ok h.blocks.length) ∧
      hA.blocks = h.blocks ++ [Slot.live
        { shared_cnt := 1, weak_cnt := 0, kind := BlockKind.regular d p }] ∧
      hA.objs = h.objs ∧ hA.allocations = h.allocations + 1 ∧
      (∀ c, hA.released c = h.released c) := by
  refine ⟨{ blocks := h.blocks ++ [Slot.live
              { shared_cnt := 1, weak_cnt := 0, kind := BlockKind.regular d p }],
            objs := h.objs,
            log := h.log ++ [Event.allocate h.blocks.length] }, ?_, rfl, rfl, ?_, fun c => ?_⟩
  · simp [allocateRegular, allocate, Heap.setBlock, set_append_last]
  · simp [Heap.allocations, List.countP_append]
  · simp [Heap.released, List.count_append]

/-- The adopting constructor on a live free-standing object that has the
`EnableSharedFromThis` base, its `wptr` being unwired or wired to a block that exists. -/
theorem adopt_wired {h : Heap T} {a : Addr} {o : Obj T} {e : EnableSharedFromThis} (d : Deleter)
    (ho : h.objs[a]? = some (some o)) (hbase : o.base = some e)
    (hold : ∀ c, e.wptr.cb = some c → ∃ blk : ControlBlock T, h.blocks[c]? = some (Slot.live blk)) :
    ∃ h2, SharedPtr.adopt h true true (Ptr.ext a) d
        = Except.ok (h2, Except.ok { ptr := Ptr.ext a, cb := some h.blocks.length }) ∧
      h2.blocks[h.blocks.length]? = some (Slot.live
        { shared_cnt := 1, weak_cnt := 1, kind := BlockKind.regular d (Ptr.ext a) }) ∧
      h2.obj (Ptr.ext a) = Except.ok
        { value := o.value,
          base := some { wptr := { cb := some h.blocks.length, ptr := Ptr.ext a } } } ∧
      h2.allocations = h.allocations + 1 ∧
      (∀ c, h2.released c = h.released c) := by
  obtain ⟨hA0, har, hAb, hAo, hAa, hAr⟩ := allocateRegular_eq h (Ptr.ext a) d
  have hAn : hA0.blocks[h.blocks.length]? = some (Slot.live
      { shared_cnt := 1, weak_cnt := 0, kind := BlockKind.regular d (Ptr.ext a) }) := by
    rw [hAb]
    simp
  have hinc := increment_weak_cnt_eq hAn zero_lt_INT_MAX
  have hBn := setBlock_get_self
    ({ shared_cnt := 1, weak_cnt := 0 + 1, kind := BlockKind.regular d (Ptr.ext a) }
      : ControlBlock T) hAn
  have hxB : ∀ c, (WeakPtr.mk e.wptr.cb e.wptr.ptr).cb = some c →
      ∃ blk : ControlBlock T,
        (hA0.setBlock h.blocks.length
          { shared_cnt := 1, weak_cnt := 0 + 1,
            kind := BlockKind.regular d (Ptr.ext a) }).blocks[c]? = some (Slot.live blk) := by
    intro c hc
    obtain ⟨blk, hblk⟩ := hold c hc
    have hlt := getElem?_lt_of_eq_some hblk
    refine ⟨blk, ?_⟩
    rw [setBlock_get_ne _ _ (Nat.ne_of_lt hlt), hAb, List.getElem?_append_left hlt]
    exact hblk
  obtain ⟨hC, hdes, hCne, hCo, hCa, hCr⟩ := weak_destroy_frame hxB
  have hnn : (WeakPtr.mk e.wptr.cb e.wptr.ptr).cb ≠ some h.blocks.length := by
    intro hh
    obtain ⟨blk, hblk⟩ := hold _ hh
    exact Nat.lt_irrefl _ (getElem?_lt_of_eq_some hblk)
  have hCn := (hCne _ hnn).trans hBn
  have hobjA : hA0.obj (Ptr.ext a) = Except.ok o := by
    simp [Heap.obj, hAo, ho]
  have hobjC : hC.obj (Ptr.ext a) = Except.ok o := by
    simp [Heap.obj, hCo, Heap.setBlock, hAo, ho]
  have hlta := getElem?_lt_of_eq_some ho
  have hwire : wireSelf hA0 (Ptr.ext a) { ptr := Ptr.ext a, cb := some h.blocks.length }
      = Except.ok (hC.setObj (Ptr.ext a)
          { value := o.value,
            base := some { wptr := { cb := some h.blocks.length, ptr := Ptr.ext a } } }) := by
    simp only [wireSelf, hobjA, bind, Except.bind, hbase, WeakPtr.assignShared, WeakPtr.ofShared,
      hinc, pure, Except.pure, WeakPtr.swap, hdes, hobjC]
  refine ⟨hC.setObj (Ptr.ext a)
      { value := o.value,
        base := some { wptr := { cb := some h.blocks.length, ptr := Ptr.ext a } } },
    ?_, ?_, ?_, ?_, ?_⟩
  · simp only [SharedPtr.adopt, har, if_true, hwire, bind, Except.bind, pure, Except.pure]
  · simpa [Heap.setObj] using hCn
  · simp [Heap.obj, Heap.setObj, hCo, Heap.setBlock, hAo, hlta]
  · show hC.allocations = h.allocations + 1
    exact hCa.trans hAa
  · intro c
    show hC.released c = h.released c
    exact (hCr c).trans (hAr c)

/-! ## Further lemmas on the handle operations -/

/-- The release test of a block depends on the free-standing objects only. -/
theorem plainRelease_objs {h h1 : Heap T} (ho : h1.objs = h.objs) (k : BlockKind T) :
    h1.plainRelease k = h.plainRelease k := by
  have hd : ∀ p, h1.deletable p = h.deletable p := by
    intro p
    cases p <;> simp [Heap.deletable, ho]
  cases k with
  | regular d p =>
    cases d <;> simp [Heap.plainRelease, hd]
  | makeShared o =>
    cases o <;> simp [Heap.plainRelease]

/-- In a state a program reaches, the `shared_cnt` of the block of a live handle is the number
of live handles on that block. -/
theorem reach_count {ops : List (Op T)} {w : World T}
    (hrun : run ({} : World T) ops = Except.ok w) {b : Addr} {blk : ControlBlock T}
    (hblk : w.heap.blocks[b]? = some (Slot.live blk)) :
    blk.shared_cnt = (w.owners b : Int) :=
  (run_spec sharedInv_empty hrun).1.1 b blk hblk

/-- One more observer and one observer less: the heap is as before, unless the block had
neither an owner nor an observer. -/
theorem increment_then_decrement_weak {h : Heap T} {b : Addr} {blk : ControlBlock T}
    (hblk : h.blocks[b]? = some (Slot.live blk))
    (hne : ¬ (blk.shared_cnt = 0 ∧ blk.weak_cnt = 0)) :
    decrement_weak_cnt (h.setBlock b { blk with weak_cnt := blk.weak_cnt + 1 }) (some b)
      = Except.ok h := by
  have hset := setBlock_get_self { blk with weak_cnt := blk.weak_cnt + 1 } hblk
  have hb := (block_ok_iff _ (some b) _ _).2 ⟨rfl, hset⟩
  have hz : ¬ (blk.shared_cnt = 0 ∧ blk.weak_cnt + 1 - 1 = 0) := by
    intro hh
    exact hne ⟨hh.1, by omega⟩
  have e : blk.weak_cnt + 1 - 1 = blk.weak_cnt := by omega
  simp only [decrement_weak_cnt, hb, bind, Except.bind, hz, if_false, pure, Except.pure,
    setBlock_setBlock, e]
  rw [setBlock_set_self hblk, if_neg hne]

/-- An observer statement neither changes a `shared_cnt` nor calls `useDeleter()`, and it
leaves the owning handles alone. -/
theorem step_observerOnly {w w1 : World T} {op : Op T} (hop : op.observerOnly = true)
    (hok : step w op = Except.ok w1) : Wk w.heap w1.heap ∧ w1.sps = w.sps := by
  cases op with
  | wDefault =>
    simp only [step, pure_ok_iff] at hok
    subst hok
    exact ⟨Wk.refl _, rfl⟩
  | wOfShared j =>
    simp only [step, bind_ok_iff, pure_ok_iff] at hok
    obtain ⟨s, _, ⟨h1, x⟩, hx, rfl⟩ := hok
    exact ⟨wk_weak_ofShared hx, rfl⟩
  | wCopy k =>
    simp only [step, bind_ok_iff, pure_ok_iff] at hok
    obtain ⟨s, _, ⟨h1, x⟩, hx, rfl⟩ := hok
    exact ⟨wk_weak_copy hx, rfl⟩
  | wMove k =>
    simp only [step, bind_ok_iff, pure_ok_iff] at hok
    obtain ⟨s, _, rfl⟩ := hok
    exact ⟨Wk.refl _, rfl⟩
  | wAssignShared k j =>
    simp only [step, bind_ok_iff, pure_ok_iff] at hok
    obtain ⟨x, _, s, _, ⟨h1, x1⟩, hx, rfl⟩ := hok
    exact ⟨wk_weak_assignShared hx, rfl⟩
  | wSwap k l =>
    simp only [step, World.wSwap, bind_ok_iff, pure_ok_iff] at hok
    obtain ⟨x, _, y, _, rfl⟩ := hok
    exact ⟨Wk.refl _, rfl⟩
  | wDestroy k =>
    simp only [step, bind_ok_iff, pure_ok_iff] at hok
    obtain ⟨x, _, h1, hx, rfl⟩ := hok
    exact ⟨wk_weak_destroy hx, rfl⟩
  | _ => cases hop

/-- The same for a program of observer statements. -/
theorem run_observerOnly {ops : List (Op T)} {w w1 : World T}
    (hops : ∀ op ∈ ops, op.observerOnly = true)
    (hok : run w ops = Except.ok w1) : Wk w.heap w1.heap ∧ w1.sps = w.sps := by
  induction ops generalizing w with
  | nil =>
    simp only [run, pure_ok_iff] at hok
    subst hok
    exact ⟨Wk.refl _, rfl⟩
  | cons op rest ih =>
    simp only [run, bind_ok_iff] at hok
    obtain ⟨w2, h2, hrest⟩ := hok
    obtain ⟨a, b⟩ := step_observerOnly (hops op (List.mem_cons_self _ _)) h2
    obtain ⟨c, d⟩ := ih (fun o ho => hops o (List.mem_cons_of_mem _ ho)) hrest
    exact ⟨a.trans c, d.trans b⟩

/-- A slot whose view is a live block holds a live block. -/
theorem sv_live {x : Option (Slot T)} {n : Int} (hx : sv x = SV.live n) :
    ∃ blk : ControlBlock T, x = some (Slot.live blk) ∧ blk.shared_cnt = n := by
  cases x with
  | none => cases hx
  | some s =>
    cases s with
    | raw => cases hx
    | freed => cases hx
    | live blk =>
      simp only [sv, SV.live.injEq] at hx
      exact ⟨blk, rfl, hx⟩

theorem sharedAt_live {h : Heap T} {c : Addr} {blk : ControlBlock T}
    (hblk : h.blocks[c]? = some (Slot.live blk)) : h.sharedAt c = blk.shared_cnt := by
  simp [Heap.sharedAt, hblk]

theorem counted_sharedAt (h : Heap T) : Counted h h.sharedAt := by
  refine ⟨fun c blk hblk => (sharedAt_live hblk).symm, fun c hc => ?_⟩
  simp [Heap.sharedAt, List.getElem?_eq_none hc]

theorem alive_sharedAt (h : Heap T) : Alive h h.sharedAt := by
  intro c hc
  unfold Heap.sharedAt at hc
  split at hc
  · rename_i blk hblk
    exact ⟨blk, hblk⟩
  · omega

/-- What the destructor of an owning handle does to the counts, whichever release it
triggers: every block that exists afterwards has its former `shared_cnt`, less one for the
block of the handle; and a block for which this value is positive still exists. -/
theorem shared_destroy_frame {h h1 : Heap T} {s : SharedPtr} (hok : s.destroy h = Except.ok h1) :
    (∀ (c : Addr) (blk1 : ControlBlock T), h1.blocks[c]? = some (Slot.live blk1) →
      blk1.shared_cnt = h.sharedAt c - ind s.cb c) ∧
    (∀ c : Addr, 0 < h.sharedAt c - ind s.cb c →
      ∃ blk1 : ControlBlock T, h1.blocks[c]? = some (Slot.live blk1)) :=
  ⟨(shared_destroy_spec (counted_sharedAt h) hok).1.1,
    shared_destroy_alive (counted_sharedAt h) (alive_sharedAt h) hok⟩

/-- A successful adopting constructor: the handle it builds, and what it leaves of the
counts. -/
theorem adopt_ok {h hA : Heap T} {allocOk esft : Bool} {p : Ptr} {d : Deleter} {s : SharedPtr}
    (hok : SharedPtr.adopt h allocOk esft p d = Except.ok (hA, Except.ok s)) :
    s = { ptr := p, cb := some h.blocks.length } ∧
    (∀ c, hA.released c = h.released c) ∧
    (∀ (c : Addr) (blk1 : ControlBlock T), hA.blocks[c]? = some (Slot.live blk1) →
      blk1.shared_cnt = h.sharedAt c + ind (some h.blocks.length) c) ∧
    (∀ c : Addr, 0 < h.sharedAt c + ind (some h.blocks.length) c →
      ∃ blk1 : ControlBlock T, hA.blocks[c]? = some (Slot.live blk1)) := by
  have hc := (shared_adopt_spec (counted_sharedAt h) hok).1 s rfl
  have ha := (shared_adopt_alive (counted_sharedAt h) (alive_sharedAt h) hok).1 s rfl
  have hs : s = { ptr := p, cb := some h.blocks.length } ∧ ∀ c, hA.released c = h.released c := by
    unfold SharedPtr.adopt allocateRegular allocate at hok
    cases allocOk with
    | false => simp [pure, Except.pure] at hok
    | true =>
      cases esft with
      | false =>
        simp only [if_true, Bool.false_eq_true, if_false, pure_ok_iff, Prod.mk.injEq,
          Except.ok.injEq] at hok
        obtain ⟨rfl, rfl⟩ := hok
        exact ⟨rfl, fun c => by simp [Heap.released, Heap.setBlock, List.count_append]⟩
      | true =>
        simp only [if_true, bind_ok_iff, pure_ok_iff, Prod.mk.injEq, Except.ok.injEq] at hok
        obtain ⟨h3, hw, rfl, rfl⟩ := hok
        refine ⟨rfl, fun c => ?_⟩
        rw [(wk_wireSelf hw).2.1 c]
        simp [Heap.released, Heap.setBlock, List.count_append]
  obtain ⟨rfl, hrel⟩ := hs
  exact ⟨rfl, hrel, hc.1.1, ha⟩

/-- The adopting constructor raises only when the allocation fails. -/
theorem adopt_true_ok {h hA : Heap T} {esft : Bool} {p : Ptr} {d : Deleter}
    {r : Except Exn SharedPtr} (hok : SharedPtr.adopt h true esft p d = Except.ok (hA, r)) :
    ∃ s, r = Except.ok s := by
  unfold SharedPtr.adopt allocateRegular allocate at hok
  cases esft with
  | false =>
    simp only [if_true, Bool.false_eq_true, if_false, pure_ok_iff, Prod.mk.injEq] at hok
    exact ⟨_, hok.2.symm⟩
  | true =>
    simp only [if_true, bind_ok_iff, pure_ok_iff, Prod.mk.injEq] at hok
    obtain ⟨_, _, _, hr⟩ := hok
    exact ⟨_, hr.symm⟩

/-- A returning `reset(p)` is the adopting constructor followed by the destructor of the
former handle. -/
theorem resetTo_ok {h h1 : Heap T} {esft : Bool} {this : SharedPtr} {p : Ptr}
    {r : Except Exn SharedPtr}
    (hok : SharedPtr.resetTo h true esft this p = Except.ok (h1, r)) :
    ∃ hA s, SharedPtr.adopt h true esft p Deleter.default_delete = Except.ok (hA, Except.ok s) ∧
      this.destroy hA = Except.ok h1 ∧ r = Except.ok s := by
  simp only [SharedPtr.resetTo, bind_ok_iff] at hok
  obtain ⟨⟨hA, rA⟩, had, hok⟩ := hok
  obtain ⟨s, rfl⟩ := adopt_true_ok had
  simp only [SharedPtr.swap, bind_ok_iff, pure_ok_iff, Prod.mk.injEq] at hok
  obtain ⟨h2, hd, rfl, rfl⟩ := hok
  exact ⟨hA, s, had, hd, rfl⟩

/-- Two distinct live handles on one block: the block counts at least two owners. -/
theorem owners_two {sps : List (Option SharedPtr)} {i j : Nat} {a b : SharedPtr} {B : Addr}
    (hi : sps[i]? = some (some a)) (hj : sps[j]? = some (some b)) (hij : i ≠ j)
    (ha : a.cb = some B) (hb : b.cb = some B) :
    (2 : Int) ≤ (sps.countP (holds B) : Nat) := by
  have h1 := owners_set (x := none) hi B
  have hj2 : (sps.set i none)[j]? = some (some b) := by
    rw [List.getElem?_set_ne hij]
    exact hj
  have h2 := owners_pos hj2 hb
  simp only [indO, ind_self ha] at h1
  omega

/-! ## The weak count -/

theorem countP_set_int {α : Type} (p : α → Bool) {l : List α} {i : Nat} {x y : α}
    (hi : l[i]? = some y) :
    (((l.set i x).countP p : Nat) : Int)
      = (l.countP p : Nat) - (if p y = true then 1 else 0) + (if p x = true then 1 else 0) := by
  induction l generalizing i with
  | nil => simp at hi
  | cons a l ih =>
    cases i with
    | zero =>
      simp only [List.getElem?_cons_zero, Option.some.injEq] at hi
      subst hi
      simp only [List.set_cons_zero, List.countP_cons, Nat.cast_add]
      split <;> split <;> simp
    | succ n =>
      simp only [List.getElem?_cons_succ] at hi
      simp only [List.set_cons_succ, List.countP_cons, Nat.cast_add, ih hi]
      omega

theorem countP_append_int {α : Type} (p : α → Bool) (l : List α) (x : α) :
    (((l ++ [x]).countP p : Nat) : Int) = (l.countP p : Nat) + (if p x = true then 1 else 0) := by
  rw [List.countP_append]
  simp only [List.countP_cons, List.countP_nil, Nat.zero_add]
  split <;> simp

theorem sind_none (c : Addr) : sind (none : Option (Obj T)) c = 0 := by
  simp [sind, selfObserves]

theorem sind_nonneg (x : Option (Obj T)) (c : Addr) : 0 ≤ sind x c := by
  unfold sind
  split <;> omega

/-- The `wptr` of an object with the base counts for the block it designates. -/
theorem sind_base {o : Obj T} {e : EnableSharedFromThis} (hb : o.base = some e) (c : Addr) :
    sind (some o) c = ind e.wptr.cb c := by
  simp [sind, selfObserves, hb, ind]

theorem sind_unwired {o : Obj T} (hu : o.unwired = true) (c : Addr) : sind (some o) c = 0 := by
  unfold Obj.unwired at hu
  unfold sind selfObserves
  cases hb : o.base with
  | none => simp [hb]
  | some e =>
    rw [hb] at hu
    simp only [Option.isNone_iff_eq_none] at hu
    simp [hb, hu]

/-- Replacing one slot. -/
theorem selfObservers_blocks_set {h g : Heap T} {b : Addr} {s0 t : Slot T}
    (ho : g.objs = h.objs) (hb : g.blocks = h.blocks.set b t) (h0 : h.blocks[b]? = some s0)
    (c : Addr) :
    ((g.selfObservers c : Nat) : Int)
      = (h.selfObservers c : Nat) - sind s0.payload c + sind t.payload c := by
  unfold Heap.selfObservers sind
  rw [ho, hb]
  have := countP_set_int (fun s : Slot T => selfObserves c s.payload) (x := t) h0
  simp only [Nat.cast_add] at this ⊢
  omega

/-- Replacing one free-standing object. -/
theorem selfObservers_objs_set {h g : Heap T} {a : Addr} {x y : Option (Obj T)}
    (hb : g.blocks = h.blocks) (ho : g.objs = h.objs.set a y) (h0 : h.objs[a]? = some x)
    (c : Addr) :
    ((g.selfObservers c : Nat) : Int) = (h.selfObservers c : Nat) - sind x c + sind y c := by
  unfold Heap.selfObservers sind
  rw [ho, hb]
  have := countP_set_int (selfObserves c) (x := y) h0
  simp only [Nat.cast_add] at this ⊢
  omega

theorem selfObservers_eq {h h1 : Heap T} (hb : h1.blocks = h.blocks) (ho : h1.objs = h.objs)
    (c : Addr) : h1.selfObservers c = h.selfObservers c := by
  unfold Heap.selfObservers
  rw [ho, hb]

/-- One more slot. -/
theorem selfObservers_blocks_append {h h1 : Heap T} {s1 : Slot T}
    (ho : h1.objs = h.objs) (hb : h1.blocks = h.blocks ++ [s1]) (c : Addr) :
    ((h1.selfObservers c : Nat) : Int) = (h.selfObservers c : Nat) + sind s1.payload c := by
  unfold Heap.selfObservers sind
  rw [ho, hb]
  have := countP_append_int (fun s : Slot T => selfObserves c s.payload) h.blocks s1
  simp only [Nat.cast_add] at this ⊢
  omega

/-- One more free-standing object. -/
theorem selfObservers_objs_append {h h1 : Heap T} {y : Option (Obj T)}
    (hb : h1.blocks = h.blocks) (ho : h1.objs = h.objs ++ [y]) (c : Addr) :
    ((h1.selfObservers c : Nat) : Int) = (h.selfObservers c : Nat) + sind y c := by
  unfold Heap.selfObservers sind
  rw [ho, hb]
  have := countP_append_int (selfObserves c) h.objs y
  simp only [Nat.cast_add] at this ⊢
  omega

/-- A live free-standing object is counted. -/
theorem sind_le_objs {h : Heap T} {a : Addr} {x : Option (Obj T)} (h0 : h.objs[a]? = some x)
    (c : Addr) : sind x c ≤ (h.selfObservers c : Nat) := by
  have := selfObservers_objs_set (h := h) (y := none)
    (show ({ h with objs := h.objs.set a none } : Heap T).blocks = h.blocks from rfl) rfl h0 c
  rw [sind_none] at this
  omega

/-- An inline payload is counted. -/
theorem sind_le_blocks {h : Heap T} {b : Addr} {s0 : Slot T} (h0 : h.blocks[b]? = some s0)
    (c : Addr) : sind s0.payload c ≤ (h.selfObservers c : Nat) := by
  have := selfObservers_blocks_set (h := h) (t := Slot.freed)
    (show ({ h with blocks := h.blocks.set b Slot.freed } : Heap T).objs = h.objs from rfl)
    rfl h0 c
  have e : sind (Slot.freed : Slot T).payload c = 0 := sind_none c
  rw [e] at this
  omega

theorem wcounted_congr {h : Heap T} {own own1 : Addr → Int} (he : ∀ c, own1 c = own c)
    (hc : WCounted h own) : WCounted h own1 := by
  have : own1 = own := funext he
  rw [this]
  exact hc

/-- The general step: the heap keeps its addresses, each surviving block changes its
`weak_cnt` by `dw`, the number of `wptr` members changes by `ds`, and the observers outside
the heap make up the difference. -/
theorem wcounted_update {h h1 : Heap T} {own own1 u v : Addr → Int} (hc : WCounted h own)
    (hlen : h1.blocks.length = h.blocks.length)
    (hself : ∀ c, ((h1.selfObservers c : Nat) : Int) = (h.selfObservers c : Nat) + u c)
    (hblk : ∀ (c : Addr) (blk1 : ControlBlock T), h1.blocks[c]? = some (Slot.live blk1) →
      ∃ blk, h.blocks[c]? = some (Slot.live blk) ∧ blk1.weak_cnt = blk.weak_cnt + v c)
    (hown : ∀ c, own1 c + u c = own c + v c)
    (hout : ∀ c, h.blocks.length ≤ c → u c = 0 ∧ v c = 0) :
    WCounted h1 own1 := by
  refine ⟨fun c blk1 hb1 => ?_, fun c hge => ?_⟩
  · obtain ⟨blk, hb, hw⟩ := hblk c blk1 hb1
    have := hc.1 c blk hb
    have := hself c
    have := hown c
    omega
  · rw [hlen] at hge
    obtain ⟨h0, h1z⟩ := hc.2 c hge
    obtain ⟨hd, hw⟩ := hout c hge
    have := hself c
    have := hown c
    constructor
    · omega
    · omega

theorem payload_kind {blk blk1 : ControlBlock T} (hk : blk1.kind = blk.kind) :
    (Slot.live blk1).payload = (Slot.live blk).payload := by
  simp [Slot.payload, hk]

theorem setBlock_length (h : Heap T) (b : Addr) (blk : ControlBlock T) :
    (h.setBlock b blk).blocks.length = h.blocks.length := by
  simp [Heap.setBlock]

theorem dealloc_length (h : Heap T) (b : Addr) :
    (dealloc_this h b).blocks.length = h.blocks.length := by
  simp [dealloc_this]

/-- A counter update of one block. -/
theorem wcounted_setBlock {h : Heap T} {own : Addr → Int} {b : Addr} {blk k : ControlBlock T}
    (hc : WCounted h own) (hblk : h.blocks[b]? = some (Slot.live blk))
    (hk : k.kind = blk.kind) (d : Int) (hw : k.weak_cnt = blk.weak_cnt + d) :
    WCounted (h.setBlock b k) (fun c => own c + d * ind (some b) c) := by
  have hlt := getElem?_lt_of_eq_some hblk
  refine wcounted_update (u := fun _ => 0) (v := fun c => d * ind (some b) c) hc
    (setBlock_length h b k) (fun c => ?_) (fun c blk2 hb2 => ?_) (fun c => by simp)
    (fun c hge => ⟨rfl, ?_⟩)
  · have := selfObservers_blocks_set (h := h) (g := h.setBlock b k) rfl rfl hblk c
    rw [payload_kind hk] at this
    show (((h.setBlock b k).selfObservers c : Nat) : Int) = (h.selfObservers c : Nat) + 0
    omega
  · by_cases hcb : c = b
    · subst hcb
      rw [setBlock_get_self k hblk] at hb2
      simp only [Option.some.injEq, Slot.live.injEq] at hb2
      subst hb2
      refine ⟨blk, hblk, ?_⟩
      show k.weak_cnt = blk.weak_cnt + d * ind (some c) c
      rw [ind_self rfl]
      omega
    · rw [setBlock_get_ne _ _ hcb] at hb2
      refine ⟨blk2, hb2, ?_⟩
      show blk2.weak_cnt = blk2.weak_cnt + d * ind (some b) c
      rw [ind_ne hcb]
      omega
  · have hne : c ≠ b := Nat.ne_of_gt (Nat.lt_of_lt_of_le hlt hge)
    show d * ind (some b) c = 0
    rw [ind_ne hne]
    omega

theorem pay_setBlock {h : Heap T} {b : Addr} {blk1 : ControlBlock T} (hp : Pay h)
    (h1 : (Slot.live blk1).payload ≠ none → 1 ≤ blk1.shared_cnt) :
    Pay (h.setBlock b blk1) := by
  intro c blk2 hb2 hne
  by_cases hcb : c = b
  · subst hcb
    have hlt : c < h.blocks.length := by
      have := getElem?_lt_of_eq_some hb2
      rw [setBlock_length] at this
      exact this
    have e : (h.setBlock c blk1).blocks[c]? = some (Slot.live blk1) := by
      simp [Heap.setBlock, hlt]
    rw [e] at hb2
    simp only [Option.some.injEq, Slot.live.injEq] at hb2
    subst hb2
    exact h1 hne
  · rw [setBlock_get_ne _ _ hcb] at hb2
    exact hp c blk2 hb2 hne

/-- Giving back the storage of a block without inline payload. -/
theorem wcounted_dealloc {h : Heap T} {own own1 : Addr → Int} {b : Addr} {blk : ControlBlock T}
    (hc : WCounted h own) (hblk : h.blocks[b]? = some (Slot.live blk))
    (hpl : (Slot.live blk).payload = none) (he : ∀ c, c ≠ b → own1 c = own c) :
    WCounted (dealloc_this h b) own1 := by
  have hlt := getElem?_lt_of_eq_some hblk
  have hself : ∀ c, (dealloc_this h b).selfObservers c = h.selfObservers c := by
    intro c
    have := selfObservers_blocks_set (h := h) (g := dealloc_this h b) rfl rfl hblk c
    rw [hpl, sind_none] at this
    have e : sind (Slot.freed : Slot T).payload c = 0 := sind_none c
    rw [e] at this
    omega
  refine ⟨fun c blk2 hb2 => ?_, fun c hge => ?_⟩
  · by_cases hcb : c = b
    · subst hcb
      rw [dealloc_get_self hblk] at hb2
      cases hb2
    · rw [dealloc_get_ne _ hcb] at hb2
      rw [hself c, he c hcb]
      exact hc.1 c blk2 hb2
  · rw [dealloc_length] at hge
    have hne : c ≠ b := Nat.ne_of_gt (Nat.lt_of_lt_of_le hlt hge)
    rw [hself c, he c hne]
    exact hc.2 c hge

theorem pay_dealloc {h : Heap T} (b : Addr) (hp : Pay h) : Pay (dealloc_this h b) := by
  intro c blk2 hb2 hne
  by_cases hcb : c = b
  · subst hcb
    have hlt : c < h.blocks.length := by
      have := getElem?_lt_of_eq_some hb2
      rw [dealloc_length] at this
      exact this
    have e : (dealloc_this h c).blocks[c]? = some Slot.freed := by
      simp [dealloc_this, hlt]
    rw [e] at hb2
    cases hb2
  · rw [dealloc_get_ne _ hcb] at hb2
    exact hp c blk2 hb2 hne

/-- The calls recorded in the log do not matter for the weak count. -/
theorem wcounted_record {h : Heap T} {own : Addr → Int} (e : Event) (hc : WCounted h own) :
    WCounted (h.record e) own := hc

theorem pay_record {h : Heap T} (e : Event) (hp : Pay h) : Pay (h.record e) := hp

theorem increment_weak_cnt_w {h h1 : Heap T} {own : Addr → Int} {cb : Option Addr}
    (hc : WCounted h own) (hp : Pay h) (hok : increment_weak_cnt h cb = Except.ok h1) :
    WCounted h1 (fun c => own c + ind cb c) ∧ Pay h1 := by
  obtain ⟨b, blk, hb, _, rfl⟩ := increment_weak_cnt_ok hok
  rw [block_ok_iff] at hb
  obtain ⟨rfl, hblk⟩ := hb
  constructor
  · refine wcounted_congr (fun c => ?_)
      (wcounted_setBlock (k := { blk with weak_cnt := blk.weak_cnt + 1 }) hc hblk rfl 1 rfl)
    omega
  · exact pay_setBlock hp (fun hne => hp b blk hblk hne)

theorem increment_shared_cnt_w {h h1 : Heap T} {own : Addr → Int} {cb : Option Addr}
    (hc : WCounted h own) (hp : Pay h) (hok : increment_shared_cnt h cb = Except.ok h1) :
    WCounted h1 own ∧ Pay h1 := by
  obtain ⟨b, blk, hb, _, rfl⟩ := increment_shared_cnt_ok hok
  rw [block_ok_iff] at hb
  obtain ⟨rfl, hblk⟩ := hb
  constructor
  · refine wcounted_congr (fun c => ?_)
      (wcounted_setBlock (k := { blk with shared_cnt := blk.shared_cnt + 1 }) hc hblk rfl 0
        (by simp))
    simp
  · refine pay_setBlock hp (fun hne => ?_)
    have := hp b blk hblk hne
    show 1 ≤ blk.shared_cnt + 1
    omega

theorem decrement_weak_cnt_w {h h1 : Heap T} {own : Addr → Int} {cb : Option Addr}
    (hc : WCounted h own) (hp : Pay h) (hok : decrement_weak_cnt h cb = Except.ok h1) :
    WCounted h1 (fun c => own c - ind cb c) ∧ Pay h1 := by
  simp only [decrement_weak_cnt, bind_ok_iff] at hok
  obtain ⟨⟨b, blk⟩, hb, hok⟩ := hok
  rw [block_ok_iff] at hb
  obtain ⟨rfl, hblk⟩ := hb
  have hset := wcounted_setBlock (k := { blk with weak_cnt := blk.weak_cnt - 1 }) hc hblk rfl
    (-1) (by show blk.weak_cnt - 1 = blk.weak_cnt + -1; omega)
  have hset2 : WCounted (h.setBlock b { blk with weak_cnt := blk.weak_cnt - 1 })
      (fun c => own c - ind (some b) c) :=
    wcounted_congr (fun c => by omega) hset
  have hpay : Pay (h.setBlock b { blk with weak_cnt := blk.weak_cnt - 1 }) :=
    pay_setBlock hp (fun hne => hp b blk hblk hne)
  by_cases hz : blk.shared_cnt = 0 ∧ blk.weak_cnt - 1 = 0
  · rw [if_pos hz] at hok
    simp only [pure_ok_iff] at hok
    subst hok
    have hpl : (Slot.live blk).payload = none := by
      by_contra hne
      have := hp b blk hblk hne
      omega
    refine ⟨wcounted_dealloc hset2 (setBlock_get_self _ hblk) hpl (fun _ _ => rfl),
      pay_dealloc b hpay⟩
  · rw [if_neg hz] at hok
    simp only [pure_ok_iff] at hok
    subst hok
    exact ⟨hset2, hpay⟩

theorem weak_destroy_w {h h1 : Heap T} {own : Addr → Int} {x : WeakPtr}
    (hc : WCounted h own) (hp : Pay h) (hok : x.destroy h = Except.ok h1) :
    WCounted h1 (fun c => own c - ind x.cb c) ∧ Pay h1 := by
  unfold WeakPtr.destroy at hok
  cases hcb : x.cb with
  | none =>
    rw [hcb] at hok
    simp only [pure_ok_iff] at hok
    subst hok
    exact ⟨wcounted_congr (fun c => by simp [ind]) hc, hp⟩
  | some b =>
    rw [hcb] at hok
    exact decrement_weak_cnt_w hc hp hok

/-- The destructor of a managed object takes its `wptr` out of the count of the block that
`wptr` designates. -/
theorem obj_destroy_w {h h1 : Heap T} {own : Addr → Int} {o : Obj T}
    (hc : WCounted h own) (hp : Pay h) (hok : o.destroy h = Except.ok h1) :
    WCounted h1 (fun c => own c - sind (some o) c) ∧ Pay h1 := by
  unfold Obj.destroy at hok
  cases hb : o.base with
  | none =>
    rw [hb] at hok
    simp only [pure_ok_iff] at hok
    subst hok
    refine ⟨wcounted_congr (fun c => ?_) hc, hp⟩
    simp [sind, selfObserves, hb]
  | some e =>
    rw [hb] at hok
    obtain ⟨h1c, h1p⟩ := weak_destroy_w hc hp hok
    exact ⟨wcounted_congr (fun c => by rw [sind_base hb]) h1c, h1p⟩

/-- The expression `delete p` removes the object and, through its destructor, the count its
`wptr` contributed. -/
theorem deletePtr_w {h h1 : Heap T} {own : Addr → Int} {p : Ptr}
    (hc : WCounted h own) (hp : Pay h) (hok : deletePtr h p = Except.ok h1) :
    WCounted h1 own ∧ Pay h1 := by
  unfold deletePtr at hok
  cases p with
  | null =>
    simp only [pure_ok_iff] at hok
    subst hok
    exact ⟨hc, hp⟩
  | inl b => cases hok
  | ext a =>
    simp only at hok
    split at hok
    · rename_i o ho
      have hself := selfObservers_objs_set (h := h)
        (g := { h with objs := h.objs.set a none,
                        log := h.log ++ [Event.destroyed (Ptr.ext a)] })
        (y := none) rfl rfl ho
      have hle := sind_le_objs ho
      have hc1 : WCounted ({ h with objs := h.objs.set a none,
                                      log := h.log ++ [Event.destroyed (Ptr.ext a)] } : Heap T)
          (fun c => own c + sind (some o) c) := by
        refine wcounted_update (u := fun c => - sind (some o) c) (v := fun _ => 0) hc rfl
          (fun c => ?_) (fun c blk1 hb1 => ⟨blk1, hb1, by simp⟩) (fun c => by simp)
          (fun c hge => ⟨?_, rfl⟩)
        · have := hself c
          rw [sind_none] at this
          show _ = _ + - sind (some o) c
          omega
        · have h0 := (hc.2 c hge).2
          have := hle c
          have := sind_nonneg (some o) c
          show - sind (some o) c = 0
          omega
      obtain ⟨hc2, hp2⟩ := obj_destroy_w hc1 hp hok
      exact ⟨wcounted_congr (fun c => by simp) hc2, hp2⟩
    · cases hok

theorem callDeleter_w {h h1 : Heap T} {own : Addr → Int} {d : Deleter} {p : Ptr}
    (hc : WCounted h own) (hp : Pay h) (hok : callDeleter h d p = Except.ok h1) :
    WCounted h1 own ∧ Pay h1 := by
  unfold callDeleter at hok
  cases d with
  | default_delete => exact deletePtr_w (wcounted_record _ hc) (pay_record _ hp) hok
  | custom id deletes =>
    cases deletes with
    | true =>
      simp only [if_true] at hok
      exact deletePtr_w (wcounted_record _ hc) (pay_record _ hp) hok
    | false =>
      simp only [Bool.false_eq_true, if_false, pure_ok_iff] at hok
      subst hok
      exact ⟨hc, hp⟩

/-- The method `useDeleter()` on the block at `b`, whose `shared_cnt` may have reached `0`
while its payload is still there. -/
theorem useDeleter_w {h h1 : Heap T} {own : Addr → Int} {b : Addr}
    (hc : WCounted h own)
    (hp : ∀ (c : Addr) (blk : ControlBlock T), c ≠ b → h.blocks[c]? = some (Slot.live blk) →
      (Slot.live blk).payload ≠ none → 1 ≤ blk.shared_cnt)
    (hok : useDeleter h b = Except.ok h1) :
    WCounted h1 own ∧ Pay h1 := by
  simp only [useDeleter, bind_ok_iff] at hok
  obtain ⟨⟨b0, blk⟩, hb, hok⟩ := hok
  rw [block_ok_iff] at hb
  obtain ⟨hb0, hblk⟩ := hb
  simp only [Option.some.injEq] at hb0
  subst hb0
  cases hk : blk.kind with
  | regular d p =>
    rw [hk] at hok
    have hpay : Pay h := by
      intro c blk2 hb2 hne
      by_cases hcb : c = b
      · subst hcb
        rw [hblk] at hb2
        simp only [Option.some.injEq, Slot.live.injEq] at hb2
        subst hb2
        exact absurd (by simp [Slot.payload, hk]) hne
      · exact hp c blk2 hcb hb2 hne
    exact callDeleter_w (wcounted_record _ hc) (pay_record _ hpay) hok
  | makeShared oo =>
    rw [hk] at hok
    cases oo with
    | none => cases hok
    | some o =>
      simp only at hok
      have hpl : (Slot.live blk).payload = some o := by simp [Slot.payload, hk]
      have hself := selfObservers_blocks_set (h := h)
        (g := ((h.record (Event.useDeleter b)).setBlock b
          { blk with kind := BlockKind.makeShared none }).record (Event.destroyed (Ptr.inl b)))
        (t := Slot.live { blk with kind := BlockKind.makeShared none }) rfl rfl hblk
      have hle := sind_le_blocks hblk
      have hlt := getElem?_lt_of_eq_some hblk
      have hget : (((h.record (Event.useDeleter b)).setBlock b
          { blk with kind := BlockKind.makeShared none }).record
            (Event.destroyed (Ptr.inl b))).blocks[b]?
          = some (Slot.live { blk with kind := BlockKind.makeShared none }) := by
        simp [Heap.record, Heap.setBlock, hlt]
      have hgetne : ∀ c, c ≠ b → (((h.record (Event.useDeleter b)).setBlock b
          { blk with kind := BlockKind.makeShared none }).record
            (Event.destroyed (Ptr.inl b))).blocks[c]? = h.blocks[c]? := by
        intro c hcb
        simp [Heap.record, Heap.setBlock, List.getElem?_set_ne (Ne.symm hcb)]
      have hc1 : WCounted (((h.record (Event.useDeleter b)).setBlock b
          { blk with kind := BlockKind.makeShared none }).record (Event.destroyed (Ptr.inl b)))
          (fun c => own c + sind (some o) c) := by
        refine wcounted_update (u := fun c => - sind (some o) c) (v := fun _ => 0) hc
          (by simp [Heap.record, Heap.setBlock])
          (fun c => ?_) (fun c blk1 hb1 => ?_) (fun c => by simp)
          (fun c hge => ⟨?_, rfl⟩)
        · have := hself c
          rw [hpl] at this
          have e : sind (Slot.live ({ blk with kind := BlockKind.makeShared none }
              : ControlBlock T)).payload c = 0 := by
            simp [Slot.payload, sind, selfObserves]
          rw [e] at this
          show _ = _ + - sind (some o) c
          omega
        · by_cases hcb : c = b
          · subst hcb
            rw [hget] at hb1
            simp only [Option.some.injEq, Slot.live.injEq] at hb1
            subst hb1
            exact ⟨blk, hblk, by simp⟩
          · rw [hgetne c hcb] at hb1
            exact ⟨blk1, hb1, by simp⟩
        · have h0 := (hc.2 c hge).2
          have := hle c
          rw [hpl] at this
          have := sind_nonneg (some o) c
          show - sind (some o) c = 0
          omega
      have hp1 : Pay (((h.record (Event.useDeleter b)).setBlock b
          { blk with kind := BlockKind.makeShared none }).record
            (Event.destroyed (Ptr.inl b))) := by
        intro c blk2 hb2 hne
        by_cases hcb : c = b
        · subst hcb
          rw [hget] at hb2
          simp only [Option.some.injEq, Slot.live.injEq] at hb2
          subst hb2
          exact absurd (by simp [Slot.payload]) hne
        · rw [hgetne c hcb] at hb2
          exact hp c blk2 hcb hb2 hne
      obtain ⟨hc2, hp2⟩ := obj_destroy_w hc1 hp1 hok
      exact ⟨wcounted_congr (fun c => by simp) hc2, hp2⟩

theorem decrement_shared_cnt_w {h h1 : Heap T} {own : Addr → Int} {b : Addr}
    (hc : WCounted h own) (hp : Pay h) (hok : decrement_shared_cnt h (some b) = Except.ok h1) :
    WCounted h1 own ∧ Pay h1 := by
  simp only [decrement_shared_cnt, bind_ok_iff] at hok
  obtain ⟨⟨b0, blk⟩, hb, hok⟩ := hok
  rw [block_ok_iff] at hb
  obtain ⟨hb0, hblk⟩ := hb
  simp only [Option.some.injEq] at hb0
  subst hb0
  have hset : WCounted (h.setBlock b { blk with shared_cnt := blk.shared_cnt - 1 }) own :=
    wcounted_congr (fun c => by simp)
      (wcounted_setBlock (k := { blk with shared_cnt := blk.shared_cnt - 1 }) hc hblk rfl 0
        (by simp))
  have hget := setBlock_get_self { blk with shared_cnt := blk.shared_cnt - 1 } hblk
  by_cases hz : blk.shared_cnt - 1 = 0
  · rw [if_pos hz] at hok
    simp only [bind_ok_iff] at hok
    obtain ⟨h2, hud, ⟨b2, blk2⟩, hb2, hok⟩ := hok
    rw [block_ok_iff] at hb2
    obtain ⟨hb2e, hblk2⟩ := hb2
    simp only [Option.some.injEq] at hb2e
    subst hb2e
    have hoff : ∀ (c : Addr) (blkc : ControlBlock T), c ≠ b →
        (h.setBlock b { blk with shared_cnt := blk.shared_cnt - 1 }).blocks[c]?
          = some (Slot.live blkc) →
        (Slot.live blkc).payload ≠ none → 1 ≤ blkc.shared_cnt := by
      intro c blkc hcb hbc hne
      rw [setBlock_get_ne _ _ hcb] at hbc
      exact hp c blkc hbc hne
    obtain ⟨hc2, hp2⟩ := useDeleter_w hset hoff hud
    by_cases hw : blk2.weak_cnt = 0
    · rw [if_pos hw] at hok
      simp only [pure_ok_iff] at hok
      subst hok
      have hs2 : blk2.shared_cnt = 0 := by
        rcases (wk_useDeleter hud).2.2 b with hh | ⟨hf, _⟩
        · rw [hblk2] at hh
          have e : ((h.setBlock b { blk with shared_cnt := blk.shared_cnt - 1 }).record
              (Event.useDeleter b)).blocks[b]?
              = some (Slot.live { blk with shared_cnt := blk.shared_cnt - 1 }) := hget
          rw [e] at hh
          simp only [sv, SV.live.injEq] at hh
          omega
        · rw [hblk2] at hf
          cases hf
      have hpl : (Slot.live blk2).payload = none := by
        by_contra hne
        have := hp2 b blk2 hblk2 hne
        omega
      exact ⟨wcounted_dealloc hc2 hblk2 hpl (fun _ _ => rfl), pay_dealloc b hp2⟩
    · rw [if_neg hw] at hok
      simp only [pure_ok_iff] at hok
      subst hok
      exact ⟨hc2, hp2⟩
  · rw [if_neg hz] at hok
    simp only [pure_ok_iff] at hok
    subst hok
    refine ⟨hset, pay_setBlock hp (fun hne => ?_)⟩
    have e : (Slot.live ({ blk with shared_cnt := blk.shared_cnt - 1 } : ControlBlock T)).payload
        = (Slot.live blk).payload := payload_kind rfl
    rw [e] at hne
    have := hp b blk hblk hne
    show 1 ≤ blk.shared_cnt - 1
    omega

theorem keepsObjects_refl (h : Heap T) : KeepsObjects h h :=
  ⟨rfl, rfl, fun _ blk1 hb => ⟨blk1, hb, rfl, rfl⟩⟩

theorem keepsObjects_trans {h h1 h2 : Heap T} (a : KeepsObjects h h1) (b : KeepsObjects h1 h2) :
    KeepsObjects h h2 := by
  refine ⟨b.1.trans a.1, b.2.1.trans a.2.1, fun c blk2 hb2 => ?_⟩
  obtain ⟨blk1, hb1, hk1, hs1⟩ := b.2.2 c blk2 hb2
  obtain ⟨blk, hb, hk, hs⟩ := a.2.2 c blk1 hb1
  exact ⟨blk, hb, hk1.trans hk, hs1.trans hs⟩

theorem keepsObjects_setBlock {h : Heap T} {b : Addr} {blk blk1 : ControlBlock T}
    (hblk : h.blocks[b]? = some (Slot.live blk)) (hk : blk1.kind = blk.kind)
    (hs : blk1.shared_cnt = blk.shared_cnt) : KeepsObjects h (h.setBlock b blk1) := by
  refine ⟨rfl, setBlock_length h b blk1, fun c blk2 hb2 => ?_⟩
  by_cases hcb : c = b
  · subst hcb
    rw [setBlock_get_self blk1 hblk] at hb2
    simp only [Option.some.injEq, Slot.live.injEq] at hb2
    subst hb2
    exact ⟨blk, hblk, hk, hs⟩
  · rw [setBlock_get_ne _ _ hcb] at hb2
    exact ⟨blk2, hb2, rfl, rfl⟩

theorem keepsObjects_dealloc {h : Heap T} {b : Addr} {blk : ControlBlock T}
    (hblk : h.blocks[b]? = some (Slot.live blk)) : KeepsObjects h (dealloc_this h b) := by
  refine ⟨rfl, dealloc_length h b, fun c blk2 hb2 => ?_⟩
  by_cases hcb : c = b
  · subst hcb
    rw [dealloc_get_self hblk] at hb2
    cases hb2
  · rw [dealloc_get_ne _ hcb] at hb2
    exact ⟨blk2, hb2, rfl, rfl⟩

theorem increment_weak_cnt_keeps {h h1 : Heap T} {cb : Option Addr}
    (hok : increment_weak_cnt h cb = Except.ok h1) : KeepsObjects h h1 := by
  obtain ⟨b, blk, hb, _, rfl⟩ := increment_weak_cnt_ok hok
  rw [block_ok_iff] at hb
  exact keepsObjects_setBlock hb.2 rfl rfl

theorem decrement_weak_cnt_keeps {h h1 : Heap T} {cb : Option Addr}
    (hok : decrement_weak_cnt h cb = Except.ok h1) : KeepsObjects h h1 := by
  simp only [decrement_weak_cnt, bind_ok_iff] at hok
  obtain ⟨⟨b, blk⟩, hb, hok⟩ := hok
  rw [block_ok_iff] at hb
  obtain ⟨rfl, hblk⟩ := hb
  have hset : KeepsObjects h (h.setBlock b { blk with weak_cnt := blk.weak_cnt - 1 }) :=
    keepsObjects_setBlock hblk rfl rfl
  split at hok
  · simp only [pure_ok_iff] at hok
    subst hok
    exact keepsObjects_trans hset (keepsObjects_dealloc (setBlock_get_self _ hblk))
  · simp only [pure_ok_iff] at hok
    subst hok
    exact hset

theorem weak_destroy_keeps {h h1 : Heap T} {x : WeakPtr}
    (hok : x.destroy h = Except.ok h1) : KeepsObjects h h1 := by
  unfold WeakPtr.destroy at hok
  cases hcb : x.cb with
  | none =>
    rw [hcb] at hok
    simp only [pure_ok_iff] at hok
    subst hok
    exact keepsObjects_refl h
  | some b =>
    rw [hcb] at hok
    exact decrement_weak_cnt_keeps hok

/-- An object that can be read afterwards could be read before, and is the same. -/
theorem obj_of_keeps {h h1 : Heap T} (hk : KeepsObjects h h1) {p : Ptr} {o : Obj T}
    (ho : h1.obj p = Except.ok o) : h.obj p = Except.ok o := by
  cases p with
  | null => cases ho
  | ext a =>
    rw [obj_ext_ok] at ho ⊢
    rw [← hk.1]
    exact ho
  | inl b =>
    rw [obj_inl_ok] at ho ⊢
    obtain ⟨blk1, hb1, hk1⟩ := ho
    obtain ⟨blk, hb, hkk, _⟩ := hk.2.2 b blk1 hb1
    exact ⟨blk, hb, hkk ▸ hk1⟩

theorem shared_destroy_w {h h1 : Heap T} {own : Addr → Int} {s : SharedPtr}
    (hc : WCounted h own) (hp : Pay h) (hok : s.destroy h = Except.ok h1) :
    WCounted h1 own ∧ Pay h1 := by
  unfold SharedPtr.destroy at hok
  cases hcb : s.cb with
  | none =>
    rw [hcb] at hok
    simp only [pure_ok_iff] at hok
    subst hok
    exact ⟨hc, hp⟩
  | some b =>
    rw [hcb] at hok
    exact decrement_shared_cnt_w hc hp hok

theorem shared_copy_w {h h1 : Heap T} {own : Addr → Int} {other s : SharedPtr}
    (hc : WCounted h own) (hp : Pay h) (hok : SharedPtr.copy h other = Except.ok (h1, s)) :
    WCounted h1 own ∧ Pay h1 := by
  unfold SharedPtr.copy at hok
  cases hcb : other.cb with
  | none =>
    rw [hcb] at hok
    simp only [pure_ok_iff, Prod.mk.injEq] at hok
    obtain ⟨rfl, _⟩ := hok
    exact ⟨hc, hp⟩
  | some b =>
    rw [hcb] at hok
    simp only [bind_ok_iff, pure_ok_iff, Prod.mk.injEq] at hok
    obtain ⟨h2, hinc, rfl, _⟩ := hok
    exact increment_shared_cnt_w hc hp hinc

theorem shared_convCopy_w {h h1 : Heap T} {own : Addr → Int} {other s : SharedPtr}
    (hc : WCounted h own) (hp : Pay h) (hok : SharedPtr.convCopy h other = Except.ok (h1, s)) :
    WCounted h1 own ∧ Pay h1 := by
  simp only [SharedPtr.convCopy, bind_ok_iff, pure_ok_iff, Prod.mk.injEq] at hok
  obtain ⟨h2, hinc, rfl, _⟩ := hok
  exact increment_shared_cnt_w hc hp hinc

theorem shared_ofWeak_w {h h1 : Heap T} {own : Addr → Int} {x : WeakPtr} {s : SharedPtr}
    (hc : WCounted h own) (hp : Pay h) (hok : SharedPtr.ofWeak h x = Except.ok (h1, s)) :
    WCounted h1 own ∧ Pay h1 := by
  simp only [SharedPtr.ofWeak, bind_ok_iff, pure_ok_iff, Prod.mk.injEq] at hok
  obtain ⟨h2, hinc, rfl, _⟩ := hok
  exact increment_shared_cnt_w hc hp hinc

theorem shared_reset_w {h h1 : Heap T} {own : Addr → Int} {this this1 : SharedPtr}
    (hc : WCounted h own) (hp : Pay h) (hok : SharedPtr.reset h this = Except.ok (h1, this1)) :
    WCounted h1 own ∧ Pay h1 := by
  simp only [SharedPtr.reset, SharedPtr.swap, bind_ok_iff, pure_ok_iff, Prod.mk.injEq] at hok
  obtain ⟨h2, hd, rfl, _⟩ := hok
  exact shared_destroy_w hc hp hd

theorem shared_convMove_w {h h1 : Heap T} {own : Addr → Int} {other s other1 : SharedPtr}
    (hc : WCounted h own) (hp : Pay h)
    (hok : SharedPtr.convMove h other = Except.ok (h1, s, other1)) :
    WCounted h1 own ∧ Pay h1 := by
  simp only [SharedPtr.convMove, bind_ok_iff, pure_ok_iff, Prod.mk.injEq] at hok
  obtain ⟨h2, hinc, ⟨h3, o1⟩, hr, rfl, _⟩ := hok
  obtain ⟨a, b⟩ := increment_shared_cnt_w hc hp hinc
  exact shared_reset_w a b hr

theorem weak_lock_w {h h1 : Heap T} {own : Addr → Int} {x : WeakPtr} {s : SharedPtr}
    (hc : WCounted h own) (hp : Pay h) (hok : x.lock h = Except.ok (h1, s)) :
    WCounted h1 own ∧ Pay h1 := by
  simp only [WeakPtr.lock, bind_ok_iff] at hok
  obtain ⟨e, _, hok⟩ := hok
  cases e with
  | false =>
    simp only [Bool.not_false, if_true] at hok
    exact shared_ofWeak_w hc hp hok
  | true =>
    simp only [Bool.not_true, Bool.false_eq_true, if_false, pure_ok_iff, Prod.mk.injEq] at hok
    obtain ⟨rfl, _⟩ := hok
    exact ⟨hc, hp⟩

theorem weak_ofShared_w {h h1 : Heap T} {own : Addr → Int} {s : SharedPtr} {x : WeakPtr}
    (hc : WCounted h own) (hp : Pay h) (hok : WeakPtr.ofShared h s = Except.ok (h1, x)) :
    x = { cb := s.cb, ptr := s.ptr } ∧ WCounted h1 (fun c => own c + ind s.cb c) ∧ Pay h1 ∧
      KeepsObjects h h1 := by
  simp only [WeakPtr.ofShared, bind_ok_iff, pure_ok_iff, Prod.mk.injEq] at hok
  obtain ⟨h2, hinc, rfl, rfl⟩ := hok
  obtain ⟨a, b⟩ := increment_weak_cnt_w hc hp hinc
  exact ⟨rfl, a, b, increment_weak_cnt_keeps hinc⟩

theorem weak_copy_w {h h1 : Heap T} {own : Addr → Int} {other x : WeakPtr}
    (hc : WCounted h own) (hp : Pay h) (hok : WeakPtr.copy h other = Except.ok (h1, x)) :
    x = { cb := other.cb, ptr := other.ptr } ∧ WCounted h1 (fun c => own c + ind other.cb c) ∧
      Pay h1 := by
  simp only [WeakPtr.copy, bind_ok_iff, pure_ok_iff, Prod.mk.injEq] at hok
  obtain ⟨h2, hinc, rfl, rfl⟩ := hok
  obtain ⟨a, b⟩ := increment_weak_cnt_w hc hp hinc
  exact ⟨rfl, a, b⟩

theorem weak_assignShared_w {h h1 : Heap T} {own : Addr → Int} {this x : WeakPtr}
    {s : SharedPtr}
    (hc : WCounted h own) (hp : Pay h)
    (hok : WeakPtr.assignShared h this s = Except.ok (h1, x)) :
    x = { cb := s.cb, ptr := s.ptr } ∧
      WCounted h1 (fun c => own c + ind s.cb c - ind this.cb c) ∧ Pay h1 ∧
      KeepsObjects h h1 := by
  simp only [WeakPtr.assignShared, WeakPtr.swap, bind_ok_iff, pure_ok_iff, Prod.mk.injEq] at hok
  obtain ⟨⟨h2, tmp⟩, hof, h3, hd, rfl, rfl⟩ := hok
  obtain ⟨rfl, a, b, k⟩ := weak_ofShared_w hc hp hof
  obtain ⟨a2, b2⟩ := weak_destroy_w a b hd
  exact ⟨rfl, a2, b2, keepsObjects_trans k (weak_destroy_keeps hd)⟩

/-- Overwriting a readable object whose type has the base: its `wptr` leaves the count of the
block it designated and enters the count of the block it designates now. -/
theorem setObj_w {hm : Heap T} {own : Addr → Int} {p : Ptr} {o q : Obj T}
    {e f : EnableSharedFromThis}
    (hcm : WCounted hm own) (hpm : Pay hm) (ho : hm.obj p = Except.ok o)
    (hb : o.base = some e) (hb2 : q.base = some f)
    (hout : ∀ c, hm.blocks.length ≤ c → ind f.wptr.cb c - ind e.wptr.cb c = 0) :
    WCounted (hm.setObj p q) (fun c => own c - ind f.wptr.cb c + ind e.wptr.cb c) ∧
      Pay (hm.setObj p q) := by
  have hnew : ∀ c, sind (some q) c = ind f.wptr.cb c := fun c => sind_base hb2 c
  have hold : ∀ c, sind (some o) c = ind e.wptr.cb c := fun c => sind_base hb c
  cases p with
  | null => cases ho
  | ext a =>
    rw [obj_ext_ok] at ho
    have hself := selfObservers_objs_set (h := hm) (g := hm.setObj (Ptr.ext a) q)
      (y := some q) rfl rfl ho
    refine ⟨?_, hpm⟩
    refine wcounted_update (u := fun c => ind f.wptr.cb c - ind e.wptr.cb c) (v := fun _ => 0)
      hcm rfl (fun c => ?_) (fun c blk1 hb1 => ⟨blk1, hb1, by simp⟩) (fun c => ?_)
      (fun c hge => ⟨hout c hge, rfl⟩)
    · have hh := hself c
      rw [hnew, hold] at hh
      show _ = _ + (ind f.wptr.cb c - ind e.wptr.cb c)
      omega
    · show own c - ind f.wptr.cb c + ind e.wptr.cb c + (ind f.wptr.cb c - ind e.wptr.cb c)
        = own c + 0
      omega
  | inl b =>
    rw [obj_inl_ok] at ho
    obtain ⟨blk, hblk, hkind⟩ := ho
    have hso : hm.setObj (Ptr.inl b) q
        = hm.setBlock b { blk with kind := BlockKind.makeShared (some q) } := by
      simp [Heap.setObj, hblk]
    rw [hso]
    have hpl0 : (Slot.live blk).payload = some o := by simp [Slot.payload, hkind]
    have hpl2 : (Slot.live ({ blk with kind := BlockKind.makeShared (some q) }
        : ControlBlock T)).payload = some q := rfl
    have hself := selfObservers_blocks_set (h := hm)
      (g := hm.setBlock b { blk with kind := BlockKind.makeShared (some q) }) rfl rfl hblk
    constructor
    · refine wcounted_update (u := fun c => ind f.wptr.cb c - ind e.wptr.cb c)
        (v := fun _ => 0) hcm (setBlock_length _ _ _) (fun c => ?_) (fun c blk1 hb1 => ?_)
        (fun c => ?_) (fun c hge => ⟨hout c hge, rfl⟩)
      · have hh := hself c
        rw [hpl0, hold, hpl2, hnew] at hh
        show _ = _ + (ind f.wptr.cb c - ind e.wptr.cb c)
        omega
      · by_cases hcb : c = b
        · subst hcb
          rw [setBlock_get_self _ hblk] at hb1
          simp only [Option.some.injEq, Slot.live.injEq] at hb1
          subst hb1
          exact ⟨blk, hblk, by simp⟩
        · rw [setBlock_get_ne _ _ hcb] at hb1
          exact ⟨blk1, hb1, by simp⟩
      · show own c - ind f.wptr.cb c + ind e.wptr.cb c + (ind f.wptr.cb c - ind e.wptr.cb c)
          = own c + 0
        omega
    · refine pay_setBlock hpm (fun _ => ?_)
      exact hpm b blk hblk (by rw [hpl0]; simp)

/-- The statement `ptr->wptr = *this`: the `wptr` of the object leaves the count of the block
it designated and enters the count of the block of `*this`. -/
theorem wireSelf_w {h h1 : Heap T} {own : Addr → Int} {p : Ptr} {s : SharedPtr}
    (hc : WCounted h own) (hp : Pay h) (hok : wireSelf h p s = Except.ok h1) :
    WCounted h1 own ∧ Pay h1 := by
  simp only [wireSelf, bind_ok_iff] at hok
  obtain ⟨o, ho, hok⟩ := hok
  cases hb : o.base with
  | none =>
    rw [hb] at hok
    cases hok
  | some e =>
    rw [hb] at hok
    simp only [bind_ok_iff, pure_ok_iff] at hok
    obtain ⟨⟨hm, x⟩, has, o1, ho1, rfl⟩ := hok
    obtain ⟨rfl, hcm, hpm, hk⟩ := weak_assignShared_w hc hp has
    have ho1m : hm.obj p = Except.ok o1 := ho1
    have ho2 := obj_of_keeps hk ho1m
    rw [ho] at ho2
    simp only [Except.ok.injEq] at ho2
    subst ho2
    have hout : ∀ c, hm.blocks.length ≤ c → ind s.cb c - ind e.wptr.cb c = 0 := by
      intro c hge
      have h1 := (hcm.2 c hge).1
      rw [hk.2.1] at hge
      have h2 := (hc.2 c hge).1
      simp only at h1
      omega
    obtain ⟨a, b⟩ := setObj_w (f := { wptr := { cb := s.cb, ptr := s.ptr } })
      (q := { o with base := some { wptr := { cb := s.cb, ptr := s.ptr } } })
      hcm hpm ho1m hb rfl hout
    refine ⟨wcounted_congr (fun c => ?_) a, b⟩
    show own c = own c + ind s.cb c - ind e.wptr.cb c - ind s.cb c + ind e.wptr.cb c
    omega

/-- A new slot at the end of the heap, holding no wired payload and no observed block. -/
theorem wcounted_append {h h1 : Heap T} {own : Addr → Int} {t : Slot T}
    (hc : WCounted h own) (hp : Pay h)
    (ho : h1.objs = h.objs) (hb : h1.blocks = h.blocks ++ [t])
    (hs : ∀ c, sind t.payload c = 0)
    (hw : ∀ blk, t = Slot.live blk → blk.weak_cnt = 0 ∧ 1 ≤ blk.shared_cnt) :
    WCounted h1 own ∧ Pay h1 := by
  have hself : ∀ c, h1.selfObservers c = h.selfObservers c := by
    intro c
    have := selfObservers_blocks_append ho hb c
    rw [hs c] at this
    omega
  have hget : ∀ c : Addr, c < h.blocks.length → h1.blocks[c]? = h.blocks[c]? := by
    intro c hlt
    rw [hb, List.getElem?_append_left hlt]
  have hlast : h1.blocks[h.blocks.length]? = some t := by
    rw [hb]
    simp
  have hlen : h1.blocks.length = h.blocks.length + 1 := by
    rw [hb]
    simp
  refine ⟨⟨fun c blk hblk => ?_, fun c hge => ?_⟩, fun c blk hblk hne => ?_⟩
  · rcases Nat.lt_or_ge c h.blocks.length with hlt | hge
    · rw [hget c hlt] at hblk
      rw [hself c]
      exact hc.1 c blk hblk
    · have hlt : c < h1.blocks.length := getElem?_lt_of_eq_some hblk
      rw [hlen] at hlt
      have hce : c = h.blocks.length := Nat.le_antisymm (Nat.lt_succ_iff.mp hlt) hge
      subst hce
      rw [hlast] at hblk
      simp only [Option.some.injEq] at hblk
      obtain ⟨hz, _⟩ := hw blk hblk
      obtain ⟨h0, h1z⟩ := hc.2 h.blocks.length (Nat.le_refl _)
      rw [hself, hz, h0, h1z]
      simp
  · rw [hself c]
    exact hc.2 c (by omega)
  · rcases Nat.lt_or_ge c h.blocks.length with hlt | hge
    · rw [hget c hlt] at hblk
      exact hp c blk hblk hne
    · have hlt : c < h1.blocks.length := getElem?_lt_of_eq_some hblk
      rw [hlen] at hlt
      have hce : c = h.blocks.length := Nat.le_antisymm (Nat.lt_succ_iff.mp hlt) hge
      subst hce
      rw [hlast] at hblk
      simp only [Option.some.injEq] at hblk
      exact (hw blk hblk).2

theorem allocateShared_w {A : Type} {h h1 : Heap T} {own : Addr → Int} {allocOk esft : Bool}
    {ctor : A → Option T} {args : A} {r : Except Exn SharedPtr}
    (hc : WCounted h own) (hp : Pay h)
    (hok : allocateShared h allocOk (Obj.construct ctor esft) args = Except.ok (h1, r)) :
    WCounted h1 own ∧ Pay h1 := by
  rw [allocateShared_construct] at hok
  simp only [Except.ok.injEq] at hok
  unfold allocate at hok
  cases allocOk with
  | false =>
    simp only [Bool.false_eq_true, if_false, Prod.mk.injEq] at hok
    obtain ⟨rfl, _⟩ := hok
    exact ⟨hc, hp⟩
  | true =>
    simp only [if_true] at hok
    cases hv : ctor args with
    | none =>
      rw [hv] at hok
      simp only [Prod.mk.injEq] at hok
      obtain ⟨rfl, _⟩ := hok
      exact wcounted_append (t := Slot.raw) hc hp rfl rfl (fun c => sind_none c)
        (fun blk hb => by cases hb)
    | some v =>
      rw [hv] at hok
      simp only [Prod.mk.injEq] at hok
      obtain ⟨rfl, _⟩ := hok
      refine wcounted_append
        (t := Slot.live
          { shared_cnt := 1, weak_cnt := 0,
            kind := BlockKind.makeShared
              (some { value := v, base := if esft then some {} else none }) })
        hc hp rfl ?_ (fun c => ?_) (fun blk hb => ?_)
      · simp [Heap.setBlock, set_append_last]
      · cases esft <;> simp [Slot.payload, sind, selfObserves]
      · simp only [Slot.live.injEq] at hb
        subst hb
        exact ⟨rfl, Int.le_refl _⟩

/-- A fresh block whose payload holds a copy of an observer of `cb`, appended to a heap in
which that copy has been counted already. -/
theorem wcounted_append_copy {h h1 : Heap T} {own : Addr → Int} {t : Slot T} {cb : Option Addr}
    (hc : WCounted h (fun c => own c + ind cb c)) (hp : Pay h)
    (ho : h1.objs = h.objs) (hb : h1.blocks = h.blocks ++ [t])
    (hs : ∀ c, sind t.payload c = ind cb c)
    (hcb : ∀ c, h.blocks.length ≤ c → ind cb c = 0)
    (hw : ∀ blk, t = Slot.live blk → blk.weak_cnt = 0 ∧ 1 ≤ blk.shared_cnt) :
    WCounted h1 own ∧ Pay h1 := by
  have hself : ∀ c, ((h1.selfObservers c : Nat) : Int) = (h.selfObservers c : Nat) + ind cb c := by
    intro c
    have := selfObservers_blocks_append ho hb c
    rw [hs c] at this
    exact this
  have hget : ∀ c : Addr, c < h.blocks.length → h1.blocks[c]? = h.blocks[c]? := by
    intro c hlt
    rw [hb, List.getElem?_append_left hlt]
  have hlast : h1.blocks[h.blocks.length]? = some t := by
    rw [hb]
    simp
  have hlen : h1.blocks.length = h.blocks.length + 1 := by
    rw [hb]
    simp
  refine ⟨⟨fun c blk hblk => ?_, fun c hge => ?_⟩, fun c blk hblk hne => ?_⟩
  · rcases Nat.lt_or_ge c h.blocks.length with hlt | hge
    · rw [hget c hlt] at hblk
      have := hc.1 c blk hblk
      have h2 := hself c
      simp only at this
      omega
    · have hlt : c < h1.blocks.length := getElem?_lt_of_eq_some hblk
      rw [hlen] at hlt
      have hce : c = h.blocks.length := Nat.le_antisymm (Nat.lt_succ_iff.mp hlt) hge
      subst hce
      rw [hlast] at hblk
      simp only [Option.some.injEq] at hblk
      obtain ⟨hz, _⟩ := hw blk hblk
      obtain ⟨h0, h1z⟩ := hc.2 h.blocks.length (Nat.le_refl _)
      have h2 := hself h.blocks.length
      have h3 := hcb h.blocks.length (Nat.le_refl _)
      simp only at h0
      omega
  · obtain ⟨h0, h1z⟩ := hc.2 c (by omega)
    have h2 := hself c
    have h3 := hcb c (by omega)
    simp only at h0
    constructor
    · omega
    · omega
  · rcases Nat.lt_or_ge c h.blocks.length with hlt | hge
    · rw [hget c hlt] at hblk
      exact hp c blk hblk hne
    · have hlt : c < h1.blocks.length := getElem?_lt_of_eq_some hblk
      rw [hlen] at hlt
      have hce : c = h.blocks.length := Nat.le_antisymm (Nat.lt_succ_iff.mp hlt) hge
      subst hce
      rw [hlast] at hblk
      simp only [Option.some.injEq] at hblk
      exact (hw blk hblk).2

theorem allocateShared_copy_w {h h1 : Heap T} {own : Addr → Int} {allocOk : Bool} {p : Ptr}
    {r : Except Exn SharedPtr}
    (hc : WCounted h own) (hp : Pay h)
    (hok : allocateShared h allocOk Obj.copy p = Except.ok (h1, r)) :
    WCounted h1 own ∧ Pay h1 := by
  rcases allocateShared_copy hok with ⟨rfl, rfl⟩ | ⟨g, o1, hcp, rfl, rfl⟩
  · exact ⟨hc, hp⟩
  · have hb : (Heap.setBlock { g with blocks := g.blocks ++ [Slot.raw],
                                      log := g.log ++ [Event.allocate g.blocks.length] }
          g.blocks.length
          { shared_cnt := 1, weak_cnt := 0, kind := BlockKind.makeShared (some o1) }).blocks
        = g.blocks ++ [Slot.live
            { shared_cnt := 1, weak_cnt := 0, kind := BlockKind.makeShared (some o1) }] := by
      simp [Heap.setBlock, set_append_last]
    have hw : ∀ blk : ControlBlock T,
        Slot.live { shared_cnt := 1, weak_cnt := 0, kind := BlockKind.makeShared (some o1) }
          = Slot.live blk → blk.weak_cnt = 0 ∧ 1 ≤ blk.shared_cnt := by
      intro blk hblk
      simp only [Slot.live.injEq] at hblk
      subst hblk
      exact ⟨rfl, Int.le_refl _⟩
    obtain ⟨o, _, hcase⟩ := obj_copy_ok hcp
    rcases hcase with ⟨_, rfl, hr⟩ | ⟨e, _, hwc, hr⟩
    · simp only [Option.some.injEq] at hr
      subst hr
      refine wcounted_append hc hp rfl hb (fun c => ?_) hw
      simp [Slot.payload, sind, selfObserves]
    · simp only [Option.some.injEq] at hr
      subst hr
      obtain ⟨_, hcg, hpg⟩ := weak_copy_w hc hp hwc
      refine wcounted_append_copy hcg hpg rfl hb (fun c => ?_) (fun c hge => ?_) hw
      · simp [Slot.payload, sind, selfObserves, ind]
      · unfold WeakPtr.copy at hwc
        simp only [bind_ok_iff, pure_ok_iff, Prod.mk.injEq] at hwc
        obtain ⟨h3, hinc, rfl, _⟩ := hwc
        obtain ⟨b, blk, hblk, _, rfl⟩ := increment_weak_cnt_ok hinc
        rw [block_ok_iff] at hblk
        obtain ⟨hcb, hblk⟩ := hblk
        have hbl : b < h.blocks.length := getElem?_lt_of_eq_some hblk
        have hlen : (h.setBlock b { blk with weak_cnt := blk.weak_cnt + 1 }).blocks.length
            = h.blocks.length := by
          simp [Heap.setBlock]
        rw [hlen] at hge
        rw [hcb]
        exact ind_ne (Nat.ne_of_gt (Nat.lt_of_lt_of_le hbl hge))

theorem allocateRegular_w {h h1 : Heap T} {own : Addr → Int} {allocOk : Bool} {p : Ptr}
    {d : Deleter} {r : Except Exn Addr}
    (hc : WCounted h own) (hp : Pay h) (hok : allocateRegular h allocOk p d = (h1, r)) :
    WCounted h1 own ∧ Pay h1 := by
  unfold allocateRegular allocate at hok
  cases allocOk with
  | false =>
    simp only [Bool.false_eq_true, if_false, Prod.mk.injEq] at hok
    obtain ⟨rfl, _⟩ := hok
    exact ⟨hc, hp⟩
  | true =>
    simp only [if_true, Prod.mk.injEq] at hok
    obtain ⟨rfl, _⟩ := hok
    refine wcounted_append
      (t := Slot.live { shared_cnt := 1, weak_cnt := 0, kind := BlockKind.regular d p })
      hc hp rfl ?_ (fun c => ?_) (fun blk hb => ?_)
    · simp [Heap.setBlock, set_append_last]
    · simp [Slot.payload, sind, selfObserves]
    · simp only [Slot.live.injEq] at hb
      subst hb
      exact ⟨rfl, Int.le_refl _⟩

theorem shared_adopt_w {h h1 : Heap T} {own : Addr → Int} {allocOk esft : Bool} {p : Ptr}
    {d : Deleter} {r : Except Exn SharedPtr}
    (hc : WCounted h own) (hp : Pay h)
    (hok : SharedPtr.adopt h allocOk esft p d = Except.ok (h1, r)) :
    WCounted h1 own ∧ Pay h1 := by
  unfold SharedPtr.adopt at hok
  cases har : allocateRegular h allocOk p d with
  | mk h2 r2 =>
    obtain ⟨hc2, hp2⟩ := allocateRegular_w hc hp har
    rw [har] at hok
    cases r2 with
    | error e =>
      simp only [pure_ok_iff, Prod.mk.injEq] at hok
      obtain ⟨rfl, _⟩ := hok
      exact ⟨hc2, hp2⟩
    | ok nb =>
      cases esft with
      | false =>
        simp only [Bool.false_eq_true, if_false, pure_ok_iff, Prod.mk.injEq] at hok
        obtain ⟨rfl, _⟩ := hok
        exact ⟨hc2, hp2⟩
      | true =>
        simp only [if_true, bind_ok_iff, pure_ok_iff, Prod.mk.injEq] at hok
        obtain ⟨h3, hw, rfl, _⟩ := hok
        exact wireSelf_w hc2 hp2 hw

theorem shared_resetTo_w {h h1 : Heap T} {own : Addr → Int} {allocOk esft : Bool} {p : Ptr}
    {this : SharedPtr} {r : Except Exn SharedPtr}
    (hc : WCounted h own) (hp : Pay h)
    (hok : SharedPtr.resetTo h allocOk esft this p = Except.ok (h1, r)) :
    WCounted h1 own ∧ Pay h1 := by
  unfold SharedPtr.resetTo at hok
  simp only [bind_ok_iff] at hok
  obtain ⟨⟨h2, r2⟩, had, hok⟩ := hok
  obtain ⟨hc2, hp2⟩ := shared_adopt_w hc hp had
  cases r2 with
  | error e =>
    simp only [pure_ok_iff, Prod.mk.injEq] at hok
    obtain ⟨rfl, _⟩ := hok
    exact ⟨hc2, hp2⟩
  | ok tmp =>
    simp only [SharedPtr.swap, bind_ok_iff, pure_ok_iff, Prod.mk.injEq] at hok
    obtain ⟨h3, hd, rfl, _⟩ := hok
    exact shared_destroy_w hc2 hp2 hd

theorem observes_indW (b : Addr) (x : Option WeakPtr) :
    (if observes b x = true then (1 : Int) else 0) = indW x b := by
  cases x with
  | none => simp [observes, indW]
  | some s => simp [observes, indW, ind]

theorem observers_append (wps : List (Option WeakPtr)) (x : Option WeakPtr) (b : Addr) :
    (((wps ++ [x]).countP (observes b) : Nat) : Int)
      = (wps.countP (observes b) : Nat) + indW x b := by
  rw [countP_append_int, observes_indW]

theorem observers_set {wps : List (Option WeakPtr)} {k : Nat} {x y : Option WeakPtr}
    (hk : wps[k]? = some y) (b : Addr) :
    (((wps.set k x).countP (observes b) : Nat) : Int)
      = (wps.countP (observes b) : Nat) - indW y b + indW x b := by
  rw [countP_set_int (observes b) hk, observes_indW, observes_indW]

/-- Every statement keeps the weak-count invariant. -/
theorem step_w {w w1 : World T} {op : Op T} (hinv : w.WeakInv)
    (hok : step w op = Except.ok w1) : w1.WeakInv := by
  obtain ⟨hc, hp⟩ := hinv
  cases op with
  | newObj v esft =>
    simp only [step, pure_ok_iff] at hok
    have e1 : w1.heap.objs
        = w.heap.objs ++ [some { value := v, base := if esft then some {} else none }] := by
      rw [← hok]
    have e2 : w1.heap.blocks = w.heap.blocks := by rw [← hok]
    have e3 : w1.wps = w.wps := by rw [← hok]
    have hs : ∀ c, sind (some ({ value := v, base := if esft then some {} else none } : Obj T)) c
        = 0 := by
      intro c
      cases esft <;> simp [sind, selfObserves]
    have hlen : w1.heap.blocks.length = w.heap.blocks.length := by rw [e2]
    constructor
    · rw [e3]
      refine wcounted_update (u := fun _ => 0) (v := fun _ => 0) hc hlen (fun c => ?_)
        (fun c blk1 hb1 => ⟨blk1, e2 ▸ hb1, by simp⟩) (fun c => rfl) (fun c _ => ⟨rfl, rfl⟩)
      rw [selfObservers_objs_append e2 e1 c, hs c]
    · intro c blk hb hne
      rw [e2] at hb
      exact hp c blk hb hne
  | sDefault =>
    simp only [step, pure_ok_iff] at hok
    subst hok
    exact ⟨hc, hp⟩
  | sAdopt allocOk esft p d =>
    simp only [step, bind_ok_iff] at hok
    obtain ⟨⟨h1, r⟩, had, hok⟩ := hok
    have hh := shared_adopt_w hc hp had
    cases r with
    | error e =>
      simp only [pure_ok_iff] at hok
      subst hok
      exact hh
    | ok s =>
      simp only [pure_ok_iff] at hok
      subst hok
      exact hh
  | sMake allocOk esft v =>
    simp only [step, makeShared, bind_ok_iff] at hok
    obtain ⟨⟨h1, r⟩, hal, hok⟩ := hok
    · have hh := allocateShared_w hc hp hal
      cases r with
      | error e =>
        simp only [pure_ok_iff] at hok
        subst hok
        exact hh
      | ok s =>
        simp only [pure_ok_iff] at hok
        subst hok
        exact hh
  | sMakeCopy allocOk j =>
    simp only [step, makeShared, bind_ok_iff] at hok
    obtain ⟨other, _, _, _, ⟨h1, r⟩, hal, hok⟩ := hok
    have hh := allocateShared_copy_w hc hp hal
    cases r with
    | error e =>
      simp only [pure_ok_iff] at hok
      subst hok
      exact hh
    | ok s =>
      simp only [pure_ok_iff] at hok
      subst hok
      exact hh
  | sCopy j =>
    simp only [step, bind_ok_iff, pure_ok_iff] at hok
    obtain ⟨other, _, ⟨h1, s⟩, hcp, rfl⟩ := hok
    exact shared_copy_w hc hp hcp
  | sConvCopy j =>
    simp only [step, bind_ok_iff, pure_ok_iff] at hok
    obtain ⟨other, _, ⟨h1, s⟩, hcp, rfl⟩ := hok
    exact shared_convCopy_w hc hp hcp
  | sMove j =>
    simp only [step, bind_ok_iff, pure_ok_iff] at hok
    obtain ⟨other, _, rfl⟩ := hok
    exact ⟨hc, hp⟩
  | sConvMove j =>
    simp only [step, bind_ok_iff, pure_ok_iff] at hok
    obtain ⟨other, _, ⟨h1, s, o1⟩, hcm, rfl⟩ := hok
    exact shared_convMove_w hc hp hcm
  | sOfWeak k =>
    simp only [step, bind_ok_iff, pure_ok_iff] at hok
    obtain ⟨x, _, ⟨h1, s⟩, hof, rfl⟩ := hok
    exact shared_ofWeak_w hc hp hof
  | sCopyAssign i j =>
    simp only [step, World.sCopyAssign, SharedPtr.swap, bind_ok_iff, pure_ok_iff] at hok
    obtain ⟨this, _, other, _, ⟨h1, tmp⟩, hcp, h2, hd, rfl⟩ := hok
    obtain ⟨a, b⟩ := shared_copy_w hc hp hcp
    exact shared_destroy_w a b hd
  | sMoveAssign i j =>
    simp only [step, World.sMoveAssign, SharedPtr.swap, SharedPtr.move, bind_ok_iff,
      pure_ok_iff] at hok
    obtain ⟨_, _, other, _, this, _, h2, hd, rfl⟩ := hok
    exact shared_destroy_w hc hp hd
  | sConvMoveAssign i j =>
    simp only [step, World.sConvMoveAssign, SharedPtr.swap, bind_ok_iff, pure_ok_iff] at hok
    obtain ⟨_, _, other, _, ⟨h1, tmp, other1⟩, hcm, this, _, h2, hd, rfl⟩ := hok
    obtain ⟨a, b⟩ := shared_convMove_w hc hp hcm
    exact shared_destroy_w a b hd
  | sReset i =>
    simp only [step, bind_ok_iff, pure_ok_iff] at hok
    obtain ⟨this, _, ⟨h1, this1⟩, hr, rfl⟩ := hok
    exact shared_reset_w hc hp hr
  | sResetTo i allocOk esft p =>
    simp only [step, bind_ok_iff] at hok
    obtain ⟨this, _, ⟨h1, r⟩, hr, hok⟩ := hok
    have hh := shared_resetTo_w hc hp hr
    cases r with
    | error e =>
      simp only [pure_ok_iff] at hok
      subst hok
      exact hh
    | ok s =>
      simp only [pure_ok_iff] at hok
      subst hok
      exact hh
  | sSwap i j =>
    simp only [step, World.sSwap, SharedPtr.swap, bind_ok_iff, pure_ok_iff] at hok
    obtain ⟨this, _, other, _, rfl⟩ := hok
    exact ⟨hc, hp⟩
  | sDestroy i =>
    simp only [step, bind_ok_iff, pure_ok_iff] at hok
    obtain ⟨s, _, h1, hd, rfl⟩ := hok
    exact shared_destroy_w hc hp hd
  | wDefault =>
    simp only [step, pure_ok_iff] at hok
    subst hok
    refine ⟨wcounted_congr (fun c => ?_) hc, hp⟩
    simp only [observers_append, indW, ind_none]
    omega
  | wOfShared j =>
    simp only [step, bind_ok_iff, pure_ok_iff] at hok
    obtain ⟨s, _, ⟨h1, x⟩, hof, rfl⟩ := hok
    obtain ⟨rfl, a, b, _⟩ := weak_ofShared_w hc hp hof
    refine ⟨wcounted_congr (fun c => ?_) a, b⟩
    simp only [observers_append, indW]
  | wCopy k =>
    simp only [step, bind_ok_iff, pure_ok_iff] at hok
    obtain ⟨other, _, ⟨h1, x⟩, hof, rfl⟩ := hok
    obtain ⟨rfl, a, b⟩ := weak_copy_w hc hp hof
    refine ⟨wcounted_congr (fun c => ?_) a, b⟩
    simp only [observers_append, indW]
  | wMove k =>
    simp only [step, WeakPtr.move, bind_ok_iff, pure_ok_iff, wp_ok_iff] at hok
    obtain ⟨other, hk, rfl⟩ := hok
    refine ⟨wcounted_congr (fun c => ?_) hc, hp⟩
    simp only [observers_append, observers_set hk, indW, ind_none]
    omega
  | wAssignShared k j =>
    simp only [step, bind_ok_iff, pure_ok_iff, wp_ok_iff] at hok
    obtain ⟨this, hk, s, _, ⟨h1, x⟩, has, rfl⟩ := hok
    obtain ⟨rfl, a, b, _⟩ := weak_assignShared_w hc hp has
    refine ⟨wcounted_congr (fun c => ?_) a, b⟩
    simp only [observers_set hk, indW]
    omega
  | wSwap k l =>
    simp only [step, World.wSwap, WeakPtr.swap, bind_ok_iff, pure_ok_iff, wp_ok_iff] at hok
    obtain ⟨this, hk, other, hl, rfl⟩ := hok
    refine ⟨wcounted_congr (fun c => ?_) hc, hp⟩
    have hlt := getElem?_lt_of_eq_some hk
    by_cases hkl : k = l
    · subst hkl
      rw [hk] at hl
      simp only [Option.some.injEq] at hl
      subst hl
      have h2 : (w.wps.set k (some { cb := this.cb, ptr := this.ptr }))[k]?
          = some (some { cb := this.cb, ptr := this.ptr }) := by
        simp [hlt]
      simp only [observers_set h2, observers_set hk, indW]
      omega
    · have h2 : (w.wps.set k (some { cb := other.cb, ptr := other.ptr }))[l]?
          = some (some other) := by
        rw [List.getElem?_set_ne hkl]
        exact hl
      simp only [observers_set h2, observers_set hk, indW]
      omega
  | wDestroy k =>
    simp only [step, bind_ok_iff, pure_ok_iff, wp_ok_iff] at hok
    obtain ⟨x, hk, h1, hd, rfl⟩ := hok
    obtain ⟨a, b⟩ := weak_destroy_w hc hp hd
    refine ⟨wcounted_congr (fun c => ?_) a, b⟩
    simp only [observers_set hk, indW]
    omega
  | wLock k =>
    simp only [step, bind_ok_iff, pure_ok_iff] at hok
    obtain ⟨x, _, ⟨h1, s⟩, hl, rfl⟩ := hok
    exact weak_lock_w hc hp hl

theorem weakInv_empty : (({} : World T)).WeakInv := by
  refine ⟨⟨fun c blk hb => ?_, fun c _ => ⟨rfl, rfl⟩⟩, fun c blk hb => ?_⟩
  · simp at hb
  · simp at hb

theorem run_w {ops : List (Op T)} {w w1 : World T} (hinv : w.WeakInv)
    (hok : run w ops = Except.ok w1) : w1.WeakInv := by
  induction ops generalizing w with
  | nil =>
    simp only [run, pure_ok_iff] at hok
    subst hok
    exact hinv
  | cons op rest ih =>
    simp only [run, bind_ok_iff] at hok
    obtain ⟨w2, h2, hrest⟩ := hok
    exact ih (step_w hinv h2) hrest

/-- Closed form of `decrement_weak_cnt()` on a block that exists. -/
theorem decrement_weak_cnt_eq {h : Heap T} {b : Addr} {blk : ControlBlock T}
    (hblk : h.blocks[b]? = some (Slot.live blk)) :
    decrement_weak_cnt h (some b)
      = Except.ok (if blk.shared_cnt = 0 ∧ blk.weak_cnt - 1 = 0
          then dealloc_this (h.setBlock b { blk with weak_cnt := blk.weak_cnt - 1 }) b
          else h.setBlock b { blk with weak_cnt := blk.weak_cnt - 1 }) := by
  have hb : h.block (some b) = Except.ok (b, blk) := (block_ok_iff h (some b) b blk).2 ⟨rfl, hblk⟩
  simp only [decrement_weak_cnt, hb, bind, Except.bind, pure, Except.pure]
  split <;> rfl

/-! ## Who writes the self-reference slot -/

theorem objsFrom_refl (h : Heap T) : ObjsFrom h h := fun _ _ ho => ho

theorem objsFrom_trans {h h1 h2 : Heap T} (a : ObjsFrom h h1) (b : ObjsFrom h1 h2) :
    ObjsFrom h h2 := fun p o ho => a p o (b p o ho)

theorem objsFrom_of_keeps {h h1 : Heap T} (hk : KeepsObjects h h1) : ObjsFrom h h1 :=
  fun _ _ ho => obj_of_keeps hk ho

theorem unwired_of_objsFrom {h h1 : Heap T} (a : ObjsFrom h h1) (hu : Unwired h) :
    Unwired h1 := fun p o ho => hu p o (a p o ho)

/-- Overwriting a block: nothing is written into an object as long as the new block holds
no payload, or the payload that was there. -/
theorem objsFrom_setBlock {h : Heap T} {b : Addr} {k : ControlBlock T}
    (hk : ∀ o, k.kind = BlockKind.makeShared (some o) → h.obj (Ptr.inl b) = Except.ok o) :
    ObjsFrom h (h.setBlock b k) := by
  intro p o ho
  cases p with
  | null => cases ho
  | ext a =>
    rw [obj_ext_ok] at ho ⊢
    exact ho
  | inl c =>
    by_cases hcb : c = b
    · subst hcb
      rw [obj_inl_ok] at ho
      obtain ⟨blk2, hb2, hk2⟩ := ho
      have hlt : c < h.blocks.length := by
        have := getElem?_lt_of_eq_some hb2
        rw [setBlock_length] at this
        exact this
      have e : (h.setBlock c k).blocks[c]? = some (Slot.live k) := by
        simp [Heap.setBlock, hlt]
      rw [e] at hb2
      simp only [Option.some.injEq, Slot.live.injEq] at hb2
      subst hb2
      exact hk o hk2
    · rw [obj_inl_ok] at ho ⊢
      obtain ⟨blk2, hb2, hk2⟩ := ho
      rw [setBlock_get_ne _ _ hcb] at hb2
      exact ⟨blk2, hb2, hk2⟩

/-- A counter update of one block. -/
theorem objsFrom_setBlock_kind {h : Heap T} {b : Addr} {blk k : ControlBlock T}
    (hblk : h.blocks[b]? = some (Slot.live blk)) (hk : k.kind = blk.kind) :
    ObjsFrom h (h.setBlock b k) :=
  objsFrom_setBlock (fun o ho => (obj_inl_ok h b o).2 ⟨blk, hblk, hk ▸ ho⟩)

theorem objsFrom_dealloc (h : Heap T) (b : Addr) : ObjsFrom h (dealloc_this h b) := by
  intro p o ho
  cases p with
  | null => cases ho
  | ext a =>
    rw [obj_ext_ok] at ho ⊢
    exact ho
  | inl c =>
    rw [obj_inl_ok] at ho ⊢
    obtain ⟨blk2, hb2, hk2⟩ := ho
    by_cases hcb : c = b
    · subst hcb
      have hlt : c < h.blocks.length := by
        have := getElem?_lt_of_eq_some hb2
        rw [dealloc_length] at this
        exact this
      have e : (dealloc_this h c).blocks[c]? = some Slot.freed := by
        simp [dealloc_this, hlt]
      rw [e] at hb2
      cases hb2
    · rw [dealloc_get_ne _ hcb] at hb2
      exact ⟨blk2, hb2, hk2⟩

theorem increment_shared_cnt_objs {h h1 : Heap T} {cb : Option Addr}
    (hok : increment_shared_cnt h cb = Except.ok h1) : ObjsFrom h h1 := by
  obtain ⟨b, blk, hb, _, rfl⟩ := increment_shared_cnt_ok hok
  rw [block_ok_iff] at hb
  exact objsFrom_setBlock_kind hb.2 rfl

theorem obj_destroy_objs {h h1 : Heap T} {o : Obj T}
    (hok : o.destroy h = Except.ok h1) : ObjsFrom h h1 := by
  unfold Obj.destroy at hok
  cases hb : o.base with
  | none =>
    rw [hb] at hok
    simp only [pure_ok_iff] at hok
    subst hok
    exact objsFrom_refl h
  | some e =>
    rw [hb] at hok
    exact objsFrom_of_keeps (weak_destroy_keeps hok)

theorem deletePtr_objs {h h1 : Heap T} {p : Ptr}
    (hok : deletePtr h p = Except.ok h1) : ObjsFrom h h1 := by
  unfold deletePtr at hok
  cases p with
  | null =>
    simp only [pure_ok_iff] at hok
    subst hok
    exact objsFrom_refl h
  | inl b => cases hok
  | ext a =>
    simp only at hok
    split at hok
    · rename_i o ho
      have hlt := getElem?_lt_of_eq_some ho
      refine objsFrom_trans (fun q o2 hq => ?_) (obj_destroy_objs hok)
      cases q with
      | null => cases hq
      | inl c =>
        rw [obj_inl_ok] at hq ⊢
        exact hq
      | ext c =>
        rw [obj_ext_ok] at hq ⊢
        by_cases hca : a = c
        · subst hca
          simp [hlt] at hq
        · simp only [List.getElem?_set_ne hca] at hq
          exact hq
    · cases hok

theorem callDeleter_objs {h h1 : Heap T} {d : Deleter} {p : Ptr}
    (hok : callDeleter h d p = Except.ok h1) : ObjsFrom h h1 := by
  unfold callDeleter at hok
  cases d with
  | default_delete => exact fun q o hq => deletePtr_objs hok q o hq
  | custom id deletes =>
    cases deletes with
    | true =>
      simp only [if_true] at hok
      exact fun q o hq => deletePtr_objs hok q o hq
    | false =>
      simp only [Bool.false_eq_true, if_false, pure_ok_iff] at hok
      subst hok
      exact fun q o hq => hq

theorem useDeleter_objs {h h1 : Heap T} {b : Addr}
    (hok : useDeleter h b = Except.ok h1) : ObjsFrom h h1 := by
  simp only [useDeleter, bind_ok_iff] at hok
  obtain ⟨⟨b0, blk⟩, hb, hok⟩ := hok
  rw [block_ok_iff] at hb
  obtain ⟨hb0, hblk⟩ := hb
  simp only [Option.some.injEq] at hb0
  subst hb0
  cases hk : blk.kind with
  | regular d p =>
    rw [hk] at hok
    exact fun q o hq => callDeleter_objs hok q o hq
  | makeShared oo =>
    rw [hk] at hok
    cases oo with
    | none => cases hok
    | some o =>
      simp only at hok
      have h1 : ObjsFrom h (h.setBlock b { blk with kind := BlockKind.makeShared none }) :=
        objsFrom_setBlock (fun o2 ho2 => by cases ho2)
      exact fun q o2 hq => h1 q o2 (obj_destroy_objs hok q o2 hq)

theorem decrement_shared_cnt_objs {h h1 : Heap T} {b : Addr}
    (hok : decrement_shared_cnt h (some b) = Except.ok h1) : ObjsFrom h h1 := by
  simp only [decrement_shared_cnt, bind_ok_iff] at hok
  obtain ⟨⟨b0, blk⟩, hb, hok⟩ := hok
  rw [block_ok_iff] at hb
  obtain ⟨hb0, hblk⟩ := hb
  simp only [Option.some.injEq] at hb0
  subst hb0
  have hset : ObjsFrom h (h.setBlock b { blk with shared_cnt := blk.shared_cnt - 1 }) :=
    objsFrom_setBlock_kind hblk rfl
  split at hok
  · simp only [bind_ok_iff] at hok
    obtain ⟨h2, hud, ⟨b2, blk2⟩, _, hok⟩ := hok
    have h2o := objsFrom_trans hset (useDeleter_objs hud)
    split at hok
    · simp only [pure_ok_iff] at hok
      subst hok
      exact objsFrom_trans h2o (objsFrom_dealloc h2 b)
    · simp only [pure_ok_iff] at hok
      subst hok
      exact h2o
  · simp only [pure_ok_iff] at hok
    subst hok
    exact hset

theorem shared_destroy_objs {h h1 : Heap T} {s : SharedPtr}
    (hok : s.destroy h = Except.ok h1) : ObjsFrom h h1 := by
  unfold SharedPtr.destroy at hok
  cases hcb : s.cb with
  | none =>
    rw [hcb] at hok
    simp only [pure_ok_iff] at hok
    subst hok
    exact objsFrom_refl h
  | some b =>
    rw [hcb] at hok
    exact decrement_shared_cnt_objs hok

theorem shared_copy_objs {h h1 : Heap T} {other s : SharedPtr}
    (hok : SharedPtr.copy h other = Except.ok (h1, s)) : ObjsFrom h h1 := by
  unfold SharedPtr.copy at hok
  cases hcb : other.cb with
  | none =>
    rw [hcb] at hok
    simp only [pure_ok_iff, Prod.mk.injEq] at hok
    obtain ⟨rfl, _⟩ := hok
    exact objsFrom_refl h
  | some b =>
    rw [hcb] at hok
    simp only [bind_ok_iff, pure_ok_iff, Prod.mk.injEq] at hok
    obtain ⟨h2, hinc, rfl, _⟩ := hok
    exact increment_shared_cnt_objs hinc

theorem shared_reset_objs {h h1 : Heap T} {s s1 : SharedPtr}
    (hok : SharedPtr.reset h s = Except.ok (h1, s1)) : ObjsFrom h h1 := by
  simp only [SharedPtr.reset, SharedPtr.swap, bind_ok_iff, pure_ok_iff, Prod.mk.injEq] at hok
  obtain ⟨h2, hd, rfl, _⟩ := hok
  exact shared_destroy_objs hd

theorem shared_convMove_objs {h h1 : Heap T} {other s other1 : SharedPtr}
    (hok : SharedPtr.convMove h other = Except.ok (h1, s, other1)) : ObjsFrom h h1 := by
  simp only [SharedPtr.convMove, bind_ok_iff, pure_ok_iff, Prod.mk.injEq] at hok
  obtain ⟨h2, hinc, ⟨h3, o1⟩, hr, rfl, _⟩ := hok
  exact objsFrom_trans (increment_shared_cnt_objs hinc) (shared_reset_objs hr)

theorem shared_ofWeak_objs {h h1 : Heap T} {x : WeakPtr} {s : SharedPtr}
    (hok : SharedPtr.ofWeak h x = Except.ok (h1, s)) : ObjsFrom h h1 := by
  simp only [SharedPtr.ofWeak, bind_ok_iff, pure_ok_iff, Prod.mk.injEq] at hok
  obtain ⟨h2, hinc, rfl, _⟩ := hok
  exact increment_shared_cnt_objs hinc

theorem weak_ofShared_objs {h h1 : Heap T} {s : SharedPtr} {x : WeakPtr}
    (hok : WeakPtr.ofShared h s = Except.ok (h1, x)) : ObjsFrom h h1 := by
  simp only [WeakPtr.ofShared, bind_ok_iff, pure_ok_iff, Prod.mk.injEq] at hok
  obtain ⟨h2, hinc, rfl, _⟩ := hok
  exact objsFrom_of_keeps (increment_weak_cnt_keeps hinc)

theorem weak_copy_objs {h h1 : Heap T} {other x : WeakPtr}
    (hok : WeakPtr.copy h other = Except.ok (h1, x)) : ObjsFrom h h1 := by
  simp only [WeakPtr.copy, bind_ok_iff, pure_ok_iff, Prod.mk.injEq] at hok
  obtain ⟨h2, hinc, rfl, _⟩ := hok
  exact objsFrom_of_keeps (increment_weak_cnt_keeps hinc)

theorem weak_assignShared_objs {h h1 : Heap T} {x x1 : WeakPtr} {s : SharedPtr}
    (hok : WeakPtr.assignShared h x s = Except.ok (h1, x1)) : ObjsFrom h h1 := by
  simp only [WeakPtr.assignShared, WeakPtr.swap, bind_ok_iff, pure_ok_iff, Prod.mk.injEq] at hok
  obtain ⟨⟨h2, tmp⟩, hof, h3, hd, rfl, _⟩ := hok
  exact objsFrom_trans (weak_ofShared_objs hof) (objsFrom_of_keeps (weak_destroy_keeps hd))

theorem weak_lock_objs {h h1 : Heap T} {x : WeakPtr} {s : SharedPtr}
    (hok : x.lock h = Except.ok (h1, s)) : ObjsFrom h h1 := by
  simp only [WeakPtr.lock, bind_ok_iff] at hok
  obtain ⟨e, _, hok⟩ := hok
  cases e with
  | false =>
    simp only [Bool.not_false, if_true] at hok
    exact shared_ofWeak_objs hok
  | true =>
    simp only [Bool.not_true, Bool.false_eq_true, if_false, pure_ok_iff, Prod.mk.injEq] at hok
    obtain ⟨rfl, _⟩ := hok
    exact objsFrom_refl h

/-- A new slot at the end of the heap whose payload, if it has one, is not wired. -/
theorem unwired_append {h h1 : Heap T} {t : Slot T} (hu : Unwired h)
    (ho : h1.objs = h.objs) (hb : h1.blocks = h.blocks ++ [t])
    (ht : ∀ o, t.payload = some o → o.unwired = true) : Unwired h1 := by
  intro p o hp
  cases p with
  | null => cases hp
  | ext a =>
    rw [obj_ext_ok, ho] at hp
    exact hu (Ptr.ext a) o ((obj_ext_ok h a o).2 hp)
  | inl c =>
    rw [obj_inl_ok] at hp
    obtain ⟨blk, hblk, hk⟩ := hp
    rcases Nat.lt_or_ge c h.blocks.length with hlt | hge
    · rw [hb, List.getElem?_append_left hlt] at hblk
      exact hu (Ptr.inl c) o ((obj_inl_ok h c o).2 ⟨blk, hblk, hk⟩)
    · have hlt : c < h1.blocks.length := getElem?_lt_of_eq_some hblk
      have hlen : h1.blocks.length = h.blocks.length + 1 := by
        rw [hb]
        simp
      rw [hlen] at hlt
      have hce : c = h.blocks.length := Nat.le_antisymm (Nat.lt_succ_iff.mp hlt) hge
      subst hce
      have hlast : h1.blocks[h.blocks.length]? = some t := by
        rw [hb]
        simp
      rw [hlast] at hblk
      simp only [Option.some.injEq] at hblk
      subst hblk
      exact ht o (by simp [Slot.payload, hk])

theorem allocateShared_unwired {A : Type} {h h1 : Heap T} {allocOk esft : Bool}
    {ctor : A → Option T} {args : A} {r : Except Exn SharedPtr}
    (hu : Unwired h)
    (hok : allocateShared h allocOk (Obj.construct ctor esft) args = Except.ok (h1, r)) :
    Unwired h1 := by
  rw [allocateShared_construct] at hok
  simp only [Except.ok.injEq] at hok
  unfold allocate at hok
  cases allocOk with
  | false =>
    simp only [Bool.false_eq_true, if_false, Prod.mk.injEq] at hok
    obtain ⟨rfl, _⟩ := hok
    exact hu
  | true =>
    simp only [if_true] at hok
    cases hv : ctor args with
    | none =>
      rw [hv] at hok
      simp only [Prod.mk.injEq] at hok
      obtain ⟨rfl, _⟩ := hok
      exact unwired_append (t := Slot.raw) hu rfl rfl (fun o ho => by cases ho)
    | some v =>
      rw [hv] at hok
      simp only [Prod.mk.injEq] at hok
      obtain ⟨rfl, _⟩ := hok
      refine unwired_append
        (t := Slot.live
          { shared_cnt := 1, weak_cnt := 0,
            kind := BlockKind.makeShared
              (some { value := v, base := if esft then some {} else none }) })
        hu rfl ?_ (fun o ho => ?_)
      · simp [Heap.setBlock, set_append_last]
      · simp only [Slot.payload, Option.some.injEq] at ho
        subst ho
        cases esft <;> rfl

theorem allocateShared_copy_unwired {h h1 : Heap T} {allocOk : Bool} {p : Ptr}
    {r : Except Exn SharedPtr}
    (hu : Unwired h) (hok : allocateShared h allocOk Obj.copy p = Except.ok (h1, r)) :
    Unwired h1 := by
  rcases allocateShared_copy hok with ⟨rfl, rfl⟩ | ⟨g, o1, hcp, rfl, rfl⟩
  · exact hu
  · obtain ⟨o, ho, hcase⟩ := obj_copy_ok hcp
    rcases hcase with ⟨_, rfl, hr⟩ | ⟨e, hbase, hwc, _⟩
    · simp only [Option.some.injEq] at hr
      subst hr
      refine unwired_append
        (t := Slot.live
          { shared_cnt := 1, weak_cnt := 0,
            kind := BlockKind.makeShared (some { value := o.value, base := none }) })
        hu rfl ?_ (fun o2 ho2 => ?_)
      · simp [Heap.setBlock, set_append_last]
      · simp only [Slot.payload, Option.some.injEq] at ho2
        subst ho2
        rfl
    · have hun := hu p o ho
      simp only [Obj.unwired, hbase, Option.isNone_iff_eq_none] at hun
      simp [WeakPtr.copy, hun, increment_weak_cnt, Heap.block, bind, Except.bind] at hwc

theorem allocateRegular_unwired {h h1 : Heap T} {allocOk : Bool} {p : Ptr}
    {d : Deleter} {r : Except Exn Addr}
    (hu : Unwired h) (hok : allocateRegular h allocOk p d = (h1, r)) : Unwired h1 := by
  unfold allocateRegular allocate at hok
  cases allocOk with
  | false =>
    simp only [Bool.false_eq_true, if_false, Prod.mk.injEq] at hok
    obtain ⟨rfl, _⟩ := hok
    exact hu
  | true =>
    simp only [if_true, Prod.mk.injEq] at hok
    obtain ⟨rfl, _⟩ := hok
    refine unwired_append
      (t := Slot.live { shared_cnt := 1, weak_cnt := 0, kind := BlockKind.regular d p })
      hu rfl ?_ (fun o ho => ?_)
    · simp [Heap.setBlock, set_append_last]
    · simp [Slot.payload] at ho

/-- The adopting constructor for a pointee type without the `EnableSharedFromThis` base. -/
theorem shared_adopt_unwired {h h1 : Heap T} {allocOk : Bool} {p : Ptr}
    {d : Deleter} {r : Except Exn SharedPtr}
    (hu : Unwired h) (hok : SharedPtr.adopt h allocOk false p d = Except.ok (h1, r)) :
    Unwired h1 := by
  unfold SharedPtr.adopt at hok
  cases har : allocateRegular h allocOk p d with
  | mk h2 r2 =>
    have hu2 := allocateRegular_unwired hu har
    rw [har] at hok
    cases r2 with
    | error e =>
      simp only [pure_ok_iff, Prod.mk.injEq] at hok
      obtain ⟨rfl, _⟩ := hok
      exact hu2
    | ok nb =>
      simp only [Bool.false_eq_true, if_false, pure_ok_iff, Prod.mk.injEq] at hok
      obtain ⟨rfl, _⟩ := hok
      exact hu2

theorem shared_resetTo_unwired {h h1 : Heap T} {allocOk : Bool} {p : Ptr}
    {s : SharedPtr} {r : Except Exn SharedPtr}
    (hu : Unwired h) (hok : SharedPtr.resetTo h allocOk false s p = Except.ok (h1, r)) :
    Unwired h1 := by
  unfold SharedPtr.resetTo at hok
  simp only [bind_ok_iff] at hok
  obtain ⟨⟨h2, r2⟩, had, hok⟩ := hok
  have hu2 := shared_adopt_unwired hu had
  cases r2 with
  | error e =>
    simp only [pure_ok_iff, Prod.mk.injEq] at hok
    obtain ⟨rfl, _⟩ := hok
    exact hu2
  | ok tmp =>
    simp only [SharedPtr.swap, bind_ok_iff, pure_ok_iff, Prod.mk.injEq] at hok
    obtain ⟨h3, hd, rfl, _⟩ := hok
    exact unwired_of_objsFrom (shared_destroy_objs hd) hu2

/-- A statement that does not run `ptr->wptr = *this` leaves every `wptr` without block. -/
theorem step_unwired {w w1 : World T} {op : Op T} (hop : op.wires = false)
    (hu : Unwired w.heap) (hok : step w op = Except.ok w1) : Unwired w1.heap := by
  cases op with
  | newObj v esft =>
    simp only [step, pure_ok_iff] at hok
    have e1 : w1.heap.objs
        = w.heap.objs ++ [some { value := v, base := if esft then some {} else none }] := by
      rw [← hok]
    have e2 : w1.heap.blocks = w.heap.blocks := by rw [← hok]
    intro p o hp
    cases p with
    | null => cases hp
    | inl c =>
      rw [obj_inl_ok, e2] at hp
      exact hu (Ptr.inl c) o ((obj_inl_ok w.heap c o).2 hp)
    | ext a =>
      rw [obj_ext_ok, e1] at hp
      rcases Nat.lt_or_ge a w.heap.objs.length with hlt | hge
      · rw [List.getElem?_append_left hlt] at hp
        exact hu (Ptr.ext a) o ((obj_ext_ok w.heap a o).2 hp)
      · have hlt : a < (w.heap.objs ++
            [some ({ value := v, base := if esft then some {} else none } : Obj T)]).length :=
          getElem?_lt_of_eq_some hp
        simp only [List.length_append, List.length_singleton] at hlt
        have hae : a = w.heap.objs.length := Nat.le_antisymm (Nat.lt_succ_iff.mp hlt) hge
        subst hae
        simp only [List.getElem?_concat_length, Option.some.injEq] at hp
        subst hp
        cases esft <;> rfl
  | sDefault =>
    simp only [step, pure_ok_iff] at hok
    subst hok
    exact hu
  | sAdopt allocOk esft p d =>
    simp only [Op.wires] at hop
    subst hop
    simp only [step, bind_ok_iff] at hok
    obtain ⟨⟨h1, r⟩, had, hok⟩ := hok
    have hh := shared_adopt_unwired hu had
    cases r with
    | error e =>
      simp only [pure_ok_iff] at hok
      subst hok
      exact hh
    | ok s =>
      simp only [pure_ok_iff] at hok
      subst hok
      exact hh
  | sMake allocOk esft v =>
    simp only [step, makeShared, bind_ok_iff] at hok
    obtain ⟨⟨h1, r⟩, hal, hok⟩ := hok
    · have hh := allocateShared_unwired hu hal
      cases r with
      | error e =>
        simp only [pure_ok_iff] at hok
        subst hok
        exact hh
      | ok s =>
        simp only [pure_ok_iff] at hok
        subst hok
        exact hh
  | sMakeCopy allocOk j =>
    simp only [step, makeShared, bind_ok_iff] at hok
    obtain ⟨other, _, _, _, ⟨h1, r⟩, hal, hok⟩ := hok
    have hh := allocateShared_copy_unwired hu hal
    cases r with
    | error e =>
      simp only [pure_ok_iff] at hok
      subst hok
      exact hh
    | ok s =>
      simp only [pure_ok_iff] at hok
      subst hok
      exact hh
  | sCopy j =>
    simp only [step, bind_ok_iff, pure_ok_iff] at hok
    obtain ⟨other, _, ⟨h1, s⟩, hcp, rfl⟩ := hok
    exact unwired_of_objsFrom (shared_copy_objs hcp) hu
  | sConvCopy j =>
    simp only [step, SharedPtr.convCopy, bind_ok_iff, pure_ok_iff] at hok
    obtain ⟨other, _, ⟨h1, s⟩, ⟨h2, hinc, he⟩, rfl⟩ := hok
    simp only [Prod.mk.injEq] at he
    obtain ⟨rfl, _⟩ := he
    exact unwired_of_objsFrom (increment_shared_cnt_objs hinc) hu
  | sMove j =>
    simp only [step, bind_ok_iff, pure_ok_iff] at hok
    obtain ⟨other, _, rfl⟩ := hok
    exact hu
  | sConvMove j =>
    simp only [step, bind_ok_iff, pure_ok_iff] at hok
    obtain ⟨other, _, ⟨h1, s, o1⟩, hcm, rfl⟩ := hok
    exact unwired_of_objsFrom (shared_convMove_objs hcm) hu
  | sOfWeak k =>
    simp only [step, bind_ok_iff, pure_ok_iff] at hok
    obtain ⟨x, _, ⟨h1, s⟩, hof, rfl⟩ := hok
    exact unwired_of_objsFrom (shared_ofWeak_objs hof) hu
  | sCopyAssign i j =>
    simp only [step, World.sCopyAssign, SharedPtr.swap, bind_ok_iff, pure_ok_iff] at hok
    obtain ⟨s0, _, other, _, ⟨h1, tmp⟩, hcp, h2, hd, rfl⟩ := hok
    exact unwired_of_objsFrom
      (objsFrom_trans (shared_copy_objs hcp) (shared_destroy_objs hd)) hu
  | sMoveAssign i j =>
    simp only [step, World.sMoveAssign, SharedPtr.swap, SharedPtr.move, bind_ok_iff,
      pure_ok_iff] at hok
    obtain ⟨_, _, other, _, s0, _, h2, hd, rfl⟩ := hok
    exact unwired_of_objsFrom (shared_destroy_objs hd) hu
  | sConvMoveAssign i j =>
    simp only [step, World.sConvMoveAssign, SharedPtr.swap, bind_ok_iff, pure_ok_iff] at hok
    obtain ⟨_, _, other, _, ⟨h1, tmp, other1⟩, hcm, s0, _, h2, hd, rfl⟩ := hok
    exact unwired_of_objsFrom
      (objsFrom_trans (shared_convMove_objs hcm) (shared_destroy_objs hd)) hu
  | sReset i =>
    simp only [step, bind_ok_iff, pure_ok_iff] at hok
    obtain ⟨s0, _, ⟨h1, s1⟩, hr, rfl⟩ := hok
    exact unwired_of_objsFrom (shared_reset_objs hr) hu
  | sResetTo i allocOk esft p =>
    simp only [Op.wires] at hop
    subst hop
    simp only [step, bind_ok_iff] at hok
    obtain ⟨s0, _, ⟨h1, r⟩, hr, hok⟩ := hok
    have hh := shared_resetTo_unwired hu hr
    cases r with
    | error e =>
      simp only [pure_ok_iff] at hok
      subst hok
      exact hh
    | ok s =>
      simp only [pure_ok_iff] at hok
      subst hok
      exact hh
  | sSwap i j =>
    simp only [step, World.sSwap, SharedPtr.swap, bind_ok_iff, pure_ok_iff] at hok
    obtain ⟨s0, _, other, _, rfl⟩ := hok
    exact hu
  | sDestroy i =>
    simp only [step, bind_ok_iff, pure_ok_iff] at hok
    obtain ⟨s, _, h1, hd, rfl⟩ := hok
    exact unwired_of_objsFrom (shared_destroy_objs hd) hu
  | wDefault =>
    simp only [step, pure_ok_iff] at hok
    subst hok
    exact hu
  | wOfShared j =>
    simp only [step, bind_ok_iff, pure_ok_iff] at hok
    obtain ⟨s, _, ⟨h1, x⟩, hof, rfl⟩ := hok
    exact unwired_of_objsFrom (weak_ofShared_objs hof) hu
  | wCopy k =>
    simp only [step, bind_ok_iff, pure_ok_iff] at hok
    obtain ⟨other, _, ⟨h1, x⟩, hof, rfl⟩ := hok
    exact unwired_of_objsFrom (weak_copy_objs hof) hu
  | wMove k =>
    simp only [step, bind_ok_iff, pure_ok_iff] at hok
    obtain ⟨other, _, rfl⟩ := hok
    exact hu
  | wAssignShared k j =>
    simp only [step, bind_ok_iff, pure_ok_iff] at hok
    obtain ⟨x0, _, s, _, ⟨h1, x⟩, has, rfl⟩ := hok
    exact unwired_of_objsFrom (weak_assignShared_objs has) hu
  | wSwap k l =>
    simp only [step, World.wSwap, WeakPtr.swap, bind_ok_iff, pure_ok_iff] at hok
    obtain ⟨x0, _, other, _, rfl⟩ := hok
    exact hu
  | wDestroy k =>
    simp only [step, bind_ok_iff, pure_ok_iff] at hok
    obtain ⟨x, _, h1, hd, rfl⟩ := hok
    exact unwired_of_objsFrom (objsFrom_of_keeps (weak_destroy_keeps hd)) hu
  | wLock k =>
    simp only [step, bind_ok_iff, pure_ok_iff] at hok
    obtain ⟨x, _, ⟨h1, s⟩, hl, rfl⟩ := hok
    exact unwired_of_objsFrom (weak_lock_objs hl) hu

theorem unwired_empty : Unwired (({} : World T)).heap := by
  intro p o hp
  cases p with
  | null => cases hp
  | ext a =>
    rw [obj_ext_ok] at hp
    simp at hp
  | inl c =>
    rw [obj_inl_ok] at hp
    obtain ⟨blk, hb, _⟩ := hp
    simp at hb

theorem run_unwired {ops : List (Op T)} {w w1 : World T}
    (hops : ∀ op ∈ ops, op.wires = false) (hu : Unwired w.heap)
    (hok : run w ops = Except.ok w1) : Unwired w1.heap := by
  induction ops generalizing w with
  | nil =>
    simp only [run, pure_ok_iff] at hok
    subst hok
    exact hu
  | cons op rest ih =>
    simp only [run, bind_ok_iff] at hok
    obtain ⟨w2, h2, hrest⟩ := hok
    exact ih (fun o ho => hops o (List.mem_cons_of_mem _ ho))
      (step_unwired (hops op (List.mem_cons_self _ _)) hu h2) hrest

/-! ## Programs in pieces, and programs that repeat one statement -/

theorem run_append (w : World T) (ops1 ops2 : List (Op T)) :
    run w (ops1 ++ ops2) = (run w ops1 >>= fun w1 => run w1 ops2) := by
  induction ops1 generalizing w with
  | nil => rfl
  | cons op ops ih =>
    simp only [List.cons_append, run]
    cases step w op with
    | error e => rfl
    | ok w1 => exact ih w1

/-- From a state where object `j` owns the block at `b`, which has `shared_cnt = c`: `n`
copies of object `j`, as long as `c + n` does not exceed `INT_MAX`. -/
theorem run_copies (n : Nat) (w : World T) (j : Nat) (s : SharedPtr) (b : Addr)
    (blk : ControlBlock T) (hj : w.sps[j]? = some (some s)) (hcb : s.cb = some b)
    (hblk : w.heap.blocks[b]? = some (Slot.live blk))
    (hle : blk.shared_cnt + n ≤ INT_MAX) :
    run w (List.replicate n (Op.sCopy j))
      = Except.ok { w with
          heap := w.heap.setBlock b { blk with shared_cnt := blk.shared_cnt + n },
          sps := w.sps ++ List.replicate n (some { ptr := s.ptr, cb := some b }) } := by
  induction n generalizing w blk with
  | zero =>
    have e : ({ blk with shared_cnt := blk.shared_cnt + ((0 : Nat) : Int) } : ControlBlock T)
        = blk := by
      cases blk
      simp
    simp only [List.replicate, run, e, setBlock_set_self hblk, List.append_nil]
    rfl
  | succ n ih =>
    have hlt : blk.shared_cnt < INT_MAX := by
      have : (0 : Int) ≤ (n : Int) := Int.ofNat_nonneg n
      push_cast at hle
      omega
    have hsp : w.sp j = Except.ok s := (sp_ok_iff w j s).2 hj
    have hcp : SharedPtr.copy w.heap s
        = Except.ok (w.heap.setBlock b { blk with shared_cnt := blk.shared_cnt + 1 },
            { ptr := s.ptr, cb := some b }) := by
      simp [SharedPtr.copy, hcb, increment_shared_cnt_eq hblk hlt, bind, Except.bind, pure,
        Except.pure]
    have hstep : step w (Op.sCopy j)
        = Except.ok { w with
            heap := w.heap.setBlock b { blk with shared_cnt := blk.shared_cnt + 1 },
            sps := w.sps ++ [some { ptr := s.ptr, cb := some b }] } := by
      simp [step, hsp, hcp, bind, Except.bind, pure, Except.pure]
    have hj2 : (w.sps ++ [some ({ ptr := s.ptr, cb := some b } : SharedPtr)])[j]?
        = some (some s) := by
      rw [List.getElem?_append_left (getElem?_lt_of_eq_some hj)]
      exact hj
    have hblk2 := setBlock_get_self { blk with shared_cnt := blk.shared_cnt + 1 } hblk
    have hle2 : ({ blk with shared_cnt := blk.shared_cnt + 1 } : ControlBlock T).shared_cnt
        + (n : Int) ≤ INT_MAX := by
      show blk.shared_cnt + 1 + (n : Int) ≤ INT_MAX
      push_cast at hle
      omega
    have key := ih
      { w with
          heap := w.heap.setBlock b { blk with shared_cnt := blk.shared_cnt + 1 },
          sps := w.sps ++ [some { ptr := s.ptr, cb := some b }] }
      { blk with shared_cnt := blk.shared_cnt + 1 } hj2 hblk2 hle2
    simp only [List.replicate, run, hstep, bind, Except.bind]
    rw [key]
    have e1 : blk.shared_cnt + 1 + (n : Int) = blk.shared_cnt + ((n + 1 : Nat) : Int) := by
      push_cast
      omega
    simp only [setBlock_setBlock, e1, List.append_assoc, List.singleton_append]

/-- From a state where object `j` owns the block at `b`, which has `weak_cnt = c`: `n`
observers built from object `j`, as long as `c + n` does not exceed `INT_MAX`. -/
theorem run_observers (n : Nat) (w : World T) (j : Nat) (s : SharedPtr) (b : Addr)
    (blk : ControlBlock T) (hj : w.sps[j]? = some (some s)) (hcb : s.cb = some b)
    (hblk : w.heap.blocks[b]? = some (Slot.live blk))
    (hle : blk.weak_cnt + n ≤ INT_MAX) :
    run w (List.replicate n (Op.wOfShared j))
      = Except.ok { w with
          heap := w.heap.setBlock b { blk with weak_cnt := blk.weak_cnt + n },
          wps := w.wps ++ List.replicate n (some { cb := some b, ptr := s.ptr }) } := by
  induction n generalizing w blk with
  | zero =>
    have e : ({ blk with weak_cnt := blk.weak_cnt + ((0 : Nat) : Int) } : ControlBlock T)
        = blk := by
      cases blk
      simp
    simp only [List.replicate, run, e, setBlock_set_self hblk, List.append_nil]
    rfl
  | succ n ih =>
    have hlt : blk.weak_cnt < INT_MAX := by
      have : (0 : Int) ≤ (n : Int) := Int.ofNat_nonneg n
      push_cast at hle
      omega
    have hsp : w.sp j = Except.ok s := (sp_ok_iff w j s).2 hj
    have hcp : WeakPtr.ofShared w.heap s
        = Except.ok (w.heap.setBlock b { blk with weak_cnt := blk.weak_cnt + 1 },
            { cb := some b, ptr := s.ptr }) := by
      simp [WeakPtr.ofShared, hcb, increment_weak_cnt_eq hblk hlt, bind, Except.bind, pure,
        Except.pure]
    have hstep : step w (Op.wOfShared j)
        = Except.ok { w with
            heap := w.heap.setBlock b { blk with weak_cnt := blk.weak_cnt + 1 },
            wps := w.wps ++ [some { cb := some b, ptr := s.ptr }] } := by
      simp [step, hsp, hcp, bind, Except.bind, pure, Except.pure]
    have hblk2 := setBlock_get_self { blk with weak_cnt := blk.weak_cnt + 1 } hblk
    have hle2 : ({ blk with weak_cnt := blk.weak_cnt + 1 } : ControlBlock T).weak_cnt
        + (n : Int) ≤ INT_MAX := by
      show blk.weak_cnt + 1 + (n : Int) ≤ INT_MAX
      push_cast at hle
      omega
    have key := ih
      { w with
          heap := w.heap.setBlock b { blk with weak_cnt := blk.weak_cnt + 1 },
          wps := w.wps ++ [some { cb := some b, ptr := s.ptr }] }
      { blk with weak_cnt := blk.weak_cnt + 1 } hj hblk2 hle2
    simp only [List.replicate, run, hstep, bind, Except.bind]
    rw [key]
    have e1 : blk.weak_cnt + 1 + (n : Int) = blk.weak_cnt + ((n + 1 : Nat) : Int) := by
      push_cast
      omega
    simp only [setBlock_setBlock, e1, List.append_assoc, List.singleton_append]

/-! ## The release discipline without the blanket exclusion of `SharedPtr(const WeakPtr &)` -/

/-- A statement that does not build an owner from an expired observer keeps the release
discipline. -/
theorem step_rel {w w1 : World T} {op : Op T} (hinv : w.SharedInv) (hr : Rel w.heap)
    (hnr : w.revives op = false) (hok : step w op = Except.ok w1) : Rel w1.heap := by
  cases hop : op.viaLock with
  | true => exact (step_spec hinv hok).2 hr hop
  | false =>
    cases op with
    | sOfWeak k =>
      simp only [step, bind_ok_iff, pure_ok_iff] at hok
      obtain ⟨x, hx, ⟨h1, s⟩, hcp, rfl⟩ := hok
      obtain ⟨_, _, hrel⟩ := shared_ofWeak_spec hinv hcp
      refine hrel hr fun b hb => ?_
      simp only [SharedPtr.ofWeak, bind_ok_iff] at hcp
      obtain ⟨h2, hinc, _⟩ := hcp
      obtain ⟨b2, blk, hblock, _, _⟩ := increment_shared_cnt_ok hinc
      have hblock2 := hblock
      rw [block_ok_iff] at hblock2
      obtain ⟨hb2, hblk⟩ := hblock2
      rw [hb] at hb2
      simp only [Option.some.injEq] at hb2
      subst hb2
      have hcnt : blk.shared_cnt = (w.owners b : Int) := hinv.1 b blk hblk
      have hex : x.expired w.heap = Except.ok (decide (blk.shared_cnt = 0)) := by
        rw [hb] at hblock
        simp [WeakPtr.expired, hb, get_shared_cnt, hblock, bind, Except.bind, pure, Except.pure]
      simp only [World.revives, hx, hex, decide_eq_false_iff_not] at hnr
      have hnn : (0 : Int) ≤ (w.owners b : Int) := Int.ofNat_nonneg _
      show (0 : Int) < (w.owners b : Int)
      omega
    | _ => simp [Op.viaLock] at hop

theorem run_rel {ops : List (Op T)} {w w1 : World T} (hinv : w.SharedInv) (hr : Rel w.heap)
    (hnr : noRevive w ops = true) (hok : run w ops = Except.ok w1) : Rel w1.heap := by
  induction ops generalizing w with
  | nil =>
    simp only [run, pure_ok_iff] at hok
    subst hok
    exact hr
  | cons op ops ih =>
    simp only [run, bind_ok_iff] at hok
    obtain ⟨w2, hstep, hrun⟩ := hok
    simp only [noRevive, hstep, Bool.and_eq_true, Bool.not_eq_true'] at hnr
    exact ih (step_spec hinv hstep).1 (step_rel hinv hr hnr.1 hstep) hnr.2 hrun

/-! ## The last owner of an object that observes its own block -/

/-- The last owner of an adopted object goes away; the object has the `EnableSharedFromThis`
base, its `wptr` observes the block, the deleter deletes the object, and the block has
another observer (`weak_cnt ≠ 1`).  The release destroys `wptr`: `weak_cnt` comes out one
lower, and nothing is deallocated. -/
theorem decrement_shared_cnt_self {h : Heap T} {b a : Addr} {blk : ControlBlock T}
    {d : Deleter} {o : Obj T} {e : EnableSharedFromThis}
    (hblk : h.blocks[b]? = some (Slot.live blk)) (hs : blk.shared_cnt = 1)
    (hk : blk.kind = BlockKind.regular d (Ptr.ext a)) (hd : d.deletes = true)
    (ho : h.objs[a]? = some (some o)) (hbase : o.base = some e) (hw : e.wptr.cb = some b)
    (hne : blk.weak_cnt ≠ 1) :
    decrement_shared_cnt h (some b)
      = Except.ok
          { blocks := h.blocks.set b (Slot.live
              { shared_cnt := 0, weak_cnt := blk.weak_cnt - 1, kind := blk.kind }),
            objs := h.objs.set a none,
            log := h.log ++ [Event.useDeleter b, Event.deleterCall d (Ptr.ext a),
                             Event.destroyed (Ptr.ext a)] } := by
  obtain ⟨sc, wc, k⟩ := blk
  simp only at hs hk hne
  subst hs hk
  have hlt := getElem?_lt_of_eq_some hblk
  have hb : h.block (some b) = Except.ok (b,
      { shared_cnt := 1, weak_cnt := wc, kind := BlockKind.regular d (Ptr.ext a) }) :=
    (block_ok_iff h (some b) b _).2 ⟨rfl, hblk⟩
  have hz : ¬ (wc - 1 = 0) := by omega
  have hdel : callDeleter
      ((h.setBlock b { shared_cnt := 1 - 1, weak_cnt := wc,
                       kind := BlockKind.regular d (Ptr.ext a) }).record (Event.useDeleter b))
      d (Ptr.ext a)
      = Except.ok
          { blocks := h.blocks.set b (Slot.live
              { shared_cnt := 0, weak_cnt := wc - 1,
                kind := BlockKind.regular d (Ptr.ext a) }),
            objs := h.objs.set a none,
            log := h.log ++ [Event.useDeleter b, Event.deleterCall d (Ptr.ext a),
                             Event.destroyed (Ptr.ext a)] } := by
    cases d with
    | default_delete =>
      simp [callDeleter, deletePtr, Heap.record, Heap.setBlock, ho, Obj.destroy, hbase,
        WeakPtr.destroy, hw, decrement_weak_cnt, Heap.block, hlt, bind, Except.bind, pure,
        Except.pure, hz]
    | custom id deletes =>
      simp only [Deleter.deletes] at hd
      subst hd
      simp [callDeleter, deletePtr, Heap.record, Heap.setBlock, ho, Obj.destroy, hbase,
        WeakPtr.destroy, hw, decrement_weak_cnt, Heap.block, hlt, bind, Except.bind, pure,
        Except.pure, hz]
  have hb1 : (h.setBlock b { shared_cnt := 1 - 1, weak_cnt := wc,
                             kind := BlockKind.regular d (Ptr.ext a) }).block (some b)
      = Except.ok (b, { shared_cnt := 1 - 1, weak_cnt := wc,
                        kind := BlockKind.regular d (Ptr.ext a) }) :=
    (block_ok_iff _ (some b) b _).2 ⟨rfl, setBlock_get_self _ hblk⟩
  simp only [decrement_shared_cnt, hb, bind, Except.bind, useDeleter, hb1, hdel]
  simp [Heap.block, hlt, hz, pure, Except.pure]

/-! ## Programs that take a counter to `INT_MAX` -/

/-- A program whose last statement is undefined in the state the statements before it
reach. -/
theorem run_append_error {w w1 : World T} {ops : List (Op T)} {op : Op T} {e : Fault}
    (hrun : run w ops = Except.ok w1) (hstep : step w1 op = Except.error e) :
    run w (ops ++ [op]) = Except.error e := by
  rw [run_append, hrun]
  show (step w1 op >>= fun w2 => run w2 []) = Except.error e
  rw [hstep]
  rfl

theorem run_exCopies (n : Nat) (hn : (1 : Int) + n ≤ INT_MAX) :
    run ({} : World Nat) (exCopies n) = Except.ok (exCopiesEnd n) := by
  have h1 : run ({} : World Nat) [Op.sMake true false (some 42)] = Except.ok (exCopiesEnd 0) :=
    rfl
  have h2 := run_copies n (exCopiesEnd 0) 0 exShared 0
    { shared_cnt := 1, weak_cnt := 0,
      kind := BlockKind.makeShared (some { value := 42, base := none }) } rfl rfl rfl hn
  show run ({} : World Nat) ([Op.sMake true false (some 42)] ++ List.replicate n (Op.sCopy 0))
    = Except.ok (exCopiesEnd n)
  rw [run_append, h1]
  exact h2

theorem exCopiesEnd_sp (n : Nat) : (exCopiesEnd n).sps[0]? = some (some exShared) := by
  simp [exCopiesEnd]

theorem exTwoBlocksManyEnd_sp (n : Nat) :
    (exTwoBlocksManyEnd n).sps[0]? = some (some { ptr := Ptr.inl 0, cb := some 0 }) ∧
    (exTwoBlocksManyEnd n).sps[1]? = some (some { ptr := Ptr.inl 1, cb := some 1 }) := by
  simp [exTwoBlocksManyEnd]

theorem exCopiesEnd_owners (n : Nat) : (exCopiesEnd n).owners 0 = n + 1 := by
  simp [exCopiesEnd, World.owners, List.countP_cons, List.countP_replicate, holds, exShared]

theorem run_exManyObservers (n : Nat) (hn : (0 : Int) + n ≤ INT_MAX) :
    run ({} : World Nat) (exManyObservers n) = Except.ok (exManyObserversEnd n) := by
  have h1 : run ({} : World Nat) [Op.sMake true false (some 42)]
      = Except.ok (exManyObserversEnd 0) := rfl
  have h2 := run_observers n (exManyObserversEnd 0) 0 exShared 0
    { shared_cnt := 1, weak_cnt := 0,
      kind := BlockKind.makeShared (some { value := 42, base := none }) } rfl rfl rfl hn
  show run ({} : World Nat)
      ([Op.sMake true false (some 42)] ++ List.replicate n (Op.wOfShared 0))
    = Except.ok (exManyObserversEnd n)
  rw [run_append, h1]
  exact h2

theorem exManyObserversEnd_observers (n : Nat) : (exManyObserversEnd n).observers 0 = n := by
  simp [exManyObserversEnd, World.observers, Heap.selfObservers, List.countP_replicate,
    observes, exWeak, selfObserves, Slot.payload]

theorem run_exTwoBlocksMany (n : Nat) (hn : (1 : Int) + n ≤ INT_MAX) :
    run ({} : World Nat) (exTwoBlocksMany n) = Except.ok (exTwoBlocksManyEnd n) := by
  have h1 : run ({} : World Nat) exTwoBlocks = Except.ok (exTwoBlocksManyEnd 0) := rfl
  have h2 := run_copies n (exTwoBlocksManyEnd 0) 1 { ptr := Ptr.inl 1, cb := some 1 } 1
    { shared_cnt := 1, weak_cnt := 0,
      kind := BlockKind.makeShared (some { value := 2, base := none }) } rfl rfl rfl hn
  show run ({} : World Nat) (exTwoBlocks ++ List.replicate n (Op.sCopy 1))
    = Except.ok (exTwoBlocksManyEnd n)
  rw [run_append, h1]
  exact h2

/-- One more owner of a block whose `shared_cnt` is `INT_MAX`: undefined. -/
theorem step_sCopy_max {w : World T} {j : Nat} {s : SharedPtr} {b : Addr} {blk : ControlBlock T}
    (hj : w.sps[j]? = some (some s)) (hcb : s.cb = some b)
    (hblk : w.heap.blocks[b]? = some (Slot.live blk)) (hmax : ¬ blk.shared_cnt < INT_MAX) :
    step w (Op.sCopy j) = Except.error Fault.signedOverflow := by
  have hsp : w.sp j = Except.ok s := (sp_ok_iff w j s).2 hj
  simp [step, hsp, SharedPtr.copy, hcb, increment_shared_cnt_max hblk hmax, bind, Except.bind]

/-- Copy assignment from an owner of a block whose `shared_cnt` is `INT_MAX`: undefined. -/
theorem step_sCopyAssign_max {w : World T} {i j : Nat} {a s : SharedPtr} {b : Addr}
    {blk : ControlBlock T} (hi : w.sps[i]? = some (some a))
    (hj : w.sps[j]? = some (some s)) (hcb : s.cb = some b)
    (hblk : w.heap.blocks[b]? = some (Slot.live blk)) (hmax : ¬ blk.shared_cnt < INT_MAX) :
    step w (Op.sCopyAssign i j) = Except.error Fault.signedOverflow := by
  have hspi : w.sp i = Except.ok a := (sp_ok_iff w i a).2 hi
  have hsp : w.sp j = Except.ok s := (sp_ok_iff w j s).2 hj
  simp [step, World.sCopyAssign, hspi, hsp, SharedPtr.copy, hcb,
    increment_shared_cnt_max hblk hmax, bind, Except.bind]

/-- One more observer of a block whose `weak_cnt` is `INT_MAX`: undefined. -/
theorem step_wOfShared_max {w : World T} {j : Nat} {s : SharedPtr} {b : Addr}
    {blk : ControlBlock T} (hj : w.sps[j]? = some (some s)) (hcb : s.cb = some b)
    (hblk : w.heap.blocks[b]? = some (Slot.live blk)) (hmax : ¬ blk.weak_cnt < INT_MAX) :
    step w (Op.wOfShared j) = Except.error Fault.signedOverflow := by
  have hsp : w.sp j = Except.ok s := (sp_ok_iff w j s).2 hj
  simp [step, hsp, WeakPtr.ofShared, hcb, increment_weak_cnt_max hblk hmax, bind, Except.bind]

/-! ## Claims -/

/-- C1 (counterexample): `shared_cnt` is an `int`.  The program that makes one object and
copies its handle 2147483646 times is defined and ends with `INT_MAX = 2147483647` live owners
of block `0`, whose `get_shared_cnt()` is `INT_MAX`.  One more copy, a sequence of operations
the claim covers, runs `++shared_cnt` on `INT_MAX`: the run is undefined at that step, and no
`get_shared_cnt()` can be the number 2147483648 of owners. -/
theorem C1_counterexample :
    run ({} : World Nat) (exCopies 2147483646) = Except.ok (exCopiesEnd 2147483646) ∧
    get_shared_cnt (exCopiesEnd 2147483646).heap (some 0) = Except.ok INT_MAX ∧
    (exCopiesEnd 2147483646).owners 0 = 2147483647 ∧
    step (exCopiesEnd 2147483646) (Op.sCopy 0) = Except.error Fault.signedOverflow ∧
    run ({} : World Nat) (exCopies 2147483646 ++ [Op.sCopy 0])
      = Except.error Fault.signedOverflow := by
  have hrun := run_exCopies 2147483646 (by decide)
  have hstep : step (exCopiesEnd 2147483646) (Op.sCopy 0) = Except.error Fault.signedOverflow :=
    step_sCopy_max (exCopiesEnd_sp 2147483646) rfl rfl (by decide)
  exact ⟨hrun, rfl, exCopiesEnd_owners 2147483646, hstep, run_append_error hrun hstep⟩

/-- C1 (amended): run any client program from the empty state, with every statement the header
offers (the factories, called with a constructor that computes the object from its
arguments or with the copy constructor, the adopting constructors, copy and converting copy,
move and
converting move, copy and move assignment, `reset`, `swap`, `lock`, destruction, and the
observer operations), as long as it is defined: no statement dereferences a null `cb`, touches
released storage, or increments a counter that holds `INT_MAX`.  In the state reached, every
block that exists has `get_shared_cnt()` equal to the number of live `SharedPtr` objects whose
`cb` is that block.  As each prefix of a program is itself a program, this holds after every
statement. -/
theorem C1_shared_cnt_counts_owners (ops : List (Op T)) (w : World T)
    (hrun : run ({} : World T) ops = Except.ok w) (b : Addr) (n : Int)
    (hn : get_shared_cnt w.heap (some b) = Except.ok n) :
    n = (w.owners b : Int) := by
  have hinv := (run_spec sharedInv_empty hrun).1
  simp only [get_shared_cnt, bind_ok_iff, pure_ok_iff] at hn
  obtain ⟨⟨b0, blk⟩, hb, rfl⟩ := hn
  rw [block_ok_iff] at hb
  obtain ⟨hcb, hblk⟩ := hb
  simp only [Option.some.injEq] at hcb
  subst hcb
  exact hinv.1 b blk hblk

/-- C1 (witness): `exProgram` ends with three owners of block `0`. -/
theorem C1_shared_cnt_counts_owners_witness :
    run ({} : World Nat) exProgram = Except.ok exProgramEnd ∧
    get_shared_cnt exProgramEnd.heap (some 0) = Except.ok 3 ∧
    (3 : Int) = (exProgramEnd.owners 0 : Int) :=
  ⟨rfl, rfl, C1_shared_cnt_counts_owners exProgram exProgramEnd rfl 0 3 rfl⟩

/-- C2 (counterexample): building an owning handle from an expired observer with
`SharedPtr(const WeakPtr&)` is a handle operation that breaks both halves of the claim.  After
`exRevive` the block has `shared_cnt = 1` although its payload has been released; after
`exReviveTwice` `useDeleter()` has run twice on the block. -/
theorem C2_counterexample :
    (run ({} : World Nat) exRevive).map
        (fun w => (get_shared_cnt w.heap (some 0), w.heap.released 0, w.heap.blocks))
      = Except.ok (Except.ok 1, 1,
          [Slot.live { shared_cnt := 1, weak_cnt := 1, kind := BlockKind.makeShared none }]) ∧
    (run ({} : World Nat) exReviveTwice).map (fun w => w.heap.released 0) = Except.ok 2 := by
  refine ⟨rfl, rfl⟩

/-- C2 (amended): take a client program, with any statements of the header (the factories
called with a constructor that computes the object from its arguments or with the copy
constructor), in which
`SharedPtr(const WeakPtr&)` is never applied to an observer that is expired at that moment
(`noRevive`; it may be applied to other observers, and `lock()` to any), and which is defined
(in particular no counter is incremented at `INT_MAX`).  In every state reached `useDeleter()`
has run at most once on each block; for a block that exists it has not run exactly when
`shared_cnt > 0`; and it has run once on every deallocated block.  The call happens in the
`decrement_shared_cnt()` that takes `shared_cnt` from `1` to `0` and in no other: a
`decrement_shared_cnt()` on a block with `shared_cnt = s` adds one `useDeleter()` call on that
block if `s = 1` and none otherwise, and none on any other block. -/
theorem C2_release_once (ops : List (Op T)) (w : World T)
    (hnr : noRevive ({} : World T) ops = true)
    (hrun : run ({} : World T) ops = Except.ok w) (b : Addr) :
    w.heap.released b ≤ 1 ∧
    (∀ n, get_shared_cnt w.heap (some b) = Except.ok n → (w.heap.released b = 0 ↔ 0 < n)) ∧
    (w.heap.blocks[b]? = some Slot.freed → w.heap.released b = 1) ∧
    (∀ (blk : ControlBlock T) (h1 : Heap T) (c : Addr),
      w.heap.blocks[b]? = some (Slot.live blk) →
      decrement_shared_cnt w.heap (some b) = Except.ok h1 →
      h1.released c = w.heap.released c + (if c = b ∧ blk.shared_cnt = 1 then 1 else 0)) := by
  have hrel := run_rel sharedInv_empty rel_empty hnr hrun b
  refine ⟨?_, fun n hn => ?_, fun hf => ?_, fun blk h1 c hblk hok => ?_⟩
  · rw [hrel]
    cases sv w.heap.blocks[b]? with
    | absent => simp [SV.rel]
    | raw => simp [SV.rel]
    | freed => simp [SV.rel]
    | live n =>
      simp only [SV.rel]
      split <;> omega
  · simp only [get_shared_cnt, bind_ok_iff, pure_ok_iff] at hn
    obtain ⟨⟨b0, blk⟩, hb, rfl⟩ := hn
    rw [block_ok_iff] at hb
    obtain ⟨hcb, hblk⟩ := hb
    simp only [Option.some.injEq] at hcb
    subst hcb
    rw [hrel, hblk]
    simp only [sv, SV.rel]
    split <;> simp_all
  · rw [hrel, hf]
    rfl
  · exact decrement_shared_cnt_released hblk hok c

/-- C2 (witness): `exReleaseVia` builds an owner with `SharedPtr(const WeakPtr&)` from an
observer that is not expired; it ends with the payload of block `0` released once and
`shared_cnt = 0`. -/
theorem C2_release_once_witness :
    (noRevive ({} : World Nat) exReleaseVia = true ∧
      run ({} : World Nat) exReleaseVia = Except.ok exReleaseViaEnd ∧
      exReleaseViaEnd.heap.released 0 = 1) ∧
    (exReleaseViaEnd.heap.released 0 ≤ 1 ∧
    (∀ n, get_shared_cnt exReleaseViaEnd.heap (some 0) = Except.ok n →
      (exReleaseViaEnd.heap.released 0 = 0 ↔ 0 < n)) ∧
    (exReleaseViaEnd.heap.blocks[0]? = some Slot.freed → exReleaseViaEnd.heap.released 0 = 1) ∧
    (∀ (blk : ControlBlock Nat) (h1 : Heap Nat) (c : Addr),
      exReleaseViaEnd.heap.blocks[0]? = some (Slot.live blk) →
      decrement_shared_cnt exReleaseViaEnd.heap (some 0) = Except.ok h1 →
      h1.released c = exReleaseViaEnd.heap.released c
        + (if c = 0 ∧ blk.shared_cnt = 1 then 1 else 0))) :=
  ⟨⟨rfl, rfl, rfl⟩, C2_release_once exReleaseVia exReleaseViaEnd rfl rfl 0⟩

/-- C3 (the code departs from the claim): for a type deriving from `EnableSharedFromThis`,
adopting `new U(7)` and destroying the only handle does not deallocate the block once at the
end.  The adopting constructor leaves `shared_cnt = 1`, `weak_cnt = 1` (the object's own
`wptr`); `useDeleter()`, run by `decrement_shared_cnt()` after `shared_cnt` became `0`,
destroys the object and with it `wptr`, whose destructor brings `weak_cnt` to `0` and calls
`dealloc_this()`; back in `decrement_shared_cnt()` the test `weak_cnt == 0` reads the block
that was just deallocated. -/
theorem C3_dealloc_inside_useDeleter :
    SharedPtr.adopt exHeapSelf true true (Ptr.ext 0) Deleter.default_delete
      = Except.ok (exHeapSelfAdopted, Except.ok { ptr := Ptr.ext 0, cb := some 0 }) ∧
    (useDeleter (exHeapSelfAdopted.setBlock 0
        { shared_cnt := 0, weak_cnt := 1,
          kind := BlockKind.regular Deleter.default_delete (Ptr.ext 0) }) 0).map
      (fun h => (h.blocks, h.deallocated 0)) = Except.ok ([Slot.freed], 1) ∧
    SharedPtr.destroy exHeapSelfAdopted { ptr := Ptr.ext 0, cb := some 0 }
      = Except.error Fault.useAfterFree ∧
    run ({} : World Nat) [Op.newObj 7 true,
        Op.sAdopt true true (Ptr.ext 0) Deleter.default_delete, Op.sDestroy 0]
      = Except.error Fault.useAfterFree := by
  refine ⟨rfl, rfl, rfl, rfl⟩

/-- C4 (counterexample): with a payload constructor that raises, `allocateShared` returns
with the exception and one allocation still outstanding. -/
theorem C4_counterexample :
    (allocateShared ({} : Heap Nat) true (Obj.construct exThrowingCtor false) 5).map
        (fun r => (r.2, r.1.outstanding))
      = Except.ok (Except.error Exn.ctorThrew, 1) := by
  rfl

/-- C4 (amended): if the payload constructor raises inside `allocateShared` / `makeShared`
(the allocation itself having succeeded), the exception leaves the factory, no `SharedPtr` is
produced, and the only call the factory has made is the allocation: no payload destructor, no
release, and no deallocation, so one more allocation is outstanding than before.  (Stated for
a constructor that computes a value, which leaves the heap alone; whatever a constructor does
before it raises, the factory adds nothing to it.) -/
theorem C4_ctor_raises {A : Type} (h : Heap T) (ctor : A → Option T) (esft : Bool) (args : A)
    (hthrow : ctor args = none) :
    allocateShared h true (Obj.construct ctor esft) args
      = Except.ok ({ h with blocks := h.blocks ++ [Slot.raw],
                            log := h.log ++ [Event.allocate h.blocks.length] },
                   Except.error Exn.ctorThrew) ∧
    makeShared h true (Obj.construct ctor esft) args
      = allocateShared h true (Obj.construct ctor esft) args ∧
    Heap.outstanding { h with blocks := h.blocks ++ [Slot.raw],
                              log := h.log ++ [Event.allocate h.blocks.length] }
      = h.outstanding + 1 ∧
    (∀ (c : Constructor T A) (h2 : Heap T), c (allocate h true).1 args = Except.ok (h2, none) →
      allocateShared h true c args = Except.ok (h2, Except.error Exn.ctorThrew)) := by
  refine ⟨?_, rfl, ?_, fun c h2 hc => ?_⟩
  · rw [allocateShared_construct]
    simp [allocate, hthrow]
  · simp [Heap.outstanding, List.countP_append]
  · have hc2 : c { h with blocks := h.blocks ++ [Slot.raw],
                          log := h.log ++ [Event.allocate h.blocks.length] } args
        = Except.ok (h2, none) := hc
    simp [allocateShared, allocate, hc2, bind, Except.bind, pure, Except.pure]

/-- C4 (witness). -/
theorem C4_ctor_raises_witness :
    allocateShared ({} : Heap Nat) true (Obj.construct exThrowingCtor false) 5
      = Except.ok ({ blocks := [Slot.raw], log := [Event.allocate 0] },
                   Except.error Exn.ctorThrew) ∧
    makeShared ({} : Heap Nat) true (Obj.construct exThrowingCtor false) 5
      = allocateShared ({} : Heap Nat) true (Obj.construct exThrowingCtor false) 5 ∧
    Heap.outstanding ({ blocks := [Slot.raw], log := [Event.allocate 0] } : Heap Nat)
      = (({} : Heap Nat)).outstanding + 1 ∧
    (∀ (c : Constructor Nat Nat) (h2 : Heap Nat),
      c (allocate ({} : Heap Nat) true).1 5 = Except.ok (h2, none) →
      allocateShared ({} : Heap Nat) true c 5 = Except.ok (h2, Except.error Exn.ctorThrew)) :=
  C4_ctor_raises ({} : Heap Nat) exThrowingCtor false 5 rfl

/-- C5 (the code departs from the claim): `expired()` of a `WeakPtr` that has no control
block returns `false`, whatever the heap; the claim asks for `true`. -/
theorem C5_expired_without_block (h : Heap T) (p : Ptr) :
    WeakPtr.expired h { cb := none, ptr := p } = Except.ok false := by
  rfl

/-- C6 (counterexample): `shared_cnt` is an `int`.  In `exHeapMaxShared` the block of the
observer `exWeak` has `shared_cnt = INT_MAX`, a value `n ≥ 1`; `lock()` runs `++shared_cnt` on
it, a signed overflow, and does not leave `shared_cnt = n + 1`. -/
theorem C6_counterexample :
    get_shared_cnt exHeapMaxShared exWeak.cb = Except.ok INT_MAX ∧
    WeakPtr.lock exHeapMaxShared exWeak = Except.error Fault.signedOverflow := by
  refine ⟨rfl, rfl⟩

/-- C6 (amended): if the block of `w` is alive with `shared_cnt = n`, `1 ≤ n < INT_MAX`,
`w.lock()` returns a handle whose `cb` is that block and whose `get()` is the pointer stored
in `w`, and the block is left with `shared_cnt = n + 1` and every other member (`weak_cnt`
included) as before; the rest of the heap and the log are unchanged. -/
theorem C6_lock_live (h : Heap T) (w : WeakPtr) (b : Addr) (blk : ControlBlock T)
    (hcb : w.cb = some b) (hblk : h.blocks[b]? = some (Slot.live blk))
    (hn : 1 ≤ blk.shared_cnt) (hlt : blk.shared_cnt < INT_MAX) :
    WeakPtr.lock h w
      = Except.ok (h.setBlock b { blk with shared_cnt := blk.shared_cnt + 1 },
                   { ptr := w.ptr, cb := some b }) ∧
    (h.setBlock b { blk with shared_cnt := blk.shared_cnt + 1 }).blocks[b]?
      = some (Slot.live { shared_cnt := blk.shared_cnt + 1, weak_cnt := blk.weak_cnt,
                          kind := blk.kind }) ∧
    SharedPtr.get { ptr := w.ptr, cb := some b } = w.ptr := by
  have hb : h.block (some b) = Except.ok (b, blk) := (block_ok_iff h (some b) b blk).2 ⟨rfl, hblk⟩
  have hne : ¬ blk.shared_cnt = 0 := by omega
  have hlt2 : b < h.blocks.length := getElem?_lt_of_eq_some hblk
  refine ⟨?_, ?_, rfl⟩
  · simp [WeakPtr.lock, WeakPtr.expired, hcb, get_shared_cnt, hb, SharedPtr.ofWeak,
      increment_shared_cnt, bind, Except.bind, pure, Except.pure, hne, hlt]
  · simp [Heap.setBlock, hlt2]

/-- C6 (witness). -/
theorem C6_lock_live_witness :
    WeakPtr.lock exHeapShared exWeak
      = Except.ok (exHeapShared.setBlock 0
          { shared_cnt := 2 + 1, weak_cnt := 1,
            kind := BlockKind.makeShared (some { value := 42, base := none }) },
          { ptr := Ptr.inl 0, cb := some 0 }) ∧
    (exHeapShared.setBlock 0
          { shared_cnt := 2 + 1, weak_cnt := 1,
            kind := BlockKind.makeShared (some { value := 42, base := none }) }).blocks[0]?
      = some (Slot.live
          { shared_cnt := 2 + 1, weak_cnt := 1,
            kind := BlockKind.makeShared (some { value := 42, base := none }) }) ∧
    SharedPtr.get { ptr := Ptr.inl 0, cb := some 0 } = Ptr.inl 0 :=
  C6_lock_live exHeapShared exWeak 0
    { shared_cnt := 2, weak_cnt := 1,
      kind := BlockKind.makeShared (some { value := 42, base := none }) } rfl rfl (by decide)
    (by decide)

/-- C7: if the block of `w` still exists with `shared_cnt = 0`, `w.lock()` returns the empty
handle (null pointer, null block) and the heap it was given: both counters, the rest of the
block and the log are untouched, so neither `useDeleter()` nor `dealloc_this()` ran.  (No
assumption on `weak_cnt` is needed.) -/
theorem C7_lock_expired (h : Heap T) (w : WeakPtr) (b : Addr) (blk : ControlBlock T)
    (hcb : w.cb = some b) (hblk : h.blocks[b]? = some (Slot.live blk))
    (hz : blk.shared_cnt = 0) :
    WeakPtr.lock h w = Except.ok (h, { ptr := Ptr.null, cb := none }) := by
  have hb : h.block (some b) = Except.ok (b, blk) := (block_ok_iff h (some b) b blk).2 ⟨rfl, hblk⟩
  simp [WeakPtr.lock, WeakPtr.expired, hcb, get_shared_cnt, hb, bind, Except.bind, pure,
    Except.pure, hz]

/-- C7 (witness). -/
theorem C7_lock_expired_witness :
    WeakPtr.lock exHeapExpired exWeak = Except.ok (exHeapExpired, { ptr := Ptr.null, cb := none }) :=
  C7_lock_expired exHeapExpired exWeak 0
    { shared_cnt := 0, weak_cnt := 1, kind := BlockKind.makeShared none } rfl rfl rfl

/-- C8 (the code departs from the claim): `lock()` of a `WeakPtr` without control block does
not return an empty handle.  `expired()` is `false` for it, so `lock()` runs
`SharedPtr<T>(*this)`, whose `cb->increment_shared_cnt()` goes through the null `cb`; the same
happens in `shared_from_this()` of an object no owning handle has wrapped. -/
theorem C8_lock_without_block (h : Heap T) :
    WeakPtr.lock h {} = Except.error Fault.nullDeref ∧
    EnableSharedFromThis.shared_from_this h {} = Except.error Fault.nullDeref := by
  refine ⟨rfl, rfl⟩

/-- C9 (counterexample): the observer `exWeak` is expired in `exHeapExpired`, yet
`SharedPtr<T>(exWeak)` yields a handle on block `0` and sets `shared_cnt` back to `1`. -/
theorem C9_counterexample :
    WeakPtr.expired exHeapExpired exWeak = Except.ok true ∧
    SharedPtr.ofWeak exHeapExpired exWeak
      = Except.ok
          ({ blocks := [Slot.live { shared_cnt := 1, weak_cnt := 1,
                                    kind := BlockKind.makeShared none }],
             log := [Event.allocate 0, Event.useDeleter 0, Event.destroyed (Ptr.inl 0)] },
           { ptr := Ptr.inl 0, cb := some 0 }) := by
  refine ⟨rfl, rfl⟩

/-- C9 (amended): the constructor `SharedPtr(const WeakPtr<T>&)` makes no expiry test.  For
an expired observer whose block still exists (`shared_cnt = 0`) it returns a handle with the
observer's pointer and block and leaves the block with `shared_cnt = 1`, nothing else in the
heap being changed. -/
theorem C9_ofWeak_expired (h : Heap T) (w : WeakPtr) (b : Addr) (blk : ControlBlock T)
    (hcb : w.cb = some b) (hblk : h.blocks[b]? = some (Slot.live blk))
    (hz : blk.shared_cnt = 0) :
    SharedPtr.ofWeak h w
      = Except.ok (h.setBlock b { blk with shared_cnt := 1 }, { ptr := w.ptr, cb := some b }) := by
  have hb : h.block (some b) = Except.ok (b, blk) := (block_ok_iff h (some b) b blk).2 ⟨rfl, hblk⟩
  simp [SharedPtr.ofWeak, hcb, increment_shared_cnt, hb, bind, Except.bind, pure, Except.pure, hz,
    zero_lt_INT_MAX]

/-- C9 (witness). -/
theorem C9_ofWeak_expired_witness :
    SharedPtr.ofWeak exHeapExpired exWeak
      = Except.ok (exHeapExpired.setBlock 0
          { shared_cnt := 1, weak_cnt := 1, kind := BlockKind.makeShared none },
          { ptr := Ptr.inl 0, cb := some 0 }) :=
  C9_ofWeak_expired exHeapExpired exWeak 0
    { shared_cnt := 0, weak_cnt := 1, kind := BlockKind.makeShared none } rfl rfl rfl

/-- C10 (counterexample): `shared_cnt` is an `int`.  The block of the non-empty handle
`exShared` has `shared_cnt = INT_MAX` in `exHeapMaxShared`; the same-type and the converting
copy constructor run `++shared_cnt` on it, a signed overflow, and do not make
`shared_cnt = n + 1`. -/
theorem C10_counterexample :
    get_shared_cnt exHeapMaxShared exShared.cb = Except.ok INT_MAX ∧
    SharedPtr.copy exHeapMaxShared exShared = Except.error Fault.signedOverflow ∧
    SharedPtr.convCopy exHeapMaxShared exShared = Except.error Fault.signedOverflow := by
  refine ⟨rfl, rfl, rfl⟩

/-- C10 (amended): let `s` be the live `SharedPtr` object number `j`, non-empty, its block
having `shared_cnt = n < INT_MAX`.  The same-type copy constructor and the converting copy
constructor both yield a handle with the pointer and the block of `s` and leave the block with
`shared_cnt = n + 1`, its other members (`weak_cnt` included), the other blocks and the log as
they were; the program state afterwards has the new handle as an additional object and every
earlier object, `s` included, unchanged. -/
theorem C10_copy_construct (w : World T) (j : Nat) (s : SharedPtr) (b : Addr)
    (blk : ControlBlock T) (hs : w.sps[j]? = some (some s)) (hcb : s.cb = some b)
    (hblk : w.heap.blocks[b]? = some (Slot.live blk)) (hlt : blk.shared_cnt < INT_MAX) :
    SharedPtr.copy w.heap s
      = Except.ok (w.heap.setBlock b { blk with shared_cnt := blk.shared_cnt + 1 },
                   { ptr := s.ptr, cb := s.cb }) ∧
    SharedPtr.convCopy w.heap s
      = Except.ok (w.heap.setBlock b { blk with shared_cnt := blk.shared_cnt + 1 },
                   { ptr := s.ptr, cb := s.cb }) ∧
    step w (Op.sCopy j)
      = Except.ok { w with heap := w.heap.setBlock b { blk with shared_cnt := blk.shared_cnt + 1 },
                           sps := w.sps ++ [some { ptr := s.ptr, cb := s.cb }] } ∧
    step w (Op.sConvCopy j)
      = Except.ok { w with heap := w.heap.setBlock b { blk with shared_cnt := blk.shared_cnt + 1 },
                           sps := w.sps ++ [some { ptr := s.ptr, cb := s.cb }] } ∧
    (w.heap.setBlock b { blk with shared_cnt := blk.shared_cnt + 1 }).blocks[b]?
      = some (Slot.live { shared_cnt := blk.shared_cnt + 1, weak_cnt := blk.weak_cnt,
                          kind := blk.kind }) ∧
    (w.sps ++ [some ({ ptr := s.ptr, cb := s.cb } : SharedPtr)])[j]? = some (some s) := by
  have hb : w.heap.block (some b) = Except.ok (b, blk) :=
    (block_ok_iff w.heap (some b) b blk).2 ⟨rfl, hblk⟩
  have hlt2 : b < w.heap.blocks.length := getElem?_lt_of_eq_some hblk
  have hj : j < w.sps.length := getElem?_lt_of_eq_some hs
  have hsp : w.sp j = Except.ok s := by
    simp [World.sp, hs]
  have h1 : SharedPtr.copy w.heap s
      = Except.ok (w.heap.setBlock b { blk with shared_cnt := blk.shared_cnt + 1 },
                   { ptr := s.ptr, cb := s.cb }) := by
    simp [SharedPtr.copy, hcb, increment_shared_cnt, hb, bind, Except.bind, pure, Except.pure,
      hlt]
  have h2 : SharedPtr.convCopy w.heap s
      = Except.ok (w.heap.setBlock b { blk with shared_cnt := blk.shared_cnt + 1 },
                   { ptr := s.ptr, cb := s.cb }) := by
    simp [SharedPtr.convCopy, hcb, increment_shared_cnt, hb, bind, Except.bind, pure,
      Except.pure, hlt]
  refine ⟨h1, h2, ?_, ?_, ?_, ?_⟩
  · simp [step, hsp, h1, bind, Except.bind, pure, Except.pure]
  · simp [step, hsp, h2, bind, Except.bind, pure, Except.pure]
  · simp [Heap.setBlock, hlt2]
  · rw [List.getElem?_append_left hj]
    exact hs

/-- C10 (witness). -/
theorem C10_copy_construct_witness :
    SharedPtr.copy exWorld.heap exShared
      = Except.ok (exWorld.heap.setBlock 0
          { shared_cnt := 1 + 1, weak_cnt := 0,
            kind := BlockKind.makeShared (some { value := 42, base := none }) },
          { ptr := Ptr.inl 0, cb := some 0 }) ∧
    SharedPtr.convCopy exWorld.heap exShared
      = Except.ok (exWorld.heap.setBlock 0
          { shared_cnt := 1 + 1, weak_cnt := 0,
            kind := BlockKind.makeShared (some { value := 42, base := none }) },
          { ptr := Ptr.inl 0, cb := some 0 }) ∧
    step exWorld (Op.sCopy 0)
      = Except.ok { exWorld with
          heap := exWorld.heap.setBlock 0
            { shared_cnt := 1 + 1, weak_cnt := 0,
              kind := BlockKind.makeShared (some { value := 42, base := none }) },
          sps := exWorld.sps ++ [some { ptr := Ptr.inl 0, cb := some 0 }] } ∧
    step exWorld (Op.sConvCopy 0)
      = Except.ok { exWorld with
          heap := exWorld.heap.setBlock 0
            { shared_cnt := 1 + 1, weak_cnt := 0,
              kind := BlockKind.makeShared (some { value := 42, base := none }) },
          sps := exWorld.sps ++ [some { ptr := Ptr.inl 0, cb := some 0 }] } ∧
    (exWorld.heap.setBlock 0
          { shared_cnt := 1 + 1, weak_cnt := 0,
            kind := BlockKind.makeShared (some { value := 42, base := none }) }).blocks[0]?
      = some (Slot.live
          { shared_cnt := 1 + 1, weak_cnt := 0,
            kind := BlockKind.makeShared (some { value := 42, base := none }) }) ∧
    (exWorld.sps ++ [some ({ ptr := Ptr.inl 0, cb := some 0 } : SharedPtr)])[0]?
      = some (some exShared) :=
  C10_copy_construct exWorld 0 exShared 0
    { shared_cnt := 1, weak_cnt := 0,
      kind := BlockKind.makeShared (some { value := 42, base := none }) } rfl rfl rfl
    (by decide)

/-- C18: on a block with `weak_cnt = w` and `shared_cnt = s` (in particular for `w ≥ 1`,
`s ≥ 0`; the proof needs no bound), `decrement_weak_cnt()` returns; it never calls
`useDeleter()`; it calls `dealloc_this()` once, on this block, if `w = 1` and `s = 0`, and
not at all otherwise; unless the block is deallocated it is left with `weak_cnt = w - 1`,
`shared_cnt = s` and its other members; no other block and no object is changed. -/
theorem C18_decrement_weak_cnt (h : Heap T) (b : Addr) (blk : ControlBlock T)
    (hblk : h.blocks[b]? = some (Slot.live blk)) :
    ∃ h1, decrement_weak_cnt h (some b) = Except.ok h1 ∧
      (∀ c, h1.released c = h.released c) ∧
      (∀ c, h1.deallocated c = h.deallocated c +
        (if c = b ∧ blk.weak_cnt = 1 ∧ blk.shared_cnt = 0 then 1 else 0)) ∧
      h1.blocks[b]? = (if blk.weak_cnt = 1 ∧ blk.shared_cnt = 0 then some Slot.freed
        else some (Slot.live { shared_cnt := blk.shared_cnt, weak_cnt := blk.weak_cnt - 1,
                               kind := blk.kind })) ∧
      (∀ c, c ≠ b → h1.blocks[c]? = h.blocks[c]?) ∧ h1.objs = h.objs := by
  have hb : h.block (some b) = Except.ok (b, blk) := (block_ok_iff h (some b) b blk).2 ⟨rfl, hblk⟩
  have hset := setBlock_get_self { blk with weak_cnt := blk.weak_cnt - 1 } hblk
  by_cases hz : blk.weak_cnt = 1 ∧ blk.shared_cnt = 0
  · have hz2 : blk.shared_cnt = 0 ∧ blk.weak_cnt - 1 = 0 := ⟨hz.2, by omega⟩
    refine ⟨dealloc_this (h.setBlock b { blk with weak_cnt := blk.weak_cnt - 1 }) b, ?_, ?_, ?_,
      ?_, ?_, rfl⟩
    · simp [decrement_weak_cnt, hb, bind, Except.bind, pure, Except.pure, hz2]
    · intro c
      simp [Heap.released, dealloc_this, Heap.setBlock, List.count_append]
    · intro c
      rw [dealloc_deallocated]
      simp [hz, Heap.deallocated, Heap.setBlock]
    · rw [if_pos hz]
      exact dealloc_get_self hset
    · intro c hne
      rw [dealloc_get_ne _ hne, setBlock_get_ne _ _ hne]
  · have hz2 : ¬ (blk.shared_cnt = 0 ∧ blk.weak_cnt - 1 = 0) := by
      intro hh
      exact hz ⟨by omega, hh.1⟩
    refine ⟨h.setBlock b { blk with weak_cnt := blk.weak_cnt - 1 }, ?_, fun _ => rfl, ?_, ?_, ?_,
      rfl⟩
    · simp [decrement_weak_cnt, hb, bind, Except.bind, pure, Except.pure, hz2]
    · intro c
      have hz3 : ¬ (c = b ∧ blk.weak_cnt = 1 ∧ blk.shared_cnt = 0) := fun hh => hz hh.2
      simp [hz3, Heap.deallocated, Heap.setBlock]
    · rw [if_neg hz]
      exact hset
    · intro c hne
      exact setBlock_get_ne _ _ hne

/-- C18 (witness): the last observer of a block without owners goes away. -/
theorem C18_decrement_weak_cnt_witness :
    ∃ h1, decrement_weak_cnt exHeapExpired (some 0) = Except.ok h1 ∧
      (∀ c, h1.released c = exHeapExpired.released c) ∧
      (∀ c, h1.deallocated c = exHeapExpired.deallocated c +
        (if c = 0 ∧ (1 : Int) = 1 ∧ (0 : Int) = 0 then 1 else 0)) ∧
      h1.blocks[0]? = (if (1 : Int) = 1 ∧ (0 : Int) = 0 then some Slot.freed
        else some (Slot.live { shared_cnt := 0, weak_cnt := 1 - 1,
                               kind := BlockKind.makeShared none })) ∧
      (∀ c, c ≠ 0 → h1.blocks[c]? = exHeapExpired.blocks[c]?) ∧ h1.objs = exHeapExpired.objs :=
  C18_decrement_weak_cnt exHeapExpired 0
    { shared_cnt := 0, weak_cnt := 1, kind := BlockKind.makeShared none } rfl

/-- C12: let the allocator have storage, and let `T`'s constructor, run on `args` in the heap
the allocation leaves, return normally with the object `o`, in a heap `h2` that still has the
new address.  Then `allocateShared` and `makeShared` make exactly one allocation of their own,
at the fresh address `n`, before the constructor runs, and no call after it: the heap they
leave is `h2` with the new block at `n`.  They return the handle whose `cb` is `n` and whose
`get()` is the address of the payload stored inline in that block.  The block has
`shared_cnt = 1`, `weak_cnt = 0`, so `use_count()` is `1`, and dereferencing the handle gives
the value of `o`.  A constructor that computes the value `v` from `args` is such a
constructor, with `h2` the heap the allocation leaves: then nothing else in the heap is
changed. -/
theorem C12_make_shared {A : Type} (h : Heap T) (ctor : Constructor T A) (args : A)
    (h2 : Heap T) (o : Obj T)
    (hctor : ctor (allocate h true).1 args = Except.ok (h2, some o))
    (hkeep : h.blocks.length < h2.blocks.length) :
    allocate h true
      = ({ h with blocks := h.blocks ++ [Slot.raw],
                  log := h.log ++ [Event.allocate h.blocks.length] },
         Except.ok h.blocks.length) ∧
    (allocate h true).1.allocations = h.allocations + 1 ∧
    (∃ h1, allocateShared h true ctor args
        = Except.ok (h1, Except.ok { ptr := Ptr.inl h.blocks.length, cb := some h.blocks.length }) ∧
      makeShared h true ctor args = allocateShared h true ctor args ∧
      h1.log = h2.log ∧ h1.objs = h2.objs ∧
      (∀ c : Addr, c ≠ h.blocks.length → h1.blocks[c]? = h2.blocks[c]?) ∧
      h1.blocks[h.blocks.length]? = some (Slot.live
        { shared_cnt := 1, weak_cnt := 0, kind := BlockKind.makeShared (some o) }) ∧
      SharedPtr.use_count h1 { ptr := Ptr.inl h.blocks.length, cb := some h.blocks.length }
        = Except.ok 1 ∧
      SharedPtr.get { ptr := Ptr.inl h.blocks.length, cb := some h.blocks.length }
        = Ptr.inl h.blocks.length ∧
      SharedPtr.deref h1 { ptr := Ptr.inl h.blocks.length, cb := some h.blocks.length }
        = Except.ok o.value) ∧
    (∀ (c : A → Option T) (esft : Bool) (v : T), c args = some v →
      Obj.construct c esft (allocate h true).1 args
        = Except.ok ((allocate h true).1,
            some { value := v, base := if esft then some {} else none })) := by
  have hn : (h2.setBlock h.blocks.length
      { shared_cnt := 1, weak_cnt := 0, kind := BlockKind.makeShared (some o) }).blocks[
        h.blocks.length]?
      = some (Slot.live
        { shared_cnt := 1, weak_cnt := 0, kind := BlockKind.makeShared (some o) }) := by
    simp [Heap.setBlock, hkeep]
  refine ⟨rfl, ?_, ⟨_, allocateShared_ok h ctor args hctor, rfl, rfl, rfl,
    fun c hc => setBlock_get_ne _ _ hc, hn, ?_, rfl, ?_⟩, fun c esft v hv => ?_⟩
  · simp [allocate, Heap.allocations, List.countP_append]
  · have hb := (block_ok_iff _ (some h.blocks.length) _ _).2 ⟨rfl, hn⟩
    simp [SharedPtr.use_count, get_shared_cnt, hb, bind, Except.bind, pure, Except.pure]
  · have ho := (obj_inl_ok _ h.blocks.length o).2 ⟨_, hn, rfl⟩
    simp [SharedPtr.deref, ho, bind, Except.bind, pure, Except.pure]
  · simp [Obj.construct, hv, pure, Except.pure]

/-- C12 (witness): `makeShared<T>(42)` on the empty heap, and `makeShared<U>(*p)` for the
adopted object of `exHeapSelfAdopted`, whose copy constructor touches block `0`. -/
theorem C12_make_shared_witness :
    (allocate ({} : Heap Nat) true
      = ({ ({} : Heap Nat) with
            blocks := (({} : Heap Nat)).blocks ++ [Slot.raw],
            log := (({} : Heap Nat)).log ++ [Event.allocate (({} : Heap Nat)).blocks.length] },
         Except.ok (({} : Heap Nat)).blocks.length) ∧
    (allocate ({} : Heap Nat) true).1.allocations = (({} : Heap Nat)).allocations + 1 ∧
    (∃ h1, allocateShared ({} : Heap Nat) true (Obj.construct (fun n : Nat => some n) false) 42
        = Except.ok (h1, Except.ok { ptr := Ptr.inl (({} : Heap Nat)).blocks.length,
                                     cb := some (({} : Heap Nat)).blocks.length }) ∧
      makeShared ({} : Heap Nat) true (Obj.construct (fun n : Nat => some n) false) 42
        = allocateShared ({} : Heap Nat) true (Obj.construct (fun n : Nat => some n) false) 42 ∧
      h1.log = [Event.allocate 0] ∧ h1.objs = [] ∧
      (∀ c : Addr, c ≠ (({} : Heap Nat)).blocks.length →
        h1.blocks[c]? = ([Slot.raw] : List (Slot Nat))[c]?) ∧
      h1.blocks[(({} : Heap Nat)).blocks.length]? = some (Slot.live
        { shared_cnt := 1, weak_cnt := 0,
          kind := BlockKind.makeShared (some { value := 42, base := none }) }) ∧
      SharedPtr.use_count h1 { ptr := Ptr.inl (({} : Heap Nat)).blocks.length,
                               cb := some (({} : Heap Nat)).blocks.length } = Except.ok 1 ∧
      SharedPtr.get { ptr := Ptr.inl (({} : Heap Nat)).blocks.length,
                      cb := some (({} : Heap Nat)).blocks.length }
        = Ptr.inl (({} : Heap Nat)).blocks.length ∧
      SharedPtr.deref h1 { ptr := Ptr.inl (({} : Heap Nat)).blocks.length,
                           cb := some (({} : Heap Nat)).blocks.length }
        = Except.ok 42) ∧
    (∀ (c : Nat → Option Nat) (esft : Bool) (v : Nat), c 42 = some v →
      Obj.construct c esft (allocate ({} : Heap Nat) true).1 42
        = Except.ok ((allocate ({} : Heap Nat) true).1,
            some { value := v, base := if esft then some {} else none }))) ∧
    (∃ h1, allocateShared exHeapSelfAdopted true Obj.copy (Ptr.ext 0)
        = Except.ok (h1, Except.ok { ptr := Ptr.inl 1, cb := some 1 }) ∧
      makeShared exHeapSelfAdopted true Obj.copy (Ptr.ext 0)
        = allocateShared exHeapSelfAdopted true Obj.copy (Ptr.ext 0) ∧
      h1.log = [Event.allocate 0, Event.allocate 1] ∧
      h1.objs = [some { value := 7,
                        base := some { wptr := { cb := some 0, ptr := Ptr.ext 0 } } }] ∧
      (∀ c : Addr, c ≠ 1 →
        h1.blocks[c]? = ([Slot.live
            { shared_cnt := 1, weak_cnt := 2,
              kind := BlockKind.regular Deleter.default_delete (Ptr.ext 0) },
          Slot.raw] : List (Slot Nat))[c]?) ∧
      h1.blocks[1]? = some (Slot.live
        { shared_cnt := 1, weak_cnt := 0,
          kind := BlockKind.makeShared
            (some { value := 7,
                    base := some { wptr := { cb := some 0, ptr := Ptr.ext 0 } } }) }) ∧
      SharedPtr.use_count h1 { ptr := Ptr.inl 1, cb := some 1 } = Except.ok 1 ∧
      SharedPtr.get { ptr := Ptr.inl 1, cb := some 1 } = Ptr.inl 1 ∧
      SharedPtr.deref h1 { ptr := Ptr.inl 1, cb := some 1 } = Except.ok 7) ∧
    makeShared exHeapSelfAdopted true Obj.copy (Ptr.ext 0)
      = Except.ok (exHeapSelfCopied, Except.ok { ptr := Ptr.inl 1, cb := some 1 }) :=
  ⟨C12_make_shared ({} : Heap Nat) (Obj.construct (fun n : Nat => some n) false) 42
      { blocks := [Slot.raw], log := [Event.allocate 0] } { value := 42, base := none } rfl
      (by decide),
    (C12_make_shared exHeapSelfAdopted Obj.copy (Ptr.ext 0)
      { blocks := [Slot.live
            { shared_cnt := 1, weak_cnt := 2,
              kind := BlockKind.regular Deleter.default_delete (Ptr.ext 0) },
          Slot.raw],
        objs := [some { value := 7,
                        base := some { wptr := { cb := some 0, ptr := Ptr.ext 0 } } }],
        log := [Event.allocate 0, Event.allocate 1] }
      { value := 7, base := some { wptr := { cb := some 0, ptr := Ptr.ext 0 } } } rfl
      (by decide)).2.2.1,
    rfl⟩

/-- C17 (counterexample): the block of `exHeapSelfObserved` has `shared_cnt = 1` and
`weak_cnt = 2`, one observer being the `wptr` of the adopted object.
`decrement_shared_cnt()` releases the object, whose `wptr` is destroyed with it: the block is
left with `weak_cnt = 1`, not `2`. -/
theorem C17_counterexample :
    (run ({} : World Nat) exSelfObserved).map (fun w => w.heap) = Except.ok exHeapSelfObserved ∧
    decrement_shared_cnt exHeapSelfObserved (some 0)
      = Except.ok
          { blocks := [Slot.live
              { shared_cnt := 0, weak_cnt := 1,
                kind := BlockKind.regular Deleter.default_delete (Ptr.ext 0) }],
            objs := [none],
            log := [Event.allocate 0, Event.useDeleter 0,
                    Event.deleterCall Deleter.default_delete (Ptr.ext 0),
                    Event.destroyed (Ptr.ext 0)] } := by
  refine ⟨rfl, rfl⟩

/-- C17 (amended): take a block with `shared_cnt = s` and `weak_cnt = w`.  If its release
touches no control block (`plainRelease`: the deleter does not delete, or the payload owns no
wired `wptr`; this is only needed when `s = 1`), `decrement_shared_cnt()` returns; it calls
`useDeleter()` once, on this block, if `s = 1` and not at all otherwise; it calls
`dealloc_this()` once, on this block, if `s = 1` and `w = 0`, and not at all otherwise; unless
the block is deallocated it is left with `shared_cnt = s - 1` and `weak_cnt = w`; no other
block is changed.  If `s = 1` and the payload is an adopted object whose `wptr` observes this
block, the deleter deletes it, and the block has another observer (`w ≠ 1`),
`decrement_shared_cnt()` returns as well: `useDeleter()` ran once and destroyed the object
with its `wptr`, so the block is left with `shared_cnt = 0` and `weak_cnt = w - 1`; nothing
was deallocated and no other block is changed. -/
theorem C17_decrement_shared_cnt (h : Heap T) (b : Addr) (blk : ControlBlock T)
    (hblk : h.blocks[b]? = some (Slot.live blk)) :
    ((blk.shared_cnt = 1 → h.plainRelease blk.kind = true) →
      ∃ h1, decrement_shared_cnt h (some b) = Except.ok h1 ∧
        (∀ c, h1.released c = h.released c + (if c = b ∧ blk.shared_cnt = 1 then 1 else 0)) ∧
        (∀ c, h1.deallocated c = h.deallocated c +
          (if c = b ∧ blk.shared_cnt = 1 ∧ blk.weak_cnt = 0 then 1 else 0)) ∧
        (if blk.shared_cnt = 1 ∧ blk.weak_cnt = 0 then h1.blocks[b]? = some Slot.freed
          else ∃ k, h1.blocks[b]? = some (Slot.live
            { shared_cnt := blk.shared_cnt - 1, weak_cnt := blk.weak_cnt, kind := k })) ∧
        (∀ c : Addr, c ≠ b → h1.blocks[c]? = h.blocks[c]?)) ∧
    (∀ (d : Deleter) (a : Addr) (o : Obj T) (e : EnableSharedFromThis),
      blk.shared_cnt = 1 → blk.kind = BlockKind.regular d (Ptr.ext a) → d.deletes = true →
      h.objs[a]? = some (some o) → o.base = some e → e.wptr.cb = some b → blk.weak_cnt ≠ 1 →
      ∃ h1, decrement_shared_cnt h (some b) = Except.ok h1 ∧
        h1.blocks[b]? = some (Slot.live
          { shared_cnt := 0, weak_cnt := blk.weak_cnt - 1, kind := blk.kind }) ∧
        h1.objs[a]? = some none ∧
        (∀ c, h1.released c = h.released c + (if c = b then 1 else 0)) ∧
        (∀ c, h1.deallocated c = h.deallocated c) ∧
        (∀ c : Addr, c ≠ b → h1.blocks[c]? = h.blocks[c]?)) := by
  refine ⟨fun hplain => decrement_shared_cnt_plain hblk hplain,
    fun d a o e hs hk hd ho hbase hw hne => ?_⟩
  have hlt := getElem?_lt_of_eq_some hblk
  have hlta := getElem?_lt_of_eq_some ho
  refine ⟨_, decrement_shared_cnt_self hblk hs hk hd ho hbase hw hne, ?_, ?_, fun c => ?_,
    fun c => ?_, fun c hc => ?_⟩
  · simp [hlt]
  · simp [hlta]
  · by_cases hcb : c = b
    · subst hcb
      simp [Heap.released, List.count_append, List.count_cons]
    · have hbc : ¬ b = c := fun hh => hcb hh.symm
      simp [Heap.released, List.count_append, List.count_cons, hcb, hbc]
  · simp [Heap.deallocated, List.count_append, List.count_cons]
  · show (h.blocks.set b _)[c]? = h.blocks[c]?
    exact List.getElem?_set_ne (fun hh => hc hh.symm)

/-- C17 (witness): the only owner of a `makeShared` block without observers goes away; the
only owner of the adopted, self-observing object of `exHeapSelfObserved` goes away while
another observer remains (`weak_cnt` goes from `2` to `1`); and the same with a deleter that
does not delete (`weak_cnt` stays `2`). -/
theorem C17_decrement_shared_cnt_witness :
    (∃ h1, decrement_shared_cnt exWorld.heap (some 0) = Except.ok h1 ∧
      (∀ c, h1.released c = exWorld.heap.released c
        + (if c = 0 ∧ (1 : Int) = 1 then 1 else 0)) ∧
      (∀ c, h1.deallocated c = exWorld.heap.deallocated c +
        (if c = 0 ∧ (1 : Int) = 1 ∧ (0 : Int) = 0 then 1 else 0)) ∧
      (if (1 : Int) = 1 ∧ (0 : Int) = 0 then h1.blocks[0]? = some Slot.freed
        else ∃ k, h1.blocks[0]? = some (Slot.live
          { shared_cnt := 1 - 1, weak_cnt := 0, kind := k })) ∧
      (∀ c : Addr, c ≠ 0 → h1.blocks[c]? = exWorld.heap.blocks[c]?)) ∧
    (∃ h1, decrement_shared_cnt exHeapSelfObserved (some 0) = Except.ok h1 ∧
      h1.blocks[0]? = some (Slot.live
        { shared_cnt := 0, weak_cnt := 2 - 1,
          kind := BlockKind.regular Deleter.default_delete (Ptr.ext 0) }) ∧
      h1.objs[0]? = some none ∧
      (∀ c, h1.released c = exHeapSelfObserved.released c + (if c = 0 then 1 else 0)) ∧
      (∀ c, h1.deallocated c = exHeapSelfObserved.deallocated c) ∧
      (∀ c : Addr, c ≠ 0 → h1.blocks[c]? = exHeapSelfObserved.blocks[c]?)) ∧
    (∃ h1, decrement_shared_cnt exHeapSelfKept (some 0) = Except.ok h1 ∧
      (∀ c, h1.released c = exHeapSelfKept.released c
        + (if c = 0 ∧ (1 : Int) = 1 then 1 else 0)) ∧
      (∀ c, h1.deallocated c = exHeapSelfKept.deallocated c +
        (if c = 0 ∧ (1 : Int) = 1 ∧ (2 : Int) = 0 then 1 else 0)) ∧
      (if (1 : Int) = 1 ∧ (2 : Int) = 0 then h1.blocks[0]? = some Slot.freed
        else ∃ k, h1.blocks[0]? = some (Slot.live
          { shared_cnt := 1 - 1, weak_cnt := 2, kind := k })) ∧
      (∀ c : Addr, c ≠ 0 → h1.blocks[c]? = exHeapSelfKept.blocks[c]?)) :=
  ⟨(C17_decrement_shared_cnt exWorld.heap 0
      { shared_cnt := 1, weak_cnt := 0,
        kind := BlockKind.makeShared (some { value := 42, base := none }) } rfl).1
      (fun _ => rfl),
    (C17_decrement_shared_cnt exHeapSelfObserved 0
      { shared_cnt := 1, weak_cnt := 2,
        kind := BlockKind.regular Deleter.default_delete (Ptr.ext 0) } rfl).2
      Deleter.default_delete 0
      { value := 7, base := some { wptr := { cb := some 0, ptr := Ptr.ext 0 } } }
      { wptr := { cb := some 0, ptr := Ptr.ext 0 } } rfl rfl rfl rfl rfl rfl (by decide),
    (C17_decrement_shared_cnt exHeapSelfKept 0
      { shared_cnt := 1, weak_cnt := 2,
        kind := BlockKind.regular (Deleter.custom 3 false) (Ptr.ext 0) } rfl).1
      (fun _ => rfl)⟩

/-- C15: a block built by adopting `p` with the user deleter `d` is a
`ControlBlockRegular` that stores `d` and `p` (first part; no operation changes these
members).  When the only owning handle of such a block is destroyed (`shared_cnt = 1`), every
defined run of the destructor calls `d` with `p` exactly once and makes no call of
`std::default_delete`, with any argument; and the destructor is defined whenever the release
touches no control block (`plainRelease`: `d` does not `delete`, or `p` is null or points to
a live object without wired `wptr`). -/
theorem C15_custom_deleter (h : Heap T) (s : SharedPtr) (b : Addr) (blk : ControlBlock T)
    (id : Nat) (deletes : Bool) (p : Ptr)
    (hcb : s.cb = some b) (hblk : h.blocks[b]? = some (Slot.live blk))
    (hk : blk.kind = BlockKind.regular (Deleter.custom id deletes) p)
    (hone : blk.shared_cnt = 1) :
    (∀ g : Heap T, (allocateRegular g true p (Deleter.custom id deletes)).1.blocks[g.blocks.length]?
      = some (Slot.live { shared_cnt := 1, weak_cnt := 0,
                          kind := BlockKind.regular (Deleter.custom id deletes) p })) ∧
    (∀ h1, s.destroy h = Except.ok h1 →
      h1.deleterCalls (Deleter.custom id deletes) p
        = h.deleterCalls (Deleter.custom id deletes) p + 1 ∧
      ∀ q, h1.deleterCalls Deleter.default_delete q = h.deleterCalls Deleter.default_delete q) ∧
    (h.plainRelease blk.kind = true → ∃ h1, s.destroy h = Except.ok h1) := by
  refine ⟨fun g => (allocateRegular_block g p _).2, fun h1 hok => ?_,
    fun hp => shared_destroy_plain hcb hblk hp⟩
  rw [shared_destroy_eq hcb] at hok
  have key := last_owner_deleterCalls hblk hk hone hok
  refine ⟨?_, fun q => ?_⟩
  · rw [key]
    simp
  · rw [key]
    simp

/-- C15 (witness): the only owner of the block of `exHeapAdopted` is destroyed. -/
theorem C15_custom_deleter_witness :
    (∀ g : Heap Nat,
      (allocateRegular g true (Ptr.ext 0) (Deleter.custom 3 true)).1.blocks[g.blocks.length]?
      = some (Slot.live { shared_cnt := 1, weak_cnt := 0,
                          kind := BlockKind.regular (Deleter.custom 3 true) (Ptr.ext 0) })) ∧
    (∀ h1, SharedPtr.destroy exHeapAdopted { ptr := Ptr.ext 0, cb := some 0 } = Except.ok h1 →
      h1.deleterCalls (Deleter.custom 3 true) (Ptr.ext 0)
        = exHeapAdopted.deleterCalls (Deleter.custom 3 true) (Ptr.ext 0) + 1 ∧
      ∀ q, h1.deleterCalls Deleter.default_delete q
        = exHeapAdopted.deleterCalls Deleter.default_delete q) ∧
    (exHeapAdopted.plainRelease (BlockKind.regular (Deleter.custom 3 true) (Ptr.ext 0)) = true →
      ∃ h1, SharedPtr.destroy exHeapAdopted { ptr := Ptr.ext 0, cb := some 0 } = Except.ok h1) :=
  C15_custom_deleter exHeapAdopted { ptr := Ptr.ext 0, cb := some 0 } 0
    { shared_cnt := 1, weak_cnt := 0,
      kind := BlockKind.regular (Deleter.custom 3 true) (Ptr.ext 0) } 3 true (Ptr.ext 0)
    rfl rfl rfl rfl

/-- C16: let a `ControlBlockRegular` store the deleter `d` and the pointer `p` it was built
with, and let `s` be any handle on it, whatever pointer `s` caches (the statement does not
mention `s.ptr`); handles made from `s` by converting copy or converting move are handles on
the same block.  When `s` is the last owner (`shared_cnt = 1`), every defined run of its
destructor calls `d` with the stored `p` exactly once and calls no deleter with any other
argument; and the destructor is defined whenever the release touches no control block. -/
theorem C16_deleter_gets_stored_pointer (h : Heap T) (s : SharedPtr) (b : Addr)
    (blk : ControlBlock T) (d : Deleter) (p : Ptr)
    (hcb : s.cb = some b) (hblk : h.blocks[b]? = some (Slot.live blk))
    (hk : blk.kind = BlockKind.regular d p) (hone : blk.shared_cnt = 1) :
    (∀ h1, s.destroy h = Except.ok h1 →
      ∀ d2 q, h1.deleterCalls d2 q = h.deleterCalls d2 q + (if d2 = d ∧ q = p then 1 else 0)) ∧
    (h.plainRelease blk.kind = true → ∃ h1, s.destroy h = Except.ok h1) ∧
    (∀ (g g1 : Heap T) (s1 : SharedPtr),
      SharedPtr.convCopy g s = Except.ok (g1, s1) → s1.cb = some b) ∧
    (∀ (g g1 : Heap T) (s1 s2 : SharedPtr),
      SharedPtr.convMove g s = Except.ok (g1, s1, s2) → s1.cb = some b) := by
  refine ⟨fun h1 hok d2 q => ?_, fun hp => shared_destroy_plain hcb hblk hp,
    fun g g1 s1 hok => ?_, fun g g1 s1 s2 hok => ?_⟩
  · rw [shared_destroy_eq hcb] at hok
    exact last_owner_deleterCalls hblk hk hone hok d2 q
  · simp only [SharedPtr.convCopy, bind_ok_iff, pure_ok_iff, Prod.mk.injEq] at hok
    obtain ⟨_, _, _, rfl⟩ := hok
    exact hcb
  · simp only [SharedPtr.convMove, bind_ok_iff, pure_ok_iff, Prod.mk.injEq] at hok
    obtain ⟨_, _, _, _, _, rfl, _⟩ := hok
    exact hcb

/-- C16 (witness): the last owner of the block of `exHeapAdopted` caches another pointer
than the block stores. -/
theorem C16_deleter_gets_stored_pointer_witness :
    (∀ h1, SharedPtr.destroy exHeapAdopted exSharedBase = Except.ok h1 →
      ∀ d2 q, h1.deleterCalls d2 q = exHeapAdopted.deleterCalls d2 q
        + (if d2 = Deleter.custom 3 true ∧ q = Ptr.ext 0 then 1 else 0)) ∧
    (exHeapAdopted.plainRelease (BlockKind.regular (Deleter.custom 3 true) (Ptr.ext 0)) = true →
      ∃ h1, SharedPtr.destroy exHeapAdopted exSharedBase = Except.ok h1) ∧
    (∀ (g g1 : Heap Nat) (s1 : SharedPtr),
      SharedPtr.convCopy g exSharedBase = Except.ok (g1, s1) → s1.cb = some 0) ∧
    (∀ (g g1 : Heap Nat) (s1 s2 : SharedPtr),
      SharedPtr.convMove g exSharedBase = Except.ok (g1, s1, s2) → s1.cb = some 0) :=
  C16_deleter_gets_stored_pointer exHeapAdopted exSharedBase 0
    { shared_cnt := 1, weak_cnt := 0,
      kind := BlockKind.regular (Deleter.custom 3 true) (Ptr.ext 0) }
    (Deleter.custom 3 true) (Ptr.ext 0) rfl rfl rfl rfl

/-- C13 (counterexample): for a pointee type deriving from `EnableSharedFromThis` the
adopting constructor executes `ptr->wptr = *this` without a null test: adopting the null
pointer dereferences it, and no handle is produced. -/
theorem C13_counterexample :
    SharedPtr.adopt ({} : Heap Nat) true true Ptr.null Deleter.default_delete
      = Except.error Fault.nullDeref := rfl

/-- C13 (amended): on every heap, the adopting constructors (with any deleter `d`;
`std::default_delete` for the one-argument form) behave as follows when the allocator has
storage.  When the pointee type has no `EnableSharedFromThis` base, for every `p` they
allocate one block at the fresh address `n` and return the handle with `get() == p` and
`cb = n`, and the block has `shared_cnt = 1`, `weak_cnt = 0`.  When the type has the base and
`p` points to a live object (whose `wptr` is unwired, or wired to a block that still exists),
they allocate one block at `n` and return the handle with `get() == p` and `cb = n`; the block
has `shared_cnt = 1`, `weak_cnt = 1`, and the object's `wptr` holds the block `n` and the
pointer `p`. -/
theorem C13_adopt (h : Heap T) (d : Deleter) :
    (∀ p : Ptr, ∃ h1, SharedPtr.adopt h true false p d
        = Except.ok (h1, Except.ok { ptr := p, cb := some h.blocks.length }) ∧
      SharedPtr.get { ptr := p, cb := some h.blocks.length } = p ∧
      h1.blocks[h.blocks.length]? = some (Slot.live
        { shared_cnt := 1, weak_cnt := 0, kind := BlockKind.regular d p }) ∧
      h1.allocations = h.allocations + 1) ∧
    (∀ (a : Addr) (o : Obj T) (e : EnableSharedFromThis),
      h.objs[a]? = some (some o) → o.base = some e →
      (∀ c, e.wptr.cb = some c →
        ∃ blk : ControlBlock T, h.blocks[c]? = some (Slot.live blk)) →
      ∃ h2, SharedPtr.adopt h true true (Ptr.ext a) d
          = Except.ok (h2, Except.ok { ptr := Ptr.ext a, cb := some h.blocks.length }) ∧
        SharedPtr.get { ptr := Ptr.ext a, cb := some h.blocks.length } = Ptr.ext a ∧
        h2.blocks[h.blocks.length]? = some (Slot.live
          { shared_cnt := 1, weak_cnt := 1, kind := BlockKind.regular d (Ptr.ext a) }) ∧
        h2.obj (Ptr.ext a) = Except.ok
          { value := o.value,
            base := some { wptr := { cb := some h.blocks.length, ptr := Ptr.ext a } } } ∧
        h2.allocations = h.allocations + 1) := by
  constructor
  · intro p
    obtain ⟨hA, har, hAb, _, hAa, _⟩ := allocateRegular_eq h p d
    refine ⟨hA, ?_, rfl, ?_, hAa⟩
    · simp [SharedPtr.adopt, har, pure, Except.pure]
    · rw [hAb]
      simp
  · intro a o e ho hbase hold
    obtain ⟨h2, had, hblk, hobj, hal, _⟩ := adopt_wired d ho hbase hold
    exact ⟨h2, had, rfl, hblk, hobj, hal⟩

/-- C13 (witness): a pointer is adopted on the empty heap, for a type without the base; and
the object of `exHeapSelf`, whose type has the base, is adopted. -/
theorem C13_adopt_witness :
    (∀ p : Ptr, ∃ h1, SharedPtr.adopt ({} : Heap Nat) true false p Deleter.default_delete
        = Except.ok (h1, Except.ok { ptr := p, cb := some (({} : Heap Nat)).blocks.length }) ∧
      SharedPtr.get { ptr := p, cb := some (({} : Heap Nat)).blocks.length } = p ∧
      h1.blocks[(({} : Heap Nat)).blocks.length]? = some (Slot.live
        { shared_cnt := 1, weak_cnt := 0, kind := BlockKind.regular Deleter.default_delete p }) ∧
      h1.allocations = (({} : Heap Nat)).allocations + 1) ∧
    (∃ h2, SharedPtr.adopt exHeapSelf true true (Ptr.ext 0) Deleter.default_delete
        = Except.ok (h2, Except.ok { ptr := Ptr.ext 0, cb := some exHeapSelf.blocks.length }) ∧
      SharedPtr.get { ptr := Ptr.ext 0, cb := some exHeapSelf.blocks.length } = Ptr.ext 0 ∧
      h2.blocks[exHeapSelf.blocks.length]? = some (Slot.live
        { shared_cnt := 1, weak_cnt := 1,
          kind := BlockKind.regular Deleter.default_delete (Ptr.ext 0) }) ∧
      h2.obj (Ptr.ext 0) = Except.ok
        { value := 7,
          base := some { wptr := { cb := some exHeapSelf.blocks.length, ptr := Ptr.ext 0 } } } ∧
      h2.allocations = exHeapSelf.allocations + 1) :=
  ⟨(C13_adopt ({} : Heap Nat) Deleter.default_delete).1,
    (C13_adopt exHeapSelf Deleter.default_delete).2 0 { value := 7, base := some {} } {} rfl rfl
      (fun _ hc => by cases hc)⟩

/-- C14: let `o` be a live free-standing object of a type deriving from
`EnableSharedFromThis` (its `wptr` unwired, or wired to a block that still exists).  After the
adopting constructor built the handle `h` from the address of `o`, `o.shared_from_this()`
returns a handle whose `get()` is the address of `o` and whose `cb` is the block of `h`; in
the heap it leaves, that block has `shared_cnt = 2` (and `weak_cnt = 1`, the `wptr` of `o`),
so `h.use_count()` is `2`. -/
theorem C14_shared_from_this (h : Heap T) (d : Deleter) (a : Addr) (o : Obj T)
    (e : EnableSharedFromThis)
    (ho : h.objs[a]? = some (some o)) (hbase : o.base = some e)
    (hold : ∀ c, e.wptr.cb = some c → ∃ blk : ControlBlock T, h.blocks[c]? = some (Slot.live blk)) :
    ∃ h2 h3 e2, SharedPtr.adopt h true true (Ptr.ext a) d
        = Except.ok (h2, Except.ok { ptr := Ptr.ext a, cb := some h.blocks.length }) ∧
      h2.obj (Ptr.ext a) = Except.ok { value := o.value, base := some e2 } ∧
      e2.shared_from_this h2
        = Except.ok (h3, { ptr := Ptr.ext a, cb := some h.blocks.length }) ∧
      SharedPtr.get { ptr := Ptr.ext a, cb := some h.blocks.length } = Ptr.ext a ∧
      SharedPtr.use_count h3 { ptr := Ptr.ext a, cb := some h.blocks.length } = Except.ok 2 ∧
      h3.blocks[h.blocks.length]? = some (Slot.live
        { shared_cnt := 2, weak_cnt := 1, kind := BlockKind.regular d (Ptr.ext a) }) := by
  obtain ⟨h2, had, hblk, hobj, _, _⟩ := adopt_wired d ho hbase hold
  have hb : h2.block (some h.blocks.length) = Except.ok (h.blocks.length,
      { shared_cnt := 1, weak_cnt := 1, kind := BlockKind.regular d (Ptr.ext a) }) :=
    (block_ok_iff h2 _ _ _).2 ⟨rfl, hblk⟩
  have hset := setBlock_get_self
    ({ shared_cnt := 1 + 1, weak_cnt := 1, kind := BlockKind.regular d (Ptr.ext a) }
      : ControlBlock T) hblk
  have hb3 : (h2.setBlock h.blocks.length
      { shared_cnt := 1 + 1, weak_cnt := 1, kind := BlockKind.regular d (Ptr.ext a) }).block
        (some h.blocks.length) = Except.ok (h.blocks.length,
      { shared_cnt := 1 + 1, weak_cnt := 1, kind := BlockKind.regular d (Ptr.ext a) }) :=
    (block_ok_iff _ _ _ _).2 ⟨rfl, hset⟩
  refine ⟨h2, h2.setBlock h.blocks.length
      { shared_cnt := 1 + 1, weak_cnt := 1, kind := BlockKind.regular d (Ptr.ext a) },
    { wptr := { cb := some h.blocks.length, ptr := Ptr.ext a } }, had, hobj, ?_, rfl, ?_, ?_⟩
  · simp [EnableSharedFromThis.shared_from_this, WeakPtr.lock, WeakPtr.expired, get_shared_cnt,
      hb, SharedPtr.ofWeak, increment_shared_cnt, bind, Except.bind, pure, Except.pure,
      one_lt_INT_MAX]
  · simp only [SharedPtr.use_count, get_shared_cnt, hb3, bind, Except.bind, pure, Except.pure]
    rfl
  · rw [hset]
    rfl

/-- C14 (witness): the object of `exHeapSelf` is adopted and asked for a handle to itself. -/
theorem C14_shared_from_this_witness :
    ∃ h2 h3 e2, SharedPtr.adopt exHeapSelf true true (Ptr.ext 0) Deleter.default_delete
        = Except.ok (h2, Except.ok { ptr := Ptr.ext 0, cb := some exHeapSelf.blocks.length }) ∧
      h2.obj (Ptr.ext 0) = Except.ok { value := 7, base := some e2 } ∧
      e2.shared_from_this h2
        = Except.ok (h3, { ptr := Ptr.ext 0, cb := some exHeapSelf.blocks.length }) ∧
      SharedPtr.get { ptr := Ptr.ext 0, cb := some exHeapSelf.blocks.length } = Ptr.ext 0 ∧
      SharedPtr.use_count h3 { ptr := Ptr.ext 0, cb := some exHeapSelf.blocks.length }
        = Except.ok 2 ∧
      h3.blocks[exHeapSelf.blocks.length]? = some (Slot.live
        { shared_cnt := 2, weak_cnt := 1,
          kind := BlockKind.regular Deleter.default_delete (Ptr.ext 0) }) :=
  C14_shared_from_this exHeapSelf Deleter.default_delete 0 { value := 7, base := some {} } {}
    rfl rfl (fun _ hc => by cases hc)

/-- C19: for every heap, every payload type (with or without the `EnableSharedFromThis`
base) and every value `v` its constructor yields: after `h1 = makeShared<T>(args)`,
`h1.use_count()` is `1`; after the copy `h2 = h1` both report `2`; after destroying `h2`,
`h1.use_count()` is `1`; and after `WeakPtr w(h1)` and the destruction of `h1`, `useDeleter()`
has run once on the block and `dealloc_this()` not at all, the block still exists, the
payload is gone, `w.expired()` is `true` and `w.lock()` returns the empty handle and changes
nothing.  Every call of the scenario returns. -/
theorem C19_scenario {A : Type} (h : Heap T) (ctor : A → Option T) (esft : Bool) (args : A)
    (v : T) (hv : ctor args = some v) :
    ∃ (g1 g2 g3 g4 g5 : Heap T) (s1 s2 : SharedPtr) (w : WeakPtr),
      makeShared h true (Obj.construct ctor esft) args = Except.ok (g1, Except.ok s1) ∧
      s1.use_count g1 = Except.ok 1 ∧
      SharedPtr.copy g1 s1 = Except.ok (g2, s2) ∧
      s1.use_count g2 = Except.ok 2 ∧ s2.use_count g2 = Except.ok 2 ∧
      s2.destroy g2 = Except.ok g3 ∧
      s1.use_count g3 = Except.ok 1 ∧
      WeakPtr.ofShared g3 s1 = Except.ok (g4, w) ∧
      s1.destroy g4 = Except.ok g5 ∧
      g5.released h.blocks.length = h.released h.blocks.length + 1 ∧
      g5.deallocated h.blocks.length = h.deallocated h.blocks.length ∧
      g5.blocks[h.blocks.length]? = some (Slot.live
        { shared_cnt := 0, weak_cnt := 1, kind := BlockKind.makeShared none }) ∧
      s1.deref g5 = Except.error Fault.useAfterFree ∧
      w.expired g5 = Except.ok true ∧
      w.lock g5 = Except.ok (g5, { ptr := Ptr.null, cb := none }) := by
  obtain ⟨k, hk⟩ : ∃ k : Obj T, k = { value := v, base := if esft then some {} else none } :=
    ⟨_, rfl⟩
  have hunw : k.unwired = true := by
    subst hk
    cases esft <;> rfl
  obtain ⟨g1, hg1, hg1b, hg1log⟩ : ∃ g1 : Heap T,
      makeShared h true (Obj.construct ctor esft) args
        = Except.ok
            (g1, Except.ok { ptr := Ptr.inl h.blocks.length, cb := some h.blocks.length }) ∧
      g1.blocks[h.blocks.length]? = some (Slot.live
        { shared_cnt := 1, weak_cnt := 0, kind := BlockKind.makeShared (some k) }) ∧
      g1.log = h.log ++ [Event.allocate h.blocks.length] := by
    subst hk
    refine ⟨{ blocks := h.blocks ++ [Slot.live
                { shared_cnt := 1, weak_cnt := 0,
                  kind := BlockKind.makeShared
                    (some { value := v, base := if esft then some {} else none }) }],
              objs := h.objs,
              log := h.log ++ [Event.allocate h.blocks.length] }, ?_, ?_, rfl⟩
    · rw [makeShared, allocateShared_construct]
      simp [allocate, hv, SharedPtr.ofMakeShared, Heap.setBlock, set_append_last]
    · simp
  have uc : ∀ (g : Heap T) (n : Int) (wc : Int) (kd : BlockKind T),
      g.blocks[h.blocks.length]? = some (Slot.live { shared_cnt := n, weak_cnt := wc, kind := kd }) →
      SharedPtr.use_count g { ptr := Ptr.inl h.blocks.length, cb := some h.blocks.length }
        = Except.ok n := by
    intro g n wc kd hb
    have hbb := (block_ok_iff g (some h.blocks.length) _ _).2 ⟨rfl, hb⟩
    simp [SharedPtr.use_count, get_shared_cnt, hbb, bind, Except.bind, pure, Except.pure]
  -- the copy
  have hg2b := setBlock_get_self
    ({ shared_cnt := 2, weak_cnt := 0, kind := BlockKind.makeShared (some k) } : ControlBlock T)
    hg1b
  have hcopy : SharedPtr.copy g1 { ptr := Ptr.inl h.blocks.length, cb := some h.blocks.length }
      = Except.ok (g1.setBlock h.blocks.length
          { shared_cnt := 2, weak_cnt := 0, kind := BlockKind.makeShared (some k) },
          { ptr := Ptr.inl h.blocks.length, cb := some h.blocks.length }) := by
    simp only [SharedPtr.copy, increment_shared_cnt_eq hg1b one_lt_INT_MAX, bind, Except.bind,
      pure, Except.pure]
    norm_num
  -- the copy dies
  have hg3b := setBlock_get_self
    ({ shared_cnt := 1, weak_cnt := 0, kind := BlockKind.makeShared (some k) } : ControlBlock T)
    hg2b
  have hd2 : SharedPtr.destroy (g1.setBlock h.blocks.length
        { shared_cnt := 2, weak_cnt := 0, kind := BlockKind.makeShared (some k) })
        { ptr := Ptr.inl h.blocks.length, cb := some h.blocks.length }
      = Except.ok ((g1.setBlock h.blocks.length
          { shared_cnt := 2, weak_cnt := 0, kind := BlockKind.makeShared (some k) }).setBlock
            h.blocks.length
          { shared_cnt := 1, weak_cnt := 0, kind := BlockKind.makeShared (some k) }) := by
    have hne : ({ shared_cnt := 2, weak_cnt := 0, kind := BlockKind.makeShared (some k) } :
        ControlBlock T).shared_cnt ≠ 1 := by
      show (2 : Int) ≠ 1
      decide
    simp only [SharedPtr.destroy, decrement_shared_cnt_keep hg2b hne]
    norm_num
  -- the observer
  have hg4b := setBlock_get_self
    ({ shared_cnt := 1, weak_cnt := 1, kind := BlockKind.makeShared (some k) } : ControlBlock T)
    hg3b
  have hw : WeakPtr.ofShared ((g1.setBlock h.blocks.length
          { shared_cnt := 2, weak_cnt := 0, kind := BlockKind.makeShared (some k) }).setBlock
            h.blocks.length
          { shared_cnt := 1, weak_cnt := 0, kind := BlockKind.makeShared (some k) })
        { ptr := Ptr.inl h.blocks.length, cb := some h.blocks.length }
      = Except.ok ((((g1.setBlock h.blocks.length
          { shared_cnt := 2, weak_cnt := 0, kind := BlockKind.makeShared (some k) }).setBlock
            h.blocks.length
          { shared_cnt := 1, weak_cnt := 0, kind := BlockKind.makeShared (some k) }).setBlock
            h.blocks.length
          { shared_cnt := 1, weak_cnt := 1, kind := BlockKind.makeShared (some k) }),
          { cb := some h.blocks.length, ptr := Ptr.inl h.blocks.length }) := by
    simp only [WeakPtr.ofShared, increment_weak_cnt_eq hg3b zero_lt_INT_MAX, bind, Except.bind,
      pure, Except.pure]
    norm_num
  -- the last owner dies
  generalize hg4 : (((g1.setBlock h.blocks.length
          { shared_cnt := 2, weak_cnt := 0, kind := BlockKind.makeShared (some k) }).setBlock
            h.blocks.length
          { shared_cnt := 1, weak_cnt := 0, kind := BlockKind.makeShared (some k) }).setBlock
            h.blocks.length
          { shared_cnt := 1, weak_cnt := 1, kind := BlockKind.makeShared (some k) }) = g4
    at hw hg4b
  have hg4log : g4.log = h.log ++ [Event.allocate h.blocks.length] := by
    rw [← hg4]
    exact hg1log
  have hb4 := (block_ok_iff g4 (some h.blocks.length) _ _).2 ⟨rfl, hg4b⟩
  have hg5b := setBlock_get_self
    ({ shared_cnt := 0, weak_cnt := 1, kind := BlockKind.makeShared (some k) } : ControlBlock T)
    hg4b
  have hb5 := (block_ok_iff _ (some h.blocks.length) _ _).2 ⟨rfl, hg5b⟩
  have hg6b := setBlock_get_self
    ({ shared_cnt := 0, weak_cnt := 1, kind := BlockKind.makeShared none } : ControlBlock T)
    hg5b
  have hb6 : Heap.block ((((g4.setBlock h.blocks.length
          { shared_cnt := 0, weak_cnt := 1, kind := BlockKind.makeShared (some k) }).record
            (Event.useDeleter h.blocks.length)).setBlock h.blocks.length
          { shared_cnt := 0, weak_cnt := 1, kind := BlockKind.makeShared none }).record
            (Event.destroyed (Ptr.inl h.blocks.length))) (some h.blocks.length)
        = Except.ok (h.blocks.length,
          { shared_cnt := 0, weak_cnt := 1, kind := BlockKind.makeShared none }) :=
      (block_ok_iff _ _ _ _).2 ⟨rfl, hg6b⟩
  have hd1 : SharedPtr.destroy g4 { ptr := Ptr.inl h.blocks.length, cb := some h.blocks.length }
      = Except.ok ((((g4.setBlock h.blocks.length
          { shared_cnt := 0, weak_cnt := 1, kind := BlockKind.makeShared (some k) }).record
            (Event.useDeleter h.blocks.length)).setBlock h.blocks.length
          { shared_cnt := 0, weak_cnt := 1, kind := BlockKind.makeShared none }).record
            (Event.destroyed (Ptr.inl h.blocks.length))) := by
    have hud : useDeleter (g4.setBlock h.blocks.length
          { shared_cnt := 0, weak_cnt := 1, kind := BlockKind.makeShared (some k) })
          h.blocks.length
        = Except.ok ((((g4.setBlock h.blocks.length
          { shared_cnt := 0, weak_cnt := 1, kind := BlockKind.makeShared (some k) }).record
            (Event.useDeleter h.blocks.length)).setBlock h.blocks.length
          { shared_cnt := 0, weak_cnt := 1, kind := BlockKind.makeShared none }).record
            (Event.destroyed (Ptr.inl h.blocks.length))) := by
      simp only [useDeleter, hb5, bind, Except.bind]
      exact obj_destroy_plain _ k hunw
    have e0 : ((1 : Int) - 1) = 0 := by norm_num
    simp only [SharedPtr.destroy, decrement_shared_cnt, hb4, bind, Except.bind, e0, if_true, hud,
      hb6, pure, Except.pure]
    norm_num
  refine ⟨g1, _, _, g4, _, _, _, _, hg1, uc g1 1 0 _ hg1b, hcopy, uc _ 2 0 _ hg2b,
    uc _ 2 0 _ hg2b, hd2, uc _ 1 0 _ hg3b, hw, hd1, ?_, ?_, hg6b, ?_, ?_, ?_⟩
  · simp [Heap.released, Heap.record, Heap.setBlock, hg4log, List.count_append]
  · simp [Heap.deallocated, Heap.record, Heap.setBlock, hg4log, List.count_append]
  · have hl := getElem?_lt_of_eq_some hg4b
    simp [SharedPtr.deref, Heap.obj, Heap.record, Heap.setBlock, hl, bind, Except.bind]
  · simp [WeakPtr.expired, get_shared_cnt, hb6, bind, Except.bind, pure, Except.pure]
  · simp [WeakPtr.lock, WeakPtr.expired, get_shared_cnt, hb6, bind, Except.bind, pure,
      Except.pure]

/-- C19 (witness): the scenario on the empty heap with the payload `42`. -/
theorem C19_scenario_witness :
    ∃ (g1 g2 g3 g4 g5 : Heap Nat) (s1 s2 : SharedPtr) (w : WeakPtr),
      makeShared ({} : Heap Nat) true (Obj.construct (fun (n : Nat) => some n) false) 42
        = Except.ok (g1, Except.ok s1) ∧
      s1.use_count g1 = Except.ok 1 ∧
      SharedPtr.copy g1 s1 = Except.ok (g2, s2) ∧
      s1.use_count g2 = Except.ok 2 ∧ s2.use_count g2 = Except.ok 2 ∧
      s2.destroy g2 = Except.ok g3 ∧
      s1.use_count g3 = Except.ok 1 ∧
      WeakPtr.ofShared g3 s1 = Except.ok (g4, w) ∧
      s1.destroy g4 = Except.ok g5 ∧
      g5.released 0 = (({} : Heap Nat)).released 0 + 1 ∧
      g5.deallocated 0 = (({} : Heap Nat)).deallocated 0 ∧
      g5.blocks[0]? = some (Slot.live
        { shared_cnt := 0, weak_cnt := 1, kind := BlockKind.makeShared none }) ∧
      s1.deref g5 = Except.error Fault.useAfterFree ∧
      w.expired g5 = Except.ok true ∧
      w.lock g5 = Except.ok (g5, { ptr := Ptr.null, cb := none }) :=
  C19_scenario ({} : Heap Nat) (fun (n : Nat) => some n) false 42 42 rfl

/-- C27: when the allocator has no storage for the new control block, `allocateRegular`
raises `bad_alloc` and leaves the heap as it was; so do the adopting constructors and
`reset(p)`, which return the unchanged heap (no counter changed, no deleter called, nothing
allocated) together with the exception and produce no handle.  As statements of a program
they leave the whole state as it was: no handle object is added, and in the `reset` case the
handle keeps its pointer and block. -/
theorem C27_allocation_failure (h : Heap T) (w : World T) (esft : Bool) (p : Ptr) (d : Deleter)
    (i : Nat) (this : SharedPtr) (hs : w.sps[i]? = some (some this)) :
    allocateRegular h false p d = (h, Except.error Exn.bad_alloc) ∧
    SharedPtr.adopt h false esft p d = Except.ok (h, Except.error Exn.bad_alloc) ∧
    SharedPtr.resetTo h false esft this p = Except.ok (h, Except.error Exn.bad_alloc) ∧
    step w (Op.sAdopt false esft p d) = Except.ok w ∧
    step w (Op.sResetTo i false esft p) = Except.ok w := by
  have hsp : w.sp i = Except.ok this := (sp_ok_iff w i this).2 hs
  have ha : ∀ g : Heap T,
      SharedPtr.adopt g false esft p d = Except.ok (g, Except.error Exn.bad_alloc) := by
    intro g
    simp [SharedPtr.adopt, allocateRegular, allocate, pure, Except.pure]
  have hr : ∀ g : Heap T, SharedPtr.resetTo g false esft this p
      = Except.ok (g, Except.error Exn.bad_alloc) := by
    intro g
    simp [SharedPtr.resetTo, SharedPtr.adopt, allocateRegular, allocate, bind, Except.bind, pure,
      Except.pure]
  refine ⟨?_, ha h, hr h, ?_, ?_⟩
  · simp [allocateRegular, allocate]
  · simp [step, ha w.heap, bind, Except.bind, pure, Except.pure]
  · simp [step, hsp, hr w.heap, bind, Except.bind, pure, Except.pure]

/-- C27 (witness): the allocation fails while the owner of `exWorld` is reset to a new
pointer. -/
theorem C27_allocation_failure_witness :
    allocateRegular exHeapSelf false (Ptr.ext 0) Deleter.default_delete
      = (exHeapSelf, Except.error Exn.bad_alloc) ∧
    SharedPtr.adopt exHeapSelf false true (Ptr.ext 0) Deleter.default_delete
      = Except.ok (exHeapSelf, Except.error Exn.bad_alloc) ∧
    SharedPtr.resetTo exHeapSelf false true exShared (Ptr.ext 0)
      = Except.ok (exHeapSelf, Except.error Exn.bad_alloc) ∧
    step exWorld (Op.sAdopt false true (Ptr.ext 0) Deleter.default_delete) = Except.ok exWorld ∧
    step exWorld (Op.sResetTo 0 false true (Ptr.ext 0)) = Except.ok exWorld :=
  C27_allocation_failure exHeapSelf exWorld true (Ptr.ext 0) Deleter.default_delete 0 exShared
    rfl

/-- C23: let `a` and `b` be the live `SharedPtr` objects number `i` and `j` (each empty or
not, possibly one object).  `a.swap(b)` returns; afterwards `a` holds the pair `b` had and `b`
the pair `a` had, every other handle object is as before, and the heap is the heap before: no
counter of any block changed, nothing was released, deallocated or allocated.  A second
`a.swap(b)` gives back the state before the first. -/
theorem C23_swap (w : World T) (i j : Nat) (a b : SharedPtr)
    (ha : w.sps[i]? = some (some a)) (hb : w.sps[j]? = some (some b)) :
    SharedPtr.swap a b = ({ ptr := b.ptr, cb := b.cb }, { ptr := a.ptr, cb := a.cb }) ∧
    ∃ w1, step w (Op.sSwap i j) = Except.ok w1 ∧
      w1.heap = w.heap ∧ w1.wps = w.wps ∧
      w1.sps[i]? = some (some b) ∧ w1.sps[j]? = some (some a) ∧
      (∀ k, k ≠ i → k ≠ j → w1.sps[k]? = w.sps[k]?) ∧
      step w1 (Op.sSwap i j) = Except.ok w := by
  have hi := getElem?_lt_of_eq_some ha
  have hj := getElem?_lt_of_eq_some hb
  have hspi : w.sp i = Except.ok a := (sp_ok_iff w i a).2 ha
  have hspj : w.sp j = Except.ok b := (sp_ok_iff w j b).2 hb
  have h1i : ((w.sps.set i (some b)).set j (some a))[i]? = some (some b) := by
    by_cases hij : i = j
    · subst hij
      rw [ha] at hb
      simp only [Option.some.injEq] at hb
      subst hb
      simp [hi]
    · rw [List.getElem?_set_ne (fun hh => hij hh.symm)]
      simp [hi]
  have h1j : ((w.sps.set i (some b)).set j (some a))[j]? = some (some a) := by
    simp [hj]
  have hback : (((w.sps.set i (some b)).set j (some a)).set i (some a)).set j (some b) = w.sps := by
    apply List.ext_getElem?
    intro k
    by_cases hkj : j = k
    · subst hkj
      simp [hj, hb]
    · rw [List.getElem?_set_ne hkj]
      by_cases hki : i = k
      · subst hki
        simp [hi, ha]
      · rw [List.getElem?_set_ne hki, List.getElem?_set_ne hkj, List.getElem?_set_ne hki]
  refine ⟨rfl, { w with sps := (w.sps.set i (some b)).set j (some a) }, ?_, rfl, rfl, h1i, h1j,
    ?_, ?_⟩
  · simp [step, World.sSwap, hspi, hspj, SharedPtr.swap, bind, Except.bind, pure, Except.pure]
  · intro k hki hkj
    show ((w.sps.set i (some b)).set j (some a))[k]? = w.sps[k]?
    rw [List.getElem?_set_ne (fun hh => hkj hh.symm), List.getElem?_set_ne (fun hh => hki hh.symm)]
  · have hsi : World.sp { w with sps := (w.sps.set i (some b)).set j (some a) } i = Except.ok b :=
      (sp_ok_iff _ i b).2 h1i
    have hsj : World.sp { w with sps := (w.sps.set i (some b)).set j (some a) } j = Except.ok a :=
      (sp_ok_iff _ j a).2 h1j
    simp only [step, World.sSwap, hsi, hsj, SharedPtr.swap, bind, Except.bind, pure, Except.pure]
    rw [hback]

/-- C23 (witness): in `exProgramEnd` the empty handle `0` and the owner `2` of block `0` are
swapped. -/
theorem C23_swap_witness :
    SharedPtr.swap ({} : SharedPtr) exShared
      = ({ ptr := exShared.ptr, cb := exShared.cb },
         { ptr := (({} : SharedPtr)).ptr, cb := (({} : SharedPtr)).cb }) ∧
    ∃ w1, step exProgramEnd (Op.sSwap 0 2) = Except.ok w1 ∧
      w1.heap = exProgramEnd.heap ∧ w1.wps = exProgramEnd.wps ∧
      w1.sps[0]? = some (some exShared) ∧ w1.sps[2]? = some (some ({} : SharedPtr)) ∧
      (∀ k, k ≠ 0 → k ≠ 2 → w1.sps[k]? = exProgramEnd.sps[k]?) ∧
      step w1 (Op.sSwap 0 2) = Except.ok exProgramEnd :=
  C23_swap exProgramEnd 0 2 {} exShared rfl rfl

/-- C21: let `h` be a live `SharedPtr` object (number `i`) in a state some client program
reaches.  If `h` is empty, `h.reset()` returns and changes nothing: no block is touched and
`h` stays empty.  If `h` refers to the block `b`, `h.reset()` is one call of
`decrement_shared_cnt()` on `b` and nothing else: whenever it returns, the heap is the one
that call leaves, `h` has null pointer and null block, every other handle object is as before,
and `useDeleter()` has run (once, on `b`) exactly if `h` was the only live handle on `b`; and
it does return when `h` is not the last owner or the release touches no control block. -/
theorem C21_reset (ops : List (Op T)) (w : World T) (i : Nat) (this : SharedPtr)
    (hrun : run ({} : World T) ops = Except.ok w) (hs : w.sps[i]? = some (some this)) :
    (this.cb = none →
      SharedPtr.reset w.heap this = Except.ok (w.heap, { ptr := Ptr.null, cb := none }) ∧
      step w (Op.sReset i)
        = Except.ok { w with sps := w.sps.set i (some { ptr := Ptr.null, cb := none }) }) ∧
    (∀ b, this.cb = some b →
      SharedPtr.reset w.heap this
        = (decrement_shared_cnt w.heap (some b)).map
            (fun h1 => (h1, { ptr := Ptr.null, cb := none })) ∧
      (∀ w1, step w (Op.sReset i) = Except.ok w1 →
        decrement_shared_cnt w.heap (some b) = Except.ok w1.heap ∧
        w1.sps = w.sps.set i (some { ptr := Ptr.null, cb := none }) ∧ w1.wps = w.wps ∧
        ∀ c, w1.heap.released c
          = w.heap.released c + (if c = b ∧ w.owners b = 1 then 1 else 0)) ∧
      (∀ blk, w.heap.blocks[b]? = some (Slot.live blk) →
        (blk.shared_cnt = 1 → w.heap.plainRelease blk.kind = true) →
        ∃ w1, step w (Op.sReset i) = Except.ok w1)) := by
  have hsp : w.sp i = Except.ok this := (sp_ok_iff w i this).2 hs
  constructor
  · intro hcb
    have hr : SharedPtr.reset w.heap this
        = Except.ok (w.heap, { ptr := Ptr.null, cb := none }) := by
      simp [SharedPtr.reset, SharedPtr.swap, SharedPtr.destroy, hcb, bind, Except.bind, pure,
        Except.pure]
    refine ⟨hr, ?_⟩
    simp [step, hsp, hr, bind, Except.bind, pure, Except.pure]
  · intro b hcb
    have hr : SharedPtr.reset w.heap this
        = (decrement_shared_cnt w.heap (some b)).map
            (fun h1 => (h1, { ptr := Ptr.null, cb := none })) := by
      simp only [SharedPtr.reset, SharedPtr.swap, SharedPtr.destroy, hcb, bind, Except.bind,
        pure, Except.pure]
      cases decrement_shared_cnt w.heap (some b) <;> rfl
    obtain ⟨blk, hblk, _⟩ := reach_owner hrun hs hcb
    have hcnt := reach_count hrun hblk
    refine ⟨hr, fun w1 hok => ?_, fun blk2 hblk2 hplain => ?_⟩
    · simp only [step, hsp, hr, bind, Except.bind] at hok
      cases hd : decrement_shared_cnt w.heap (some b) with
      | error e =>
        rw [hd] at hok
        cases hok
      | ok h1 =>
        rw [hd] at hok
        simp only [Except.map, pure, Except.pure, Except.ok.injEq] at hok
        subst hok
        refine ⟨rfl, rfl, rfl, fun c => ?_⟩
        rw [decrement_shared_cnt_released hblk hd c, hcnt]
        norm_cast
    · obtain ⟨h1, hd, _⟩ := decrement_shared_cnt_plain hblk2 hplain
      refine ⟨{ w with heap := h1, sps := w.sps.set i (some { ptr := Ptr.null, cb := none }) }, ?_⟩
      simp [step, hsp, hr, hd, Except.map, bind, Except.bind, pure, Except.pure]

/-- C21 (witness): object `2` of `exProgramEnd`, one of three owners of block `0`. -/
theorem C21_reset_witness :
    (exShared.cb = none →
      SharedPtr.reset exProgramEnd.heap exShared
        = Except.ok (exProgramEnd.heap, { ptr := Ptr.null, cb := none }) ∧
      step exProgramEnd (Op.sReset 2)
        = Except.ok { exProgramEnd with
            sps := exProgramEnd.sps.set 2 (some { ptr := Ptr.null, cb := none }) }) ∧
    (∀ b, exShared.cb = some b →
      SharedPtr.reset exProgramEnd.heap exShared
        = (decrement_shared_cnt exProgramEnd.heap (some b)).map
            (fun h1 => (h1, { ptr := Ptr.null, cb := none })) ∧
      (∀ w1, step exProgramEnd (Op.sReset 2) = Except.ok w1 →
        decrement_shared_cnt exProgramEnd.heap (some b) = Except.ok w1.heap ∧
        w1.sps = exProgramEnd.sps.set 2 (some { ptr := Ptr.null, cb := none }) ∧
        w1.wps = exProgramEnd.wps ∧
        ∀ c, w1.heap.released c
          = exProgramEnd.heap.released c + (if c = b ∧ exProgramEnd.owners b = 1 then 1 else 0)) ∧
      (∀ blk, exProgramEnd.heap.blocks[b]? = some (Slot.live blk) →
        (blk.shared_cnt = 1 → exProgramEnd.heap.plainRelease blk.kind = true) →
        ∃ w1, step exProgramEnd (Op.sReset 2) = Except.ok w1)) :=
  C21_reset exProgram exProgramEnd 2 exShared rfl rfl

/-- C24 (counterexample): `weak_cnt` is an `int`.  The block of the non-empty handle
`exShared` and of the observer `exWeak` has `weak_cnt = INT_MAX` in `exHeapMaxWeak`; both
constructors run `++weak_cnt` on it, a signed overflow, and do not make `weak_cnt = w + 1`. -/
theorem C24_counterexample :
    exHeapMaxWeak.blocks[0]? = some (Slot.live
      { shared_cnt := 1, weak_cnt := INT_MAX,
        kind := BlockKind.makeShared (some { value := 42, base := none }) }) ∧
    WeakPtr.ofShared exHeapMaxWeak exShared = Except.error Fault.signedOverflow ∧
    WeakPtr.copy exHeapMaxWeak exWeak = Except.error Fault.signedOverflow := by
  refine ⟨rfl, rfl, rfl⟩

/-- C24 (amended): let the block at `b` have `weak_cnt = w < INT_MAX` and `shared_cnt = s`,
not both zero (a
block that a handle refers to has an owner or an observer).  Building a `WeakPtr` from a
`SharedPtr` on `b`, or by copy from a `WeakPtr` on `b`, returns an observer with the same
block and pointer and leaves the block with `weak_cnt = w + 1`, `shared_cnt = s` and its other
members; nothing else in the heap changes.  Destroying that observer is one call of
`decrement_weak_cnt()` on `b`, and it gives back the heap before the construction: `weak_cnt`
is `w` again. -/
theorem C24_weak_copy (h : Heap T) (b : Addr) (blk : ControlBlock T) (s : SharedPtr)
    (w0 : WeakPtr) (hblk : h.blocks[b]? = some (Slot.live blk))
    (hne : ¬ (blk.shared_cnt = 0 ∧ blk.weak_cnt = 0)) (hlt : blk.weak_cnt < INT_MAX)
    (hs : s.cb = some b) (hw : w0.cb = some b) :
    WeakPtr.ofShared h s
      = Except.ok (h.setBlock b { blk with weak_cnt := blk.weak_cnt + 1 },
                   { cb := some b, ptr := s.ptr }) ∧
    WeakPtr.copy h w0
      = Except.ok (h.setBlock b { blk with weak_cnt := blk.weak_cnt + 1 },
                   { cb := some b, ptr := w0.ptr }) ∧
    (h.setBlock b { blk with weak_cnt := blk.weak_cnt + 1 }).blocks[b]?
      = some (Slot.live { shared_cnt := blk.shared_cnt, weak_cnt := blk.weak_cnt + 1,
                          kind := blk.kind }) ∧
    (∀ c, c ≠ b →
      (h.setBlock b { blk with weak_cnt := blk.weak_cnt + 1 }).blocks[c]? = h.blocks[c]?) ∧
    (∀ p, WeakPtr.destroy (h.setBlock b { blk with weak_cnt := blk.weak_cnt + 1 })
        { cb := some b, ptr := p }
      = decrement_weak_cnt (h.setBlock b { blk with weak_cnt := blk.weak_cnt + 1 }) (some b)) ∧
    decrement_weak_cnt (h.setBlock b { blk with weak_cnt := blk.weak_cnt + 1 }) (some b)
      = Except.ok h := by
  refine ⟨?_, ?_, setBlock_get_self _ hblk, fun c hc => setBlock_get_ne _ _ hc, fun p => rfl,
    increment_then_decrement_weak hblk hne⟩
  · simp [WeakPtr.ofShared, hs, increment_weak_cnt_eq hblk hlt, bind, Except.bind, pure,
      Except.pure]
  · simp [WeakPtr.copy, hw, increment_weak_cnt_eq hblk hlt, bind, Except.bind, pure,
      Except.pure]

/-- C24 (witness): one more observer of the block of `exHeapShared`. -/
theorem C24_weak_copy_witness :
    WeakPtr.ofShared exHeapShared exShared
      = Except.ok (exHeapShared.setBlock 0
          { shared_cnt := 2, weak_cnt := 1 + 1,
            kind := BlockKind.makeShared (some { value := 42, base := none }) },
          { cb := some 0, ptr := exShared.ptr }) ∧
    WeakPtr.copy exHeapShared exWeak
      = Except.ok (exHeapShared.setBlock 0
          { shared_cnt := 2, weak_cnt := 1 + 1,
            kind := BlockKind.makeShared (some { value := 42, base := none }) },
          { cb := some 0, ptr := exWeak.ptr }) ∧
    (exHeapShared.setBlock 0
          { shared_cnt := 2, weak_cnt := 1 + 1,
            kind := BlockKind.makeShared (some { value := 42, base := none }) }).blocks[0]?
      = some (Slot.live { shared_cnt := 2, weak_cnt := 1 + 1,
                          kind := BlockKind.makeShared (some { value := 42, base := none }) }) ∧
    (∀ c, c ≠ 0 →
      (exHeapShared.setBlock 0
          { shared_cnt := 2, weak_cnt := 1 + 1,
            kind := BlockKind.makeShared (some { value := 42, base := none }) }).blocks[c]?
        = exHeapShared.blocks[c]?) ∧
    (∀ p, WeakPtr.destroy (exHeapShared.setBlock 0
          { shared_cnt := 2, weak_cnt := 1 + 1,
            kind := BlockKind.makeShared (some { value := 42, base := none }) })
        { cb := some 0, ptr := p }
      = decrement_weak_cnt (exHeapShared.setBlock 0
          { shared_cnt := 2, weak_cnt := 1 + 1,
            kind := BlockKind.makeShared (some { value := 42, base := none }) }) (some 0)) ∧
    decrement_weak_cnt (exHeapShared.setBlock 0
          { shared_cnt := 2, weak_cnt := 1 + 1,
            kind := BlockKind.makeShared (some { value := 42, base := none }) }) (some 0)
      = Except.ok exHeapShared :=
  C24_weak_copy exHeapShared 0
    { shared_cnt := 2, weak_cnt := 1,
      kind := BlockKind.makeShared (some { value := 42, base := none }) }
    exShared exWeak rfl (by decide) (by decide) rfl rfl

/-- C26 (the code departs from the claim): let the free-standing object `0`, of a type deriving
from `EnableSharedFromThis`, be managed by a `ControlBlockRegular` whose only observer is the
object's own `wptr`, at the moment `decrement_shared_cnt()` has brought `shared_cnt` to `0`
and calls `useDeleter()`.  The call `deleter(ptr)` destroys the object and with it `wptr`,
whose destructor runs `decrement_weak_cnt()`, finds both counters at zero and calls
`dealloc_this()`: when `useDeleter()` returns, the storage of the block has gone back to the
allocator, the `dealloc_this()` call lying between the deleter call and the return. -/
theorem C26_useDeleter_deallocates :
    useDeleter
      ({ blocks := [Slot.live
            { shared_cnt := 0, weak_cnt := 1,
              kind := BlockKind.regular Deleter.default_delete (Ptr.ext 0) }],
         objs := [some { value := 7,
                         base := some { wptr := { cb := some 0, ptr := Ptr.ext 0 } } }],
         log := [Event.allocate 0] } : Heap Nat) 0
      = Except.ok
          { blocks := [Slot.freed],
            objs := [none],
            log := [Event.allocate 0, Event.useDeleter 0,
                    Event.deleterCall Deleter.default_delete (Ptr.ext 0),
                    Event.destroyed (Ptr.ext 0), Event.dealloc_this 0] } ∧
    (run ({} : World Nat) [Op.newObj 7 true,
        Op.sAdopt true true (Ptr.ext 0) (Deleter.custom 1 true), Op.sReset 0]).map
      (fun w => w.heap.blocks) = Except.error Fault.useAfterFree := by
  refine ⟨rfl, rfl⟩

/-- C25: run any program made of observer statements only (construction of a `WeakPtr` from a
`SharedPtr` or a `WeakPtr`, default and move construction, assignment from a `SharedPtr`,
`swap`, destruction; not `lock()`) from any state.  In the state reached, `useDeleter()` has
run on each block as often as before; the owning handles are as before; every block that
exists existed before with the same `shared_cnt`; and every block that had `shared_cnt > 0`
still exists, with the same `shared_cnt`: its payload was not released and its storage was
not deallocated, however many observers were destroyed. -/
theorem C25_observers_frame (w w1 : World T) (ops : List (Op T))
    (hops : ∀ op ∈ ops, op.observerOnly = true) (hrun : run w ops = Except.ok w1) :
    (∀ b, w1.heap.released b = w.heap.released b) ∧ w1.sps = w.sps ∧
    (∀ (b : Addr) (blk1 : ControlBlock T), w1.heap.blocks[b]? = some (Slot.live blk1) →
      ∃ blk, w.heap.blocks[b]? = some (Slot.live blk) ∧ blk1.shared_cnt = blk.shared_cnt) ∧
    (∀ (b : Addr) (blk : ControlBlock T), w.heap.blocks[b]? = some (Slot.live blk) →
      0 < blk.shared_cnt →
      ∃ blk1, w1.heap.blocks[b]? = some (Slot.live blk1) ∧
        blk1.shared_cnt = blk.shared_cnt) := by
  obtain ⟨⟨_, hrel, hsv⟩, hsps⟩ := run_observerOnly hops hrun
  refine ⟨hrel, hsps, fun b blk1 hb1 => ?_, fun b blk hb hpos => ?_⟩
  · rcases hsv b with hh | ⟨hf, _⟩
    · rw [hb1] at hh
      obtain ⟨blk, e, hn⟩ := sv_live hh.symm
      exact ⟨blk, e, hn.symm⟩
    · rw [hb1] at hf
      cases hf
  · rcases hsv b with hh | ⟨_, h0⟩
    · rw [hb] at hh
      obtain ⟨blk1, e, hn⟩ := sv_live hh
      exact ⟨blk1, e, hn⟩
    · rw [hb] at h0
      simp only [sv, SV.live.injEq] at h0
      omega

/-- C25 (witness): `exObservers` run in `exProgramEnd` creates observers of block `0` and
destroys all of them, the one that existed before included; the block keeps `shared_cnt = 3`
and its payload. -/
theorem C25_observers_frame_witness :
    run exProgramEnd exObservers = Except.ok exObserversEnd ∧
    ((∀ b, exObserversEnd.heap.released b = exProgramEnd.heap.released b) ∧
    exObserversEnd.sps = exProgramEnd.sps ∧
    (∀ (b : Addr) (blk1 : ControlBlock Nat),
      exObserversEnd.heap.blocks[b]? = some (Slot.live blk1) →
      ∃ blk, exProgramEnd.heap.blocks[b]? = some (Slot.live blk) ∧
        blk1.shared_cnt = blk.shared_cnt) ∧
    (∀ (b : Addr) (blk : ControlBlock Nat),
      exProgramEnd.heap.blocks[b]? = some (Slot.live blk) →
      0 < blk.shared_cnt →
      ∃ blk1, exObserversEnd.heap.blocks[b]? = some (Slot.live blk1) ∧
        blk1.shared_cnt = blk.shared_cnt)) :=
  ⟨rfl, C25_observers_frame exProgramEnd exObserversEnd exObservers (by decide) rfl⟩

/-- C22: let `h` be a live `SharedPtr` object (number `i`) in a state some client program
reaches, and let `h.reset(p)` (with the allocation succeeding) return.  Then `reset(p)` was
the adopting constructor `SharedPtr<U>(p)` followed by the destructor of the handle `h` was
before, that is, one `decrement_shared_cnt()` on the former block of `h` if it had one.
Afterwards `h.get() == p`; the block of `h` is at an address that held no block before, and
it has `shared_cnt = 1`; every other handle object is as before.  The former block had, when
it was decremented, the `shared_cnt` it had before the call, and `useDeleter()` ran on it
exactly if that was `1`. -/
theorem C22_reset_to (ops : List (Op T)) (w w1 : World T) (i : Nat) (this : SharedPtr)
    (esft : Bool) (p : Ptr)
    (hrun : run ({} : World T) ops = Except.ok w) (hs : w.sps[i]? = some (some this))
    (hok : step w (Op.sResetTo i true esft p) = Except.ok w1) :
    ∃ hA : Heap T,
      SharedPtr.adopt w.heap true esft p Deleter.default_delete
        = Except.ok (hA, Except.ok { ptr := p, cb := some w.heap.blocks.length }) ∧
      this.destroy hA = Except.ok w1.heap ∧
      w1.sps = w.sps.set i (some { ptr := p, cb := some w.heap.blocks.length }) ∧
      w1.wps = w.wps ∧
      SharedPtr.get { ptr := p, cb := some w.heap.blocks.length } = p ∧
      w.heap.blocks[w.heap.blocks.length]? = none ∧
      (∃ blk1, w1.heap.blocks[w.heap.blocks.length]? = some (Slot.live blk1) ∧
        blk1.shared_cnt = 1) ∧
      (∀ b, this.cb = some b →
        ∃ blk blkA, w.heap.blocks[b]? = some (Slot.live blk) ∧
          hA.blocks[b]? = some (Slot.live blkA) ∧ blkA.shared_cnt = blk.shared_cnt ∧
          ∀ c, w1.heap.released c
            = w.heap.released c + (if c = b ∧ blk.shared_cnt = 1 then 1 else 0)) := by
  have hsp : w.sp i = Except.ok this := (sp_ok_iff w i this).2 hs
  simp only [step, hsp, bind, Except.bind] at hok
  cases hreset : SharedPtr.resetTo w.heap true esft this p with
  | error e =>
    rw [hreset] at hok
    cases hok
  | ok hr =>
    obtain ⟨h2, r⟩ := hr
    rw [hreset] at hok
    obtain ⟨hA, tmp, had, hd2, rfl⟩ := resetTo_ok hreset
    simp only [pure, Except.pure, Except.ok.injEq] at hok
    subst hok
    obtain ⟨rfl, hrelA, hcA, haA⟩ := adopt_ok had
    obtain ⟨hc2, ha2⟩ := shared_destroy_frame hd2
    have hnone : w.heap.blocks[w.heap.blocks.length]? = none :=
      List.getElem?_eq_none (Nat.le_refl _)
    have hn0 : w.heap.sharedAt w.heap.blocks.length = 0 := by
      simp [Heap.sharedAt, hnone]
    -- the former block is not the new one
    have hne : this.cb ≠ some w.heap.blocks.length := by
      intro hcb
      obtain ⟨blk, hblk, _⟩ := reach_owner hrun hs hcb
      rw [hnone] at hblk
      cases hblk
    have hind : ind this.cb w.heap.blocks.length = 0 := by
      simp [ind, hne]
    obtain ⟨blkN, hblkN⟩ := haA w.heap.blocks.length (by rw [hn0, ind_self rfl]; omega)
    have hsN := hcA _ _ hblkN
    rw [hn0, ind_self rfl] at hsN
    obtain ⟨blk1, hblk1⟩ := ha2 w.heap.blocks.length (by rw [sharedAt_live hblkN, hsN, hind]; omega)
    have hs1 := hc2 _ _ hblk1
    rw [sharedAt_live hblkN, hsN, hind] at hs1
    refine ⟨hA, had, hd2, rfl, rfl, rfl, hnone, ⟨blk1, hblk1, by omega⟩, fun b hcb => ?_⟩
    obtain ⟨blk, hblk, hpos⟩ := reach_owner hrun hs hcb
    have hbn : b ≠ w.heap.blocks.length := by
      intro e
      rw [e] at hcb
      exact hne hcb
    have hib : ind (some w.heap.blocks.length) b = 0 := by
      simp [ind, Ne.symm hbn]
    obtain ⟨blkA, hblkA⟩ := haA b (by rw [sharedAt_live hblk, hib]; omega)
    have hsA := hcA _ _ hblkA
    rw [sharedAt_live hblk, hib] at hsA
    refine ⟨blk, blkA, hblk, hblkA, by omega, fun c => ?_⟩
    rw [shared_destroy_eq hcb] at hd2
    rw [decrement_shared_cnt_released hblkA hd2 c, hrelA c]
    have e : blkA.shared_cnt = blk.shared_cnt := by omega
    rw [e]

/-- C22 (witness): the only owner of the `makeShared` block of `exTwoObjectsEnd` is reset to
the free-standing object. -/
theorem C22_reset_to_witness :
    ∃ hA : Heap Nat,
      SharedPtr.adopt exTwoObjectsEnd.heap true false (Ptr.ext 0) Deleter.default_delete
        = Except.ok (hA, Except.ok { ptr := Ptr.ext 0,
                                     cb := some exTwoObjectsEnd.heap.blocks.length }) ∧
      exShared.destroy hA = Except.ok exResetToEnd.heap ∧
      exResetToEnd.sps = exTwoObjectsEnd.sps.set 0
        (some { ptr := Ptr.ext 0, cb := some exTwoObjectsEnd.heap.blocks.length }) ∧
      exResetToEnd.wps = exTwoObjectsEnd.wps ∧
      SharedPtr.get { ptr := Ptr.ext 0, cb := some exTwoObjectsEnd.heap.blocks.length }
        = Ptr.ext 0 ∧
      exTwoObjectsEnd.heap.blocks[exTwoObjectsEnd.heap.blocks.length]? = none ∧
      (∃ blk1, exResetToEnd.heap.blocks[exTwoObjectsEnd.heap.blocks.length]?
          = some (Slot.live blk1) ∧ blk1.shared_cnt = 1) ∧
      (∀ b, exShared.cb = some b →
        ∃ blk blkA, exTwoObjectsEnd.heap.blocks[b]? = some (Slot.live blk) ∧
          hA.blocks[b]? = some (Slot.live blkA) ∧ blkA.shared_cnt = blk.shared_cnt ∧
          ∀ c, exResetToEnd.heap.released c
            = exTwoObjectsEnd.heap.released c
              + (if c = b ∧ blk.shared_cnt = 1 then 1 else 0)) :=
  C22_reset_to exTwoObjects exTwoObjectsEnd exResetToEnd 0 exShared false (Ptr.ext 0) rfl rfl rfl

/-- C28 (counterexample): `shared_cnt` is an `int`.  The program `exTwoBlocksMany 2147483646`
is defined and ends with two distinct live handles, number `0` on block `0` and number `1` on
block `1`, whose `shared_cnt` is `INT_MAX = 2147483647`.  The copy assignment of handle `1` to
handle `0` first copies handle `1`, which runs `++shared_cnt` on `INT_MAX`: a signed overflow,
and `shared_cnt` of block `1` is not raised by one. -/
theorem C28_counterexample :
    run ({} : World Nat) (exTwoBlocksMany 2147483646)
      = Except.ok (exTwoBlocksManyEnd 2147483646) ∧
    (exTwoBlocksManyEnd 2147483646).sps[0]? = some (some { ptr := Ptr.inl 0, cb := some 0 }) ∧
    (exTwoBlocksManyEnd 2147483646).sps[1]? = some (some { ptr := Ptr.inl 1, cb := some 1 }) ∧
    get_shared_cnt (exTwoBlocksManyEnd 2147483646).heap (some 1) = Except.ok INT_MAX ∧
    step (exTwoBlocksManyEnd 2147483646) (Op.sCopyAssign 0 1)
      = Except.error Fault.signedOverflow ∧
    run ({} : World Nat) (exTwoBlocksMany 2147483646 ++ [Op.sCopyAssign 0 1])
      = Except.error Fault.signedOverflow := by
  have hrun := run_exTwoBlocksMany 2147483646 (by decide)
  have hsp := exTwoBlocksManyEnd_sp 2147483646
  have hstep : step (exTwoBlocksManyEnd 2147483646) (Op.sCopyAssign 0 1)
      = Except.error Fault.signedOverflow :=
    step_sCopyAssign_max hsp.1 hsp.2 rfl rfl (by decide)
  exact ⟨hrun, hsp.1, hsp.2, rfl, hstep, run_append_error hrun hstep⟩

/-- C28 (amended): let `a` and `b` be two distinct live `SharedPtr` objects (number `i` and
`j`) in a state some client program reaches, `a` on the block `A` and `b` on the block `B`;
both blocks exist, with `shared_cnt = m ≥ 1` and `n ≥ 1`.  When `n = INT_MAX`, `a = b` is
undefined (the copy of `b` overflows `shared_cnt`).  When `n < INT_MAX`: if `A` and `B` are
different blocks, `a = b` is
the increment of `B` followed by one `decrement_shared_cnt()` on `A`; whenever it returns, `a`
holds the pointer and block of `b`, every other handle object (`b` included) is as before, `B`
has `shared_cnt = n + 1`, `useDeleter()` has run (once, on `A`) exactly if `m = 1`, and `A` has
`shared_cnt = m - 1` unless it was deallocated, which cannot happen when `m > 1`; and it does
return when `m > 1` or the release of `A` touches no control block.  If `A` and `B` are one
block, `a = b` returns, gives `a` the pointer of `b`, and leaves the heap, so the `shared_cnt`
of the block, as it was. -/
theorem C28_copy_assign (ops : List (Op T)) (w : World T) (i j : Nat) (a b : SharedPtr)
    (A B : Addr) (hrun : run ({} : World T) ops = Except.ok w)
    (hi : w.sps[i]? = some (some a)) (hj : w.sps[j]? = some (some b)) (hij : i ≠ j)
    (hA : a.cb = some A) (hB : b.cb = some B) :
    ∃ blkA blkB, w.heap.blocks[A]? = some (Slot.live blkA) ∧
      w.heap.blocks[B]? = some (Slot.live blkB) ∧
      1 ≤ blkA.shared_cnt ∧ 1 ≤ blkB.shared_cnt ∧
      (¬ blkB.shared_cnt < INT_MAX →
        step w (Op.sCopyAssign i j) = Except.error Fault.signedOverflow) ∧
      (blkB.shared_cnt < INT_MAX → A = B →
        step w (Op.sCopyAssign i j) = Except.ok { w with sps := w.sps.set i (some b) }) ∧
      (blkB.shared_cnt < INT_MAX → A ≠ B →
        step w (Op.sCopyAssign i j)
          = (decrement_shared_cnt
              (w.heap.setBlock B { blkB with shared_cnt := blkB.shared_cnt + 1 }) (some A)).map
              (fun h1 => { w with heap := h1, sps := w.sps.set i (some b) }) ∧
        (∀ w1, step w (Op.sCopyAssign i j) = Except.ok w1 →
          w1.sps = w.sps.set i (some b) ∧ w1.sps[j]? = some (some b) ∧ w1.wps = w.wps ∧
          (∃ blkB1, w1.heap.blocks[B]? = some (Slot.live blkB1) ∧
            blkB1.shared_cnt = blkB.shared_cnt + 1) ∧
          (∀ c, w1.heap.released c
            = w.heap.released c + (if c = A ∧ blkA.shared_cnt = 1 then 1 else 0)) ∧
          (∀ blkA1, w1.heap.blocks[A]? = some (Slot.live blkA1) →
            blkA1.shared_cnt = blkA.shared_cnt - 1) ∧
          (1 < blkA.shared_cnt → ∃ blkA1, w1.heap.blocks[A]? = some (Slot.live blkA1))) ∧
        ((blkA.shared_cnt = 1 → w.heap.plainRelease blkA.kind = true) →
          ∃ w1, step w (Op.sCopyAssign i j) = Except.ok w1)) := by
  obtain ⟨blkA, hblkA, hposA⟩ := reach_owner hrun hi hA
  obtain ⟨blkB, hblkB, hposB⟩ := reach_owner hrun hj hB
  have hspi : w.sp i = Except.ok a := (sp_ok_iff w i a).2 hi
  have hspj : w.sp j = Except.ok b := (sp_ok_iff w j b).2 hj
  have hbeta : ({ ptr := b.ptr, cb := some B } : SharedPtr) = b := by
    cases b
    simp only [SharedPtr.mk.injEq, true_and]
    exact hB.symm
  have hstep : blkB.shared_cnt < INT_MAX → step w (Op.sCopyAssign i j)
      = (decrement_shared_cnt
          (w.heap.setBlock B { blkB with shared_cnt := blkB.shared_cnt + 1 }) (some A)).map
          (fun h1 => { w with heap := h1, sps := w.sps.set i (some b) }) := by
    intro hlt
    have hcp : SharedPtr.copy w.heap b
        = Except.ok (w.heap.setBlock B { blkB with shared_cnt := blkB.shared_cnt + 1 },
            { ptr := b.ptr, cb := some B }) := by
      simp [SharedPtr.copy, hB, increment_shared_cnt_eq hblkB hlt, bind, Except.bind, pure,
        Except.pure]
    simp only [step, World.sCopyAssign, hspi, hspj, hcp, bind, Except.bind, SharedPtr.swap,
      SharedPtr.destroy, hA, hbeta]
    cases decrement_shared_cnt
      (w.heap.setBlock B { blkB with shared_cnt := blkB.shared_cnt + 1 }) (some A) <;> rfl
  refine ⟨blkA, blkB, hblkA, hblkB, hposA, hposB,
    fun hmax => step_sCopyAssign_max hi hj hB hblkB hmax, fun hlt hAB => ?_, fun hlt hAB => ?_⟩
  · replace hstep := hstep hlt
    subst hAB
    rw [hblkA] at hblkB
    simp only [Option.some.injEq, Slot.live.injEq] at hblkB
    subst hblkB
    rw [hstep, increment_then_decrement hblkA hposA]
    rfl
  · replace hstep := hstep hlt
    have hblkA2 : (w.heap.setBlock B { blkB with shared_cnt := blkB.shared_cnt + 1 }).blocks[A]?
        = some (Slot.live blkA) := by
      rw [setBlock_get_ne _ _ hAB]
      exact hblkA
    have hblkB2 := setBlock_get_self { blkB with shared_cnt := blkB.shared_cnt + 1 } hblkB
    refine ⟨hstep, fun w1 hok => ?_, fun hplain => ?_⟩
    · rw [hstep] at hok
      cases hd : decrement_shared_cnt
          (w.heap.setBlock B { blkB with shared_cnt := blkB.shared_cnt + 1 }) (some A) with
      | error e =>
        rw [hd] at hok
        cases hok
      | ok h1 =>
        rw [hd] at hok
        simp only [Except.map, Except.ok.injEq] at hok
        subst hok
        have hds : SharedPtr.destroy
            (w.heap.setBlock B { blkB with shared_cnt := blkB.shared_cnt + 1 }) a
            = Except.ok h1 := by
          rw [shared_destroy_eq hA]
          exact hd
        obtain ⟨hc, ha⟩ := shared_destroy_frame hds
        have hiB : ind a.cb B = 0 := by
          rw [hA]
          exact ind_ne (Ne.symm hAB)
        have hiA : ind a.cb A = 1 := ind_self hA
        refine ⟨rfl, ?_, rfl, ?_, fun c => ?_, fun blkA1 hb1 => ?_, fun hgt => ?_⟩
        · show (w.sps.set i (some b))[j]? = some (some b)
          rw [List.getElem?_set_ne hij]
          exact hj
        · obtain ⟨blkB1, hb1⟩ := ha B (by rw [sharedAt_live hblkB2, hiB]; show 0 < blkB.shared_cnt + 1 - 0; omega)
          refine ⟨blkB1, hb1, ?_⟩
          have := hc B blkB1 hb1
          rw [sharedAt_live hblkB2, hiB] at this
          rw [this]
          show blkB.shared_cnt + 1 - 0 = blkB.shared_cnt + 1
          omega
        · exact decrement_shared_cnt_released hblkA2 hd c
        · have := hc A blkA1 hb1
          rw [sharedAt_live hblkA2, hiA] at this
          exact this
        · exact ha A (by rw [sharedAt_live hblkA2, hiA]; omega)
    · have hp2 : blkA.shared_cnt = 1 →
          (w.heap.setBlock B { blkB with shared_cnt := blkB.shared_cnt + 1 }).plainRelease
            blkA.kind = true := by
        intro h1
        have e : (w.heap.setBlock B
              { blkB with shared_cnt := blkB.shared_cnt + 1 }).plainRelease blkA.kind
            = w.heap.plainRelease blkA.kind := plainRelease_objs rfl _
        rw [e]
        exact hplain h1
      obtain ⟨h1, hd, _⟩ := decrement_shared_cnt_plain hblkA2 hp2
      rw [hstep, hd]
      exact ⟨_, rfl⟩

/-- C28 (witness): in `exTwoBlocksEnd` the owner of block `0` is assigned the owner of block
`1`. -/
theorem C28_copy_assign_witness :
    ∃ blkA blkB, exTwoBlocksEnd.heap.blocks[0]? = some (Slot.live blkA) ∧
      exTwoBlocksEnd.heap.blocks[1]? = some (Slot.live blkB) ∧
      1 ≤ blkA.shared_cnt ∧ 1 ≤ blkB.shared_cnt ∧
      (¬ blkB.shared_cnt < INT_MAX →
        step exTwoBlocksEnd (Op.sCopyAssign 0 1) = Except.error Fault.signedOverflow) ∧
      (blkB.shared_cnt < INT_MAX → (0 : Addr) = 1 → step exTwoBlocksEnd (Op.sCopyAssign 0 1)
        = Except.ok { exTwoBlocksEnd with
            sps := exTwoBlocksEnd.sps.set 0 (some { ptr := Ptr.inl 1, cb := some 1 }) }) ∧
      (blkB.shared_cnt < INT_MAX → (0 : Addr) ≠ 1 →
        step exTwoBlocksEnd (Op.sCopyAssign 0 1)
          = (decrement_shared_cnt
              (exTwoBlocksEnd.heap.setBlock 1
                { blkB with shared_cnt := blkB.shared_cnt + 1 }) (some 0)).map
              (fun h1 => { exTwoBlocksEnd with
                heap := h1,
                sps := exTwoBlocksEnd.sps.set 0 (some { ptr := Ptr.inl 1, cb := some 1 }) }) ∧
        (∀ w1, step exTwoBlocksEnd (Op.sCopyAssign 0 1) = Except.ok w1 →
          w1.sps = exTwoBlocksEnd.sps.set 0 (some { ptr := Ptr.inl 1, cb := some 1 }) ∧
          w1.sps[1]? = some (some { ptr := Ptr.inl 1, cb := some 1 }) ∧
          w1.wps = exTwoBlocksEnd.wps ∧
          (∃ blkB1, w1.heap.blocks[1]? = some (Slot.live blkB1) ∧
            blkB1.shared_cnt = blkB.shared_cnt + 1) ∧
          (∀ c, w1.heap.released c
            = exTwoBlocksEnd.heap.released c + (if c = 0 ∧ blkA.shared_cnt = 1 then 1 else 0)) ∧
          (∀ blkA1, w1.heap.blocks[0]? = some (Slot.live blkA1) →
            blkA1.shared_cnt = blkA.shared_cnt - 1) ∧
          (1 < blkA.shared_cnt → ∃ blkA1, w1.heap.blocks[0]? = some (Slot.live blkA1))) ∧
        ((blkA.shared_cnt = 1 → exTwoBlocksEnd.heap.plainRelease blkA.kind = true) →
          ∃ w1, step exTwoBlocksEnd (Op.sCopyAssign 0 1) = Except.ok w1)) :=
  C28_copy_assign exTwoBlocks exTwoBlocksEnd 0 1 { ptr := Ptr.inl 0, cb := some 0 }
    { ptr := Ptr.inl 1, cb := some 1 } 0 1 rfl rfl rfl (by decide) rfl rfl

/-- C29 (counterexample): two distinct handles `0` and `1` share one `makeShared` block, which
has `shared_cnt = 2`.  After `sps[0] = std::move(sps[1])` handle `1` is empty and its former
block has `shared_cnt = 1`, not `2`: the handle assigned to gave up its share of that same
block. -/
theorem C29_counterexample :
    (run ({} : World Nat) [Op.sMake true false (some 42), Op.sCopy 0]).map
        (fun w => (w.sps, get_shared_cnt w.heap (some 0)))
      = Except.ok ([some exShared, some exShared], Except.ok 2) ∧
    (run ({} : World Nat) [Op.sMake true false (some 42), Op.sCopy 0, Op.sMoveAssign 0 1]).map
        (fun w => (w.sps, get_shared_cnt w.heap (some 0)))
      = Except.ok ([some exShared, some {}], Except.ok 1) := by
  refine ⟨rfl, rfl⟩

/-- C29 (amended): let `a` and `b` be two distinct live `SharedPtr` objects (number `i` and
`j`) in a state some client program reaches.  `a = std::move(b)` is the destructor of the
handle `a` was before, that is, one `decrement_shared_cnt()` on the former block of `a` if it
had one, and nothing else on the heap; whenever it returns, `a` holds the pointer and block
`b` had, `b` has null pointer and null block, and every other handle object is as before.
The former block of `b` still exists; its `shared_cnt` is what it was if `a` was on another
block or empty, and one less if `a` was on that same block.  The statement returns when `a`
was empty, not the last owner of its block, or the release touches no control block.  The
converting move assignment, when `b` is not empty, increments the `shared_cnt` of the block
of `b` and takes the increment back before it does the same: whenever it returns it has done
what the same-type one does, and it behaves as the same-type one when that `shared_cnt` is
below `INT_MAX`, so that the increment it passes through is defined. -/
theorem C29_move_assign (ops : List (Op T)) (w : World T) (i j : Nat) (a b : SharedPtr)
    (hrun : run ({} : World T) ops = Except.ok w)
    (hi : w.sps[i]? = some (some a)) (hj : w.sps[j]? = some (some b)) (hij : i ≠ j) :
    step w (Op.sMoveAssign i j)
      = (a.destroy w.heap).map (fun h1 =>
          { w with heap := h1,
                   sps := (w.sps.set j (some { ptr := Ptr.null, cb := none })).set i (some b) }) ∧
    (b.cb ≠ none → ∀ w1, step w (Op.sConvMoveAssign i j) = Except.ok w1 →
      step w (Op.sMoveAssign i j) = Except.ok w1) ∧
    (∀ B blkB, b.cb = some B → w.heap.blocks[B]? = some (Slot.live blkB) →
      blkB.shared_cnt < INT_MAX →
      step w (Op.sConvMoveAssign i j) = step w (Op.sMoveAssign i j)) ∧
    (∀ h1, a.destroy w.heap = Except.ok h1 →
      (a.cb = none → h1 = w.heap) ∧
      (∀ A, a.cb = some A → decrement_shared_cnt w.heap (some A) = Except.ok h1) ∧
      (∀ B blkB, b.cb = some B → w.heap.blocks[B]? = some (Slot.live blkB) →
        ∃ blkB1, h1.blocks[B]? = some (Slot.live blkB1) ∧
          blkB1.shared_cnt = blkB.shared_cnt - (if a.cb = some B then 1 else 0))) ∧
    ((∀ A blkA, a.cb = some A → w.heap.blocks[A]? = some (Slot.live blkA) →
        blkA.shared_cnt = 1 → w.heap.plainRelease blkA.kind = true) →
      ∃ w1, step w (Op.sMoveAssign i j) = Except.ok w1) := by
  have hspi : w.sp i = Except.ok a := (sp_ok_iff w i a).2 hi
  have hspj : w.sp j = Except.ok b := (sp_ok_iff w j b).2 hj
  have hi2 : (w.sps.set j (some ({ ptr := Ptr.null, cb := none } : SharedPtr)))[i]?
      = some (some a) := by
    rw [List.getElem?_set_ne (Ne.symm hij)]
    exact hi
  have hspi2 : World.sp { w with sps := w.sps.set j (some { ptr := Ptr.null, cb := none }) } i
      = Except.ok a := (sp_ok_iff _ i a).2 hi2
  have hstep : step w (Op.sMoveAssign i j)
      = (a.destroy w.heap).map (fun h1 =>
          { w with heap := h1,
                   sps := (w.sps.set j (some { ptr := Ptr.null, cb := none })).set i
                     (some b) }) := by
    simp only [step, World.sMoveAssign, hspi, hspj, SharedPtr.move, bind, Except.bind, hspi2,
      SharedPtr.swap]
    have e : SharedPtr.destroy w.heap { ptr := a.ptr, cb := a.cb } = a.destroy w.heap := rfl
    rw [e]
    cases a.destroy w.heap <;> rfl
  have hconv : ∀ B blkB, b.cb = some B → w.heap.blocks[B]? = some (Slot.live blkB) →
      blkB.shared_cnt < INT_MAX →
      step w (Op.sConvMoveAssign i j) = step w (Op.sMoveAssign i j) := by
    intro B blkB hcb hblkB hlt
    obtain ⟨blkB0, hblkB0, hposB⟩ := reach_owner hrun hj hcb
    rw [hblkB] at hblkB0
    simp only [Option.some.injEq, Slot.live.injEq] at hblkB0
    subst hblkB0
    have hcm := convMove_eq hcb hblkB hposB hlt
    rw [hstep]
    simp only [step, World.sConvMoveAssign, hspi, hspj, hcm, bind, Except.bind, hspi2,
      SharedPtr.swap]
    have e : SharedPtr.destroy w.heap { ptr := a.ptr, cb := a.cb } = a.destroy w.heap := rfl
    rw [e]
    cases a.destroy w.heap <;> rfl
  refine ⟨hstep, fun hne w1 hok => ?_, hconv, fun h1 hd => ⟨fun hcb => ?_, fun A hcb => ?_,
    fun B blkB hcb hblkB => ?_⟩, fun hplain => ?_⟩
  · cases hcb : b.cb with
    | none => exact absurd hcb hne
    | some B =>
      obtain ⟨blkB, hblkB, hposB⟩ := reach_owner hrun hj hcb
      by_cases hlt : blkB.shared_cnt < INT_MAX
      · rw [← hconv B blkB hcb hblkB hlt]
        exact hok
      · simp [step, World.sConvMoveAssign, hspi, hspj, SharedPtr.convMove, hcb,
          increment_shared_cnt_max hblkB hlt, bind, Except.bind] at hok
  · simp only [SharedPtr.destroy, hcb, pure_ok_iff] at hd
    exact hd.symm
  · rw [shared_destroy_eq hcb] at hd
    exact hd
  · obtain ⟨hc, ha⟩ := shared_destroy_frame hd
    obtain ⟨blkB0, hblkB0, hposB⟩ := reach_owner hrun hj hcb
    rw [hblkB] at hblkB0
    simp only [Option.some.injEq, Slot.live.injEq] at hblkB0
    subst hblkB0
    have hcnt := reach_count hrun hblkB
    have hpos2 : 0 < blkB.shared_cnt - ind a.cb B := by
      by_cases hab : a.cb = some B
      · have := owners_two hi hj hij hab hcb
        rw [ind_self hab, hcnt]
        show 0 < ((w.sps.countP (holds B) : Nat) : Int) - 1
        omega
      · simp only [ind, hab, if_false]
        omega
    obtain ⟨blkB1, hb1⟩ := ha B (by rw [sharedAt_live hblkB]; exact hpos2)
    refine ⟨blkB1, hb1, ?_⟩
    have := hc B blkB1 hb1
    rw [sharedAt_live hblkB] at this
    exact this
  · rw [hstep]
    cases hcb : a.cb with
    | none =>
      simp only [SharedPtr.destroy, hcb, pure, Except.pure, Except.map]
      exact ⟨_, rfl⟩
    | some A =>
      obtain ⟨blkA, hblkA, _⟩ := reach_owner hrun hi hcb
      obtain ⟨h1, hd, _⟩ := decrement_shared_cnt_plain hblkA (hplain A blkA hcb hblkA)
      rw [shared_destroy_eq hcb, hd]
      exact ⟨_, rfl⟩

/-- C29 (witness): in `exTwoBlocksEnd` the owner of block `0` is move-assigned the owner of
block `1`. -/
theorem C29_move_assign_witness :
    step exTwoBlocksEnd (Op.sMoveAssign 0 1)
      = (SharedPtr.destroy exTwoBlocksEnd.heap { ptr := Ptr.inl 0, cb := some 0 }).map (fun h1 =>
          { exTwoBlocksEnd with
              heap := h1,
              sps := (exTwoBlocksEnd.sps.set 1 (some { ptr := Ptr.null, cb := none })).set 0
                (some { ptr := Ptr.inl 1, cb := some 1 }) }) ∧
    ((({ ptr := Ptr.inl 1, cb := some 1 } : SharedPtr)).cb ≠ none →
      ∀ w1, step exTwoBlocksEnd (Op.sConvMoveAssign 0 1) = Except.ok w1 →
        step exTwoBlocksEnd (Op.sMoveAssign 0 1) = Except.ok w1) ∧
    (∀ B blkB, (({ ptr := Ptr.inl 1, cb := some 1 } : SharedPtr)).cb = some B →
      exTwoBlocksEnd.heap.blocks[B]? = some (Slot.live blkB) →
      blkB.shared_cnt < INT_MAX →
      step exTwoBlocksEnd (Op.sConvMoveAssign 0 1)
        = step exTwoBlocksEnd (Op.sMoveAssign 0 1)) ∧
    (∀ h1, SharedPtr.destroy exTwoBlocksEnd.heap { ptr := Ptr.inl 0, cb := some 0 }
        = Except.ok h1 →
      ((({ ptr := Ptr.inl 0, cb := some 0 } : SharedPtr)).cb = none →
        h1 = exTwoBlocksEnd.heap) ∧
      (∀ A, (({ ptr := Ptr.inl 0, cb := some 0 } : SharedPtr)).cb = some A →
        decrement_shared_cnt exTwoBlocksEnd.heap (some A) = Except.ok h1) ∧
      (∀ B blkB, (({ ptr := Ptr.inl 1, cb := some 1 } : SharedPtr)).cb = some B →
        exTwoBlocksEnd.heap.blocks[B]? = some (Slot.live blkB) →
        ∃ blkB1, h1.blocks[B]? = some (Slot.live blkB1) ∧
          blkB1.shared_cnt = blkB.shared_cnt
            - (if (({ ptr := Ptr.inl 0, cb := some 0 } : SharedPtr)).cb = some B
                then 1 else 0))) ∧
    ((∀ A blkA, (({ ptr := Ptr.inl 0, cb := some 0 } : SharedPtr)).cb = some A →
        exTwoBlocksEnd.heap.blocks[A]? = some (Slot.live blkA) →
        blkA.shared_cnt = 1 → exTwoBlocksEnd.heap.plainRelease blkA.kind = true) →
      ∃ w1, step exTwoBlocksEnd (Op.sMoveAssign 0 1) = Except.ok w1) :=
  C29_move_assign exTwoBlocks exTwoBlocksEnd 0 1 { ptr := Ptr.inl 0, cb := some 0 }
    { ptr := Ptr.inl 1, cb := some 1 } rfl rfl rfl (by decide)

/-- C30 (counterexample): `weak_cnt` is an `int`.  The program that makes one object and
builds 2147483647 observers of it from its handle is defined and ends with
`INT_MAX = 2147483647` live observers of block `0`, whose `weak_cnt` is `INT_MAX`.  One more
observer, an interleaving of operations the claim covers, runs `++weak_cnt` on `INT_MAX`: the
run is undefined at that step, and no `weak_cnt` can be the number 2147483648 of observers. -/
theorem C30_counterexample :
    run ({} : World Nat) (exManyObservers 2147483647)
      = Except.ok (exManyObserversEnd 2147483647) ∧
    (exManyObserversEnd 2147483647).heap.blocks[0]? = some (Slot.live
      { shared_cnt := 1, weak_cnt := INT_MAX,
        kind := BlockKind.makeShared (some { value := 42, base := none }) }) ∧
    (exManyObserversEnd 2147483647).observers 0 = 2147483647 ∧
    step (exManyObserversEnd 2147483647) (Op.wOfShared 0)
      = Except.error Fault.signedOverflow ∧
    run ({} : World Nat) (exManyObservers 2147483647 ++ [Op.wOfShared 0])
      = Except.error Fault.signedOverflow := by
  have hrun := run_exManyObservers 2147483647 (by decide)
  have hblk : (exManyObserversEnd 2147483647).heap.blocks[0]? = some (Slot.live
      { shared_cnt := 1, weak_cnt := INT_MAX,
        kind := BlockKind.makeShared (some { value := 42, base := none }) }) := rfl
  have hsp : (exManyObserversEnd 2147483647).sps[0]? = some (some exShared) := rfl
  have hstep : step (exManyObserversEnd 2147483647) (Op.wOfShared 0)
      = Except.error Fault.signedOverflow :=
    step_wOfShared_max hsp rfl hblk (by decide)
  exact ⟨hrun, hblk, exManyObserversEnd_observers 2147483647, hstep,
    run_append_error hrun hstep⟩

/-- C30 (amended): run any client program from the empty state, with every statement the
header offers:
the observer statements (construction of a `WeakPtr` from a `SharedPtr`, by copy and by move,
assignment from a `SharedPtr`, `swap`, destruction) interleaved in any way with the statements
on owning handles (factories, called with a constructor that computes the object from its
arguments or with the copy constructor, adopting constructors, copy, move, assignment,
`reset`, `swap`, `lock()`, destruction), as long as the program is defined: no statement dereferences a null
`cb`, touches released storage, or increments a counter that holds `INT_MAX`.
In the state reached, every block that exists has `weak_cnt` equal to
the number of live `WeakPtr` objects whose `cb` is that block: the observers the program
holds, and the `wptr` members of the live managed objects (what the adopting constructor
wires for a type deriving from `EnableSharedFromThis`, and the copies of such a member that
the copy constructor makes).  When no such member designates the
block, `weak_cnt` is the number of the program's observers of it.  As each prefix of a program
is itself a program, this holds after every statement. -/
theorem C30_weak_cnt_counts_observers (ops : List (Op T)) (w : World T)
    (hrun : run ({} : World T) ops = Except.ok w) (b : Addr) (blk : ControlBlock T)
    (hblk : w.heap.blocks[b]? = some (Slot.live blk)) :
    blk.weak_cnt = (w.observers b : Int) ∧
    (w.heap.selfObservers b = 0 → blk.weak_cnt = (w.wps.countP (observes b) : Int)) := by
  have hinv := (run_w weakInv_empty hrun).1.1 b blk hblk
  constructor
  · rw [hinv]
    simp [World.observers]
  · intro h0
    rw [hinv, h0]
    simp

/-- C30 (witness): `exSelfObserved` ends with block `0` observed by one `WeakPtr` of the
program and by the `wptr` of the adopted object; its `weak_cnt` is `2`.  And `exCopyAdopted`
ends with block `0` observed by the `wptr` of the adopted object and by the copy of it in the
object `makeShared<U>(*s)` made; its `weak_cnt` is `2` as well. -/
theorem C30_weak_cnt_counts_observers_witness :
    (run ({} : World Nat) exSelfObserved = Except.ok exSelfObservedEnd ∧
    exSelfObservedEnd.observers 0 = 2 ∧
    ((2 : Int) = (exSelfObservedEnd.observers 0 : Int) ∧
    (exSelfObservedEnd.heap.selfObservers 0 = 0 →
      (2 : Int) = (exSelfObservedEnd.wps.countP (observes 0) : Int)))) ∧
    (run ({} : World Nat) exCopyAdopted = Except.ok exCopyAdoptedEnd ∧
    exCopyAdoptedEnd.observers 0 = 2 ∧ exCopyAdoptedEnd.heap.selfObservers 0 = 2 ∧
    ((2 : Int) = (exCopyAdoptedEnd.observers 0 : Int) ∧
    (exCopyAdoptedEnd.heap.selfObservers 0 = 0 →
      (2 : Int) = (exCopyAdoptedEnd.wps.countP (observes 0) : Int)))) :=
  ⟨⟨rfl, by decide, C30_weak_cnt_counts_observers exSelfObserved exSelfObservedEnd rfl 0
    { shared_cnt := 1, weak_cnt := 2,
      kind := BlockKind.regular Deleter.default_delete (Ptr.ext 0) } rfl⟩,
   ⟨rfl, by decide, by decide,
    C30_weak_cnt_counts_observers exCopyAdopted exCopyAdoptedEnd rfl 0
    { shared_cnt := 1, weak_cnt := 2,
      kind := BlockKind.regular Deleter.default_delete (Ptr.ext 0) } rfl⟩⟩

/-- C32: let `s` be a `SharedPtr` and `x` a `WeakPtr` with null `cb`.  On every heap, the
same-type copy constructor applied to `s` returns a handle with null `cb` and leaves the heap
as it was; the same-type move constructor returns a handle with null `cb` and leaves `s` with
null pointer and null `cb` (it takes no heap at all); the destructors of `s` and of `x` return
the heap as it was.  As statements of a program: the copy adds an empty handle and leaves the
source and the heap alone, the move adds an empty handle and leaves the source empty, and
the destructions only end the life of the handle. -/
theorem C32_empty_handles (w : World T) (j k : Nat) (s : SharedPtr) (x : WeakPtr)
    (hj : w.sps[j]? = some (some s)) (hk : w.wps[k]? = some (some x))
    (hs : s.cb = none) (hx : x.cb = none) :
    (∀ h : Heap T, SharedPtr.copy h s = Except.ok (h, { ptr := s.ptr, cb := none })) ∧
    SharedPtr.move s = ({ ptr := s.ptr, cb := none }, { ptr := Ptr.null, cb := none }) ∧
    (∀ h : Heap T, s.destroy h = Except.ok h) ∧
    (∀ h : Heap T, x.destroy h = Except.ok h) ∧
    step w (Op.sCopy j) = Except.ok { w with sps := w.sps ++ [some { ptr := s.ptr, cb := none }] } ∧
    step w (Op.sMove j)
      = Except.ok { w with sps := w.sps.set j (some { ptr := Ptr.null, cb := none })
                                    ++ [some { ptr := s.ptr, cb := none }] } ∧
    step w (Op.sDestroy j) = Except.ok { w with sps := w.sps.set j none } ∧
    step w (Op.wDestroy k) = Except.ok { w with wps := w.wps.set k none } := by
  have hsp : w.sp j = Except.ok s := (sp_ok_iff w j s).2 hj
  have hwp : w.wp k = Except.ok x := (wp_ok_iff w k x).2 hk
  have hcp : ∀ h : Heap T, SharedPtr.copy h s = Except.ok (h, { ptr := s.ptr, cb := none }) := by
    intro h
    simp [SharedPtr.copy, hs, pure, Except.pure]
  have hds : ∀ h : Heap T, s.destroy h = Except.ok h := by
    intro h
    simp [SharedPtr.destroy, hs, pure, Except.pure]
  have hdx : ∀ h : Heap T, x.destroy h = Except.ok h := by
    intro h
    simp [WeakPtr.destroy, hx, pure, Except.pure]
  refine ⟨hcp, ?_, hds, hdx, ?_, ?_, ?_, ?_⟩
  · simp [SharedPtr.move, hs]
  · simp [step, hsp, hcp, bind, Except.bind, pure, Except.pure]
  · simp [step, hsp, SharedPtr.move, hs, bind, Except.bind, pure, Except.pure]
  · simp [step, hsp, hds, bind, Except.bind, pure, Except.pure]
  · simp [step, hwp, hdx, bind, Except.bind, pure, Except.pure]

/-- C32 (witness): the empty handle `0` of `exProgramEnd` and a default-constructed observer
added to that state. -/
theorem C32_empty_handles_witness :
    (∀ h : Heap Nat, SharedPtr.copy h ({} : SharedPtr)
      = Except.ok (h, { ptr := (({} : SharedPtr)).ptr, cb := none })) ∧
    SharedPtr.move ({} : SharedPtr)
      = ({ ptr := (({} : SharedPtr)).ptr, cb := none }, { ptr := Ptr.null, cb := none }) ∧
    (∀ h : Heap Nat, SharedPtr.destroy h ({} : SharedPtr) = Except.ok h) ∧
    (∀ h : Heap Nat, WeakPtr.destroy h ({} : WeakPtr) = Except.ok h) ∧
    step { exProgramEnd with wps := [some exWeak, some {}] } (Op.sCopy 0)
      = Except.ok { exProgramEnd with
          sps := exProgramEnd.sps ++ [some { ptr := (({} : SharedPtr)).ptr, cb := none }],
          wps := [some exWeak, some {}] } ∧
    step { exProgramEnd with wps := [some exWeak, some {}] } (Op.sMove 0)
      = Except.ok { exProgramEnd with
          sps := exProgramEnd.sps.set 0 (some { ptr := Ptr.null, cb := none })
                  ++ [some { ptr := (({} : SharedPtr)).ptr, cb := none }],
          wps := [some exWeak, some {}] } ∧
    step { exProgramEnd with wps := [some exWeak, some {}] } (Op.sDestroy 0)
      = Except.ok { exProgramEnd with
          sps := exProgramEnd.sps.set 0 none, wps := [some exWeak, some {}] } ∧
    step { exProgramEnd with wps := [some exWeak, some {}] } (Op.wDestroy 1)
      = Except.ok { exProgramEnd with
          wps := ([some exWeak, some {}] : List (Option WeakPtr)).set 1 none } :=
  C32_empty_handles { exProgramEnd with wps := [some exWeak, some {}] } 0 1 {} {} rfl rfl rfl rfl

/-- C33 (the code departs from the claim): on every heap, the converting copy constructor and
the converting move constructor applied to a handle with null `cb` run
`cb->increment_shared_cnt()` through that null `cb`; neither returns a handle.  The same-type
copy constructor tests `if (cb)` first and returns an empty handle. -/
theorem C33_converting_from_empty (h : Heap T) (p : Ptr) :
    SharedPtr.convCopy h { ptr := p, cb := none } = Except.error Fault.nullDeref ∧
    SharedPtr.convMove h { ptr := p, cb := none } = Except.error Fault.nullDeref ∧
    SharedPtr.copy h { ptr := p, cb := none } = Except.ok (h, { ptr := p, cb := none }) ∧
    run ({} : World T) [Op.sDefault, Op.sConvCopy 0] = Except.error Fault.nullDeref ∧
    run ({} : World T) [Op.sDefault, Op.sConvMove 0] = Except.error Fault.nullDeref := by
  refine ⟨rfl, rfl, rfl, rfl, rfl⟩

/-- C34 (the code departs from the claim): on every heap, `WeakPtr(const SharedPtr<U>&)` applied
to a handle with null `cb`, and the copy constructors of `WeakPtr` applied to an observer with
null `cb`, run `cb->increment_weak_cnt()` through that null `cb`; neither returns an
observer. -/
theorem C34_observer_from_empty (h : Heap T) (p : Ptr) :
    WeakPtr.ofShared h { ptr := p, cb := none } = Except.error Fault.nullDeref ∧
    WeakPtr.copy h { cb := none, ptr := p } = Except.error Fault.nullDeref ∧
    run ({} : World T) [Op.sDefault, Op.wOfShared 0] = Except.error Fault.nullDeref ∧
    run ({} : World T) [Op.wDefault, Op.wCopy 0] = Except.error Fault.nullDeref := by
  refine ⟨rfl, rfl, rfl, rfl⟩

/-- C35 (counterexample): `weak_cnt` is an `int`.  In `exHeapMaxWeak` the handle `exShared`
is on block `0`, whose `weak_cnt` is `INT_MAX`.  Assigning it to an observer without a block
runs `++weak_cnt` on `INT_MAX`: a signed overflow, and `weak_cnt` does not become `j + 1`. -/
theorem C35_counterexample :
    exShared.cb = some 0 ∧
    exHeapMaxWeak.blocks[0]? = some (Slot.live
      { shared_cnt := 1, weak_cnt := INT_MAX,
        kind := BlockKind.makeShared (some { value := 42, base := none }) }) ∧
    WeakPtr.assignShared exHeapMaxWeak { cb := none, ptr := Ptr.null } exShared
      = Except.error Fault.signedOverflow := by
  refine ⟨rfl, rfl, rfl⟩

/-- C35 (amended): let `s` be a `SharedPtr` on the block `B`, which has
`weak_cnt = j < INT_MAX`, and `w` a
`WeakPtr`.  The assignment `w = s` returns, and afterwards `w` holds the pointer and the block
of `s`.  If `w` had no block, the only change of the heap is `weak_cnt = j + 1` on `B`.  If `w`
was on a block `W` other than `B`, with `weak_cnt = k` and `shared_cnt = n`, the assignment is
the increment of `B` followed by one `decrement_weak_cnt()` on `W`: `B` has `weak_cnt = j + 1`
and its other members (`shared_cnt` included) as before; `W` is deallocated, once, if `k = 1`
and `n = 0` (both counters at zero after the decrement), and otherwise has `weak_cnt = k - 1`
and its other members as before; `useDeleter()` is not called, and no other block and no
object is changed. -/
theorem C35_weak_assign_shared (h : Heap T) (x : WeakPtr) (s : SharedPtr) (B : Addr)
    (blkB : ControlBlock T) (hs : s.cb = some B) (hB : h.blocks[B]? = some (Slot.live blkB))
    (hlt : blkB.weak_cnt < INT_MAX) :
    (x.cb = none →
      WeakPtr.assignShared h x s
        = Except.ok (h.setBlock B { blkB with weak_cnt := blkB.weak_cnt + 1 },
                     { cb := some B, ptr := s.ptr })) ∧
    (∀ (W : Addr) (blkW : ControlBlock T), x.cb = some W → W ≠ B →
      h.blocks[W]? = some (Slot.live blkW) →
      ∃ h1, WeakPtr.assignShared h x s = Except.ok (h1, { cb := some B, ptr := s.ptr }) ∧
        decrement_weak_cnt (h.setBlock B { blkB with weak_cnt := blkB.weak_cnt + 1 }) (some W)
          = Except.ok h1 ∧
        h1.blocks[B]? = some (Slot.live { shared_cnt := blkB.shared_cnt,
                                          weak_cnt := blkB.weak_cnt + 1, kind := blkB.kind }) ∧
        h1.blocks[W]? = (if blkW.weak_cnt = 1 ∧ blkW.shared_cnt = 0 then some Slot.freed
          else some (Slot.live { shared_cnt := blkW.shared_cnt, weak_cnt := blkW.weak_cnt - 1,
                                 kind := blkW.kind })) ∧
        (∀ c, h1.deallocated c = h.deallocated c +
          (if c = W ∧ blkW.weak_cnt = 1 ∧ blkW.shared_cnt = 0 then 1 else 0)) ∧
        (∀ c, h1.released c = h.released c) ∧
        (∀ c, c ≠ B → c ≠ W → h1.blocks[c]? = h.blocks[c]?) ∧ h1.objs = h.objs) := by
  have hof : WeakPtr.ofShared h s
      = Except.ok (h.setBlock B { blkB with weak_cnt := blkB.weak_cnt + 1 },
                   { cb := some B, ptr := s.ptr }) := by
    simp [WeakPtr.ofShared, hs, increment_weak_cnt_eq hB hlt, bind, Except.bind, pure,
      Except.pure]
  have hBset := setBlock_get_self { blkB with weak_cnt := blkB.weak_cnt + 1 } hB
  constructor
  · intro hx
    simp [WeakPtr.assignShared, hof, WeakPtr.swap, WeakPtr.destroy, hx, bind, Except.bind, pure,
      Except.pure]
  · intro W blkW hx hne hW
    have hW2 : (h.setBlock B { blkB with weak_cnt := blkB.weak_cnt + 1 }).blocks[W]?
        = some (Slot.live blkW) := by
      rw [setBlock_get_ne _ _ hne]
      exact hW
    have hdec := decrement_weak_cnt_eq hW2
    have hWset := setBlock_get_self { blkW with weak_cnt := blkW.weak_cnt - 1 } hW2
    have hassign : WeakPtr.assignShared h x s
        = (decrement_weak_cnt (h.setBlock B { blkB with weak_cnt := blkB.weak_cnt + 1 })
            (some W)).map (fun h1 => (h1, { cb := some B, ptr := s.ptr })) := by
      simp only [WeakPtr.assignShared, hof, WeakPtr.swap, WeakPtr.destroy, hx, bind, Except.bind,
        pure, Except.pure, hdec]
      rfl
    have hBW : B ≠ W := Ne.symm hne
    by_cases hz : blkW.weak_cnt = 1 ∧ blkW.shared_cnt = 0
    · have hz2 : blkW.shared_cnt = 0 ∧ blkW.weak_cnt - 1 = 0 := ⟨hz.2, by omega⟩
      rw [if_pos hz2] at hdec
      refine ⟨_, by rw [hassign, hdec]; rfl, hdec, ?_, ?_, fun c => ?_, fun c => ?_,
        fun c hcB hcW => ?_, rfl⟩
      · rw [dealloc_get_ne _ hBW, setBlock_get_ne _ _ hBW]
        exact hBset
      · rw [if_pos hz]
        exact dealloc_get_self hWset
      · rw [dealloc_deallocated]
        simp [hz, Heap.deallocated, Heap.setBlock]
      · simp [Heap.released, dealloc_this, Heap.setBlock, List.count_append]
      · rw [dealloc_get_ne _ hcW, setBlock_get_ne _ _ hcW, setBlock_get_ne _ _ hcB]
    · have hz2 : ¬ (blkW.shared_cnt = 0 ∧ blkW.weak_cnt - 1 = 0) := by
        intro hh
        exact hz ⟨by omega, hh.1⟩
      rw [if_neg hz2] at hdec
      refine ⟨_, by rw [hassign, hdec]; rfl, hdec, ?_, ?_, fun c => ?_, fun c => rfl,
        fun c hcB hcW => ?_, rfl⟩
      · rw [setBlock_get_ne _ _ hBW]
        exact hBset
      · rw [if_neg hz]
        exact hWset
      · have hz3 : ¬ (c = W ∧ blkW.weak_cnt = 1 ∧ blkW.shared_cnt = 0) := fun hh => hz hh.2
        simp [hz3, Heap.deallocated, Heap.setBlock]
      · rw [setBlock_get_ne _ _ hcW, setBlock_get_ne _ _ hcB]

/-- C35 (witness): in `exHeapTwo` the only observer of block `0`, which has no owner, is
assigned the owner of block `1`: block `0` is deallocated. -/
theorem C35_weak_assign_shared_witness :
    WeakPtr.assignShared exHeapTwo exWeak { ptr := Ptr.inl 1, cb := some 1 }
      = Except.ok
          ({ blocks := [Slot.freed,
                        Slot.live { shared_cnt := 1, weak_cnt := 1,
                                    kind := BlockKind.makeShared
                                      (some { value := 2, base := none }) }],
             log := [Event.allocate 0, Event.allocate 1, Event.useDeleter 0,
                     Event.destroyed (Ptr.inl 0), Event.dealloc_this 0] },
           { cb := some 1, ptr := Ptr.inl 1 }) ∧
    (exWeak.cb = none →
      WeakPtr.assignShared exHeapTwo exWeak { ptr := Ptr.inl 1, cb := some 1 }
        = Except.ok (exHeapTwo.setBlock 1
            { shared_cnt := 1, weak_cnt := 0 + 1,
              kind := BlockKind.makeShared (some { value := 2, base := none }) },
            { cb := some 1, ptr := Ptr.inl 1 })) ∧
    (∀ (W : Addr) (blkW : ControlBlock Nat), exWeak.cb = some W → W ≠ 1 →
      exHeapTwo.blocks[W]? = some (Slot.live blkW) →
      ∃ h1, WeakPtr.assignShared exHeapTwo exWeak { ptr := Ptr.inl 1, cb := some 1 }
          = Except.ok (h1, { cb := some 1, ptr := Ptr.inl 1 }) ∧
        decrement_weak_cnt (exHeapTwo.setBlock 1
            { shared_cnt := 1, weak_cnt := 0 + 1,
              kind := BlockKind.makeShared (some { value := 2, base := none }) }) (some W)
          = Except.ok h1 ∧
        h1.blocks[1]? = some (Slot.live
          { shared_cnt := 1, weak_cnt := 0 + 1,
            kind := BlockKind.makeShared (some { value := 2, base := none }) }) ∧
        h1.blocks[W]? = (if blkW.weak_cnt = 1 ∧ blkW.shared_cnt = 0 then some Slot.freed
          else some (Slot.live { shared_cnt := blkW.shared_cnt, weak_cnt := blkW.weak_cnt - 1,
                                 kind := blkW.kind })) ∧
        (∀ c, h1.deallocated c = exHeapTwo.deallocated c +
          (if c = W ∧ blkW.weak_cnt = 1 ∧ blkW.shared_cnt = 0 then 1 else 0)) ∧
        (∀ c, h1.released c = exHeapTwo.released c) ∧
        (∀ c, c ≠ 1 → c ≠ W → h1.blocks[c]? = exHeapTwo.blocks[c]?) ∧
        h1.objs = exHeapTwo.objs) :=
  ⟨rfl, C35_weak_assign_shared exHeapTwo exWeak { ptr := Ptr.inl 1, cb := some 1 } 1
    { shared_cnt := 1, weak_cnt := 0,
      kind := BlockKind.makeShared (some { value := 2, base := none }) } rfl rfl (by decide)⟩

/-- C31 (counterexample): `EnableSharedFromThis` declares no copy constructor, so the implicit
one copies `wptr` with `WeakPtr(const WeakPtr &)`.  In `exHeapSelfAdopted` the object at
address `0` was adopted: its `wptr` observes block `0`, which has `weak_cnt = 1`.
`makeShared<U>(*p)` and `allocateShared<U>(alloc, *p)` on that object return a handle on the
new block `1` whose payload's `wptr` has the block `0`, and block `0` has `weak_cnt = 2`: a
factory, not an adopting constructor, has set the self-reference slot of the payload.  The
program `exCopyAdopted` reaches that heap. -/
theorem C31_counterexample :
    run ({} : World Nat) exCopyAdopted = Except.ok exCopyAdoptedEnd ∧
    exCopyAdoptedEnd.heap = exHeapSelfCopied ∧
    exHeapSelfAdopted.obj (Ptr.ext 0)
      = Except.ok { value := 7, base := some { wptr := { cb := some 0, ptr := Ptr.ext 0 } } } ∧
    makeShared exHeapSelfAdopted true Obj.copy (Ptr.ext 0)
      = Except.ok (exHeapSelfCopied, Except.ok { ptr := Ptr.inl 1, cb := some 1 }) ∧
    allocateShared exHeapSelfAdopted true Obj.copy (Ptr.ext 0)
      = Except.ok (exHeapSelfCopied, Except.ok { ptr := Ptr.inl 1, cb := some 1 }) ∧
    exHeapSelfCopied.obj (Ptr.inl 1)
      = Except.ok { value := 7, base := some { wptr := { cb := some 0, ptr := Ptr.ext 0 } } } ∧
    exHeapSelfAdopted.blocks[0]? = some (Slot.live
      { shared_cnt := 1, weak_cnt := 1,
        kind := BlockKind.regular Deleter.default_delete (Ptr.ext 0) }) ∧
    exHeapSelfCopied.blocks[0]? = some (Slot.live
      { shared_cnt := 1, weak_cnt := 2,
        kind := BlockKind.regular Deleter.default_delete (Ptr.ext 0) }) := by
  refine ⟨rfl, rfl, rfl, rfl, rfl, rfl, rfl, rfl⟩

/-- C31 (amended): let `T` derive from `EnableSharedFromThis`.  (a) Let `T`'s constructor
compute the value `v` from `args` and default-initialise the `EnableSharedFromThis` base.  On
every heap `h`, `allocateShared(alloc, args)` with storage available returns a handle on a new
block at the next address, and so does `makeShared(args)`; the object in that block is `v`
with a `wptr` whose `cb` and `ptr` are null; the block has `shared_cnt = 1` and
`weak_cnt = 0`; the blocks and the free-standing objects `h` had are as they were.  (b) Let
the constructor be `T`'s implicit copy constructor, applied to a live object whose `wptr` has
the block `c`, which exists and has `weak_cnt = k < INT_MAX`.  Then the factories return a
handle on a new block at the next address as well, with `shared_cnt = 1` and `weak_cnt = 0`,
but the `wptr` of its payload is a copy of the `wptr` of the object copied: it has the block
`c` and the same pointer, and `c` has `weak_cnt = k + 1`; every other block and the
free-standing objects are as they were.  (c) In every state `w` a program reaches from the
empty state without an adopting construction of a type that derives from
`EnableSharedFromThis` (constructor from a raw pointer, `reset(p)`), its factories being
called with a constructor of kind (a) or with the copy constructor, the `wptr` of every live
managed object has a null `cb`: without an adoption there is no wired `wptr` to copy. -/
theorem C31_only_adoption_wires {A : Type} (h : Heap T) (ctor : A → Option T) (args : A)
    (v : T) (ops : List (Op T)) (w : World T)
    (hv : ctor args = some v)
    (hops : ∀ op ∈ ops, op.wires = false)
    (hrun : run ({} : World T) ops = Except.ok w) :
    (∃ h1 : Heap T,
      allocateShared h true (Obj.construct ctor true) args
        = Except.ok
            (h1, Except.ok { ptr := Ptr.inl h.blocks.length, cb := some h.blocks.length }) ∧
      makeShared h true (Obj.construct ctor true) args
        = Except.ok
            (h1, Except.ok { ptr := Ptr.inl h.blocks.length, cb := some h.blocks.length }) ∧
      h1.obj (Ptr.inl h.blocks.length)
        = Except.ok { value := v, base := some { wptr := { cb := none, ptr := Ptr.null } } } ∧
      h1.blocks[h.blocks.length]? = some (Slot.live
          { shared_cnt := 1, weak_cnt := 0,
            kind := BlockKind.makeShared
              (some { value := v,
                      base := some { wptr := { cb := none, ptr := Ptr.null } } }) }) ∧
      (∀ c : Addr, c < h.blocks.length → h1.blocks[c]? = h.blocks[c]?) ∧
      h1.objs = h.objs) ∧
    (∀ (p : Ptr) (o : Obj T) (e : EnableSharedFromThis) (c : Addr) (blk : ControlBlock T),
      h.obj p = Except.ok o → o.base = some e → e.wptr.cb = some c →
      h.blocks[c]? = some (Slot.live blk) → blk.weak_cnt < INT_MAX →
      ∃ h1 : Heap T,
        allocateShared h true Obj.copy p
          = Except.ok
              (h1, Except.ok { ptr := Ptr.inl h.blocks.length, cb := some h.blocks.length }) ∧
        makeShared h true Obj.copy p
          = Except.ok
              (h1, Except.ok { ptr := Ptr.inl h.blocks.length, cb := some h.blocks.length }) ∧
        h1.obj (Ptr.inl h.blocks.length)
          = Except.ok { value := o.value,
                        base := some { wptr := { cb := some c, ptr := e.wptr.ptr } } } ∧
        h1.blocks[h.blocks.length]? = some (Slot.live
            { shared_cnt := 1, weak_cnt := 0,
              kind := BlockKind.makeShared
                (some { value := o.value,
                        base := some { wptr := { cb := some c, ptr := e.wptr.ptr } } }) }) ∧
        h1.blocks[c]? = some (Slot.live
            { shared_cnt := blk.shared_cnt, weak_cnt := blk.weak_cnt + 1, kind := blk.kind }) ∧
        (∀ c2 : Addr, c2 < h.blocks.length → c2 ≠ c → h1.blocks[c2]? = h.blocks[c2]?) ∧
        h1.objs = h.objs) ∧
    (∀ (p : Ptr) (o : Obj T) (e : EnableSharedFromThis),
      w.heap.obj p = Except.ok o → o.base = some e → e.wptr.cb = none) := by
  refine ⟨?_, fun p o e c blk ho hbase hc hblk hlt => ?_, fun p o e hp he => ?_⟩
  · have hctor : Obj.construct ctor true (allocate h true).1 args
        = Except.ok ((allocate h true).1,
            some { value := v, base := some { wptr := { cb := none, ptr := Ptr.null } } }) := by
      simp [Obj.construct, hv, pure, Except.pure]
    have hal := allocateShared_ok h (Obj.construct ctor true) args hctor
    have hn : ((allocate h true).1.setBlock h.blocks.length
        { shared_cnt := 1, weak_cnt := 0,
          kind := BlockKind.makeShared
            (some ({ value := v,
                     base := some { wptr := { cb := none, ptr := Ptr.null } } } : Obj T)) }
          ).blocks[h.blocks.length]?
        = some (Slot.live
          { shared_cnt := 1, weak_cnt := 0,
            kind := BlockKind.makeShared
              (some { value := v,
                      base := some { wptr := { cb := none, ptr := Ptr.null } } }) }) := by
      simp [Heap.setBlock, allocate]
    refine ⟨_, hal, hal, (obj_inl_ok _ _ _).2 ⟨_, hn, rfl⟩, hn, fun c hc => ?_, rfl⟩
    rw [setBlock_get_ne _ _ (Nat.ne_of_lt hc)]
    show (h.blocks ++ [Slot.raw])[c]? = h.blocks[c]?
    exact List.getElem?_append_left hc
  · have hclt : c < h.blocks.length := getElem?_lt_of_eq_some hblk
    have hcopy := obj_copy_wired (allocate_obj ho) hbase hc (allocate_block hblk) hlt
    have hal := allocateShared_ok h Obj.copy p hcopy
    have hn : (((allocate h true).1.setBlock c
          { blk with weak_cnt := blk.weak_cnt + 1 }).setBlock h.blocks.length
        { shared_cnt := 1, weak_cnt := 0,
          kind := BlockKind.makeShared
            (some ({ value := o.value,
                     base := some { wptr := { cb := some c, ptr := e.wptr.ptr } } } : Obj T)) }
          ).blocks[h.blocks.length]?
        = some (Slot.live
          { shared_cnt := 1, weak_cnt := 0,
            kind := BlockKind.makeShared
              (some { value := o.value,
                      base := some { wptr := { cb := some c, ptr := e.wptr.ptr } } }) }) := by
      simp [Heap.setBlock, allocate]
    refine ⟨_, hal, hal, (obj_inl_ok _ _ _).2 ⟨_, hn, rfl⟩, hn, ?_, fun c2 hc2 hne => ?_, rfl⟩
    · rw [setBlock_get_ne _ _ (Nat.ne_of_lt hclt)]
      exact setBlock_get_self _ (allocate_block hblk)
    · rw [setBlock_get_ne _ _ (Nat.ne_of_lt hc2), setBlock_get_ne _ _ hne]
      show (h.blocks ++ [Slot.raw])[c2]? = h.blocks[c2]?
      exact List.getElem?_append_left hc2
  · have hu := run_unwired hops unwired_empty hrun p o hp
    simp only [Obj.unwired, he, Option.isNone_iff_eq_none] at hu
    exact hu

/-- C31 (witness): `makeShared` of `42` on the empty heap and the program `exMakeSelf`, which
copies, observes and locks such an object, for (a) and (c); `makeShared<U>(*p)` of the adopted
object of `exHeapSelfAdopted` for (b). -/
theorem C31_only_adoption_wires_witness :
    (run ({} : World Nat) exMakeSelf = Except.ok exMakeSelfEnd ∧
      exMakeSelfEnd.heap.blocks[0]? = some (Slot.live
        { shared_cnt := 2, weak_cnt := 1,
          kind := BlockKind.makeShared
            (some { value := 42,
                    base := some { wptr := { cb := none, ptr := Ptr.null } } }) })) ∧
    ((∃ h1 : Heap Nat,
      allocateShared ({} : Heap Nat) true (Obj.construct (fun n : Nat => some n) true) 42
        = Except.ok (h1, Except.ok { ptr := Ptr.inl 0, cb := some 0 }) ∧
      makeShared ({} : Heap Nat) true (Obj.construct (fun n : Nat => some n) true) 42
        = Except.ok (h1, Except.ok { ptr := Ptr.inl 0, cb := some 0 }) ∧
      h1.obj (Ptr.inl 0)
        = Except.ok { value := 42, base := some { wptr := { cb := none, ptr := Ptr.null } } } ∧
      h1.blocks[0]? = some (Slot.live
          { shared_cnt := 1, weak_cnt := 0,
            kind := BlockKind.makeShared
              (some { value := 42,
                      base := some { wptr := { cb := none, ptr := Ptr.null } } }) }) ∧
      (∀ c : Addr, c < 0 → h1.blocks[c]? = (({} : Heap Nat)).blocks[c]?) ∧
      h1.objs = (({} : Heap Nat)).objs) ∧
    (∀ (p : Ptr) (o : Obj Nat) (e : EnableSharedFromThis),
      exMakeSelfEnd.heap.obj p = Except.ok o → o.base = some e → e.wptr.cb = none)) ∧
    (∃ h1 : Heap Nat,
      allocateShared exHeapSelfAdopted true Obj.copy (Ptr.ext 0)
        = Except.ok (h1, Except.ok { ptr := Ptr.inl 1, cb := some 1 }) ∧
      makeShared exHeapSelfAdopted true Obj.copy (Ptr.ext 0)
        = Except.ok (h1, Except.ok { ptr := Ptr.inl 1, cb := some 1 }) ∧
      h1.obj (Ptr.inl 1)
        = Except.ok { value := 7,
                      base := some { wptr := { cb := some 0, ptr := Ptr.ext 0 } } } ∧
      h1.blocks[1]? = some (Slot.live
          { shared_cnt := 1, weak_cnt := 0,
            kind := BlockKind.makeShared
              (some { value := 7,
                      base := some { wptr := { cb := some 0, ptr := Ptr.ext 0 } } }) }) ∧
      h1.blocks[0]? = some (Slot.live
          { shared_cnt := 1, weak_cnt := 1 + 1,
            kind := BlockKind.regular Deleter.default_delete (Ptr.ext 0) }) ∧
      (∀ c2 : Addr, c2 < 1 → c2 ≠ 0 → h1.blocks[c2]? = exHeapSelfAdopted.blocks[c2]?) ∧
      h1.objs = exHeapSelfAdopted.objs) :=
  ⟨⟨rfl, rfl⟩,
    ⟨(C31_only_adoption_wires ({} : Heap Nat) (fun n : Nat => some n) 42 42 exMakeSelf
      exMakeSelfEnd rfl (by decide) rfl).1,
     (C31_only_adoption_wires ({} : Heap Nat) (fun n : Nat => some n) 42 42 exMakeSelf
      exMakeSelfEnd rfl (by decide) rfl).2.2⟩,
    (C31_only_adoption_wires exHeapSelfAdopted (fun n : Nat => some n) 42 42 exMakeSelf
      exMakeSelfEnd rfl (by decide) rfl).2.1 (Ptr.ext 0)
      { value := 7, base := some { wptr := { cb := some 0, ptr := Ptr.ext 0 } } }
      { wptr := { cb := some 0, ptr := Ptr.ext 0 } } 0
      { shared_cnt := 1, weak_cnt := 1,
        kind := BlockKind.regular Deleter.default_delete (Ptr.ext 0) }
      rfl rfl rfl rfl (by decide)⟩

end SharedPtrH
